import Mathlib

/-!
Verification of the shinkai workflow-DSL grammar.

The authoritative artifact is the pest PEG grammar embedded at the end of
src/shinkai-app/src/api/index.ts (lines 204-232).  The definitions below are a
shallow embedding of that grammar, rule by rule, with pest's parsing-expression
semantics:

* ordered choice commits to the first alternative that succeeds;
* repetition is greedy and never backtracks;
* the implicit `WHITESPACE = _{ " " | "\t" | "\n" | "\r" }` rule is inserted
  between the elements of every sequence and between the iterations of every
  repetition of every rule that is not atomic.  In this grammar only
  `sticky_tag`, `identifier` and `identity` are atomic (`@`-rules); every other
  rule, including the silent (`_`) rules `string`, `number` and `author_tag`
  and the normal rules `version` and `delimiter`, admits implicit whitespace
  between its components.

Parsers work on `List Char` and return either the parsed value together with
the unconsumed rest of the input, or a failure record carrying the length of
the suffix at which the farthest failure occurred and the grammar productions
expected there.

The repository contains the grammar itself but not the Rust driver that
invokes it nor the AST builder; those two pieces are modelled from the spec
(sections 3, 4.1 and 6) and are marked `Modelled from the spec` below.
-/

set_option linter.unusedVariables false

namespace ShinkaiDsl

/-! ### The typed workflow model (spec section 3)

Modelled from the spec: the AST builder of section 4.2 is not part of the
sources, so the values below follow the data model of section 3.  Literal and
version fields hold the characters of the matched terminals; the implicit
whitespace the grammar allows between the components of a non-atomic terminal
is not part of any value (section 3 declares the charsets of version and
identity strings without whitespace). -/

/-- `Param / Value / SimpleExpression` atoms: tagged union of string literal,
integer literal, boolean literal, identifier and register reference. -/
inductive Atom where
  | str (s : String)
  | num (s : String)
  | bool (b : Bool)
  | ident (s : String)
  | reg (s : String)
  deriving DecidableEq

/-- `ComparisonOperator`: one of `==`, `!=`, `>`, `<`, `>=`, `<=`. -/
inductive CmpOp where
  | eq
  | ne
  | gt
  | lt
  | ge
  | le
  deriving DecidableEq

/-- `Expression` (condition guards): range, comparison or bare simple
expression. -/
inductive Expr where
  | range (a b : String)
  | cmp (lhs : Atom) (op : CmpOp) (rhs : Atom)
  | bare (a : Atom)
  deriving DecidableEq

/-- A `ForLoop` iterable: `SplitExpression` or `RangeExpression`. -/
inductive Iter where
  | split (src : Atom) (delim : String)
  | range (a b : String)
  deriving DecidableEq

/-- An `Action`: external function call (`call` + identifier + params) or
command (identifier + params). -/
inductive ActionV where
  | external (fn : String) (args : List Atom)
  | cmd (name : String) (args : List Atom)
  deriving DecidableEq

/-- The right-hand side of a `RegisterAssignment`: external call or value. -/
inductive RegRhs where
  | call (fn : String) (args : List Atom)
  | val (v : Atom)
  deriving DecidableEq

/-- `Statement`: condition, register assignment, action or for-loop. -/
inductive Stmt where
  | cond (guard : Expr) (body : List Stmt)
  | regOp (target : String) (rhs : RegRhs)
  | act (a : ActionV)
  | forL (v : String) (it : Iter) (body : List Stmt)

/-- `Step`: a name and its ordered statement body. -/
structure Step where
  name : String
  body : List Stmt

/-- `Workflow`: name, version, steps, optional author identity, sticky flag. -/
structure Workflow where
  name : String
  version : String
  steps : List Step
  author : Option String
  sticky : Bool

/-! ### Parser infrastructure -/

/-- A parse failure: `rem` is the length of the remaining suffix at the
farthest failure point (so `input.length - rem` is the failure position), and
`expected` names the grammar productions that could have continued there. -/
structure PErr where
  rem : Nat
  expected : List String
  deriving DecidableEq

/-- A parser over character lists: returns the value and the unconsumed rest,
or a failure record. -/
abbrev Parser (α : Type) : Type := List Char → Except PErr (α × List Char)

/-- The implicit `WHITESPACE` rule: `" " | "\t" | "\n" | "\r"`. -/
def isWsChar (c : Char) : Bool :=
  c = ' ' || c = '\t' || c = '\n' || c = '\r'

/-- `ASCII_ALPHANUMERIC | "_"`, the character set of `identifier`. -/
def isIdentChar (c : Char) : Bool :=
  c.isAlphanum || c = '_'

/-- `ASCII_ALPHANUMERIC | "_" | "." | "-"`, the character set of `identity`. -/
def isIdentityChar (c : Char) : Bool :=
  c.isAlphanum || c = '_' || c = '.' || c = '-'

/-- `ASCII_DIGIT`. -/
def isDigitChar (c : Char) : Bool :=
  c.isDigit

/-- Parser returning `a` without consuming input. -/
def pret (a : α) : Parser α := fun l => .ok (a, l)

/-- Sequencing: run `p`, then run `f` on its value and the rest. -/
def pbind (p : Parser α) (f : α → Parser β) : Parser β := fun l =>
  match p l with
  | .error e => .error e
  | .ok (a, r) => f a r

/-- Map a function over a parser's result. -/
def pmapP (f : α → β) (p : Parser α) : Parser β := fun l =>
  match p l with
  | .error e => .error e
  | .ok (a, r) => .ok (f a, r)

/-- Keep the failure whose remaining suffix is shorter (the farthest one);
at equal positions, join the expected productions. -/
def mergeE (e1 e2 : PErr) : PErr :=
  if e1.rem < e2.rem then e1
  else if e2.rem < e1.rem then e2
  else ⟨e1.rem, e1.expected ++ e2.expected⟩

/-- Ordered choice: try `p`; only if it fails, try `q` from the same point. -/
def palt (p q : Parser α) : Parser α := fun l =>
  match p l with
  | .ok r => .ok r
  | .error e1 =>
    match q l with
    | .ok r => .ok r
    | .error e2 => .error (mergeE e1 e2)

/-- `e?`: an optional element, consuming nothing on failure. -/
def popt (p : Parser α) : Parser (Option α) := fun l =>
  match p l with
  | .ok (a, r) => .ok (some a, r)
  | .error _ => .ok (none, l)

/-- A literal string of the grammar. -/
def plit (cs : List Char) (name : String) : Parser Unit := fun l =>
  if cs.isPrefixOf l then .ok ((), l.drop cs.length)
  else .error ⟨l.length, [name]⟩

/-- The implicit whitespace between tokens: `WHITESPACE*`, never failing. -/
def wsSkip : Parser Unit := fun l => .ok ((), l.dropWhile isWsChar)

/-- A nonempty greedy run of characters of a class (the body of an atomic
rule such as `identifier`). -/
def pclass1 (f : Char → Bool) (name : String) : Parser (List Char) := fun l =>
  match l.takeWhile f with
  | [] => .error ⟨l.length, [name]⟩
  | c :: cs => .ok (c :: cs, l.dropWhile f)

/-- A possibly empty greedy run of characters of a class (the body of
`identity`). -/
def pclass0 (f : Char → Bool) : Parser (List Char) := fun l =>
  .ok (l.takeWhile f, l.dropWhile f)

/-! ### Atomic lexical rules -/

/-- `identifier = @{ (ASCII_ALPHANUMERIC | "_")+ }`. -/
def identifierP : Parser String :=
  pmapP List.asString (pclass1 isIdentChar "identifier")

/-- `identity = @{ (ASCII_ALPHANUMERIC | "_" | "." | "-")* }`; may be empty. -/
def identityP : Parser String :=
  pmapP List.asString (pclass0 isIdentityChar)

/-- `sticky_tag = @{ "sticky" }`. -/
def stickyTagP : Parser Unit :=
  plit ['s','t','i','c','k','y'] "sticky_tag"

/-! ### Non-atomic lexical rules

`version`, `number`, `string` and `delimiter` are not atomic, so pest's
implicit whitespace is inserted between their components — between the digits
of a digit run, around the dots of a version, and between the content
characters of a string or delimiter.  The consumed whitespace is not part of
any matched terminal. -/

/-- Greedy `(WHITESPACE* ~ ASCII_DIGIT)*`: the continuation of a digit run in
a non-atomic rule, one character at a time.  Whitespace is consumed only when
a further digit follows (a failed iteration rolls its whitespace back, as
pest's repetition does).  Returns the digits (whitespace dropped) and the
rest, positioned before any trailing whitespace. -/
def digitsWsAux : List Char → List Char × List Char
  | [] => ([], [])
  | c :: t =>
    if isDigitChar c then
      let p := digitsWsAux t
      (c :: p.1, p.2)
    else if isWsChar c then
      let p := digitsWsAux t
      if p.1.isEmpty then ([], c :: t) else p
    else ([], c :: t)

/-- `number = _{ ASCII_DIGIT+ }` (non-atomic: whitespace may sit between the
digits).  The value is the digit characters with the whitespace dropped. -/
def numberP : Parser (List Char) := fun l =>
  match l with
  | [] => .error ⟨0, ["number"]⟩
  | c :: t =>
    if isDigitChar c then
      let p := digitsWsAux t
      .ok (c :: p.1, p.2)
    else .error ⟨l.length, ["number"]⟩

/-- The state of the version-tail scanner `vtSM`: inside a digit group, or
just after a dot (where a digit group must follow). -/
inductive VtState where
  | inGroup
  | afterDot

/-- The tail of `version` after the first digit, one character at a time:
greedy `(WHITESPACE* ~ ASCII_DIGIT)* ~ (WHITESPACE* ~ "." ~ WHITESPACE* ~
ASCII_DIGIT+)*`.  In state `inGroup` it returns the remaining digits of the
current group, the later dotted groups, and the rest; it never fails, and a
failed iteration rolls back its whitespace and dot.  In state `afterDot` it
returns `none` when no digit group follows, making the enclosing dot
iteration fail. -/
def vtSM : VtState → List Char → Option (List Char × List (List Char) × List Char)
  | .inGroup, [] => some ([], [], [])
  | .inGroup, c :: t =>
    if isDigitChar c then
      match vtSM .inGroup t with
      | some (ds, gs, rest) => some (c :: ds, gs, rest)
      | none => none
    else if isWsChar c then
      match vtSM .inGroup t with
      | some ([], [], _) => some ([], [], c :: t)
      | some (ds, gs, rest) => some (ds, gs, rest)
      | none => none
    else if c = '.' then
      match vtSM .afterDot t with
      | some (g, gs, rest) => some ([], g :: gs, rest)
      | none => some ([], [], c :: t)
    else some ([], [], c :: t)
  | .afterDot, [] => none
  | .afterDot, c :: t =>
    if isWsChar c then vtSM .afterDot t
    else if isDigitChar c then
      match vtSM .inGroup t with
      | some (ds, gs, rest) => some (c :: ds, gs, rest)
      | none => none
    else none

/-- Flatten a version: the leading `v`, the first digit group, then each
dotted group prefixed by `.`. -/
def versionChars (first : List Char) (groups : List (List Char)) : List Char :=
  'v' :: first ++ groups.foldr (fun g acc => '.' :: (g ++ acc)) []

/-- `version = { "v" ~ ASCII_DIGIT+ ~ ("." ~ ASCII_DIGIT+)* }` (non-atomic).
The value is the matched terminals — `v`, digits and dots — with the implicit
whitespace dropped. -/
def versionP : Parser String := fun l =>
  match l with
  | 'v' :: t =>
    match t.dropWhile isWsChar with
    | c :: t2 =>
      if isDigitChar c then
        match vtSM .inGroup t2 with
        | some (ds, gs, rest) => .ok ((versionChars (c :: ds) gs).asString, rest)
        | none => .error ⟨l.length, ["version"]⟩
      else .error ⟨l.length, ["version"]⟩
    | [] => .error ⟨l.length, ["version"]⟩
  | _ => .error ⟨l.length, ["version"]⟩

/-- Greedy `(WHITESPACE* ~ ("\\\"" | (!"\"" ~ ANY)))*`: the content of a
`string` literal, one character at a time.  An escaped quote is kept as its
two characters; a bare quote ends the run.  Whitespace is consumed only when
a further content item follows (a failed iteration rolls its whitespace
back).  Returns the content (whitespace dropped) and the rest. -/
def stringBodyAux : List Char → List Char × List Char
  | [] => ([], [])
  | '\\' :: '"' :: t =>
    let p := stringBodyAux t
    ('\\' :: '"' :: p.1, p.2)
  | c :: t =>
    if isWsChar c then
      let p := stringBodyAux t
      if p.1.isEmpty then ([], c :: t) else p
    else if c = '"' then ([], c :: t)
    else
      let p := stringBodyAux t
      (c :: p.1, p.2)

/-- `string = _{ "\"" ~ (("\\\"" | (!"\"" ~ ANY))*) ~ "\"" }` (non-atomic).
The value is the content with the implicit whitespace dropped. -/
def stringLitP : Parser String := fun l =>
  match l with
  | [] => .error ⟨0, ["string"]⟩
  | c :: t =>
    if c = '"' then
      match (stringBodyAux t).2.dropWhile isWsChar with
      | '"' :: t2 => .ok ((stringBodyAux t).1.asString, t2)
      | r => .error ⟨r.length, ["string"]⟩
    else .error ⟨t.length + 1, ["string"]⟩

/-- Greedy `(WHITESPACE* ~ (!"\"" ~ ANY))*`: the content of a `delimiter`,
one character at a time.  Unlike `string`, there is no escape alternative:
any quote ends the run. -/
def delimBodyAux : List Char → List Char × List Char
  | [] => ([], [])
  | c :: t =>
    if isWsChar c then
      let p := delimBodyAux t
      if p.1.isEmpty then ([], c :: t) else p
    else if c = '"' then ([], c :: t)
    else
      let p := delimBodyAux t
      (c :: p.1, p.2)

/-- `delimiter = { "\"" ~ (!"\"" ~ ANY)* ~ "\"" }` (non-atomic, no escapes). -/
def delimiterP : Parser String := fun l =>
  match l with
  | [] => .error ⟨0, ["delimiter"]⟩
  | c :: t =>
    if c = '"' then
      match (delimBodyAux t).2.dropWhile isWsChar with
      | '"' :: t2 => .ok ((delimBodyAux t).1.asString, t2)
      | r => .error ⟨r.length, ["delimiter"]⟩
    else .error ⟨t.length + 1, ["delimiter"]⟩

/-- `boolean = { "true" | "false" }`. -/
def booleanP : Parser Bool :=
  palt (pmapP (fun _ => true) (plit ['t','r','u','e'] "boolean"))
       (pmapP (fun _ => false) (plit ['f','a','l','s','e'] "boolean"))

/-! ### Compound rules -/

/-- `register = { "$" ~ identifier }` (non-atomic: whitespace may separate
the `$` from the identifier). -/
def registerP : Parser String :=
  pbind (plit ['$'] "register") fun _ =>
  pbind wsSkip fun _ =>
  identifierP

/-- `param = { string | number | boolean | identifier | register }`. -/
def paramP : Parser Atom :=
  palt (pmapP Atom.str stringLitP)
    (palt (pmapP (fun ds => Atom.num ds.asString) numberP)
      (palt (pmapP Atom.bool booleanP)
        (palt (pmapP Atom.ident identifierP)
          (pmapP Atom.reg registerP))))

/-- `value = { string | number | boolean | identifier | register }`. -/
def valueP : Parser Atom :=
  palt (pmapP Atom.str stringLitP)
    (palt (pmapP (fun ds => Atom.num ds.asString) numberP)
      (palt (pmapP Atom.bool booleanP)
        (palt (pmapP Atom.ident identifierP)
          (pmapP Atom.reg registerP))))

/-- `simple_expression = { identifier | number | boolean | string | register }`
(note: `identifier` is tried first). -/
def simpleExpressionP : Parser Atom :=
  palt (pmapP Atom.ident identifierP)
    (palt (pmapP (fun ds => Atom.num ds.asString) numberP)
      (palt (pmapP Atom.bool booleanP)
        (palt (pmapP Atom.str stringLitP)
          (pmapP Atom.reg registerP))))

/-- `comparison_operator = { "==" | "!=" | ">" | "<" | ">=" | "<=" }`, in the
declared order. -/
def comparisonOperatorP : Parser CmpOp :=
  palt (pmapP (fun _ => CmpOp.eq) (plit ['=','='] "comparison_operator"))
    (palt (pmapP (fun _ => CmpOp.ne) (plit ['!','='] "comparison_operator"))
      (palt (pmapP (fun _ => CmpOp.gt) (plit ['>'] "comparison_operator"))
        (palt (pmapP (fun _ => CmpOp.lt) (plit ['<'] "comparison_operator"))
          (palt (pmapP (fun _ => CmpOp.ge) (plit ['>','='] "comparison_operator"))
            (pmapP (fun _ => CmpOp.le) (plit ['<','='] "comparison_operator"))))))

/-- `range_expression = { identifier ~ ".." ~ identifier }`. -/
def rangeExpressionP : Parser (String × String) :=
  pbind identifierP fun a =>
  pbind wsSkip fun _ =>
  pbind (plit ['.','.'] "range_expression") fun _ =>
  pbind wsSkip fun _ =>
  pmapP (fun b => (a, b)) identifierP

/-- `expression = { range_expression
                  | simple_expression ~ (comparison_operator ~ simple_expression)? }`:
the range alternative is tried first. -/
def expressionP : Parser Expr :=
  palt (pmapP (fun ab => Expr.range ab.1 ab.2) rangeExpressionP)
    (pbind simpleExpressionP fun a =>
     pbind wsSkip fun _ =>
     pbind (popt (pbind comparisonOperatorP fun op =>
                  pbind wsSkip fun _ =>
                  pmapP (fun b => (op, b)) simpleExpressionP)) fun o =>
     pret (match o with
           | none => Expr.bare a
           | some (op, b) => Expr.cmp a op b))

/-- `split_expression = { (register | identifier | string) ~ ".split(" ~ delimiter ~ ")" }`. -/
def splitExpressionP : Parser Iter :=
  pbind (palt (pmapP Atom.reg registerP)
          (palt (pmapP Atom.ident identifierP)
            (pmapP Atom.str stringLitP))) fun src =>
  pbind wsSkip fun _ =>
  pbind (plit ['.','s','p','l','i','t','('] "split_expression") fun _ =>
  pbind wsSkip fun _ =>
  pbind delimiterP fun d =>
  pbind wsSkip fun _ =>
  pmapP (fun _ => Iter.split src d) (plit [')'] "split_expression")

/-- Greedy `(WHITESPACE* ~ "," ~ WHITESPACE* ~ param)*`: the tail of a
parameter list.  Fuel bounds the number of iterations; each iteration
consumes at least the comma, so any fuel of at least the input length is
enough. -/
def argsLoopP : Nat → List Char → List Atom × List Char
  | 0, l => ([], l)
  | f + 1, l =>
    match l.dropWhile isWsChar with
    | ',' :: t =>
      match paramP (t.dropWhile isWsChar) with
      | .error _ => ([], l)
      | .ok (a, r) =>
        let q := argsLoopP f r
        (a :: q.1, q.2)
    | _ => ([], l)

/-- `(param ~ ("," ~ param)*)?`: the optional parameter list of an action or
external call; consumes nothing when no parameter is present. -/
def argListP (fuel : Nat) : Parser (List Atom) := fun l =>
  match paramP l with
  | .error _ => .ok ([], l)
  | .ok (a, r) =>
    let q := argsLoopP fuel r
    .ok (a :: q.1, q.2)

/-- `external_fn_call = { "call" ~ identifier ~ "(" ~ (param ~ ("," ~ param)*)? ~ ")" }`. -/
def externalFnCallP (fuel : Nat) : Parser (String × List Atom) :=
  pbind (plit ['c','a','l','l'] "external_fn_call") fun _ =>
  pbind wsSkip fun _ =>
  pbind identifierP fun fn =>
  pbind wsSkip fun _ =>
  pbind (plit ['('] "external_fn_call") fun _ =>
  pbind wsSkip fun _ =>
  pbind (argListP fuel) fun args =>
  pbind wsSkip fun _ =>
  pmapP (fun _ => (fn, args)) (plit [')'] "external_fn_call")

/-- `command = { identifier }`. -/
def commandP : Parser String := identifierP

/-- `action = { external_fn_call | command ~ "(" ~ (param ~ ("," ~ param)*)? ~ ")" }`:
the external-call alternative is tried first. -/
def actionP (fuel : Nat) : Parser ActionV :=
  palt (pmapP (fun fa => ActionV.external fa.1 fa.2) (externalFnCallP fuel))
    (pbind commandP fun name =>
     pbind wsSkip fun _ =>
     pbind (plit ['('] "action") fun _ =>
     pbind wsSkip fun _ =>
     pbind (argListP fuel) fun args =>
     pbind wsSkip fun _ =>
     pmapP (fun _ => ActionV.cmd name args) (plit [')'] "action"))

/-- `register_operation = { register ~ "=" ~ (external_fn_call | value) }`. -/
def registerOperationP (fuel : Nat) : Parser (String × RegRhs) :=
  pbind registerP fun tgt =>
  pbind wsSkip fun _ =>
  pbind (plit ['='] "register_operation") fun _ =>
  pbind wsSkip fun _ =>
  pmapP (fun rhs => (tgt, rhs))
    (palt (pmapP (fun fa => RegRhs.call fa.1 fa.2) (externalFnCallP fuel))
      (pmapP RegRhs.val valueP))

/-- `author_tag = _{ "@" ~ "@" ~ identity }` (silent but non-atomic, so
whitespace may sit between the two `@` and before the identity). -/
def authorTagP : Parser String :=
  pbind (plit ['@'] "author_tag") fun _ =>
  pbind wsSkip fun _ =>
  pbind (plit ['@'] "author_tag") fun _ =>
  pbind wsSkip fun _ =>
  identityP

/-! ### Recursive rules

`step_body` recurses through `condition` and `for_loop`; the recursion is
bounded by fuel.  Each level of nesting consumes input, so any fuel of at
least the input length is enough. -/

mutual

/-- One `step_body` element: `condition | register_operation | action | for_loop`,
in the declared order. -/
def stepBodyItemP : Nat → Parser Stmt
  | 0 => fun l => .error ⟨l.length, ["step_body"]⟩
  | f + 1 => fun l =>
    palt (conditionP f)
      (palt (pmapP (fun tr => Stmt.regOp tr.1 tr.2) (registerOperationP f))
        (palt (pmapP Stmt.act (actionP f))
          (forLoopP f))) l

/-- `condition = { "if" ~ expression ~ "{" ~ step_body ~ "}" }`. -/
def conditionP : Nat → Parser Stmt
  | 0 => fun l => .error ⟨l.length, ["condition"]⟩
  | f + 1 => fun l =>
    (pbind (plit ['i','f'] "condition") fun _ =>
     pbind wsSkip fun _ =>
     pbind expressionP fun g =>
     pbind wsSkip fun _ =>
     pbind (plit ['\x7b'] "condition") fun _ =>
     pbind wsSkip fun _ =>
     pbind (stepBodyP f) fun body =>
     pbind wsSkip fun _ =>
     pmapP (fun _ => Stmt.cond g body) (plit ['\x7d'] "condition")) l

/-- `for_loop = { "for" ~ identifier ~ "in" ~ (split_expression | range_expression)
                 ~ "{" ~ step_body ~ "}" }`. -/
def forLoopP : Nat → Parser Stmt
  | 0 => fun l => .error ⟨l.length, ["for_loop"]⟩
  | f + 1 => fun l =>
    (pbind (plit ['f','o','r'] "for_loop") fun _ =>
     pbind wsSkip fun _ =>
     pbind identifierP fun v =>
     pbind wsSkip fun _ =>
     pbind (plit ['i','n'] "for_loop") fun _ =>
     pbind wsSkip fun _ =>
     pbind (palt splitExpressionP
             (pmapP (fun ab => Iter.range ab.1 ab.2) rangeExpressionP)) fun it =>
     pbind wsSkip fun _ =>
     pbind (plit ['\x7b'] "for_loop") fun _ =>
     pbind wsSkip fun _ =>
     pbind (stepBodyP f) fun body =>
     pbind wsSkip fun _ =>
     pmapP (fun _ => Stmt.forL v it body) (plit ['\x7d'] "for_loop")) l

/-- `step_body = { (condition | register_operation | action | for_loop)+ }`. -/
def stepBodyP : Nat → Parser (List Stmt)
  | 0 => fun l => .error ⟨l.length, ["step_body"]⟩
  | f + 1 => fun l =>
    match stepBodyItemP f l with
    | .error e => .error e
    | .ok (s, r) =>
      let q := stepBodyLoopP f r
      .ok (s :: q.1, q.2)

/-- Greedy `(WHITESPACE* ~ step_body element)*`: the tail of a step body. -/
def stepBodyLoopP : Nat → List Char → List Stmt × List Char
  | 0 => fun l => ([], l)
  | f + 1 => fun l =>
    match stepBodyItemP f (l.dropWhile isWsChar) with
    | .error _ => ([], l)
    | .ok (s, r) =>
      let q := stepBodyLoopP f r
      (s :: q.1, q.2)

end

/-- `step = { "step" ~ identifier ~ "{" ~ step_body ~ "}" }`. -/
def stepP (fuel : Nat) : Parser Step :=
  pbind (plit ['s','t','e','p'] "step") fun _ =>
  pbind wsSkip fun _ =>
  pbind identifierP fun name =>
  pbind wsSkip fun _ =>
  pbind (plit ['\x7b'] "step") fun _ =>
  pbind wsSkip fun _ =>
  pbind (stepBodyP fuel) fun body =>
  pbind wsSkip fun _ =>
  pmapP (fun _ => Step.mk name body) (plit ['\x7d'] "step")

/-- Greedy `(WHITESPACE* ~ step)*`: the tail of the `step+` of `workflow`. -/
def stepsLoopP : Nat → List Char → List Step × List Char
  | 0, l => ([], l)
  | f + 1, l =>
    match stepP f (l.dropWhile isWsChar) with
    | .error _ => ([], l)
    | .ok (s, r) =>
      let q := stepsLoopP f r
      (s :: q.1, q.2)

/-- `workflow = { "workflow" ~ identifier ~ version ~ "{" ~ step+ ~ "}"
                  ~ author_tag? ~ sticky_tag? }`. -/
def workflowP (fuel : Nat) : Parser Workflow :=
  pbind (plit ['w','o','r','k','f','l','o','w'] "workflow") fun _ =>
  pbind wsSkip fun _ =>
  pbind identifierP fun name =>
  pbind wsSkip fun _ =>
  pbind versionP fun ver =>
  pbind wsSkip fun _ =>
  pbind (plit ['\x7b'] "workflow") fun _ =>
  pbind wsSkip fun _ =>
  pbind (stepP fuel) fun s1 =>
  pbind (fun l2 =>
    let q := stepsLoopP fuel l2
    .ok (q.1, q.2)) fun ss =>
  pbind wsSkip fun _ =>
  pbind (plit ['\x7d'] "workflow") fun _ =>
  pbind wsSkip fun _ =>
  pbind (popt authorTagP) fun author =>
  pbind wsSkip fun _ =>
  pmapP (fun st => Workflow.mk name ver (s1 :: ss) author st.isSome) (popt stickyTagP)

/-- A located parse error, as the spec's section 7 describes it: the position
of the farthest failure and the set of grammar productions expected there. -/
structure ParseError where
  position : Nat
  expected : List String
  deriving DecidableEq

/-- Modelled from the spec: the parse entry point (`parse(source) -> Workflow
| ParseError`, spec sections 4.1 and 6) is the Rust pest driver, which is not
part of the sources.  It runs the `workflow` production over the whole input
— leading and trailing whitespace aside, exactly the source text must be
derivable — and reports failures with their position and expected
productions. -/
def parse (s : String) : Except ParseError Workflow :=
  match workflowP (s.data.length + 1) (s.data.dropWhile isWsChar) with
  | .error e => .error ⟨s.length - e.rem, e.expected⟩
  | .ok (w, r) =>
    match r.dropWhile isWsChar with
    | [] => .ok w
    | r2 => .error ⟨s.length - r2.length, ["end of input"]⟩

/-! ### Derived definitions used by the statements below -/

/-- Success well-formedness of a parser: the unconsumed rest is a suffix of
the input. -/
def WfS (p : Parser α) : Prop :=
  ∀ l a r, p l = .ok (a, r) → ∃ c, l = c ++ r

/-- Error well-formedness of a parser: the failure point lies inside the
input and at least one production is expected there. -/
def WfE (p : Parser α) : Prop :=
  ∀ l e, p l = .error e → e.rem ≤ l.length ∧ e.expected ≠ []

/-- The continuation of the claim's version charset after at least one digit
of a group has been read: more digits of the group, or a dot followed by a
nonempty digit group, until the end. -/
def versionTailOk : List Char → Bool
  | [] => true
  | c :: rest =>
    if isDigitChar c then versionTailOk rest
    else if c = '.' then
      match rest with
      | d :: rest2 => isDigitChar d && versionTailOk rest2
      | [] => false
    else false

/-- A string matches the claim's regular expression `v<digits>(.<digits>)*`
exactly: `v`, one or more ASCII digits, zero or more groups of a dot and one
or more digits, and no other characters. -/
def versionShape (s : String) : Bool :=
  match s.data with
  | 'v' :: c :: rest => isDigitChar c && versionTailOk rest
  | _ => false

/-! ### Characterizations of the combinators -/



/-! ### C7: token decompositions of a source text

A source text is decomposed into alternating token and whitespace-gap
segments.  `segsWf` checks that a decomposition is lexically coherent — each
segment is a complete token of the grammar (a maximal identifier-character
word, a string or delimiter literal from quote to quote, a multi-character
operator such as `..`, `==`, `!=` or `.split(`, or a single punctuation
character), with the mode tracking the two context-dependent token kinds:
the identity after the two `@` of an author tag and the delimiter after
`.split(`.  `segExt` relates a decomposition to one with whitespace
inserted between tokens (new gaps) or inside existing gaps (replaced
gaps). -/

inductive Seg where
  | tokS (cs : List Char)
  | gapS (cs : List Char)
  deriving DecidableEq

/-- The text of a decomposition. -/
def flatSegs : List Seg → List Char
  | [] => []
  | .tokS cs :: S => cs ++ flatSegs S
  | .gapS cs :: S => cs ++ flatSegs S

/-- The head of a segment list is a token (or the list is empty). -/
def headTok : List Seg → Bool
  | .gapS _ :: _ => false
  | _ => true

/-- The first character of the text of a decomposition. -/
def firstCharSegs : List Seg → Option Char
  | [] => none
  | .tokS [] :: S => firstCharSegs S
  | .tokS (c :: _) :: _ => some c
  | .gapS [] :: S => firstCharSegs S
  | .gapS (c :: _) :: _ => some c

/-- The following text does not begin with a character of class `p`. -/
def nextNot (p : Char → Bool) (S : List Seg) : Bool :=
  match firstCharSegs S with
  | none => true
  | some c => !(p c)

/-- A string-literal token body: escaped quotes and plain characters, ending
at the closing quote, which ends the token. -/
def strBodyOk : List Char → Bool
  | [] => false
  | '\\' :: '"' :: t => strBodyOk t
  | '"' :: t => t.isEmpty
  | _ :: t => strBodyOk t

/-- A complete string-literal token, quote to quote. -/
def strTokOk : List Char → Bool
  | '"' :: t => strBodyOk t
  | _ => false

/-- A delimiter token body: no escapes, the first quote ends the token. -/
def delimBodyOk : List Char → Bool
  | [] => false
  | '"' :: t => t.isEmpty
  | _ :: t => delimBodyOk t

/-- A complete delimiter token, quote to quote. -/
def delimTokOk : List Char → Bool
  | '"' :: t => delimBodyOk t
  | _ => false

/-- Lexing modes: `at1`/`at2` after the first/second `@` of an author tag
(the following run of identity characters is a single token), `sdel` after
`.split(` (the following literal is a delimiter, with no escapes). -/
inductive LexMode where
  | norm
  | at1
  | at2
  | sdel
  deriving DecidableEq

/-- Shape of a single token in normal mode, with its boundary conditions
against the following text: word tokens are maximal, and the `..`, `==`,
`!=` and `.split(` operators may not be split into their characters. -/
def normTokWf : List Char → List Seg → Bool
  | [], _ => false
  | c :: t, S =>
    if isIdentChar c then (c :: t).all isIdentChar && nextNot isIdentChar S
    else if c = '@' then t.isEmpty
    else if c = '"' then strBodyOk t
    else if c = '.' then
      (t.isEmpty && nextNot (fun c2 => c2 = '.') S &&
        !(['s','p','l','i','t','('].isPrefixOf (flatSegs S))) ||
      t == ['.'] || t == ['s','p','l','i','t','(']
    else if c = '=' then (t.isEmpty && nextNot (fun c2 => c2 = '=') S) || t == ['=']
    else if c = '!' then (t.isEmpty && nextNot (fun c2 => c2 = '=') S) || t == ['=']
    else if c = '<' || c = '>' || c = '\x7b' || c = '\x7d' || c = '(' ||
        c = ')' || c = ',' || c = '$' then t.isEmpty
    else false

/-- The mode after a normal-mode token: `@` opens an author tag, `.split(`
expects a delimiter. -/
def normNext (w : List Char) : LexMode :=
  if w = ['@'] then .at1
  else if w = ['.','s','p','l','i','t','('] then .sdel
  else .norm

/-- Lexical coherence of a decomposition: every segment is a complete token
of the grammar or a nonempty whitespace gap. -/
def segsWf (m : LexMode) : List Seg → Bool
  | [] => true
  | .gapS g :: S => !g.isEmpty && g.all isWsChar && headTok S && segsWf m S
  | .tokS w :: S =>
    match m with
    | .norm => normTokWf w S && segsWf (normNext w) S
    | .at1 => w == ['@'] && segsWf .at2 S
    | .at2 => !w.isEmpty && w.all isIdentityChar && nextNot isIdentityChar S &&
        segsWf .norm S
    | .sdel => delimTokOk w && segsWf .norm S

/-- Gap extension: same tokens, each gap replaced by another nonempty
whitespace run, and new whitespace gaps inserted between tokens. -/
def segExt : List Seg → List Seg → Bool
  | S, [] => S.isEmpty
  | S, .gapS g2 :: T =>
    (match S with
     | .gapS g :: S2 =>
       !g.isEmpty && g.all isWsChar && !g2.isEmpty && g2.all isWsChar &&
         headTok S2 && headTok T && segExt S2 T
     | _ =>
       !g2.isEmpty && g2.all isWsChar && headTok S && headTok T && segExt S T)
  | S, .tokS w2 :: T =>
    (match S with
     | .tokS w :: S2 => w == w2 && segExt S2 T
     | _ => false)

/-- Leading whitespace gaps of a decomposition. -/
def dropGaps : List Seg → List Seg
  | [] => []
  | .gapS _ :: S => dropGaps S
  | .tokS w :: S => .tokS w :: S

/-! ### Position invariants and the transfer predicate -/

def PosOk (y : List Char) (S : List Seg) : Prop :=
  segsWf .norm S = true ∧ y.all isIdentChar = true ∧
    (y ≠ [] → nextNot isIdentChar S = true)

/-- Transfer of one parser at one paired position: a success consumes the
same value on the extended text and leaves paired rests, and a failure is a
failure on the extended text too. -/
def TrAt {α : Type} (p : Parser α) (y : List Char) (S T : List Seg) : Prop :=
  (∀ v r, p (y ++ flatSegs S) = .ok (v, r) →
    ∃ y2 S2 T2, r = y2 ++ flatSegs S2 ∧
      p (y ++ flatSegs T) = .ok (v, y2 ++ flatSegs T2) ∧
      segExt S2 T2 = true ∧ PosOk y2 S2) ∧
  (∀ e, p (y ++ flatSegs S) = .error e →
    ∃ e2, p (y ++ flatSegs T) = .error e2)

/-- Transfer at every token-aligned position (the alignment is only
required when the position is not inside a word). -/
def SegA {α : Type} (p : Parser α) : Prop :=
  ∀ y S T, PosOk y S → segExt S T = true →
    (y = [] → headTok S = true ∧ headTok T = true) → TrAt p y S T


theorem pret_eq (a : α) (l : List Char) : pret a l = .ok (a, l) := rfl

theorem wsSkip_eq (l : List Char) : wsSkip l = .ok ((), l.dropWhile isWsChar) := rfl

theorem pbind_ok {p : Parser α} {f : α → Parser β} {l : List Char} {b : β}
    {r2 : List Char} :
    pbind p f l = .ok (b, r2) ↔ ∃ a r, p l = .ok (a, r) ∧ f a r = .ok (b, r2) := by
  unfold pbind
  cases h : p l with
  | error e => simp
  | ok ar =>
    obtain ⟨a, r⟩ := ar
    simp only [Except.ok.injEq, Prod.mk.injEq]
    constructor
    · intro hf
      exact ⟨a, r, ⟨rfl, rfl⟩, hf⟩
    · rintro ⟨a1, r1, ⟨rfl, rfl⟩, hf⟩
      exact hf

theorem pbind_error {p : Parser α} {f : α → Parser β} {l : List Char} {e : PErr} :
    pbind p f l = .error e ↔
      p l = .error e ∨ ∃ a r, p l = .ok (a, r) ∧ f a r = .error e := by
  unfold pbind
  cases h : p l with
  | error e1 => simp
  | ok ar =>
    obtain ⟨a, r⟩ := ar
    simp only [Except.ok.injEq, Prod.mk.injEq]
    constructor
    · intro hf
      exact .inr ⟨a, r, ⟨rfl, rfl⟩, hf⟩
    · rintro (h1 | ⟨a1, r1, ⟨rfl, rfl⟩, hf⟩)
      · exact absurd h1 (by simp)
      · exact hf

theorem pmapP_ok {f : α → β} {p : Parser α} {l : List Char} {b : β}
    {r : List Char} :
    pmapP f p l = .ok (b, r) ↔ ∃ a, p l = .ok (a, r) ∧ b = f a := by
  unfold pmapP
  cases h : p l with
  | error e => simp
  | ok ar =>
    obtain ⟨a, r1⟩ := ar
    simp only [Except.ok.injEq, Prod.mk.injEq]
    constructor
    · rintro ⟨rfl, rfl⟩
      exact ⟨a, ⟨rfl, rfl⟩, rfl⟩
    · rintro ⟨a1, ⟨rfl, rfl⟩, rfl⟩
      exact ⟨rfl, rfl⟩

theorem pmapP_error {f : α → β} {p : Parser α} {l : List Char} {e : PErr} :
    pmapP f p l = .error e ↔ p l = .error e := by
  unfold pmapP
  cases h : p l with
  | error e1 => simp
  | ok ar => obtain ⟨a, r1⟩ := ar; simp

theorem palt_ok {p q : Parser α} {l : List Char} {x : α × List Char} :
    palt p q l = .ok x ↔
      p l = .ok x ∨ ((∃ e, p l = .error e) ∧ q l = .ok x) := by
  unfold palt
  cases h : p l with
  | ok y => simp
  | error e1 =>
    cases hq : q l with
    | ok y => simp
    | error e2 => simp

theorem palt_error {p q : Parser α} {l : List Char} {e : PErr} :
    palt p q l = .error e ↔
      ∃ e1 e2, p l = .error e1 ∧ q l = .error e2 ∧ e = mergeE e1 e2 := by
  unfold palt
  cases h : p l with
  | ok y => simp
  | error e1 =>
    cases hq : q l with
    | ok y => simp
    | error e2 =>
      simp only [Except.error.injEq]
      constructor
      · rintro rfl
        exact ⟨e1, e2, rfl, rfl, rfl⟩
      · rintro ⟨f1, f2, h1, h2, rfl⟩
        rw [h1, h2]

theorem popt_ok {p : Parser α} {l : List Char} {o : Option α} {r : List Char} :
    popt p l = .ok (o, r) ↔
      (∃ a, o = some a ∧ p l = .ok (a, r)) ∨
        (o = none ∧ r = l ∧ ∃ e, p l = .error e) := by
  unfold popt
  cases h : p l with
  | ok ar =>
    obtain ⟨a, r1⟩ := ar
    constructor
    · intro hh
      injection hh with hh
      injection hh with h1 h2
      exact .inl ⟨a, h1.symm, by rw [h2]⟩
    · rintro (⟨a1, rfl, hh⟩ | ⟨rfl, rfl, e, he⟩)
      · injection hh with hh
        injection hh with h1 h2
        rw [h1, h2]
      · exact absurd he (by simp)
  | error e1 =>
    constructor
    · intro hh
      injection hh with hh
      injection hh with h1 h2
      exact .inr ⟨h1.symm, h2.symm, e1, rfl⟩
    · rintro (⟨a1, rfl, hh⟩ | ⟨rfl, rfl, e, he⟩)
      · exact absurd hh (by simp)
      · rfl

theorem popt_ne_error {p : Parser α} {l : List Char} {e : PErr} :
    popt p l ≠ .error e := by
  unfold popt
  cases h : p l with
  | ok ar => obtain ⟨a, r1⟩ := ar; simp
  | error e1 => simp

theorem plit_ok {cs : List Char} {n : String} {l r : List Char} {u : Unit} :
    plit cs n l = .ok (u, r) ↔ l = cs ++ r := by
  unfold plit
  by_cases h : cs.isPrefixOf l
  · simp only [h, if_true, Except.ok.injEq, Prod.mk.injEq]
    rw [List.isPrefixOf_iff_prefix] at h
    obtain ⟨t, rfl⟩ := h
    constructor
    · rintro ⟨-, rfl⟩
      rw [List.drop_left]
    · intro heq
      have ht : t = r := by
        have := List.append_cancel_left heq
        exact this
      subst ht
      exact ⟨trivial, List.drop_left _ _⟩
  · simp only [h, if_false]
    constructor
    · intro hh
      exact absurd hh (by simp)
    · rintro rfl
      rw [List.isPrefixOf_iff_prefix] at h
      exact absurd ⟨r, rfl⟩ h

theorem plit_error {cs : List Char} {n : String} {l : List Char} {e : PErr} :
    plit cs n l = .error e ↔ ¬ (cs <+: l) ∧ e = ⟨l.length, [n]⟩ := by
  unfold plit
  by_cases h : cs.isPrefixOf l
  · rw [List.isPrefixOf_iff_prefix] at h
    simp only [List.isPrefixOf_iff_prefix, h, if_true]
    simp [h]
  · simp only [List.isPrefixOf_iff_prefix] at h ⊢
    simp [h, eq_comm]

theorem pclass1_ok {f : Char → Bool} {n : String} {l cs r : List Char} :
    pclass1 f n l = .ok (cs, r) ↔
      cs = l.takeWhile f ∧ cs ≠ [] ∧ r = l.dropWhile f := by
  unfold pclass1
  cases h : l.takeWhile f with
  | nil =>
    constructor
    · intro hh
      exact absurd hh (by simp)
    · rintro ⟨rfl, hne, -⟩
      exact absurd rfl hne
  | cons c t =>
    simp only [Except.ok.injEq, Prod.mk.injEq]
    constructor
    · rintro ⟨rfl, rfl⟩
      exact ⟨rfl, by simp, rfl⟩
    · rintro ⟨rfl, -, rfl⟩
      exact ⟨rfl, rfl⟩

theorem pclass1_error {f : Char → Bool} {n : String} {l : List Char} {e : PErr} :
    pclass1 f n l = .error e ↔ l.takeWhile f = [] ∧ e = ⟨l.length, [n]⟩ := by
  unfold pclass1
  cases h : l.takeWhile f with
  | nil => simp [eq_comm]
  | cons c t => simp

theorem pclass0_eq (f : Char → Bool) (l : List Char) :
    pclass0 f l = .ok (l.takeWhile f, l.dropWhile f) := rfl

/-! ### Well-formedness: the combinators -/

theorem wfS_pret (a : α) : WfS (pret a) := by
  intro l b r h
  injection h with h
  injection h with h1 h2
  exact ⟨[], by rw [h2, List.nil_append]⟩

theorem wfE_pret (a : α) : WfE (pret a) := by
  intro l e h
  exact absurd h (by simp [pret])

theorem wfS_wsSkip : WfS wsSkip := by
  intro l a r h
  injection h with h
  injection h with h1 h2
  exact ⟨l.takeWhile isWsChar, by rw [← h2, List.takeWhile_append_dropWhile]⟩

theorem wfE_wsSkip : WfE wsSkip := by
  intro l e h
  exact absurd h (by simp [wsSkip])

theorem wfS_plit (cs : List Char) (n : String) : WfS (plit cs n) := by
  intro l a r h
  exact ⟨cs, plit_ok.mp h⟩

theorem wfE_plit (cs : List Char) (n : String) : WfE (plit cs n) := by
  intro l e h
  obtain ⟨-, rfl⟩ := plit_error.mp h
  exact ⟨le_rfl, by simp⟩

theorem wfS_pclass1 (f : Char → Bool) (n : String) : WfS (pclass1 f n) := by
  intro l a r h
  obtain ⟨rfl, -, rfl⟩ := pclass1_ok.mp h
  exact ⟨l.takeWhile f, (List.takeWhile_append_dropWhile _ _).symm⟩

theorem wfE_pclass1 (f : Char → Bool) (n : String) : WfE (pclass1 f n) := by
  intro l e h
  obtain ⟨-, rfl⟩ := pclass1_error.mp h
  exact ⟨le_rfl, by simp⟩

theorem wfS_pclass0 (f : Char → Bool) : WfS (pclass0 f) := by
  intro l a r h
  injection h with h
  injection h with h1 h2
  exact ⟨l.takeWhile f, by rw [← h2, List.takeWhile_append_dropWhile]⟩

theorem wfE_pclass0 (f : Char → Bool) : WfE (pclass0 f) := by
  intro l e h
  exact absurd h (by simp [pclass0])

theorem wfS_pbind {p : Parser α} {f : α → Parser β} (hp : WfS p)
    (hf : ∀ a, WfS (f a)) : WfS (pbind p f) := by
  intro l b r2 h
  rw [pbind_ok] at h
  obtain ⟨a, r, h1, h2⟩ := h
  obtain ⟨c1, rfl⟩ := hp _ _ _ h1
  obtain ⟨c2, rfl⟩ := hf a _ _ _ h2
  exact ⟨c1 ++ c2, by rw [List.append_assoc]⟩

theorem wfE_pbind {p : Parser α} {f : α → Parser β} (hpS : WfS p) (hpE : WfE p)
    (hf : ∀ a, WfE (f a)) : WfE (pbind p f) := by
  intro l e h
  rw [pbind_error] at h
  rcases h with h | ⟨a, r, h1, h2⟩
  · exact hpE _ _ h
  · obtain ⟨c1, rfl⟩ := hpS _ _ _ h1
    obtain ⟨hle, hne⟩ := hf a _ _ h2
    refine ⟨le_trans hle ?_, hne⟩
    simp

theorem wfS_pmapP {p : Parser α} (f : α → β) (hp : WfS p) : WfS (pmapP f p) := by
  intro l b r h
  rw [pmapP_ok] at h
  obtain ⟨a, h1, rfl⟩ := h
  exact hp _ _ _ h1

theorem wfE_pmapP {p : Parser α} (f : α → β) (hp : WfE p) : WfE (pmapP f p) := by
  intro l e h
  exact hp _ _ (pmapP_error.mp h)

theorem wfS_palt {p q : Parser α} (hp : WfS p) (hq : WfS q) : WfS (palt p q) := by
  intro l a r h
  rw [palt_ok] at h
  rcases h with h | ⟨-, h⟩
  · exact hp _ _ _ h
  · exact hq _ _ _ h

theorem wfE_palt {p q : Parser α} (hp : WfE p) (hq : WfE q) : WfE (palt p q) := by
  intro l e h
  rw [palt_error] at h
  obtain ⟨e1, e2, h1, h2, rfl⟩ := h
  obtain ⟨hle1, hne1⟩ := hp _ _ h1
  obtain ⟨hle2, hne2⟩ := hq _ _ h2
  unfold mergeE
  split
  · exact ⟨hle1, hne1⟩
  · split
    · exact ⟨hle2, hne2⟩
    · exact ⟨hle1, by simp [hne1]⟩

theorem wfS_popt {p : Parser α} (hp : WfS p) : WfS (popt p) := by
  intro l o r h
  rw [popt_ok] at h
  rcases h with ⟨a, rfl, h⟩ | ⟨rfl, rfl, -⟩
  · exact hp _ _ _ h
  · exact ⟨[], rfl⟩

theorem wfE_popt {p : Parser α} : WfE (popt p) := by
  intro l e h
  exact absurd h popt_ne_error

/-! ### Well-formedness: the auxiliary scanners -/

theorem digitsWsAux_suffix (l : List Char) : (digitsWsAux l).2 <:+ l := by
  induction l with
  | nil => simp [digitsWsAux]
  | cons c t ih =>
    unfold digitsWsAux
    by_cases hd : isDigitChar c = true
    · rw [if_pos hd]
      exact ih.trans (List.suffix_cons c t)
    · rw [if_neg hd]
      by_cases hw : isWsChar c = true
      · rw [if_pos hw]
        by_cases he : (digitsWsAux t).1.isEmpty = true
        · rw [if_pos he]
        · rw [if_neg he]
          exact ih.trans (List.suffix_cons c t)
      · rw [if_neg hw]

theorem vtSM_suffix (st : VtState) (l : List Char) :
    ∀ ds gs rest, vtSM st l = some (ds, gs, rest) → rest <:+ l := by
  induction l generalizing st with
  | nil =>
    intro ds gs rest h
    cases st with
    | inGroup =>
      injection h with h
      injection h with h1 h
      injection h with h2 h3
      rw [← h3]
    | afterDot => exact absurd h (by simp [vtSM])
  | cons c t ih =>
    intro ds gs rest h
    have step : ∀ x, vtSM VtState.inGroup t = some x → x.2.2 <:+ c :: t := by
      rintro ⟨a, b, r⟩ hx
      exact (ih .inGroup a b r hx).trans (List.suffix_cons c t)
    have stepD : ∀ x, vtSM VtState.afterDot t = some x → x.2.2 <:+ c :: t := by
      rintro ⟨a, b, r⟩ hx
      exact (ih .afterDot a b r hx).trans (List.suffix_cons c t)
    cases st with
    | inGroup =>
      unfold vtSM at h
      by_cases hd : isDigitChar c = true
      · rw [if_pos hd] at h
        cases hv : vtSM .inGroup t with
        | none => rw [hv] at h; exact absurd h (by simp)
        | some x =>
          obtain ⟨ds1, gs1, rest1⟩ := x
          rw [hv] at h
          injection h with h
          injection h with h1 h
          injection h with h2 h3
          rw [← h3]
          exact step _ hv
      · rw [if_neg hd] at h
        by_cases hw : isWsChar c = true
        · rw [if_pos hw] at h
          cases hv : vtSM .inGroup t with
          | none => rw [hv] at h; exact absurd h (by simp)
          | some x =>
            obtain ⟨ds1, gs1, rest1⟩ := x
            rw [hv] at h
            rcases ds1 with - | ⟨d, ds2⟩
            · rcases gs1 with - | ⟨g, gs2⟩
              · injection h with h
                injection h with h1 h
                injection h with h2 h3
                rw [← h3]
              · injection h with h
                injection h with h1 h
                injection h with h2 h3
                rw [← h3]
                exact step _ hv
            · injection h with h
              injection h with h1 h
              injection h with h2 h3
              rw [← h3]
              exact step _ hv
        · rw [if_neg hw] at h
          by_cases hdot : c = '.'
          · rw [if_pos hdot] at h
            cases hv : vtSM .afterDot t with
            | none =>
              rw [hv] at h
              injection h with h
              injection h with h1 h
              injection h with h2 h3
              rw [← h3]
            | some x =>
              obtain ⟨g1, gs1, rest1⟩ := x
              rw [hv] at h
              injection h with h
              injection h with h1 h
              injection h with h2 h3
              rw [← h3]
              exact stepD _ hv
          · rw [if_neg hdot] at h
            injection h with h
            injection h with h1 h
            injection h with h2 h3
            rw [← h3]
    | afterDot =>
      unfold vtSM at h
      by_cases hw : isWsChar c = true
      · rw [if_pos hw] at h
        exact (ih .afterDot _ _ _ h).trans (List.suffix_cons c t)
      · rw [if_neg hw] at h
        by_cases hd : isDigitChar c = true
        · rw [if_pos hd] at h
          cases hv : vtSM .inGroup t with
          | none => rw [hv] at h; exact absurd h (by simp)
          | some x =>
            obtain ⟨ds1, gs1, rest1⟩ := x
            rw [hv] at h
            injection h with h
            injection h with h1 h
            injection h with h2 h3
            rw [← h3]
            exact step _ hv
        · rw [if_neg hd] at h
          exact absurd h (by simp)

theorem stringBodyAux_suffix (l : List Char) : (stringBodyAux l).2 <:+ l := by
  induction l using stringBodyAux.induct with
  | case1 => simp [stringBodyAux]
  | case2 t ih =>
    rw [stringBodyAux.eq_2]
    exact ih.trans ((List.suffix_cons _ _).trans (List.suffix_cons _ _))
  | case3 c t hne hw p hemp ih =>
    have hemp2 : (stringBodyAux t).1.isEmpty = true := hemp
    rw [stringBodyAux.eq_3 c t hne, if_pos hw, if_pos hemp2]
  | case4 c t hne hw p hemp ih =>
    have hemp2 : ¬(stringBodyAux t).1.isEmpty = true := hemp
    rw [stringBodyAux.eq_3 c t hne, if_pos hw, if_neg hemp2]
    exact ih.trans (List.suffix_cons c t)
  | case5 t hne hw =>
    rw [stringBodyAux.eq_3 _ t hne, if_neg hw, if_pos rfl]
  | case6 c t hne hw hq ih =>
    rw [stringBodyAux.eq_3 c t hne, if_neg hw, if_neg hq]
    exact ih.trans (List.suffix_cons c t)

theorem wfS_numberP : WfS numberP := by
  intro l a r h
  unfold numberP at h
  split at h
  case h_1 => exact absurd h (by simp)
  case h_2 c t =>
    by_cases hd : isDigitChar c = true
    · rw [if_pos hd] at h
      injection h with h
      injection h with h1 h2
      obtain ⟨c1, hc1⟩ := digitsWsAux_suffix t
      exact ⟨c :: c1, by rw [← h2, List.cons_append, hc1]⟩
    · rw [if_neg hd] at h
      exact absurd h (by simp)

theorem wfE_numberP : WfE numberP := by
  intro l e h
  unfold numberP at h
  split at h
  case h_1 =>
    injection h with h
    rw [← h]
    exact ⟨by simp, by simp⟩
  case h_2 c t =>
    by_cases hd : isDigitChar c = true
    · rw [if_pos hd] at h
      exact absurd h (by simp)
    · rw [if_neg hd] at h
      injection h with h
      rw [← h]
      exact ⟨le_rfl, by simp⟩

theorem wfS_versionP : WfS versionP := by
  intro l a r h
  unfold versionP at h
  split at h
  case h_2 => exact absurd h (by simp)
  case h_1 t =>
    split at h
    case h_2 => exact absurd h (by simp)
    case h_1 c t2 hdw =>
      split at h
      case isFalse => exact absurd h (by simp)
      case isTrue hd =>
        split at h
        case h_2 => exact absurd h (by simp)
        case h_1 x ds gs rest hsm =>
          injection h with h
          injection h with h1 h2
          obtain ⟨c1, hc1⟩ := vtSM_suffix .inGroup t2 ds gs rest hsm
          have ht : t = t.takeWhile isWsChar ++ (c :: t2) := by
            rw [← hdw, List.takeWhile_append_dropWhile]
          refine ⟨'v' :: (t.takeWhile isWsChar ++ (c :: c1)), ?_⟩
          rw [← h2, List.cons_append]
          rw [List.append_assoc, List.cons_append, hc1]
          rw [← ht]

theorem delimBodyAux_suffix (l : List Char) : (delimBodyAux l).2 <:+ l := by
  induction l with
  | nil => simp [delimBodyAux]
  | cons c t ih =>
    unfold delimBodyAux
    by_cases hw : isWsChar c = true
    · rw [if_pos hw]
      by_cases he : (delimBodyAux t).1.isEmpty = true
      · rw [if_pos he]
      · rw [if_neg he]
        exact ih.trans (List.suffix_cons c t)
    · rw [if_neg hw]
      by_cases hq : c = '"'
      · rw [if_pos hq]
      · rw [if_neg hq]
        exact ih.trans (List.suffix_cons c t)

theorem wfE_versionP : WfE versionP := by
  intro l e h
  unfold versionP at h
  split at h
  case h_2 =>
    injection h with h
    rw [← h]
    exact ⟨le_rfl, by simp⟩
  case h_1 t =>
    split at h
    case h_2 =>
      injection h with h
      rw [← h]
      exact ⟨le_rfl, by simp⟩
    case h_1 c t2 hdw =>
      split at h
      case isFalse =>
        injection h with h
        rw [← h]
        exact ⟨le_rfl, by simp⟩
      case isTrue hd =>
        split at h
        case h_1 x ds gs rest hsm => exact absurd h (by simp)
        case h_2 =>
          injection h with h
          rw [← h]
          exact ⟨le_rfl, by simp⟩

theorem wfS_stringLitP : WfS stringLitP := by
  intro l a r h
  unfold stringLitP at h
  split at h
  case h_1 => exact absurd h (by simp)
  case h_2 c t =>
    rcases Decidable.em (c = '"') with hd | hd
    case inr => rw [if_neg hd] at h; exact absurd h (by simp)
    subst hd
    rw [if_pos rfl] at h
    split at h
    case h_2 => exact absurd h (by simp)
    case h_1 t2 hdw =>
      injection h with h
      injection h with h1 h2
      obtain ⟨c1, hc1⟩ := stringBodyAux_suffix t
      have h3 : c1 ++ ((stringBodyAux t).2.takeWhile isWsChar ++ ('"' :: t2)) = t := by
        rw [← hdw, List.takeWhile_append_dropWhile, hc1]
      refine ⟨'"' :: (c1 ++ ((stringBodyAux t).2.takeWhile isWsChar ++ ['"'])), ?_⟩
      rw [← h2]
      calc ('"' :: t : List Char)
          = '"' :: (c1 ++ ((stringBodyAux t).2.takeWhile isWsChar ++ ('"' :: t2))) := by
            rw [h3]
        _ = ('"' :: (c1 ++ ((stringBodyAux t).2.takeWhile isWsChar ++ ['"']))) ++ t2 := by
            simp

theorem wfE_stringLitP : WfE stringLitP := by
  intro l e h
  unfold stringLitP at h
  split at h
  case h_1 =>
    injection h with h
    rw [← h]
    exact ⟨by simp, by simp⟩
  case h_2 c t =>
    rcases Decidable.em (c = '"') with hd | hd
    case inr =>
      rw [if_neg hd] at h
      injection h with h
      rw [← h]
      exact ⟨by simp, by simp⟩
    subst hd
    rw [if_pos rfl] at h
    split at h
    case h_1 t2 hdw => exact absurd h (by simp)
    case h_2 hne =>
      injection h with h
      rw [← h]
      refine ⟨?_, by simp⟩
      have h1 : ((stringBodyAux t).2.dropWhile isWsChar).length ≤
          (stringBodyAux t).2.length :=
        (List.dropWhile_sublist isWsChar).length_le
      have h2 : (stringBodyAux t).2.length ≤ t.length :=
        (stringBodyAux_suffix t).length_le
      simp only [List.length_cons]
      omega

theorem wfS_delimiterP : WfS delimiterP := by
  intro l a r h
  unfold delimiterP at h
  split at h
  case h_1 => exact absurd h (by simp)
  case h_2 c t =>
    rcases Decidable.em (c = '"') with hd | hd
    case inr => rw [if_neg hd] at h; exact absurd h (by simp)
    subst hd
    rw [if_pos rfl] at h
    split at h
    case h_2 => exact absurd h (by simp)
    case h_1 t2 hdw =>
      injection h with h
      injection h with h1 h2
      obtain ⟨c1, hc1⟩ := delimBodyAux_suffix t
      have h3 : c1 ++ ((delimBodyAux t).2.takeWhile isWsChar ++ ('"' :: t2)) = t := by
        rw [← hdw, List.takeWhile_append_dropWhile, hc1]
      refine ⟨'"' :: (c1 ++ ((delimBodyAux t).2.takeWhile isWsChar ++ ['"'])), ?_⟩
      rw [← h2]
      calc ('"' :: t : List Char)
          = '"' :: (c1 ++ ((delimBodyAux t).2.takeWhile isWsChar ++ ('"' :: t2))) := by
            rw [h3]
        _ = ('"' :: (c1 ++ ((delimBodyAux t).2.takeWhile isWsChar ++ ['"']))) ++ t2 := by
            simp

theorem wfE_delimiterP : WfE delimiterP := by
  intro l e h
  unfold delimiterP at h
  split at h
  case h_1 =>
    injection h with h
    rw [← h]
    exact ⟨by simp, by simp⟩
  case h_2 c t =>
    rcases Decidable.em (c = '"') with hd | hd
    case inr =>
      rw [if_neg hd] at h
      injection h with h
      rw [← h]
      exact ⟨by simp, by simp⟩
    subst hd
    rw [if_pos rfl] at h
    split at h
    case h_1 t2 hdw => exact absurd h (by simp)
    case h_2 hne =>
      injection h with h
      rw [← h]
      refine ⟨?_, by simp⟩
      have h1 : ((delimBodyAux t).2.dropWhile isWsChar).length ≤
          (delimBodyAux t).2.length :=
        (List.dropWhile_sublist isWsChar).length_le
      have h2 : (delimBodyAux t).2.length ≤ t.length :=
        (delimBodyAux_suffix t).length_le
      simp only [List.length_cons]
      omega

/-! ### Well-formedness: the grammar rules -/

theorem wfS_identifierP : WfS identifierP := wfS_pmapP _ (wfS_pclass1 _ _)

theorem wfE_identifierP : WfE identifierP := wfE_pmapP _ (wfE_pclass1 _ _)

theorem wfS_identityP : WfS identityP := wfS_pmapP _ (wfS_pclass0 _)

theorem wfE_identityP : WfE identityP := wfE_pmapP _ (wfE_pclass0 _)

theorem wfS_stickyTagP : WfS stickyTagP := wfS_plit _ _

theorem wfE_stickyTagP : WfE stickyTagP := wfE_plit _ _

theorem wfS_booleanP : WfS booleanP :=
  wfS_palt (wfS_pmapP _ (wfS_plit _ _)) (wfS_pmapP _ (wfS_plit _ _))

theorem wfE_booleanP : WfE booleanP :=
  wfE_palt (wfE_pmapP _ (wfE_plit _ _)) (wfE_pmapP _ (wfE_plit _ _))

theorem wfS_registerP : WfS registerP :=
  wfS_pbind (wfS_plit _ _) fun _ =>
    wfS_pbind wfS_wsSkip fun _ => wfS_identifierP

theorem wfE_registerP : WfE registerP :=
  wfE_pbind (wfS_plit _ _) (wfE_plit _ _) fun _ =>
    wfE_pbind wfS_wsSkip wfE_wsSkip fun _ => wfE_identifierP

theorem wfS_paramP : WfS paramP :=
  wfS_palt (wfS_pmapP _ wfS_stringLitP)
    (wfS_palt (wfS_pmapP _ wfS_numberP)
      (wfS_palt (wfS_pmapP _ wfS_booleanP)
        (wfS_palt (wfS_pmapP _ wfS_identifierP)
          (wfS_pmapP _ wfS_registerP))))

theorem wfE_paramP : WfE paramP :=
  wfE_palt (wfE_pmapP _ wfE_stringLitP)
    (wfE_palt (wfE_pmapP _ wfE_numberP)
      (wfE_palt (wfE_pmapP _ wfE_booleanP)
        (wfE_palt (wfE_pmapP _ wfE_identifierP)
          (wfE_pmapP _ wfE_registerP))))

theorem wfS_valueP : WfS valueP :=
  wfS_palt (wfS_pmapP _ wfS_stringLitP)
    (wfS_palt (wfS_pmapP _ wfS_numberP)
      (wfS_palt (wfS_pmapP _ wfS_booleanP)
        (wfS_palt (wfS_pmapP _ wfS_identifierP)
          (wfS_pmapP _ wfS_registerP))))

theorem wfE_valueP : WfE valueP :=
  wfE_palt (wfE_pmapP _ wfE_stringLitP)
    (wfE_palt (wfE_pmapP _ wfE_numberP)
      (wfE_palt (wfE_pmapP _ wfE_booleanP)
        (wfE_palt (wfE_pmapP _ wfE_identifierP)
          (wfE_pmapP _ wfE_registerP))))

theorem wfS_simpleExpressionP : WfS simpleExpressionP :=
  wfS_palt (wfS_pmapP _ wfS_identifierP)
    (wfS_palt (wfS_pmapP _ wfS_numberP)
      (wfS_palt (wfS_pmapP _ wfS_booleanP)
        (wfS_palt (wfS_pmapP _ wfS_stringLitP)
          (wfS_pmapP _ wfS_registerP))))

theorem wfE_simpleExpressionP : WfE simpleExpressionP :=
  wfE_palt (wfE_pmapP _ wfE_identifierP)
    (wfE_palt (wfE_pmapP _ wfE_numberP)
      (wfE_palt (wfE_pmapP _ wfE_booleanP)
        (wfE_palt (wfE_pmapP _ wfE_stringLitP)
          (wfE_pmapP _ wfE_registerP))))

theorem wfS_comparisonOperatorP : WfS comparisonOperatorP :=
  wfS_palt (wfS_pmapP _ (wfS_plit _ _))
    (wfS_palt (wfS_pmapP _ (wfS_plit _ _))
      (wfS_palt (wfS_pmapP _ (wfS_plit _ _))
        (wfS_palt (wfS_pmapP _ (wfS_plit _ _))
          (wfS_palt (wfS_pmapP _ (wfS_plit _ _))
            (wfS_pmapP _ (wfS_plit _ _))))))

theorem wfE_comparisonOperatorP : WfE comparisonOperatorP :=
  wfE_palt (wfE_pmapP _ (wfE_plit _ _))
    (wfE_palt (wfE_pmapP _ (wfE_plit _ _))
      (wfE_palt (wfE_pmapP _ (wfE_plit _ _))
        (wfE_palt (wfE_pmapP _ (wfE_plit _ _))
          (wfE_palt (wfE_pmapP _ (wfE_plit _ _))
            (wfE_pmapP _ (wfE_plit _ _))))))

theorem wfS_rangeExpressionP : WfS rangeExpressionP :=
  wfS_pbind wfS_identifierP fun _ =>
    wfS_pbind wfS_wsSkip fun _ =>
      wfS_pbind (wfS_plit _ _) fun _ =>
        wfS_pbind wfS_wsSkip fun _ => wfS_pmapP _ wfS_identifierP

theorem wfE_rangeExpressionP : WfE rangeExpressionP :=
  wfE_pbind wfS_identifierP wfE_identifierP fun _ =>
    wfE_pbind wfS_wsSkip wfE_wsSkip fun _ =>
      wfE_pbind (wfS_plit _ _) (wfE_plit _ _) fun _ =>
        wfE_pbind wfS_wsSkip wfE_wsSkip fun _ => wfE_pmapP _ wfE_identifierP

theorem wfS_expressionP : WfS expressionP :=
  wfS_palt (wfS_pmapP _ wfS_rangeExpressionP)
    (wfS_pbind wfS_simpleExpressionP fun _ =>
      wfS_pbind wfS_wsSkip fun _ =>
        wfS_pbind
          (wfS_popt (wfS_pbind wfS_comparisonOperatorP fun _ =>
            wfS_pbind wfS_wsSkip fun _ => wfS_pmapP _ wfS_simpleExpressionP))
          fun o => wfS_pret _)

theorem wfE_expressionP : WfE expressionP :=
  wfE_palt (wfE_pmapP _ wfE_rangeExpressionP)
    (wfE_pbind wfS_simpleExpressionP wfE_simpleExpressionP fun _ =>
      wfE_pbind wfS_wsSkip wfE_wsSkip fun _ =>
        wfE_pbind
          (wfS_popt (wfS_pbind wfS_comparisonOperatorP fun _ =>
            wfS_pbind wfS_wsSkip fun _ => wfS_pmapP _ wfS_simpleExpressionP))
          wfE_popt fun o => wfE_pret _)

theorem wfS_splitExpressionP : WfS splitExpressionP :=
  wfS_pbind
    (wfS_palt (wfS_pmapP _ wfS_registerP)
      (wfS_palt (wfS_pmapP _ wfS_identifierP) (wfS_pmapP _ wfS_stringLitP)))
    fun _ =>
      wfS_pbind wfS_wsSkip fun _ =>
        wfS_pbind (wfS_plit _ _) fun _ =>
          wfS_pbind wfS_wsSkip fun _ =>
            wfS_pbind wfS_delimiterP fun _ =>
              wfS_pbind wfS_wsSkip fun _ => wfS_pmapP _ (wfS_plit _ _)

theorem wfE_splitExpressionP : WfE splitExpressionP :=
  wfE_pbind
    (wfS_palt (wfS_pmapP _ wfS_registerP)
      (wfS_palt (wfS_pmapP _ wfS_identifierP) (wfS_pmapP _ wfS_stringLitP)))
    (wfE_palt (wfE_pmapP _ wfE_registerP)
      (wfE_palt (wfE_pmapP _ wfE_identifierP) (wfE_pmapP _ wfE_stringLitP)))
    fun _ =>
      wfE_pbind wfS_wsSkip wfE_wsSkip fun _ =>
        wfE_pbind (wfS_plit _ _) (wfE_plit _ _) fun _ =>
          wfE_pbind wfS_wsSkip wfE_wsSkip fun _ =>
            wfE_pbind wfS_delimiterP wfE_delimiterP fun _ =>
              wfE_pbind wfS_wsSkip wfE_wsSkip fun _ => wfE_pmapP _ (wfE_plit _ _)

theorem argsLoopP_suffix (fuel : Nat) (l : List Char) :
    (argsLoopP fuel l).2 <:+ l := by
  induction fuel generalizing l with
  | zero => simp [argsLoopP]
  | succ f ih =>
    unfold argsLoopP
    split
    case h_2 => exact List.suffix_rfl
    case h_1 t hdw =>
      split
      case h_1 => exact List.suffix_rfl
      case h_2 a r hp =>
        have hsuf1 : t <:+ l := by
          have h1 : t <:+ ',' :: t := List.suffix_cons _ _
          have h2 : ',' :: t <:+ l := by
            rw [← hdw]
            exact List.dropWhile_suffix isWsChar
          exact h1.trans h2
        have hsuf2 : r <:+ t := by
          obtain ⟨c1, hc1⟩ := wfS_paramP _ _ _ hp
          have hdw2 : t.dropWhile isWsChar <:+ t := List.dropWhile_suffix isWsChar
          obtain ⟨c2, hc2⟩ := hdw2
          exact ⟨c2 ++ c1, by rw [List.append_assoc, ← hc1, hc2]⟩
        exact ((ih r).trans hsuf2).trans hsuf1

theorem wfS_argListP (fuel : Nat) : WfS (argListP fuel) := by
  intro l a r h
  unfold argListP at h
  split at h
  case h_1 => injection h with h; injection h with h1 h2; exact ⟨[], by rw [h2, List.nil_append]⟩
  case h_2 a1 r1 hp =>
    injection h with h
    injection h with h1 h2
    obtain ⟨c1, hc1⟩ := wfS_paramP _ _ _ hp
    obtain ⟨c2, hc2⟩ := argsLoopP_suffix fuel r1
    refine ⟨c1 ++ c2, ?_⟩
    rw [hc1, ← hc2, h2, List.append_assoc]

theorem wfE_argListP (fuel : Nat) : WfE (argListP fuel) := by
  intro l e h
  unfold argListP at h
  split at h
  case h_1 => exact absurd h (by simp)
  case h_2 => exact absurd h (by simp)

theorem wfS_externalFnCallP (fuel : Nat) : WfS (externalFnCallP fuel) :=
  wfS_pbind (wfS_plit _ _) fun _ =>
    wfS_pbind wfS_wsSkip fun _ =>
      wfS_pbind wfS_identifierP fun _ =>
        wfS_pbind wfS_wsSkip fun _ =>
          wfS_pbind (wfS_plit _ _) fun _ =>
            wfS_pbind wfS_wsSkip fun _ =>
              wfS_pbind (wfS_argListP fuel) fun _ =>
                wfS_pbind wfS_wsSkip fun _ => wfS_pmapP _ (wfS_plit _ _)

theorem wfE_externalFnCallP (fuel : Nat) : WfE (externalFnCallP fuel) :=
  wfE_pbind (wfS_plit _ _) (wfE_plit _ _) fun _ =>
    wfE_pbind wfS_wsSkip wfE_wsSkip fun _ =>
      wfE_pbind wfS_identifierP wfE_identifierP fun _ =>
        wfE_pbind wfS_wsSkip wfE_wsSkip fun _ =>
          wfE_pbind (wfS_plit _ _) (wfE_plit _ _) fun _ =>
            wfE_pbind wfS_wsSkip wfE_wsSkip fun _ =>
              wfE_pbind (wfS_argListP fuel) (wfE_argListP fuel) fun _ =>
                wfE_pbind wfS_wsSkip wfE_wsSkip fun _ => wfE_pmapP _ (wfE_plit _ _)

theorem wfS_actionP (fuel : Nat) : WfS (actionP fuel) :=
  wfS_palt (wfS_pmapP _ (wfS_externalFnCallP fuel))
    (wfS_pbind wfS_identifierP fun _ =>
      wfS_pbind wfS_wsSkip fun _ =>
        wfS_pbind (wfS_plit _ _) fun _ =>
          wfS_pbind wfS_wsSkip fun _ =>
            wfS_pbind (wfS_argListP fuel) fun _ =>
              wfS_pbind wfS_wsSkip fun _ => wfS_pmapP _ (wfS_plit _ _))

theorem wfE_actionP (fuel : Nat) : WfE (actionP fuel) :=
  wfE_palt (wfE_pmapP _ (wfE_externalFnCallP fuel))
    (wfE_pbind wfS_identifierP wfE_identifierP fun _ =>
      wfE_pbind wfS_wsSkip wfE_wsSkip fun _ =>
        wfE_pbind (wfS_plit _ _) (wfE_plit _ _) fun _ =>
          wfE_pbind wfS_wsSkip wfE_wsSkip fun _ =>
            wfE_pbind (wfS_argListP fuel) (wfE_argListP fuel) fun _ =>
              wfE_pbind wfS_wsSkip wfE_wsSkip fun _ => wfE_pmapP _ (wfE_plit _ _))

theorem wfS_registerOperationP (fuel : Nat) : WfS (registerOperationP fuel) :=
  wfS_pbind wfS_registerP fun _ =>
    wfS_pbind wfS_wsSkip fun _ =>
      wfS_pbind (wfS_plit _ _) fun _ =>
        wfS_pbind wfS_wsSkip fun _ =>
          wfS_pmapP _
            (wfS_palt (wfS_pmapP _ (wfS_externalFnCallP fuel))
              (wfS_pmapP _ wfS_valueP))

theorem wfE_registerOperationP (fuel : Nat) : WfE (registerOperationP fuel) :=
  wfE_pbind wfS_registerP wfE_registerP fun _ =>
    wfE_pbind wfS_wsSkip wfE_wsSkip fun _ =>
      wfE_pbind (wfS_plit _ _) (wfE_plit _ _) fun _ =>
        wfE_pbind wfS_wsSkip wfE_wsSkip fun _ =>
          wfE_pmapP _
            (wfE_palt (wfE_pmapP _ (wfE_externalFnCallP fuel))
              (wfE_pmapP _ wfE_valueP))

theorem wfS_authorTagP : WfS authorTagP :=
  wfS_pbind (wfS_plit _ _) fun _ =>
    wfS_pbind wfS_wsSkip fun _ =>
      wfS_pbind (wfS_plit _ _) fun _ =>
        wfS_pbind wfS_wsSkip fun _ => wfS_identityP

theorem wfE_authorTagP : WfE authorTagP :=
  wfE_pbind (wfS_plit _ _) (wfE_plit _ _) fun _ =>
    wfE_pbind wfS_wsSkip wfE_wsSkip fun _ =>
      wfE_pbind (wfS_plit _ _) (wfE_plit _ _) fun _ =>
        wfE_pbind wfS_wsSkip wfE_wsSkip fun _ => wfE_identityP

theorem wf_stepFuel (fuel : Nat) :
    WfS (stepBodyItemP fuel) ∧ WfE (stepBodyItemP fuel) ∧
    WfS (conditionP fuel) ∧ WfE (conditionP fuel) ∧
    WfS (forLoopP fuel) ∧ WfE (forLoopP fuel) ∧
    WfS (stepBodyP fuel) ∧ WfE (stepBodyP fuel) ∧
    (∀ l, (stepBodyLoopP fuel l).2 <:+ l) := by
  induction fuel with
  | zero =>
    refine ⟨?_, ?_, ?_, ?_, ?_, ?_, ?_, ?_, ?_⟩
    · intro l a r h
      exact absurd h (by simp [stepBodyItemP])
    · intro l e h
      injection h with h
      rw [← h]
      exact ⟨le_rfl, by simp⟩
    · intro l a r h
      exact absurd h (by simp [conditionP])
    · intro l e h
      injection h with h
      rw [← h]
      exact ⟨le_rfl, by simp⟩
    · intro l a r h
      exact absurd h (by simp [forLoopP])
    · intro l e h
      injection h with h
      rw [← h]
      exact ⟨le_rfl, by simp⟩
    · intro l a r h
      exact absurd h (by simp [stepBodyP])
    · intro l e h
      injection h with h
      rw [← h]
      exact ⟨le_rfl, by simp⟩
    · intro l
      exact List.suffix_rfl
  | succ f ih =>
    obtain ⟨ihItemS, ihItemE, ihCondS, ihCondE, ihForS, ihForE, ihBodyS, ihBodyE,
      ihLoop⟩ := ih
    have hCondS : WfS (conditionP (f + 1)) := by
      intro l a r h
      exact (wfS_pbind (wfS_plit _ _) fun _ =>
        wfS_pbind wfS_wsSkip fun _ =>
          wfS_pbind wfS_expressionP fun _ =>
            wfS_pbind wfS_wsSkip fun _ =>
              wfS_pbind (wfS_plit _ _) fun _ =>
                wfS_pbind wfS_wsSkip fun _ =>
                  wfS_pbind ihBodyS fun _ =>
                    wfS_pbind wfS_wsSkip fun _ => wfS_pmapP _ (wfS_plit _ _)) l a r h
    have hCondE : WfE (conditionP (f + 1)) := by
      intro l e h
      exact (wfE_pbind (wfS_plit _ _) (wfE_plit _ _) fun _ =>
        wfE_pbind wfS_wsSkip wfE_wsSkip fun _ =>
          wfE_pbind wfS_expressionP wfE_expressionP fun _ =>
            wfE_pbind wfS_wsSkip wfE_wsSkip fun _ =>
              wfE_pbind (wfS_plit _ _) (wfE_plit _ _) fun _ =>
                wfE_pbind wfS_wsSkip wfE_wsSkip fun _ =>
                  wfE_pbind ihBodyS ihBodyE fun _ =>
                    wfE_pbind wfS_wsSkip wfE_wsSkip fun _ =>
                      wfE_pmapP _ (wfE_plit _ _)) l e h
    have hForS : WfS (forLoopP (f + 1)) := by
      intro l a r h
      exact (wfS_pbind (wfS_plit _ _) fun _ =>
        wfS_pbind wfS_wsSkip fun _ =>
          wfS_pbind wfS_identifierP fun _ =>
            wfS_pbind wfS_wsSkip fun _ =>
              wfS_pbind (wfS_plit _ _) fun _ =>
                wfS_pbind wfS_wsSkip fun _ =>
                  wfS_pbind (wfS_palt wfS_splitExpressionP
                      (wfS_pmapP _ wfS_rangeExpressionP)) fun _ =>
                    wfS_pbind wfS_wsSkip fun _ =>
                      wfS_pbind (wfS_plit _ _) fun _ =>
                        wfS_pbind wfS_wsSkip fun _ =>
                          wfS_pbind ihBodyS fun _ =>
                            wfS_pbind wfS_wsSkip fun _ =>
                              wfS_pmapP _ (wfS_plit _ _)) l a r h
    have hForE : WfE (forLoopP (f + 1)) := by
      intro l e h
      exact (wfE_pbind (wfS_plit _ _) (wfE_plit _ _) fun _ =>
        wfE_pbind wfS_wsSkip wfE_wsSkip fun _ =>
          wfE_pbind wfS_identifierP wfE_identifierP fun _ =>
            wfE_pbind wfS_wsSkip wfE_wsSkip fun _ =>
              wfE_pbind (wfS_plit _ _) (wfE_plit _ _) fun _ =>
                wfE_pbind wfS_wsSkip wfE_wsSkip fun _ =>
                  wfE_pbind (wfS_palt wfS_splitExpressionP
                      (wfS_pmapP _ wfS_rangeExpressionP))
                    (wfE_palt wfE_splitExpressionP
                      (wfE_pmapP _ wfE_rangeExpressionP)) fun _ =>
                    wfE_pbind wfS_wsSkip wfE_wsSkip fun _ =>
                      wfE_pbind (wfS_plit _ _) (wfE_plit _ _) fun _ =>
                        wfE_pbind wfS_wsSkip wfE_wsSkip fun _ =>
                          wfE_pbind ihBodyS ihBodyE fun _ =>
                            wfE_pbind wfS_wsSkip wfE_wsSkip fun _ =>
                              wfE_pmapP _ (wfE_plit _ _)) l e h
    have hItemS : WfS (stepBodyItemP (f + 1)) := by
      intro l a r h
      exact (wfS_palt ihCondS
        (wfS_palt (wfS_pmapP _ (wfS_registerOperationP f))
          (wfS_palt (wfS_pmapP _ (wfS_actionP f)) ihForS))) l a r h
    have hItemE : WfE (stepBodyItemP (f + 1)) := by
      intro l e h
      exact (wfE_palt ihCondE
        (wfE_palt (wfE_pmapP _ (wfE_registerOperationP f))
          (wfE_palt (wfE_pmapP _ (wfE_actionP f)) ihForE))) l e h
    have hLoop : ∀ l, (stepBodyLoopP (f + 1) l).2 <:+ l := by
      intro l
      show (match stepBodyItemP f (l.dropWhile isWsChar) with
        | .error _ => (([] : List Stmt), l)
        | .ok (s, r) => (s :: (stepBodyLoopP f r).1, (stepBodyLoopP f r).2)).2 <:+ l
      cases hi : stepBodyItemP f (l.dropWhile isWsChar) with
      | error e => exact List.suffix_rfl
      | ok sr =>
        obtain ⟨s, r⟩ := sr
        obtain ⟨c1, hc1⟩ := ihItemS _ _ _ hi
        have hr : r <:+ l := by
          have h1 : r <:+ l.dropWhile isWsChar := ⟨c1, hc1.symm⟩
          exact h1.trans (List.dropWhile_suffix isWsChar)
        exact (ihLoop r).trans hr
    have hBodyS : WfS (stepBodyP (f + 1)) := by
      intro l a r h
      show ∃ c, l = c ++ r
      unfold stepBodyP at h
      cases hi : stepBodyItemP f l with
      | error e => rw [hi] at h; exact absurd h (by simp)
      | ok sr =>
        obtain ⟨s, r1⟩ := sr
        rw [hi] at h
        injection h with h
        injection h with h1 h2
        obtain ⟨c1, hc1⟩ := ihItemS _ _ _ hi
        obtain ⟨c2, hc2⟩ := ihLoop r1
        exact ⟨c1 ++ c2, by rw [hc1, ← hc2, h2, List.append_assoc]⟩
    have hBodyE : WfE (stepBodyP (f + 1)) := by
      intro l e h
      unfold stepBodyP at h
      cases hi : stepBodyItemP f l with
      | error e1 =>
        rw [hi] at h
        injection h with h
        rw [← h]
        exact ihItemE _ _ hi
      | ok sr =>
        obtain ⟨s, r1⟩ := sr
        rw [hi] at h
        exact absurd h (by simp)
    exact ⟨hItemS, hItemE, hCondS, hCondE, hForS, hForE, hBodyS, hBodyE, hLoop⟩

theorem wfS_stepP (fuel : Nat) : WfS (stepP fuel) := by
  obtain ⟨-, -, -, -, -, -, hBodyS, -, -⟩ := wf_stepFuel fuel
  exact wfS_pbind (wfS_plit _ _) fun _ =>
    wfS_pbind wfS_wsSkip fun _ =>
      wfS_pbind wfS_identifierP fun _ =>
        wfS_pbind wfS_wsSkip fun _ =>
          wfS_pbind (wfS_plit _ _) fun _ =>
            wfS_pbind wfS_wsSkip fun _ =>
              wfS_pbind hBodyS fun _ =>
                wfS_pbind wfS_wsSkip fun _ => wfS_pmapP _ (wfS_plit _ _)

theorem wfE_stepP (fuel : Nat) : WfE (stepP fuel) := by
  obtain ⟨-, -, -, -, -, -, hBodyS, hBodyE, -⟩ := wf_stepFuel fuel
  exact wfE_pbind (wfS_plit _ _) (wfE_plit _ _) fun _ =>
    wfE_pbind wfS_wsSkip wfE_wsSkip fun _ =>
      wfE_pbind wfS_identifierP wfE_identifierP fun _ =>
        wfE_pbind wfS_wsSkip wfE_wsSkip fun _ =>
          wfE_pbind (wfS_plit _ _) (wfE_plit _ _) fun _ =>
            wfE_pbind wfS_wsSkip wfE_wsSkip fun _ =>
              wfE_pbind hBodyS hBodyE fun _ =>
                wfE_pbind wfS_wsSkip wfE_wsSkip fun _ => wfE_pmapP _ (wfE_plit _ _)

theorem stepsLoopP_suffix (fuel : Nat) (l : List Char) :
    (stepsLoopP fuel l).2 <:+ l := by
  induction fuel generalizing l with
  | zero => exact List.suffix_rfl
  | succ f ih =>
    show (match stepP f (l.dropWhile isWsChar) with
      | .error _ => (([] : List Step), l)
      | .ok (s, r) => (s :: (stepsLoopP f r).1, (stepsLoopP f r).2)).2 <:+ l
    cases hi : stepP f (l.dropWhile isWsChar) with
    | error e => exact List.suffix_rfl
    | ok sr =>
      obtain ⟨s, r⟩ := sr
      obtain ⟨c1, hc1⟩ := wfS_stepP f _ _ _ hi
      have hr : r <:+ l :=
        List.IsSuffix.trans ⟨c1, hc1.symm⟩ (List.dropWhile_suffix isWsChar)
      exact (ih r).trans hr

theorem wfS_workflowP (fuel : Nat) : WfS (workflowP fuel) := by
  have hsteps : WfS (fun l2 =>
      (.ok ((stepsLoopP fuel l2).1, (stepsLoopP fuel l2).2) :
        Except PErr (List Step × List Char))) := by
    intro l a r h
    injection h with h
    injection h with h1 h2
    obtain ⟨c1, hc1⟩ := stepsLoopP_suffix fuel l
    exact ⟨c1, by rw [← h2]; exact hc1.symm⟩
  exact wfS_pbind (wfS_plit _ _) fun _ =>
    wfS_pbind wfS_wsSkip fun _ =>
      wfS_pbind wfS_identifierP fun _ =>
        wfS_pbind wfS_wsSkip fun _ =>
          wfS_pbind wfS_versionP fun _ =>
            wfS_pbind wfS_wsSkip fun _ =>
              wfS_pbind (wfS_plit _ _) fun _ =>
                wfS_pbind wfS_wsSkip fun _ =>
                  wfS_pbind (wfS_stepP fuel) fun _ =>
                    wfS_pbind hsteps fun _ =>
                      wfS_pbind wfS_wsSkip fun _ =>
                        wfS_pbind (wfS_plit _ _) fun _ =>
                          wfS_pbind wfS_wsSkip fun _ =>
                            wfS_pbind (wfS_popt wfS_authorTagP) fun _ =>
                              wfS_pbind wfS_wsSkip fun _ =>
                                wfS_pmapP _ (wfS_popt wfS_stickyTagP)

theorem wfE_workflowP (fuel : Nat) : WfE (workflowP fuel) := by
  have hstepsS : WfS (fun l2 =>
      (.ok ((stepsLoopP fuel l2).1, (stepsLoopP fuel l2).2) :
        Except PErr (List Step × List Char))) := by
    intro l a r h
    injection h with h
    injection h with h1 h2
    obtain ⟨c1, hc1⟩ := stepsLoopP_suffix fuel l
    exact ⟨c1, by rw [← h2]; exact hc1.symm⟩
  have hstepsE : WfE (fun l2 =>
      (.ok ((stepsLoopP fuel l2).1, (stepsLoopP fuel l2).2) :
        Except PErr (List Step × List Char))) := by
    intro l e h
    exact absurd h (by simp)
  exact wfE_pbind (wfS_plit _ _) (wfE_plit _ _) fun _ =>
    wfE_pbind wfS_wsSkip wfE_wsSkip fun _ =>
      wfE_pbind wfS_identifierP wfE_identifierP fun _ =>
        wfE_pbind wfS_wsSkip wfE_wsSkip fun _ =>
          wfE_pbind wfS_versionP wfE_versionP fun _ =>
            wfE_pbind wfS_wsSkip wfE_wsSkip fun _ =>
              wfE_pbind (wfS_plit _ _) (wfE_plit _ _) fun _ =>
                wfE_pbind wfS_wsSkip wfE_wsSkip fun _ =>
                  wfE_pbind (wfS_stepP fuel) (wfE_stepP fuel) fun _ =>
                    wfE_pbind hstepsS hstepsE fun _ =>
                      wfE_pbind wfS_wsSkip wfE_wsSkip fun _ =>
                        wfE_pbind (wfS_plit _ _) (wfE_plit _ _) fun _ =>
                          wfE_pbind wfS_wsSkip wfE_wsSkip fun _ =>
                            wfE_pbind (wfS_popt wfS_authorTagP) wfE_popt fun _ =>
                              wfE_pbind wfS_wsSkip wfE_wsSkip fun _ =>
                                wfE_pmapP _ wfE_popt

/-- Every character kept by `takeWhile` satisfies the predicate. -/
theorem all_takeWhile (p : Char → Bool) (l : List Char) :
    (l.takeWhile p).all p = true := by
  induction l with
  | nil => rfl
  | cons c t ih =>
    unfold List.takeWhile
    by_cases hc : p c = true
    · rw [hc]
      simp only [List.all_cons, hc, Bool.true_and]
      exact ih
    · rw [show p c = false from by simp_all]
      rfl

/-- The trace of a successful `workflow` parse: the nine components succeed
in their fixed order, each on the whitespace-stripped rest of the previous
one, and the workflow value is assembled from their results. -/
theorem workflowP_ok_trace (fuel : Nat) (l : List Char) (w : Workflow)
    (rEnd : List Char) (h : workflowP fuel l = .ok (w, rEnd)) :
    ∃ (name ver : String) (s1 : Step) (ss : List Step) (author : Option String)
      (sticky : Option Unit) (rKw rId rVer rBr rS1 rSs rBr2 rAu : List Char),
      plit ['w','o','r','k','f','l','o','w'] "workflow" l = .ok ((), rKw) ∧
      identifierP (rKw.dropWhile isWsChar) = .ok (name, rId) ∧
      versionP (rId.dropWhile isWsChar) = .ok (ver, rVer) ∧
      plit ['\x7b'] "workflow" (rVer.dropWhile isWsChar) = .ok ((), rBr) ∧
      stepP fuel (rBr.dropWhile isWsChar) = .ok (s1, rS1) ∧
      stepsLoopP fuel rS1 = (ss, rSs) ∧
      plit ['\x7d'] "workflow" (rSs.dropWhile isWsChar) = .ok ((), rBr2) ∧
      popt authorTagP (rBr2.dropWhile isWsChar) = .ok (author, rAu) ∧
      popt stickyTagP (rAu.dropWhile isWsChar) = .ok (sticky, rEnd) ∧
      w = ⟨name, ver, s1 :: ss, author, sticky.isSome⟩ := by
  unfold workflowP at h
  obtain ⟨u1, rKw, hKw, h⟩ := pbind_ok.mp h
  obtain ⟨u2, rw1, hw1, h⟩ := pbind_ok.mp h
  obtain ⟨name, rId, hId, h⟩ := pbind_ok.mp h
  obtain ⟨u3, rw2, hw2, h⟩ := pbind_ok.mp h
  obtain ⟨ver, rVer, hVer, h⟩ := pbind_ok.mp h
  obtain ⟨u4, rw3, hw3, h⟩ := pbind_ok.mp h
  obtain ⟨u5, rBr, hBr, h⟩ := pbind_ok.mp h
  obtain ⟨u6, rw4, hw4, h⟩ := pbind_ok.mp h
  obtain ⟨s1, rS1, hS1, h⟩ := pbind_ok.mp h
  obtain ⟨ss, rSs, hSs, h⟩ := pbind_ok.mp h
  obtain ⟨u7, rw5, hw5, h⟩ := pbind_ok.mp h
  obtain ⟨u8, rBr2, hBr2, h⟩ := pbind_ok.mp h
  obtain ⟨u9, rw6, hw6, h⟩ := pbind_ok.mp h
  obtain ⟨author, rAu, hAu, h⟩ := pbind_ok.mp h
  obtain ⟨u10, rw7, hw7, h⟩ := pbind_ok.mp h
  obtain ⟨sticky, hSt, hw⟩ := pmapP_ok.mp h
  injection hw1 with hw1
  injection hw1 with hw1a hw1b
  injection hw2 with hw2
  injection hw2 with hw2a hw2b
  injection hw3 with hw3
  injection hw3 with hw3a hw3b
  injection hw4 with hw4
  injection hw4 with hw4a hw4b
  injection hw5 with hw5
  injection hw5 with hw5a hw5b
  injection hw6 with hw6
  injection hw6 with hw6a hw6b
  injection hw7 with hw7
  injection hw7 with hw7a hw7b
  injection hSs with hSs
  injection hSs with hSsa hSsb
  refine ⟨name, ver, s1, ss, author, sticky, rKw, rId, rVer, rBr, rS1,
    (stepsLoopP fuel rS1).2, rBr2, rAu, hKw, ?_, ?_, ?_, ?_, ?_, ?_, ?_, ?_, ?_⟩
  · rw [← hw1b] at hId
    exact hId
  · rw [← hw2b] at hVer
    exact hVer
  · rw [← hw3b] at hBr
    exact hBr
  · rw [← hw4b] at hS1
    exact hS1
  · rw [← hSsa]
  · rw [← hw5b] at hBr2
    rw [hSsb]
    exact hBr2
  · rw [← hw6b] at hAu
    exact hAu
  · rw [← hw7b] at hSt
    exact hSt
  · rw [← hw]

/-! ### The claims -/

/-- A successful parse runs the `workflow` production over the whole input:
only whitespace may remain unconsumed. -/
theorem parse_ok_workflowP (s : String) (w : Workflow) (h : parse s = .ok w) :
    ∃ r, workflowP (s.data.length + 1) (s.data.dropWhile isWsChar) = .ok (w, r) ∧
      r.dropWhile isWsChar = [] := by
  unfold parse at h
  cases hw : workflowP (s.data.length + 1) (s.data.dropWhile isWsChar) with
  | error e =>
    rw [hw] at h
    exact absurd h (by simp)
  | ok wr =>
    obtain ⟨w1, r⟩ := wr
    rw [hw] at h
    dsimp only at h
    cases hr : r.dropWhile isWsChar with
    | nil =>
      rw [hr] at h
      injection h with h
      exact ⟨r, by rw [h], hr⟩
    | cons c r2 =>
      rw [hr] at h
      exact absurd h (by simp)

/-- `step_body` never returns an empty statement list. -/
theorem stepBodyP_ok_nonempty (fuel : Nat) (l : List Char) (b : List Stmt)
    (r : List Char) (h : stepBodyP fuel l = .ok (b, r)) : b ≠ [] := by
  cases fuel with
  | zero => exact absurd h (by simp [stepBodyP])
  | succ f =>
    unfold stepBodyP at h
    cases hi : stepBodyItemP f l with
    | error e => rw [hi] at h; exact absurd h (by simp)
    | ok sr =>
      obtain ⟨s, r1⟩ := sr
      rw [hi] at h
      injection h with h
      injection h with h1 h2
      rw [← h1]
      simp

/-- A parsed `step` has a nonempty body. -/
theorem stepP_ok_body_nonempty (fuel : Nat) (l : List Char) (st : Step)
    (r : List Char) (h : stepP fuel l = .ok (st, r)) : st.body ≠ [] := by
  unfold stepP at h
  obtain ⟨u1, r1, h1, h⟩ := pbind_ok.mp h
  obtain ⟨u2, r2, h2, h⟩ := pbind_ok.mp h
  obtain ⟨name, r3, h3, h⟩ := pbind_ok.mp h
  obtain ⟨u3, r4, h4, h⟩ := pbind_ok.mp h
  obtain ⟨u4, r5, h5, h⟩ := pbind_ok.mp h
  obtain ⟨u5, r6, h6, h⟩ := pbind_ok.mp h
  obtain ⟨body, r7, h7, h⟩ := pbind_ok.mp h
  obtain ⟨u6, r8, h8, h⟩ := pbind_ok.mp h
  obtain ⟨u7, h9, h10⟩ := pmapP_ok.mp h
  have hb := stepBodyP_ok_nonempty fuel r6 body r7 h7
  rw [h10]
  exact hb

/-- Every step produced by the `step+` continuation has a nonempty body. -/
theorem stepsLoopP_body_nonempty (fuel : Nat) (l : List Char) :
    ∀ st ∈ (stepsLoopP fuel l).1, st.body ≠ [] := by
  induction fuel generalizing l with
  | zero => intro st hst; exact absurd hst (by simp [stepsLoopP])
  | succ f ih =>
    intro st hst
    have hshow : stepsLoopP (f + 1) l =
        (match stepP f (l.dropWhile isWsChar) with
          | .error _ => (([] : List Step), l)
          | .ok (s, r) => (s :: (stepsLoopP f r).1, (stepsLoopP f r).2)) := rfl
    rw [hshow] at hst
    cases hi : stepP f (l.dropWhile isWsChar) with
    | error e =>
      rw [hi] at hst
      exact absurd hst (by simp)
    | ok sr =>
      obtain ⟨s, r⟩ := sr
      rw [hi] at hst
      simp only [List.mem_cons] at hst
      rcases hst with rfl | hst
      · exact stepP_ok_body_nonempty f _ _ _ hi
      · exact ih r st hst

/-- C6: every workflow returned by `parse` has at least one step, and every
step has at least one statement; the grammar's `step+` and the `+` of
`step_body` make empty bodies unparseable, and the rejection half holds
too: a workflow source whose brace body contains zero steps, and one whose
step's brace body contains zero statements, are rejected with a
`ParseError`. -/
theorem claim_C6_nonempty_steps_and_bodies (s : String) (w : Workflow)
    (h : parse s = .ok w) :
    (w.steps ≠ [] ∧ ∀ st ∈ w.steps, st.body ≠ []) ∧
    (∃ e, parse "workflow a v1\x7b\x7d" = .error e) ∧
    (∃ e, parse "workflow a v1\x7bstep s\x7b\x7d\x7d" = .error e) := by
  refine ⟨?_, ⟨_, rfl⟩, ⟨_, rfl⟩⟩
  obtain ⟨r, hw, -⟩ := parse_ok_workflowP s w h
  obtain ⟨name, ver, s1, ss, author, sticky, rKw, rId, rVer, rBr, rS1, rSs,
    rBr2, rAu, -, -, -, -, hS1, hSs, -, -, -, hwEq⟩ :=
    workflowP_ok_trace _ _ _ _ hw
  constructor
  · rw [hwEq]
    simp
  · intro st hst
    rw [hwEq] at hst
    simp only [List.mem_cons] at hst
    rcases hst with rfl | hst
    · exact stepP_ok_body_nonempty _ _ _ _ hS1
    · have : st ∈ (stepsLoopP (s.data.length + 1) rS1).1 := by
        rw [hSs]
        exact hst
      exact stepsLoopP_body_nonempty _ _ st this

/-- Closed instance for C6: a concrete two-step source parses, and the
conclusion holds for its workflow. -/
theorem claim_C6_witness :
    parse "workflow a v1\x7bstep s\x7bc()\x7dstep t\x7bd()\x7d\x7d" =
      .ok ⟨"a", "v1",
        [⟨"s", [Stmt.act (ActionV.cmd "c" [])]⟩,
         ⟨"t", [Stmt.act (ActionV.cmd "d" [])]⟩], none, false⟩ ∧
    (⟨"a", "v1",
        [⟨"s", [Stmt.act (ActionV.cmd "c" [])]⟩,
         ⟨"t", [Stmt.act (ActionV.cmd "d" [])]⟩], none, false⟩ : Workflow).steps ≠ [] ∧
    ∀ st ∈ (⟨"a", "v1",
        [⟨"s", [Stmt.act (ActionV.cmd "c" [])]⟩,
         ⟨"t", [Stmt.act (ActionV.cmd "d" [])]⟩], none, false⟩ : Workflow).steps,
      st.body ≠ [] :=
  ⟨rfl,
   (claim_C6_nonempty_steps_and_bodies
     "workflow a v1\x7bstep s\x7bc()\x7dstep t\x7bd()\x7d\x7d"
     ⟨"a", "v1",
       [⟨"s", [Stmt.act (ActionV.cmd "c" [])]⟩,
        ⟨"t", [Stmt.act (ActionV.cmd "d" [])]⟩], none, false⟩ rfl).1.1,
   (claim_C6_nonempty_steps_and_bodies
     "workflow a v1\x7bstep s\x7bc()\x7dstep t\x7bd()\x7d\x7d"
     ⟨"a", "v1",
       [⟨"s", [Stmt.act (ActionV.cmd "c" [])]⟩,
        ⟨"t", [Stmt.act (ActionV.cmd "d" [])]⟩], none, false⟩ rfl).1.2⟩

/-- C5: inside `expression`, the range and comparison productions are ordered
alternatives with range first and are mutually exclusive: whenever the guard
text is derivable as a `range_expression`, `expression` yields that
`RangeExpression` (never a comparison or bare simple expression); and
whenever `expression` yields a comparison or a bare simple expression, the
range alternative failed on that guard. -/
theorem claim_C5_expression_range_first :
    (∀ l ab r, rangeExpressionP l = .ok (ab, r) →
      expressionP l = .ok (Expr.range ab.1 ab.2, r)) ∧
    (∀ l g r, expressionP l = .ok (g, r) →
      (∀ a op b, g = Expr.cmp a op b → ∃ e, rangeExpressionP l = .error e) ∧
      (∀ a, g = Expr.bare a → ∃ e, rangeExpressionP l = .error e)) := by
  constructor
  · intro l ab r h
    exact palt_ok.mpr (.inl (pmapP_ok.mpr ⟨ab, h, rfl⟩))
  · intro l g r h
    rcases palt_ok.mp h with h1 | ⟨⟨e, he⟩, h2⟩
    · obtain ⟨ab, -, hg⟩ := pmapP_ok.mp h1
      constructor
      · intro a op b heq
        rw [hg] at heq
        exact absurd heq (by simp)
      · intro a heq
        rw [hg] at heq
        exact absurd heq (by simp)
    · have he2 := pmapP_error.mp he
      exact ⟨fun _ _ _ _ => ⟨_, he2⟩, fun _ _ => ⟨_, he2⟩⟩

/-- Closed instance for C5: on `a..b` the theorem produces the range parse,
and on the bare guard `x` it certifies that the range alternative failed. -/
theorem claim_C5_witness :
    expressionP ['a', '.', '.', 'b'] = .ok (Expr.range "a" "b", []) ∧
    (∃ e, rangeExpressionP ['x'] = .error e) :=
  ⟨claim_C5_expression_range_first.1 ['a', '.', '.', 'b'] ("a", "b") [] rfl,
   (claim_C5_expression_range_first.2 ['x'] (Expr.bare (Atom.ident "x")) [] rfl).2
     (Atom.ident "x") rfl⟩

/-- The version-tail scanner only collects ASCII digits: the remaining digits
of the current group are all digits, and every later group is nonempty and
all digits (in state `afterDot`, the first component is the new group and is
nonempty). -/
theorem vtSM_digits (l : List Char) :
    (∀ ds gs rest, vtSM .inGroup l = some (ds, gs, rest) →
      ds.all isDigitChar = true ∧ ∀ g ∈ gs, g ≠ [] ∧ g.all isDigitChar = true) ∧
    (∀ g gs rest, vtSM .afterDot l = some (g, gs, rest) →
      (g ≠ [] ∧ g.all isDigitChar = true) ∧
        ∀ g2 ∈ gs, g2 ≠ [] ∧ g2.all isDigitChar = true) := by
  induction l with
  | nil =>
    constructor
    · intro ds gs rest h
      injection h with h
      injection h with h1 h
      injection h with h2 h3
      rw [← h1, ← h2]
      exact ⟨rfl, by simp⟩
    · intro g gs rest h
      exact absurd h (by simp [vtSM])
  | cons c t ih =>
    obtain ⟨ihG, ihD⟩ := ih
    constructor
    · intro ds gs rest h
      unfold vtSM at h
      by_cases hd : isDigitChar c = true
      · rw [if_pos hd] at h
        cases hv : vtSM .inGroup t with
        | none => rw [hv] at h; exact absurd h (by simp)
        | some x =>
          obtain ⟨ds1, gs1, rest1⟩ := x
          rw [hv] at h
          injection h with h
          injection h with h1 h
          injection h with h2 h3
          obtain ⟨hds1, hgs1⟩ := ihG _ _ _ hv
          rw [← h1, ← h2]
          exact ⟨by simp [hd, hds1], hgs1⟩
      · rw [if_neg hd] at h
        by_cases hw : isWsChar c = true
        · rw [if_pos hw] at h
          cases hv : vtSM .inGroup t with
          | none => rw [hv] at h; exact absurd h (by simp)
          | some x =>
            obtain ⟨ds1, gs1, rest1⟩ := x
            rw [hv] at h
            obtain ⟨hds1, hgs1⟩ := ihG _ _ _ hv
            rcases ds1 with - | ⟨d, ds2⟩
            · rcases gs1 with - | ⟨g, gs2⟩
              · injection h with h
                injection h with h1 h
                injection h with h2 h3
                rw [← h1, ← h2]
                exact ⟨rfl, by simp⟩
              · injection h with h
                injection h with h1 h
                injection h with h2 h3
                rw [← h1, ← h2]
                exact ⟨rfl, hgs1⟩
            · injection h with h
              injection h with h1 h
              injection h with h2 h3
              rw [← h1, ← h2]
              exact ⟨hds1, hgs1⟩
        · rw [if_neg hw] at h
          by_cases hdot : c = '.'
          · rw [if_pos hdot] at h
            cases hv : vtSM .afterDot t with
            | none =>
              rw [hv] at h
              injection h with h
              injection h with h1 h
              injection h with h2 h3
              rw [← h1, ← h2]
              exact ⟨rfl, by simp⟩
            | some x =>
              obtain ⟨g1, gs1, rest1⟩ := x
              rw [hv] at h
              injection h with h
              injection h with h1 h
              injection h with h2 h3
              obtain ⟨hg1, hgs1⟩ := ihD _ _ _ hv
              rw [← h1, ← h2]
              refine ⟨rfl, ?_⟩
              intro g2 hg2
              simp only [List.mem_cons] at hg2
              rcases hg2 with rfl | hg2
              · exact hg1
              · exact hgs1 _ hg2
          · rw [if_neg hdot] at h
            injection h with h
            injection h with h1 h
            injection h with h2 h3
            rw [← h1, ← h2]
            exact ⟨rfl, by simp⟩
    · intro g gs rest h
      unfold vtSM at h
      by_cases hw : isWsChar c = true
      · rw [if_pos hw] at h
        exact ihD _ _ _ h
      · rw [if_neg hw] at h
        by_cases hd : isDigitChar c = true
        · rw [if_pos hd] at h
          cases hv : vtSM .inGroup t with
          | none => rw [hv] at h; exact absurd h (by simp)
          | some x =>
            obtain ⟨ds1, gs1, rest1⟩ := x
            rw [hv] at h
            injection h with h
            injection h with h1 h
            injection h with h2 h3
            obtain ⟨hds1, hgs1⟩ := ihG _ _ _ hv
            rw [← h1, ← h2]
            exact ⟨⟨by simp, by simp [hd, hds1]⟩, hgs1⟩
        · rw [if_neg hd] at h
          exact absurd h (by simp)

/-- Prepending digits to a string the tail check accepts keeps it accepted. -/
theorem versionTailOk_append_digits (ds rest : List Char)
    (hds : ds.all isDigitChar = true) (h : versionTailOk rest = true) :
    versionTailOk (ds ++ rest) = true := by
  induction ds with
  | nil => exact h
  | cons d ds2 ih =>
    simp only [List.all_cons, Bool.and_eq_true] at hds
    rw [List.cons_append]
    unfold versionTailOk
    rw [if_pos hds.1]
    exact ih hds.2

/-- The flattened dotted groups pass the tail check when every group is a
nonempty digit run. -/
theorem versionTailOk_groups (gs : List (List Char))
    (hgs : ∀ g ∈ gs, g ≠ [] ∧ g.all isDigitChar = true) :
    versionTailOk (gs.foldr (fun g acc => '.' :: (g ++ acc)) []) = true := by
  induction gs with
  | nil => rfl
  | cons g gs2 ih =>
    obtain ⟨hne, hdig⟩ := hgs g (by simp)
    rcases g with - | ⟨d, ds⟩
    · exact absurd rfl hne
    simp only [List.all_cons, Bool.and_eq_true] at hdig
    simp only [List.foldr_cons, List.cons_append]
    unfold versionTailOk
    rw [if_neg (by decide : ¬isDigitChar '.' = true), if_pos rfl]
    show (isDigitChar d &&
      versionTailOk (ds ++ List.foldr (fun g acc => '.' :: (g ++ acc)) [] gs2)) = true
    rw [hdig.1]
    simp only [Bool.true_and]
    exact versionTailOk_append_digits ds _ hdig.2
      (ih fun g2 hg2 => hgs g2 (by simp [hg2]))

/-- Whatever `version` accepts, its value matches `v<digits>(.<digits>)*`. -/
theorem versionP_shape (l : List Char) (v : String) (r : List Char)
    (h : versionP l = .ok (v, r)) : versionShape v = true := by
  unfold versionP at h
  split at h
  case h_2 => exact absurd h (by simp)
  case h_1 t =>
    split at h
    case h_2 => exact absurd h (by simp)
    case h_1 c t2 hdw =>
      split at h
      case isFalse => exact absurd h (by simp)
      case isTrue hd =>
        split at h
        case h_2 => exact absurd h (by simp)
        case h_1 x ds gs rest hsm =>
          injection h with h
          injection h with h1 h2
          obtain ⟨hds, hgs⟩ := (vtSM_digits t2).1 _ _ _ hsm
          rw [← h1]
          show (isDigitChar c &&
            versionTailOk (ds ++ gs.foldr (fun g acc => '.' :: (g ++ acc)) [])) = true
          rw [hd]
          simp only [Bool.true_and]
          exact versionTailOk_append_digits ds _ hds (versionTailOk_groups gs hgs)

/-- C1: for every source text accepted by `parse`, the workflow's version
string matches `v<digits>(.<digits>)*` — the character `v`, one or more
ASCII digits, and zero or more groups of a dot and one or more digits, with
no other characters (in particular no whitespace) inside. -/
theorem claim_C1_version_matches_charset (s : String) (w : Workflow)
    (h : parse s = .ok w) : versionShape w.version = true := by
  obtain ⟨r, hw, -⟩ := parse_ok_workflowP s w h
  obtain ⟨name, ver, s1, ss, author, sticky, rKw, rId, rVer, rBr, rS1, rSs,
    rBr2, rAu, -, -, hVer, -, -, -, -, -, -, hwEq⟩ :=
    workflowP_ok_trace _ _ _ _ hw
  have : w.version = ver := by rw [hwEq]
  rw [this]
  exact versionP_shape _ _ _ hVer

/-- Closed instance for C1: a source whose version region even contains
implicit whitespace (`v 1 . 2`) parses to the whitespace-free version string
`v1.2`, which matches the charset. -/
theorem claim_C1_witness :
    parse "workflow a v 1 . 2\x7bstep s\x7bc()\x7d\x7d" =
      .ok ⟨"a", "v1.2", [⟨"s", [Stmt.act (ActionV.cmd "c" [])]⟩], none, false⟩ ∧
    versionShape (Workflow.version
      ⟨"a", "v1.2", [⟨"s", [Stmt.act (ActionV.cmd "c" [])]⟩], none, false⟩) = true :=
  ⟨rfl,
   claim_C1_version_matches_charset "workflow a v 1 . 2\x7bstep s\x7bc()\x7d\x7d"
     ⟨"a", "v1.2", [⟨"s", [Stmt.act (ActionV.cmd "c" [])]⟩], none, false⟩ rfl⟩

/-- An identifier character is never whitespace. -/
theorem identChar_not_ws (c : Char) (h : isIdentChar c = true) :
    isWsChar c = false := by
  by_contra hw
  simp only [Bool.not_eq_false] at hw
  unfold isWsChar at hw
  simp only [Bool.or_eq_true, decide_eq_true_eq] at hw
  rcases hw with ((rfl | rfl) | rfl) | rfl <;> revert h <;> decide

/-- Splitting `takeWhile`/`dropWhile` at a known boundary: a block whose
characters all satisfy the predicate, followed by a rest whose head does
not. -/
theorem takeWhile_all_append (p : Char → Bool) (y r : List Char)
    (hy : y.all p = true) (hr : ∀ c, r.head? = some c → p c = false) :
    (y ++ r).takeWhile p = y ∧ (y ++ r).dropWhile p = r := by
  induction y with
  | nil =>
    simp only [List.nil_append]
    cases r with
    | nil => exact ⟨rfl, rfl⟩
    | cons c r2 =>
      have hc := hr c rfl
      rw [List.takeWhile_cons, List.dropWhile_cons, hc]
      exact ⟨rfl, rfl⟩
  | cons c y2 ih =>
    simp only [List.all_cons, Bool.and_eq_true] at hy
    rw [List.cons_append, List.takeWhile_cons, List.dropWhile_cons, hy.1]
    obtain ⟨ht, hd⟩ := ih hy.2
    simp only [if_true]
    exact ⟨by rw [ht], hd⟩

/-- The name given to a literal does not affect its successes. -/
theorem plit_ok_name_irrel (cs : List Char) (n n' : String) (l : List Char)
    (u : Unit) (r : List Char) (h : plit cs n l = .ok (u, r)) :
    plit cs n' l = .ok (u, r) :=
  plit_ok.mpr (plit_ok.mp h)

/-- C8: the `call` keyword is matched with no word boundary.  For every
nonempty run `y` of identifier characters, an action text of the form
`call<y>(...)` that parses at all parses as an `ExternalFunctionCall` whose
function name is `y` — the suffix after `call` — and never as a `Command`
named `call<y>`, because the external-call alternative is tried first and its
`call` literal matches the first four characters of the identifier. -/
theorem claim_C8_call_prefix_capture (y rest : List Char) (fuel : Nat)
    (v : ActionV) (r : List Char) (hy : y ≠ []) (hall : y.all isIdentChar = true)
    (h : actionP fuel (['c','a','l','l'] ++ y ++ '(' :: rest) = .ok (v, r)) :
    ∃ args, v = ActionV.external y.asString args := by
  have hyws : (y ++ '(' :: rest).dropWhile isWsChar = y ++ '(' :: rest := by
    cases y with
    | nil => exact absurd rfl hy
    | cons c y2 =>
      rw [List.cons_append, List.dropWhile_cons]
      rw [identChar_not_ws c (by simp_all [List.all_cons])]
      simp
  have hysplit := takeWhile_all_append isIdentChar y ('(' :: rest) hall
    (by intro c hc; injection hc with hc; rw [← hc]; decide)
  rcases palt_ok.mp h with h1 | ⟨⟨e, he⟩, h2⟩
  · -- the external-call branch succeeded: read off its function name
    obtain ⟨fa, hfa, hv⟩ := pmapP_ok.mp h1
    unfold externalFnCallP at hfa
    obtain ⟨u1, r1, hKw, hfa⟩ := pbind_ok.mp hfa
    have hr1 : r1 = y ++ '(' :: rest := by
      have := plit_ok.mp hKw
      exact (List.append_cancel_left this.symm)
    obtain ⟨u2, r2, hws1, hfa⟩ := pbind_ok.mp hfa
    injection hws1 with hws1
    injection hws1 with hws1a hws1b
    rw [hr1, hyws] at hws1b
    obtain ⟨fn, r3, hId, hfa⟩ := pbind_ok.mp hfa
    rw [← hws1b] at hId
    unfold identifierP at hId
    obtain ⟨cs, hcs, hfn⟩ := pmapP_ok.mp hId
    obtain ⟨hcs1, -, -⟩ := pclass1_ok.mp hcs
    rw [hysplit.1] at hcs1
    obtain ⟨u3, r4, hws2, hfa⟩ := pbind_ok.mp hfa
    obtain ⟨u4, r5, hPar, hfa⟩ := pbind_ok.mp hfa
    obtain ⟨u5, r6, hws3, hfa⟩ := pbind_ok.mp hfa
    obtain ⟨args, r7, hArgs, hfa⟩ := pbind_ok.mp hfa
    obtain ⟨u6, r8, hws4, hfa⟩ := pbind_ok.mp hfa
    obtain ⟨u7, hClose, hfa2⟩ := pmapP_ok.mp hfa
    refine ⟨args, ?_⟩
    rw [hv, hfa2, hfn, hcs1]
  · -- the external-call branch failed while the command branch succeeded:
    -- impossible, because after the identifiers both branches run the same
    -- parenthesis-and-arguments parser on the same rest
    exfalso
    obtain ⟨name, rc1, hCmd, h2⟩ := pbind_ok.mp h2
    unfold commandP identifierP at hCmd
    obtain ⟨cs, hcs, hname⟩ := pmapP_ok.mp hCmd
    obtain ⟨hcs1, -, hcs3⟩ := pclass1_ok.mp hcs
    have hallc : (['c','a','l','l'] ++ y).all isIdentChar = true := by
      simp only [List.all_append, Bool.and_eq_true]
      exact ⟨by decide, hall⟩
    have hsplit2 := takeWhile_all_append isIdentChar (['c','a','l','l'] ++ y)
      ('(' :: rest) hallc
      (by intro c hc; injection hc with hc; rw [← hc]; decide)
    rw [hsplit2.2] at hcs3
    obtain ⟨u2, rc2, hws1, h2⟩ := pbind_ok.mp h2
    injection hws1 with hws1
    injection hws1 with hws1a hws1b
    rw [hcs3] at hws1b
    have hpws : ('(' :: rest).dropWhile isWsChar = '(' :: rest := by
      rw [List.dropWhile_cons, if_neg (by decide : ¬(isWsChar '(' = true))]
    rw [hpws] at hws1b
    obtain ⟨u3, rc3, hPar, h2⟩ := pbind_ok.mp h2
    rw [← hws1b] at hPar
    have hrc3 : rc3 = rest := by
      have h5 := plit_ok.mp hPar
      injection h5 with h5a h5b
      exact h5b.symm
    rw [hrc3] at h2
    obtain ⟨u4, rc4, hws2, h2⟩ := pbind_ok.mp h2
    obtain ⟨args, rc5, hArgs, h2⟩ := pbind_ok.mp h2
    obtain ⟨u5, rc6, hws3, h2⟩ := pbind_ok.mp h2
    obtain ⟨u6, hClose, hvv⟩ := pmapP_ok.mp h2
    -- rebuild a successful external-call run from the same pieces
    have hext : externalFnCallP fuel (['c','a','l','l'] ++ y ++ '(' :: rest) =
        .ok ((y.asString, args), r) := by
      unfold externalFnCallP
      refine pbind_ok.mpr ⟨(), y ++ '(' :: rest,
        plit_ok.mpr (List.append_assoc _ _ _), ?_⟩
      refine pbind_ok.mpr ⟨(), y ++ '(' :: rest, by rw [wsSkip_eq, hyws], ?_⟩
      refine pbind_ok.mpr ⟨y.asString, '(' :: rest, ?_, ?_⟩
      · unfold identifierP
        refine pmapP_ok.mpr ⟨y, ?_, rfl⟩
        refine pclass1_ok.mpr ⟨hysplit.1.symm, hy, hysplit.2.symm⟩
      refine pbind_ok.mpr ⟨(), '(' :: rest, by rw [wsSkip_eq, hpws], ?_⟩
      refine pbind_ok.mpr ⟨(), rest, plit_ok.mpr rfl, ?_⟩
      refine pbind_ok.mpr ⟨u4, rc4, hws2, ?_⟩
      refine pbind_ok.mpr ⟨args, rc5, hArgs, ?_⟩
      refine pbind_ok.mpr ⟨u5, rc6, hws3, ?_⟩
      exact pmapP_ok.mpr ⟨u6, plit_ok_name_irrel _ "action" _ _ u6 r hClose, rfl⟩
    have he2 := pmapP_error.mp he
    rw [hext] at he2
    exact absurd he2 (by simp)

/-- Closed instance for C8: `callfoo()` parses as the external call `foo()`,
and the theorem applies to it. -/
theorem claim_C8_witness :
    (['f','o','o'] : List Char) ≠ [] ∧
    (['f','o','o'] : List Char).all isIdentChar = true ∧
    actionP 9 (['c','a','l','l'] ++ ['f','o','o'] ++ '(' :: [')']) =
      .ok (ActionV.external "foo" [], []) ∧
    ∃ args, ActionV.external "foo" [] =
      ActionV.external (['f','o','o'] : List Char).asString args :=
  ⟨by decide, by decide, rfl,
   claim_C8_call_prefix_capture ['f','o','o'] [')'] 9 (ActionV.external "foo" []) []
     (by decide) (by decide) rfl⟩

/-- C2 fails on the code: the `delimiter` production has no escape
alternative, so the same escaped-quote literal `"a\"b"` that is accepted as a
command parameter is rejected when it stands as a split delimiter, and the
`delimiter` production itself ends at the escaped quote, consuming only
`"a\"` of the literal. -/
theorem claim_C2_counterexample :
    parse "workflow a v1\x7bstep s\x7bc(\"a\\\"b\")\x7d\x7d" =
      .ok ⟨"a", "v1",
        [⟨"s", [Stmt.act (ActionV.cmd "c" [Atom.str "a\\\"b"])]⟩], none, false⟩ ∧
    (parse "workflow a v1\x7bstep s\x7bfor x in $r.split(\"a\\\"b\")\x7bc()\x7d\x7d\x7d").isOk
      = false ∧
    delimiterP ['"', 'a', '\\', '"', 'b', '"'] = .ok ("a\\", ['b', '"']) :=
  ⟨rfl, rfl, rfl⟩

/-- A run of plain content characters (no quote, no whitespace, no
backslash) before a closing quote is consumed whole by the string-body
scanner. -/
theorem stringBodyAux_plain (l rest : List Char)
    (hl : ∀ c ∈ l, c ≠ '"' ∧ isWsChar c = false ∧ c ≠ '\\') :
    stringBodyAux (l ++ ('"' :: rest)) = (l, '"' :: rest) := by
  induction l with
  | nil =>
    rw [List.nil_append]
    rw [stringBodyAux.eq_3 '"' rest (by intro t1 hq; exact absurd hq (by decide))]
    rw [if_neg (by decide : ¬(isWsChar '"' = true)), if_pos rfl]
  | cons c l2 ih =>
    obtain ⟨hq, hw, hb⟩ := hl c (by simp)
    rw [List.cons_append]
    rw [stringBodyAux.eq_3 c (l2 ++ ('"' :: rest))
      (by intro t1 hcb; exact absurd hcb hb)]
    rw [if_neg (by simp [hw]), if_neg hq]
    rw [ih fun c2 hc2 => hl c2 (by simp [hc2])]

/-- The string-body scanner takes an escaped quote together with the plain
characters around it, stopping at the closing quote. -/
theorem stringBodyAux_esc (pre post rest : List Char)
    (hpre : ∀ c ∈ pre, c ≠ '"' ∧ isWsChar c = false)
    (hpost : ∀ c ∈ post, c ≠ '"' ∧ isWsChar c = false ∧ c ≠ '\\') :
    stringBodyAux (pre ++ ('\\' :: '"' :: (post ++ ('"' :: rest)))) =
      (pre ++ ('\\' :: '"' :: post), '"' :: rest) := by
  induction pre with
  | nil =>
    rw [List.nil_append]
    rw [stringBodyAux.eq_2]
    rw [stringBodyAux_plain post rest hpost]
    rfl
  | cons c pre2 ih =>
    obtain ⟨hq, hw⟩ := hpre c (by simp)
    rw [List.cons_append]
    have hne : ∀ t1, c = '\\' →
        pre2 ++ ('\\' :: '"' :: (post ++ ('"' :: rest))) = '"' :: t1 → False := by
      intro t1 hcb ht
      cases pre2 with
      | nil =>
        injection ht with h1 h2
        exact absurd h1 (by decide)
      | cons d pre3 =>
        injection ht with h1 h2
        exact absurd h1 (hpre d (by simp)).1
    rw [stringBodyAux.eq_3 c (pre2 ++ ('\\' :: '"' :: (post ++ ('"' :: rest)))) hne]
    rw [if_neg (by simp [hw]), if_neg hq]
    rw [ih fun c2 hc2 => hpre c2 (by simp [hc2])]
    rw [List.cons_append]

/-- The delimiter-body scanner stops at the first quote: a run of non-quote
non-whitespace characters before a quote is consumed, and everything from
the quote on is left. -/
theorem delimBodyAux_stops (pre tail : List Char)
    (hpre : ∀ c ∈ pre, c ≠ '"' ∧ isWsChar c = false) :
    delimBodyAux (pre ++ ('"' :: tail)) = (pre, '"' :: tail) := by
  induction pre with
  | nil =>
    rw [List.nil_append]
    unfold delimBodyAux
    rw [if_neg (by decide : ¬(isWsChar '"' = true)), if_pos rfl]
  | cons c pre2 ih =>
    obtain ⟨hq, hw⟩ := hpre c (by simp)
    rw [List.cons_append]
    unfold delimBodyAux
    rw [if_neg (by simp [hw]), if_neg hq]
    rw [ih fun c2 hc2 => hpre c2 (by simp [hc2])]

/-- C2 (amended): string-literal positions — `param`, `value`,
`simple_expression` and split sources, all of which use the `string`
production — do permit backslash-escaped quotes, but the `delimiter` of a
`SplitExpression` does not: on the same escaped-quote literal, `string`
consumes the whole body while `delimiter` ends at the escaped quote, leaving
the remainder of the literal unconsumed. -/
theorem claim_C2_amended_escape_positions (pre post rest : List Char)
    (hpre : ∀ c ∈ pre, c ≠ '"' ∧ isWsChar c = false)
    (hpost : ∀ c ∈ post, c ≠ '"' ∧ isWsChar c = false ∧ c ≠ '\\') :
    stringLitP ('"' :: (pre ++ ('\\' :: '"' :: (post ++ ('"' :: rest))))) =
      .ok ((pre ++ ('\\' :: '"' :: post)).asString, rest) ∧
    paramP ('"' :: (pre ++ ('\\' :: '"' :: (post ++ ('"' :: rest))))) =
      .ok (Atom.str (pre ++ ('\\' :: '"' :: post)).asString, rest) ∧
    delimiterP ('"' :: (pre ++ ('\\' :: '"' :: (post ++ ('"' :: rest))))) =
      .ok ((pre ++ ['\\']).asString, post ++ ('"' :: rest)) := by
  have hstr : stringLitP ('"' :: (pre ++ ('\\' :: '"' :: (post ++ ('"' :: rest))))) =
      .ok ((pre ++ ('\\' :: '"' :: post)).asString, rest) := by
    show (match (stringBodyAux (pre ++ ('\\' :: '"' :: (post ++ ('"' :: rest))))).2.dropWhile
        isWsChar with
      | '"' :: t2 =>
        (.ok ((stringBodyAux (pre ++ ('\\' :: '"' :: (post ++ ('"' :: rest))))).1.asString,
          t2) : Except PErr (String × List Char))
      | r => .error ⟨r.length, ["string"]⟩) =
      .ok ((pre ++ ('\\' :: '"' :: post)).asString, rest)
    rw [stringBodyAux_esc pre post rest hpre hpost]
    show (match ('"' :: rest).dropWhile isWsChar with
      | '"' :: t2 =>
        (.ok ((pre ++ ('\\' :: '"' :: post)).asString, t2) :
          Except PErr (String × List Char))
      | r => .error ⟨r.length, ["string"]⟩) =
      .ok ((pre ++ ('\\' :: '"' :: post)).asString, rest)
    rw [List.dropWhile_cons, if_neg (by decide : ¬(isWsChar '"' = true))]
    rfl
  refine ⟨hstr, ?_, ?_⟩
  · exact palt_ok.mpr (.inl (pmapP_ok.mpr ⟨_, hstr, rfl⟩))
  · have hdelim : pre ++ ('\\' :: '"' :: (post ++ ('"' :: rest))) =
        (pre ++ ['\\']) ++ ('"' :: (post ++ ('"' :: rest))) := by
      simp
    show (match (delimBodyAux (pre ++ ('\\' :: '"' :: (post ++ ('"' :: rest))))).2.dropWhile
        isWsChar with
      | '"' :: t2 =>
        (.ok ((delimBodyAux (pre ++ ('\\' :: '"' :: (post ++ ('"' :: rest))))).1.asString,
          t2) : Except PErr (String × List Char))
      | r => .error ⟨r.length, ["delimiter"]⟩) =
      .ok ((pre ++ ['\\']).asString, post ++ ('"' :: rest))
    have hpre2 : ∀ c ∈ pre ++ ['\\'], c ≠ '"' ∧ isWsChar c = false := by
      intro c hc
      simp only [List.mem_append, List.mem_singleton] at hc
      rcases hc with hc | rfl
      · exact hpre c hc
      · exact ⟨by decide, by decide⟩
    rw [hdelim, delimBodyAux_stops (pre ++ ['\\']) (post ++ ('"' :: rest)) hpre2]
    show (match ('"' :: (post ++ ('"' :: rest))).dropWhile isWsChar with
      | '"' :: t2 =>
        (.ok ((pre ++ ['\\']).asString, t2) : Except PErr (String × List Char))
      | r => .error ⟨r.length, ["delimiter"]⟩) =
      .ok ((pre ++ ['\\']).asString, post ++ ('"' :: rest))
    rw [List.dropWhile_cons, if_neg (by decide : ¬(isWsChar '"' = true))]
    rfl

/-- Closed instance for C2 (amended): the literal `"a\"b"` as a whole in a
string position, and its truncation at the escape in a delimiter
position. -/
theorem claim_C2_amended_witness :
    (∀ c ∈ (['a'] : List Char), c ≠ '"' ∧ isWsChar c = false) ∧
    (∀ c ∈ (['b'] : List Char), c ≠ '"' ∧ isWsChar c = false ∧ c ≠ '\\') ∧
    (stringLitP ('"' :: (['a'] ++ ('\\' :: '"' :: (['b'] ++ ('"' :: []))))) =
      .ok ((['a'] ++ ('\\' :: '"' :: ['b'])).asString, []) ∧
    paramP ('"' :: (['a'] ++ ('\\' :: '"' :: (['b'] ++ ('"' :: []))))) =
      .ok (Atom.str (['a'] ++ ('\\' :: '"' :: ['b'])).asString, []) ∧
    delimiterP ('"' :: (['a'] ++ ('\\' :: '"' :: (['b'] ++ ('"' :: []))))) =
      .ok ((['a'] ++ ['\\']).asString, ['b'] ++ ('"' :: []))) :=
  ⟨by decide, by decide,
   claim_C2_amended_escape_positions ['a'] ['b'] [] (by decide) (by decide)⟩

/-- What `version` consumes always begins with the letter `v`. -/
theorem versionP_consumes (l : List Char) (v : String) (r : List Char)
    (h : versionP l = .ok (v, r)) : ∃ vc, l = ('v' :: vc) ++ r := by
  unfold versionP at h
  split at h
  case h_2 => exact absurd h (by simp)
  case h_1 t =>
    split at h
    case h_2 => exact absurd h (by simp)
    case h_1 c t2 hdw =>
      split at h
      case isFalse => exact absurd h (by simp)
      case isTrue hd =>
        split at h
        case h_2 => exact absurd h (by simp)
        case h_1 x ds gs rest hsm =>
          injection h with h
          injection h with h1 h2
          obtain ⟨c1, hc1⟩ := vtSM_suffix .inGroup t2 ds gs rest hsm
          refine ⟨t.takeWhile isWsChar ++ (c :: c1), ?_⟩
          rw [← h2]
          have ht : t = t.takeWhile isWsChar ++ (c :: t2) := by
            rw [← hdw, List.takeWhile_append_dropWhile]
          rw [List.cons_append]
          rw [List.append_assoc, List.cons_append, hc1]
          rw [← ht]

/-- What `author_tag` consumes: the two `@`, optional whitespace between and
after them, and the identity characters. -/
theorem authorTagP_consumes (l : List Char) (idStr : String) (r : List Char)
    (h : authorTagP l = .ok (idStr, r)) :
    ∃ aw1 aw2 idA, l = '@' :: (aw1 ++ ('@' :: (aw2 ++ (idA ++ r)))) ∧
      aw1.all isWsChar = true ∧ aw2.all isWsChar = true ∧
      idA.all isIdentityChar = true ∧ idStr = idA.asString := by
  unfold authorTagP at h
  obtain ⟨u1, r1, h1, h⟩ := pbind_ok.mp h
  obtain ⟨u2, r2, h2, h⟩ := pbind_ok.mp h
  obtain ⟨u3, r3, h3, h⟩ := pbind_ok.mp h
  obtain ⟨u4, r4, h4, h⟩ := pbind_ok.mp h
  have e1 := plit_ok.mp h1
  injection h2 with h2
  injection h2 with h2a h2b
  have e3 := plit_ok.mp h3
  injection h4 with h4
  injection h4 with h4a h4b
  unfold identityP at h
  obtain ⟨cs, hcs, hid⟩ := pmapP_ok.mp h
  injection hcs with hcs
  injection hcs with hcs1 hcs2
  refine ⟨r1.takeWhile isWsChar, r3.takeWhile isWsChar, r4.takeWhile isIdentityChar,
    ?_, all_takeWhile _ _, all_takeWhile _ _, all_takeWhile _ _, ?_⟩
  · rw [e1]
    have er1 : r1 = r1.takeWhile isWsChar ++ r2 := by
      rw [← h2b, List.takeWhile_append_dropWhile]
    have er3 : r3 = r3.takeWhile isWsChar ++ r4 := by
      rw [← h4b, List.takeWhile_append_dropWhile]
    have er4 : r4 = r4.takeWhile isIdentityChar ++ r := by
      rw [← hcs2, List.takeWhile_append_dropWhile]
    show '@' :: r1 = '@' :: (r1.takeWhile isWsChar ++ ('@' :: (r3.takeWhile isWsChar ++
      (r4.takeWhile isIdentityChar ++ r))))
    rw [← er4, ← er3]
    rw [show ('@' :: r3 : List Char) = ['@'] ++ r3 from rfl, ← e3, ← er1]
  · rw [hcs1]
    exact hid

set_option maxRecDepth 4000 in
/-- C3: `parse` accepts a workflow only as keyword `workflow`, identifier,
version, brace-delimited step region, optional author tag and optional
sticky marker, in exactly that fixed order (whitespace between the parts):
every accepted source decomposes that way, with the author tag — when
present — strictly before the sticky marker; and a source in which the
sticky marker precedes the author tag is rejected with a ParseError. -/
theorem claim_C3_fixed_order (s : String) (w : Workflow) (h : parse s = .ok w) :
    (∃ (w0 w1 w2 w3 w4 w5 w6 : List Char) (idc verc midc authc stc : List Char),
      s.data = w0 ++ (['w','o','r','k','f','l','o','w'] ++ (w1 ++ (idc ++ (w2 ++
        (verc ++ (w3 ++ (['\x7b'] ++ (midc ++ (['\x7d'] ++ (w4 ++ (authc ++
          (w5 ++ (stc ++ w6))))))))))))) ∧
      w0.all isWsChar = true ∧ w1.all isWsChar = true ∧ w2.all isWsChar = true ∧
      w3.all isWsChar = true ∧ w4.all isWsChar = true ∧ w5.all isWsChar = true ∧
      w6.all isWsChar = true ∧
      idc ≠ [] ∧ idc.all isIdentChar = true ∧ w.name = idc.asString ∧
      verc.head? = some 'v' ∧
      ((authc = [] ∧ w.author = none) ∨
        (∃ aw1 aw2 idA, authc = '@' :: (aw1 ++ ('@' :: (aw2 ++ idA))) ∧
          aw1.all isWsChar = true ∧ aw2.all isWsChar = true ∧
          idA.all isIdentityChar = true ∧ w.author = some idA.asString)) ∧
      ((stc = [] ∧ w.sticky = false) ∨
        (stc = ['s','t','i','c','k','y'] ∧ w.sticky = true))) ∧
    (∃ pe, parse "workflow a v1\x7bstep s\x7bc()\x7d\x7d sticky @@bob" = .error pe) := by
  constructor
  · obtain ⟨rEnd, hw, hrEnd⟩ := parse_ok_workflowP s w h
    obtain ⟨name, ver, s1, ss, author, sticky, rKw, rId, rVer, rBr, rS1, rSs,
      rBr2, rAu, hKw, hId, hVer, hBrOpen, hS1, hSs, hBrClose, hAu, hSt, hwEq⟩ :=
      workflowP_ok_trace _ _ _ _ hw
    have split0 : s.data = s.data.takeWhile isWsChar ++ s.data.dropWhile isWsChar :=
      (List.takeWhile_append_dropWhile _ _).symm
    have eKw := plit_ok.mp hKw
    have splitKw : rKw = rKw.takeWhile isWsChar ++ rKw.dropWhile isWsChar :=
      (List.takeWhile_append_dropWhile _ _).symm
    unfold identifierP at hId
    obtain ⟨idc, hidc, hname⟩ := pmapP_ok.mp hId
    obtain ⟨hidc1, hidc2, hidc3⟩ := pclass1_ok.mp hidc
    have splitId : rKw.dropWhile isWsChar = idc ++ rId := by
      rw [hidc1, hidc3, List.takeWhile_append_dropWhile]
    have splitId2 : rId = rId.takeWhile isWsChar ++ rId.dropWhile isWsChar :=
      (List.takeWhile_append_dropWhile _ _).symm
    obtain ⟨vc, hvc⟩ := versionP_consumes _ _ _ hVer
    have splitVer : rVer = rVer.takeWhile isWsChar ++ rVer.dropWhile isWsChar :=
      (List.takeWhile_append_dropWhile _ _).symm
    have eBr := plit_ok.mp hBrOpen
    have splitBr : rBr = rBr.takeWhile isWsChar ++ rBr.dropWhile isWsChar :=
      (List.takeWhile_append_dropWhile _ _).symm
    obtain ⟨cS1, hcS1⟩ := wfS_stepP _ _ _ _ hS1
    obtain ⟨cSs, hcSs⟩ := stepsLoopP_suffix (s.data.length + 1) rS1
    have hrSs : (stepsLoopP (s.data.length + 1) rS1).2 = rSs := by rw [hSs]
    rw [hrSs] at hcSs
    have hcSs2 : rS1 = cSs ++ rSs := hcSs.symm
    have splitSs : rSs = rSs.takeWhile isWsChar ++ rSs.dropWhile isWsChar :=
      (List.takeWhile_append_dropWhile _ _).symm
    have eBr2 := plit_ok.mp hBrClose
    have splitBr2 : rBr2 = rBr2.takeWhile isWsChar ++ rBr2.dropWhile isWsChar :=
      (List.takeWhile_append_dropWhile _ _).symm
    have splitAu : rAu = rAu.takeWhile isWsChar ++ rAu.dropWhile isWsChar :=
      (List.takeWhile_append_dropWhile _ _).symm
    have hw6 : rEnd.all isWsChar = true := by
      have h1 := List.dropWhile_eq_nil_iff.mp hrEnd
      rw [List.all_eq_true]
      intro c hc
      exact h1 c hc
    have acc := split0
    rw [eKw, splitKw, splitId, splitId2, hvc, splitVer, eBr, splitBr, hcS1,
      hcSs2, splitSs, eBr2, splitBr2] at acc
    rcases popt_ok.mp hAu with ⟨aStr, hAuSome, hAuRun⟩ | ⟨hAuNone, hAuId, -⟩
    · obtain ⟨aw1, aw2, idA, hASplit, hAw1, hAw2, hAId, hAVal⟩ :=
        authorTagP_consumes _ _ _ hAuRun
      rcases popt_ok.mp hSt with ⟨stU, hStSome, hStRun⟩ | ⟨hStNone, hStId, -⟩
      · have eSt := plit_ok.mp hStRun
        rw [hASplit, splitAu, eSt] at acc
        refine ⟨s.data.takeWhile isWsChar, rKw.takeWhile isWsChar,
          rId.takeWhile isWsChar, rVer.takeWhile isWsChar,
          rBr2.takeWhile isWsChar, rAu.takeWhile isWsChar, rEnd,
          idc, 'v' :: vc,
          rBr.takeWhile isWsChar ++ (cS1 ++ (cSs ++ rSs.takeWhile isWsChar)),
          '@' :: (aw1 ++ ('@' :: (aw2 ++ idA))), ['s','t','i','c','k','y'],
          ?_, all_takeWhile _ _, all_takeWhile _ _, all_takeWhile _ _,
          all_takeWhile _ _, all_takeWhile _ _, all_takeWhile _ _, hw6,
          hidc2, by rw [hidc1]; exact all_takeWhile _ _, by rw [hwEq, hname, hidc1],
          rfl, ?_, ?_⟩
        · simpa only [List.append_assoc, List.cons_append, List.nil_append] using acc
        · exact .inr ⟨aw1, aw2, idA, rfl, hAw1, hAw2, hAId, by
            rw [hwEq]
            show author = some idA.asString
            rw [hAuSome, hAVal]⟩
        · refine .inr ⟨rfl, ?_⟩
          rw [hwEq]
          show sticky.isSome = true
          rw [hStSome]
          rfl
      · rw [hASplit, splitAu, ← hStId] at acc
        refine ⟨s.data.takeWhile isWsChar, rKw.takeWhile isWsChar,
          rId.takeWhile isWsChar, rVer.takeWhile isWsChar,
          rBr2.takeWhile isWsChar, rAu.takeWhile isWsChar, rEnd,
          idc, 'v' :: vc,
          rBr.takeWhile isWsChar ++ (cS1 ++ (cSs ++ rSs.takeWhile isWsChar)),
          '@' :: (aw1 ++ ('@' :: (aw2 ++ idA))), [],
          ?_, all_takeWhile _ _, all_takeWhile _ _, all_takeWhile _ _,
          all_takeWhile _ _, all_takeWhile _ _, all_takeWhile _ _, hw6,
          hidc2, by rw [hidc1]; exact all_takeWhile _ _, by rw [hwEq, hname, hidc1],
          rfl, ?_, ?_⟩
        · simpa only [List.append_assoc, List.cons_append, List.nil_append] using acc
        · exact .inr ⟨aw1, aw2, idA, rfl, hAw1, hAw2, hAId, by
            rw [hwEq]
            show author = some idA.asString
            rw [hAuSome, hAVal]⟩
        · refine .inl ⟨rfl, ?_⟩
          rw [hwEq]
          show sticky.isSome = false
          rw [hStNone]
          rfl
    · rcases popt_ok.mp hSt with ⟨stU, hStSome, hStRun⟩ | ⟨hStNone, hStId, -⟩
      · have eSt := plit_ok.mp hStRun
        rw [← hAuId, splitAu, eSt] at acc
        refine ⟨s.data.takeWhile isWsChar, rKw.takeWhile isWsChar,
          rId.takeWhile isWsChar, rVer.takeWhile isWsChar,
          rBr2.takeWhile isWsChar, rAu.takeWhile isWsChar, rEnd,
          idc, 'v' :: vc,
          rBr.takeWhile isWsChar ++ (cS1 ++ (cSs ++ rSs.takeWhile isWsChar)),
          [], ['s','t','i','c','k','y'],
          ?_, all_takeWhile _ _, all_takeWhile _ _, all_takeWhile _ _,
          all_takeWhile _ _, all_takeWhile _ _, all_takeWhile _ _, hw6,
          hidc2, by rw [hidc1]; exact all_takeWhile _ _, by rw [hwEq, hname, hidc1],
          rfl, ?_, ?_⟩
        · simpa only [List.append_assoc, List.cons_append, List.nil_append] using acc
        · exact .inl ⟨rfl, by
            rw [hwEq]
            show author = none
            rw [hAuNone]⟩
        · refine .inr ⟨rfl, ?_⟩
          rw [hwEq]
          show sticky.isSome = true
          rw [hStSome]
          rfl
      · rw [← hAuId, splitAu, ← hStId] at acc
        refine ⟨s.data.takeWhile isWsChar, rKw.takeWhile isWsChar,
          rId.takeWhile isWsChar, rVer.takeWhile isWsChar,
          rBr2.takeWhile isWsChar, rAu.takeWhile isWsChar, rEnd,
          idc, 'v' :: vc,
          rBr.takeWhile isWsChar ++ (cS1 ++ (cSs ++ rSs.takeWhile isWsChar)),
          [], [],
          ?_, all_takeWhile _ _, all_takeWhile _ _, all_takeWhile _ _,
          all_takeWhile _ _, all_takeWhile _ _, all_takeWhile _ _, hw6,
          hidc2, by rw [hidc1]; exact all_takeWhile _ _, by rw [hwEq, hname, hidc1],
          rfl, ?_, ?_⟩
        · simpa only [List.append_assoc, List.cons_append, List.nil_append] using acc
        · exact .inl ⟨rfl, by
            rw [hwEq]
            show author = none
            rw [hAuNone]⟩
        · refine .inl ⟨rfl, ?_⟩
          rw [hwEq]
          show sticky.isSome = false
          rw [hStNone]
          rfl
  · exact ⟨⟨34, ["end of input"]⟩, rfl⟩

/-- Witness for C3: the source `workflow a v1{step s{c()}} @@bob sticky`
parses, and the fixed-order decomposition holds for it. -/
theorem claim_C3_witness :
    parse "workflow a v1\x7bstep s\x7bc()\x7d\x7d @@bob sticky" =
      .ok ⟨"a", "v1", [⟨"s", [Stmt.act (ActionV.cmd "c" [])]⟩], some "bob", true⟩ ∧
    ((∃ (w0 w1 w2 w3 w4 w5 w6 : List Char) (idc verc midc authc stc : List Char),
      ("workflow a v1\x7bstep s\x7bc()\x7d\x7d @@bob sticky" : String).data =
        w0 ++ (['w','o','r','k','f','l','o','w'] ++ (w1 ++ (idc ++ (w2 ++
          (verc ++ (w3 ++ (['\x7b'] ++ (midc ++ (['\x7d'] ++ (w4 ++ (authc ++
            (w5 ++ (stc ++ w6))))))))))))) ∧
      w0.all isWsChar = true ∧ w1.all isWsChar = true ∧ w2.all isWsChar = true ∧
      w3.all isWsChar = true ∧ w4.all isWsChar = true ∧ w5.all isWsChar = true ∧
      w6.all isWsChar = true ∧
      idc ≠ [] ∧ idc.all isIdentChar = true ∧ "a" = idc.asString ∧
      verc.head? = some 'v' ∧
      ((authc = [] ∧ (some "bob" : Option String) = none) ∨
        (∃ aw1 aw2 idA, authc = '@' :: (aw1 ++ ('@' :: (aw2 ++ idA))) ∧
          aw1.all isWsChar = true ∧ aw2.all isWsChar = true ∧
          idA.all isIdentityChar = true ∧
          (some "bob" : Option String) = some idA.asString)) ∧
      ((stc = [] ∧ true = false) ∨
        (stc = ['s','t','i','c','k','y'] ∧ true = true))) ∧
    (∃ pe, parse "workflow a v1\x7bstep s\x7bc()\x7d\x7d sticky @@bob" = .error pe)) :=
  ⟨rfl, claim_C3_fixed_order "workflow a v1\x7bstep s\x7bc()\x7d\x7d @@bob sticky"
    ⟨"a", "v1", [⟨"s", [Stmt.act (ActionV.cmd "c" [])]⟩], some "bob", true⟩ rfl⟩

/-- C4: `parse` is total over input strings and has exactly two outcomes:
for every input it either returns a `Workflow` or fails with a `ParseError`
whose position lies within the input and whose set of expected productions is
nonempty; no input is accepted outside the `workflow` production (the `.ok`
branch exists only when the production derives the input in full) and none is
rejected without a located error. -/
theorem claim_C4_parse_total_two_outcomes (s : String) :
    (∃ w, parse s = .ok w) ∨
      (∃ pe, parse s = .error pe ∧ pe.position ≤ s.length ∧ pe.expected ≠ []) := by
  unfold parse
  cases hw : workflowP (s.data.length + 1) (s.data.dropWhile isWsChar) with
  | error e =>
    right
    obtain ⟨-, hne⟩ := wfE_workflowP _ _ _ hw
    exact ⟨⟨s.length - e.rem, e.expected⟩, rfl, Nat.sub_le _ _, hne⟩
  | ok wr =>
    obtain ⟨w, r⟩ := wr
    dsimp only
    cases hr : r.dropWhile isWsChar with
    | nil => exact .inl ⟨w, rfl⟩
    | cons c r2 =>
      right
      refine ⟨⟨s.length - (c :: r2).length, ["end of input"]⟩, rfl, Nat.sub_le _ _, by simp⟩

/-- C9: the `identity` production accepts zero characters, so the bare
two-character fragment `@@` is a complete author tag, and a parsed workflow
can carry an author tag whose identity string is empty: `identity` succeeds
on the empty input, `author_tag` accepts exactly `@@`, and the source
`workflow a v1{step s{c()}}@@` parses to a workflow whose author is the empty
string. -/
theorem claim_C9_empty_identity_author_tag :
    identityP [] = .ok ("", []) ∧
    authorTagP ['@', '@'] = .ok ("", []) ∧
    parse "workflow a v1\x7bstep s\x7bc()\x7d\x7d@@" =
      .ok ⟨"a", "v1", [⟨"s", [Stmt.act (ActionV.cmd "c" [])]⟩], some "", false⟩ :=
  ⟨rfl, rfl, rfl⟩

/-- C10: the `delimiter` production accepts zero characters between its
quotes, so a for-loop iterable such as `$x.split("")` is accepted:
`delimiter` succeeds on `""` with an empty value, and a workflow whose loop
splits on the empty delimiter parses, recording the empty delimiter. -/
theorem claim_C10_empty_delimiter :
    delimiterP ['"', '"'] = .ok ("", []) ∧
    parse "workflow a v1\x7bstep s\x7bfor x in $r.split(\"\")\x7bc()\x7d\x7d\x7d" =
      .ok ⟨"a", "v1",
        [⟨"s", [Stmt.forL "x" (Iter.split (Atom.reg "r") "")
          [Stmt.act (ActionV.cmd "c" [])]]⟩],
        none, false⟩ :=
  ⟨rfl, rfl⟩



/-! ### C7: basic segment lemmas -/

/-- Unfolding equation for `normTokWf` on a nonempty token. -/
theorem normTokWf_cons (c : Char) (t : List Char) (S : List Seg) :
    normTokWf (c :: t) S =
      (if isIdentChar c then (c :: t).all isIdentChar && nextNot isIdentChar S
       else if c = '@' then t.isEmpty
       else if c = '"' then strBodyOk t
       else if c = '.' then
         (t.isEmpty && nextNot (fun c2 => c2 = '.') S &&
           !(['s','p','l','i','t','('].isPrefixOf (flatSegs S))) ||
         t == ['.'] || t == ['s','p','l','i','t','(']
       else if c = '=' then
         (t.isEmpty && nextNot (fun c2 => c2 = '=') S) || t == ['=']
       else if c = '!' then
         (t.isEmpty && nextNot (fun c2 => c2 = '=') S) || t == ['=']
       else if c = '<' || c = '>' || c = '\x7b' || c = '\x7d' || c = '(' ||
           c = ')' || c = ',' || c = '$' then t.isEmpty
       else false) := rfl

theorem identChar_not_ws2 (c : Char) (h : isIdentChar c = true) :
    isWsChar c = false := by
  cases hws : isWsChar c
  · rfl
  · exfalso
    unfold isWsChar at hws
    simp only [Bool.or_eq_true, decide_eq_true_eq] at hws
    rcases hws with ((rfl | rfl) | rfl) | rfl <;> exact absurd h (by decide)

theorem identityChar_not_ws (c : Char) (h : isIdentityChar c = true) :
    isWsChar c = false := by
  cases hws : isWsChar c
  · rfl
  · exfalso
    unfold isWsChar at hws
    simp only [Bool.or_eq_true, decide_eq_true_eq] at hws
    rcases hws with ((rfl | rfl) | rfl) | rfl <;> exact absurd h (by decide)

/-- A well-formed token starts with a non-whitespace character. -/
theorem tok_head_char {m : LexMode} {w : List Char} {S : List Seg}
    (h : segsWf m (.tokS w :: S) = true) :
    ∃ c t, w = c :: t ∧ isWsChar c = false := by
  cases m with
  | norm =>
    rw [show segsWf .norm (.tokS w :: S) =
      (normTokWf w S && segsWf (normNext w) S) from rfl, Bool.and_eq_true] at h
    have hn := h.1
    cases w with
    | nil => exact absurd hn (by simp [normTokWf])
    | cons c t =>
      refine ⟨c, t, rfl, ?_⟩
      cases hws : isWsChar c
      · rfl
      · exfalso
        unfold isWsChar at hws
        simp only [Bool.or_eq_true, decide_eq_true_eq] at hws
        rcases hws with ((rfl | rfl) | rfl) | rfl <;>
          simp [normTokWf, (by decide : isIdentChar ' ' = false),
            (by decide : isIdentChar '\t' = false),
            (by decide : isIdentChar '\n' = false),
            (by decide : isIdentChar '\r' = false)] at hn
  | at1 =>
    rw [show segsWf .at1 (.tokS w :: S) =
      (w == ['@'] && segsWf .at2 S) from rfl, Bool.and_eq_true, beq_iff_eq] at h
    exact ⟨'@', [], h.1, by decide⟩
  | at2 =>
    rw [show segsWf .at2 (.tokS w :: S) =
      (!w.isEmpty && w.all isIdentityChar && nextNot isIdentityChar S &&
        segsWf .norm S) from rfl] at h
    simp only [Bool.and_eq_true] at h
    obtain ⟨⟨⟨hne, hall⟩, -⟩, -⟩ := h
    cases w with
    | nil => exact absurd hne (by simp)
    | cons c t =>
      refine ⟨c, t, rfl, identityChar_not_ws c ?_⟩
      rw [List.all_cons, Bool.and_eq_true] at hall
      exact hall.1
  | sdel =>
    rw [show segsWf .sdel (.tokS w :: S) =
      (delimTokOk w && segsWf .norm S) from rfl, Bool.and_eq_true] at h
    have hd := h.1
    unfold delimTokOk at hd
    split at hd
    case h_1 t => exact ⟨'"', t, rfl, by decide⟩
    case h_2 => exact absurd hd (by simp)

/-- The text of a token-headed well-formed decomposition starts with a
non-whitespace character (or is empty). -/
theorem flat_headTok_dropWhile {m : LexMode} {S : List Seg}
    (hwf : segsWf m S = true) (ht : headTok S = true) :
    (flatSegs S).dropWhile isWsChar = flatSegs S := by
  cases S with
  | nil => rfl
  | cons s S2 =>
    cases s with
    | gapS g => exact absurd ht (by simp [headTok])
    | tokS w =>
      obtain ⟨c, t, rfl, hc⟩ := tok_head_char hwf
      show ((c :: t) ++ flatSegs S2).dropWhile isWsChar = (c :: t) ++ flatSegs S2
      rw [List.cons_append, List.dropWhile_cons, hc]
      simp

/-- Well-formedness survives dropping the leading gaps. -/
theorem segsWf_dropGaps {m : LexMode} {S : List Seg}
    (hwf : segsWf m S = true) :
    segsWf m (dropGaps S) = true ∧ headTok (dropGaps S) = true := by
  induction S with
  | nil => exact ⟨rfl, rfl⟩
  | cons s S2 ih =>
    cases s with
    | tokS w => exact ⟨hwf, rfl⟩
    | gapS g =>
      have hwf2 : segsWf m (.gapS g :: S2) =
          (!g.isEmpty && g.all isWsChar && headTok S2 && segsWf m S2) := rfl
      rw [hwf2, Bool.and_eq_true] at hwf
      exact ih hwf.2

/-- Skipping whitespace lands at the text after the leading gaps. -/
theorem flat_dropWhile {m : LexMode} {S : List Seg}
    (hwf : segsWf m S = true) :
    (flatSegs S).dropWhile isWsChar = flatSegs (dropGaps S) := by
  induction S with
  | nil => rfl
  | cons s S2 ih =>
    cases s with
    | tokS w =>
      exact flat_headTok_dropWhile hwf rfl
    | gapS g =>
      have hwf2 : segsWf m (.gapS g :: S2) =
          (!g.isEmpty && g.all isWsChar && headTok S2 && segsWf m S2) := rfl
      rw [hwf2] at hwf
      simp only [Bool.and_eq_true] at hwf
      obtain ⟨⟨⟨-, hws⟩, -⟩, hwfS⟩ := hwf
      show (g ++ flatSegs S2).dropWhile isWsChar = flatSegs (dropGaps S2)
      rw [List.dropWhile_append]
      have hg : g.dropWhile isWsChar = [] := by
        rw [List.dropWhile_eq_nil_iff]
        intro c hc
        exact (List.all_eq_true.mp hws) c hc
      rw [hg]
      simp only [List.isEmpty_nil, if_true]
      exact ih hwfS

theorem all_takeWhile2 (p : Char → Bool) (l : List Char) :
    (l.takeWhile p).all p = true := by
  induction l with
  | nil => rfl
  | cons c t ih =>
    rw [List.takeWhile_cons]
    by_cases hc : p c = true
    · rw [if_pos hc]
      simp only [List.all_cons, hc, Bool.true_and]
      exact ih
    · rw [if_neg hc]
      rfl


/-! ### C7: segment utilities -/

theorem flat_tok (w : List Char) (S : List Seg) :
    flatSegs (.tokS w :: S) = w ++ flatSegs S := rfl

theorem flat_gap (g : List Char) (S : List Seg) :
    flatSegs (.gapS g :: S) = g ++ flatSegs S := rfl

/-- The first character of the flattened text. -/
theorem firstChar_flat (S : List Seg) :
    firstCharSegs S = (flatSegs S).head? := by
  induction S with
  | nil => rfl
  | cons s S2 ih =>
    cases s with
    | tokS w =>
      cases w with
      | nil => exact ih
      | cons c t => rfl
    | gapS g =>
      cases g with
      | nil => exact ih
      | cons c t => rfl

/-- Extension of an empty decomposition: only trailing gaps. -/
theorem segExt_nil {T : List Seg} (h : segExt [] T = true) :
    T = [] ∨
      ∃ g, T = [.gapS g] ∧ g ≠ [] ∧ g.all isWsChar = true := by
  cases T with
  | nil => exact .inl rfl
  | cons s T2 =>
    cases s with
    | tokS w => exact absurd h (by simp [segExt])
    | gapS g =>
      have h2 : segExt [] (.gapS g :: T2) =
          (!g.isEmpty && g.all isWsChar && headTok ([] : List Seg) &&
            headTok T2 && segExt [] T2) := rfl
      rw [h2] at h
      simp only [Bool.and_eq_true] at h
      obtain ⟨⟨⟨⟨hge, hgw⟩, -⟩, hht⟩, hrec⟩ := h
      cases T2 with
      | nil =>
        refine .inr ⟨g, rfl, ?_, hgw⟩
        simp only [Bool.not_eq_true'] at hge
        exact fun hh => by rw [hh] at hge; exact absurd hge (by simp)
      | cons s2 T3 =>
        cases s2 with
        | tokS w2 => exact absurd hrec (by simp [segExt])
        | gapS g2 => exact absurd hht (by simp [headTok])

/-- Extension of a token-headed decomposition: the same token follows,
possibly after one inserted gap. -/
theorem segExt_tok {w : List Char} {S2 T : List Seg}
    (h : segExt (.tokS w :: S2) T = true) :
    (∃ T2, T = .tokS w :: T2 ∧ segExt S2 T2 = true) ∨
      (∃ g T2, T = .gapS g :: .tokS w :: T2 ∧ g ≠ [] ∧ g.all isWsChar = true ∧
        segExt S2 T2 = true) := by
  cases T with
  | nil => exact absurd h (by simp [segExt])
  | cons s T2 =>
    cases s with
    | tokS w2 =>
      have h2 : segExt (.tokS w :: S2) (.tokS w2 :: T2) =
          (w == w2 && segExt S2 T2) := rfl
      rw [h2, Bool.and_eq_true, beq_iff_eq] at h
      exact .inl ⟨T2, by rw [h.1], h.2⟩
    | gapS g =>
      have h2 : segExt (.tokS w :: S2) (.gapS g :: T2) =
          (!g.isEmpty && g.all isWsChar && headTok (.tokS w :: S2) &&
            headTok T2 && segExt (.tokS w :: S2) T2) := rfl
      rw [h2] at h
      simp only [Bool.and_eq_true] at h
      obtain ⟨⟨⟨⟨hge, hgw⟩, -⟩, hht⟩, hrec⟩ := h
      cases T2 with
      | nil => exact absurd hrec (by simp [segExt])
      | cons s2 T3 =>
        cases s2 with
        | gapS g2 => exact absurd hht (by simp [headTok])
        | tokS w2 =>
          have h3 : segExt (.tokS w :: S2) (.tokS w2 :: T3) =
              (w == w2 && segExt S2 T3) := rfl
          rw [h3, Bool.and_eq_true, beq_iff_eq] at hrec
          refine .inr ⟨g, T3, by rw [hrec.1], ?_, hgw, hrec.2⟩
          simp only [Bool.not_eq_true'] at hge
          exact fun hh => by rw [hh] at hge; exact absurd hge (by simp)

/-- Extension of a gap-headed decomposition. -/
theorem segExt_gap {g : List Char} {S2 T : List Seg}
    (h : segExt (.gapS g :: S2) T = true) :
    ∃ g2 T2, T = .gapS g2 :: T2 ∧ g2 ≠ [] ∧ g2.all isWsChar = true ∧
      headTok S2 = true ∧ headTok T2 = true ∧ segExt S2 T2 = true := by
  cases T with
  | nil => exact absurd h (by simp [segExt])
  | cons s T2 =>
    cases s with
    | tokS w2 => exact absurd h (by simp [segExt])
    | gapS g2 =>
      have h2 : segExt (.gapS g :: S2) (.gapS g2 :: T2) =
          (!g.isEmpty && g.all isWsChar && !g2.isEmpty && g2.all isWsChar &&
            headTok S2 && headTok T2 && segExt S2 T2) := rfl
      rw [h2] at h
      simp only [Bool.and_eq_true] at h
      obtain ⟨⟨⟨⟨⟨⟨-, -⟩, hg2e⟩, hg2w⟩, hhS⟩, hhT⟩, hrec⟩ := h
      refine ⟨g2, T2, rfl, ?_, hg2w, hhS, hhT, hrec⟩
      simp only [Bool.not_eq_true'] at hg2e
      exact fun hh => by rw [hh] at hg2e; exact absurd hg2e (by simp)

/-- A whitespace-free prefix of the extended text is a prefix of the
original text. -/
theorem prefix_transfer_rev {cs : List Char} {S T : List Seg}
    (hcs : cs.all (fun c => !isWsChar c) = true)
    (hext : segExt S T = true)
    (h : cs.isPrefixOf (flatSegs T) = true) :
    cs.isPrefixOf (flatSegs S) = true := by
  induction T generalizing S cs with
  | nil =>
    cases S with
    | nil => exact h
    | cons s S2 => exact absurd hext (by cases s <;> simp [segExt])
  | cons s T2 ih =>
    cases s with
    | gapS g2 =>
      -- cs must be empty: the extended text starts with whitespace
      cases cs with
      | nil =>
        simp [List.isPrefixOf]
      | cons c cs2 =>
        exfalso
        -- g2 is nonempty whitespace on every segExt branch into a gap head
        cases S with
        | nil =>
          have h2 : segExt [] (.gapS g2 :: T2) =
              (!g2.isEmpty && g2.all isWsChar && headTok ([] : List Seg) &&
                headTok T2 && segExt [] T2) := rfl
          rw [h2] at hext
          simp only [Bool.and_eq_true] at hext
          obtain ⟨⟨⟨⟨hge, hgw⟩, -⟩, -⟩, -⟩ := hext
          cases g2 with
          | nil => exact absurd hge (by simp)
          | cons d g3 =>
            rw [show flatSegs (.gapS (d :: g3) :: T2) =
              d :: (g3 ++ flatSegs T2) from rfl] at h
            rw [List.isPrefixOf_cons₂] at h
            rw [List.all_cons, Bool.and_eq_true] at hcs
            rw [Bool.and_eq_true, beq_iff_eq] at h
            rw [List.all_cons, Bool.and_eq_true] at hgw
            rw [← h.1] at hgw
            rw [hgw.1] at hcs
            exact absurd hcs.1 (by simp)
        | cons s S2 =>
          cases s with
          | tokS w =>
            have h2 : segExt (.tokS w :: S2) (.gapS g2 :: T2) =
                (!g2.isEmpty && g2.all isWsChar && headTok (.tokS w :: S2) &&
                  headTok T2 && segExt (.tokS w :: S2) T2) := rfl
            rw [h2] at hext
            simp only [Bool.and_eq_true] at hext
            obtain ⟨⟨⟨⟨hge, hgw⟩, -⟩, -⟩, -⟩ := hext
            cases g2 with
            | nil => exact absurd hge (by simp)
            | cons d g3 =>
              rw [show flatSegs (.gapS (d :: g3) :: T2) =
                d :: (g3 ++ flatSegs T2) from rfl] at h
              rw [List.isPrefixOf_cons₂] at h
              rw [List.all_cons, Bool.and_eq_true] at hcs
              rw [Bool.and_eq_true, beq_iff_eq] at h
              rw [List.all_cons, Bool.and_eq_true] at hgw
              rw [← h.1] at hgw
              rw [hgw.1] at hcs
              exact absurd hcs.1 (by simp)
          | gapS g =>
            obtain ⟨g2x, T2x, heq, hg2e, hg2w, -, -, -⟩ := segExt_gap hext
            injection heq with he1 he2
            injection he1 with he1
            subst he1
            subst he2
            cases g2 with
            | nil => exact absurd rfl hg2e
            | cons d g3 =>
              rw [show flatSegs (.gapS (d :: g3) :: T2) =
                d :: (g3 ++ flatSegs T2) from rfl] at h
              rw [List.isPrefixOf_cons₂] at h
              rw [List.all_cons, Bool.and_eq_true] at hcs
              rw [Bool.and_eq_true, beq_iff_eq] at h
              rw [List.all_cons, Bool.and_eq_true] at hg2w
              rw [← h.1] at hg2w
              rw [hg2w.1] at hcs
              exact absurd hcs.1 (by simp)
    | tokS w2 =>
      cases S with
      | nil => exact absurd hext (by simp [segExt])
      | cons s S2 =>
        cases s with
        | gapS g => exact absurd hext (by simp [segExt])
        | tokS w =>
          have h2 : segExt (.tokS w :: S2) (.tokS w2 :: T2) =
              (w == w2 && segExt S2 T2) := rfl
          rw [h2, Bool.and_eq_true, beq_iff_eq] at hext
          obtain ⟨rfl, hrec⟩ := hext
          rw [flat_tok] at h ⊢
          -- split cs against w
          clear h2
          induction w generalizing cs with
          | nil =>
            rw [List.nil_append] at h ⊢
            exact ih hcs hrec h
          | cons d w2 ihw =>
            cases cs with
            | nil => simp [List.isPrefixOf]
            | cons c cs2 =>
              rw [List.cons_append] at h ⊢
              rw [List.isPrefixOf_cons₂] at h ⊢
              rw [Bool.and_eq_true] at h ⊢
              rw [List.all_cons, Bool.and_eq_true] at hcs
              exact ⟨h.1, ihw hcs.2 h.2⟩


/-! ### C7: whitespace-skip alignment -/

theorem dropGaps_headTok {S : List Seg} (h : headTok S = true) :
    dropGaps S = S := by
  cases S with
  | nil => rfl
  | cons s S2 =>
    cases s with
    | tokS w => rfl
    | gapS g => exact absurd h (by simp [headTok])

/-- In a token-aligned extension pair the tokens fronts agree. -/
theorem segExt_aligned_tok {m : LexMode} {S T : List Seg}
    (hwf : segsWf m S = true) (hext : segExt S T = true)
    (hhS : headTok S = true) (hhT : headTok T = true) :
    (S = [] ∧ flatSegs T = []) ∨
      (∃ w S2 T2, S = .tokS w :: S2 ∧ T = .tokS w :: T2 ∧
        segExt S2 T2 = true) := by
  cases S with
  | nil =>
    rcases segExt_nil hext with rfl | ⟨g, rfl, hge, -⟩
    · exact .inl ⟨rfl, rfl⟩
    · exact absurd hhT (by simp [headTok])
  | cons s S2 =>
    cases s with
    | gapS g => exact absurd hhS (by simp [headTok])
    | tokS w =>
      rcases segExt_tok hext with ⟨T2, rfl, hrec⟩ | ⟨g, T2, rfl, -, -, -⟩
      · exact .inr ⟨w, S2, T2, rfl, rfl, hrec⟩
      · exact absurd hhT (by simp [headTok])

/-- The extended text of a token-aligned pair starts with a non-whitespace
character. -/
theorem flat_headTok_T {m : LexMode} {S T : List Seg}
    (hwf : segsWf m S = true) (hext : segExt S T = true)
    (hhS : headTok S = true) (hhT : headTok T = true) :
    (flatSegs T).dropWhile isWsChar = flatSegs T := by
  rcases segExt_aligned_tok hwf hext hhS hhT with ⟨-, hT⟩ | ⟨w, S2, T2, rfl, rfl, -⟩
  · rw [hT]
    rfl
  · obtain ⟨c, t, rfl, hc⟩ := tok_head_char hwf
    rw [flat_tok, List.cons_append, List.dropWhile_cons, hc]
    simp

/-- Dropping the leading gaps preserves the extension relation and computes
both whitespace skips. -/
theorem segExt_dropGaps {m : LexMode} {S T : List Seg}
    (hwf : segsWf m S = true) (hext : segExt S T = true) :
    segExt (dropGaps S) (dropGaps T) = true ∧
      (flatSegs T).dropWhile isWsChar = flatSegs (dropGaps T) ∧
      headTok (dropGaps S) = true ∧ headTok (dropGaps T) = true ∧
      segsWf m (dropGaps S) = true := by
  cases S with
  | nil =>
    rcases segExt_nil hext with rfl | ⟨g, rfl, hge, hgw⟩
    · exact ⟨rfl, rfl, rfl, rfl, hwf⟩
    · refine ⟨rfl, ?_, rfl, rfl, hwf⟩
      show (g ++ flatSegs ([] : List Seg)).dropWhile isWsChar = flatSegs (dropGaps [Seg.gapS g])
      rw [List.dropWhile_append]
      have hg : g.dropWhile isWsChar = [] := by
        rw [List.dropWhile_eq_nil_iff]
        intro c hc
        exact (List.all_eq_true.mp hgw) c hc
      rw [hg]
      simp [dropGaps, flatSegs]
  | cons s S2 =>
    cases s with
    | gapS g =>
      obtain ⟨g2, T2, rfl, hg2e, hg2w, hhS2, hhT2, hrec⟩ := segExt_gap hext
      have hwfg : segsWf m (.gapS g :: S2) =
          (!g.isEmpty && g.all isWsChar && headTok S2 && segsWf m S2) := rfl
      rw [hwfg] at hwf
      simp only [Bool.and_eq_true] at hwf
      obtain ⟨⟨⟨-, -⟩, -⟩, hwfS2⟩ := hwf
      rw [show dropGaps (.gapS g :: S2) = dropGaps S2 from rfl,
        show dropGaps (.gapS g2 :: T2) = dropGaps T2 from rfl,
        dropGaps_headTok hhS2, dropGaps_headTok hhT2]
      refine ⟨hrec, ?_, hhS2, hhT2, hwfS2⟩
      show (g2 ++ flatSegs T2).dropWhile isWsChar = flatSegs T2
      rw [List.dropWhile_append]
      have hg : g2.dropWhile isWsChar = [] := by
        rw [List.dropWhile_eq_nil_iff]
        intro c hc
        exact (List.all_eq_true.mp hg2w) c hc
      rw [hg]
      simp only [List.isEmpty_nil, if_true]
      exact flat_headTok_T hwfS2 hrec hhS2 hhT2
    | tokS w =>
      rcases segExt_tok hext with ⟨T2, rfl, hrec⟩ | ⟨g, T2, rfl, hge, hgw, hrec⟩
      · refine ⟨hext, ?_, rfl, rfl, hwf⟩
        exact flat_headTok_T hwf hext rfl rfl
      · have hext2 : segExt (.tokS w :: S2) (.tokS w :: T2) =
            (w == w &&  segExt S2 T2) := rfl
        refine ⟨?_, ?_, rfl, rfl, hwf⟩
        · show segExt (.tokS w :: S2) (.tokS w :: T2) = true
          rw [hext2, Bool.and_eq_true, beq_iff_eq]
          exact ⟨rfl, hrec⟩
        · show (g ++ flatSegs (.tokS w :: T2)).dropWhile isWsChar =
            flatSegs (.tokS w :: T2)
          rw [List.dropWhile_append]
          have hg : g.dropWhile isWsChar = [] := by
            rw [List.dropWhile_eq_nil_iff]
            intro c hc
            exact (List.all_eq_true.mp hgw) c hc
          rw [hg]
          simp only [List.isEmpty_nil, if_true]
          have hextT : segExt (.tokS w :: S2) (.tokS w :: T2) = true := by
            rw [hext2, Bool.and_eq_true, beq_iff_eq]
            exact ⟨rfl, hrec⟩
          exact flat_headTok_T hwf hextT rfl rfl


/-! ### C7: token-run consumption -/

/-- Greedy class runs stop exactly at a boundary. -/
theorem takeWhile_run_append {p : Char → Bool} {w rest : List Char}
    (hw : w.all p = true)
    (hrest : ∀ c, rest.head? = some c → p c = false) :
    (w ++ rest).takeWhile p = w ∧ (w ++ rest).dropWhile p = rest := by
  induction w with
  | nil =>
    rw [List.nil_append]
    cases rest with
    | nil => exact ⟨rfl, rfl⟩
    | cons c t =>
      have hc := hrest c rfl
      rw [List.takeWhile_cons, List.dropWhile_cons, hc]
      exact ⟨rfl, rfl⟩
  | cons c w2 ih =>
    rw [List.all_cons, Bool.and_eq_true] at hw
    rw [List.cons_append, List.takeWhile_cons, List.dropWhile_cons, hw.1]
    obtain ⟨ht, hd⟩ := ih hw.2
    simp only [if_true]
    exact ⟨by rw [ht], hd⟩

/-- A word token of normal mode: identifier characters with maximal
boundary. -/
theorem normTokWf_word {c : Char} {t : List Char} {S : List Seg}
    (h : normTokWf (c :: t) S = true) (hc : isIdentChar c = true) :
    (c :: t).all isIdentChar = true ∧ nextNot isIdentChar S = true := by
  rw [normTokWf_cons, if_pos hc, Bool.and_eq_true] at h
  exact h

/-- The boundary fact `nextNot` gives the head of the following text. -/
theorem nextNot_head {p : Char → Bool} {S : List Seg}
    (h : nextNot p S = true) :
    ∀ c, (flatSegs S).head? = some c → p c = false := by
  intro c hc
  unfold nextNot at h
  rw [firstChar_flat, hc] at h
  simp only [Bool.not_eq_true'] at h
  exact h

/-- Transport of a boundary fact to the extended side, for classes that
exclude whitespace. -/
theorem nextNot_T {p : Char → Bool} {S T : List Seg}
    (hws : ∀ c, isWsChar c = true → p c = false)
    (hext : segExt S T = true)
    (h : nextNot p S = true) :
    nextNot p T = true := by
  induction S generalizing T with
  | nil =>
    rcases segExt_nil hext with rfl | ⟨g, rfl, hge, hgw⟩
    · rfl
    · cases g with
      | nil => exact absurd rfl hge
      | cons d g3 =>
        rw [List.all_cons, Bool.and_eq_true] at hgw
        unfold nextNot
        rw [firstChar_flat,
          show flatSegs [Seg.gapS (d :: g3)] = d :: (g3 ++ flatSegs ([] : List Seg)) from rfl]
        simp only [List.head?_cons]
        rw [hws d hgw.1]
        rfl
  | cons s S2 ih =>
    cases s with
    | gapS g =>
      obtain ⟨g2, T2, rfl, hg2e, hg2w, -, -, -⟩ := segExt_gap hext
      cases g2 with
      | nil => exact absurd rfl hg2e
      | cons d g3 =>
        rw [List.all_cons, Bool.and_eq_true] at hg2w
        unfold nextNot
        rw [firstChar_flat,
          show flatSegs (.gapS (d :: g3) :: T2) = d :: (g3 ++ flatSegs T2) from rfl]
        simp only [List.head?_cons]
        rw [hws d hg2w.1]
        rfl
    | tokS w =>
      rcases segExt_tok hext with ⟨T2, rfl, hrec⟩ | ⟨g, T2, rfl, hge, hgw, hrec⟩
      · cases w with
        | nil =>
          have h2 : nextNot p S2 = true := by
            unfold nextNot at h ⊢
            rw [firstChar_flat] at h ⊢
            rw [show flatSegs (.tokS [] :: S2) = flatSegs S2 from by
              rw [flat_tok, List.nil_append]] at h
            exact h
          have h3 := ih hrec h2
          unfold nextNot at h3 ⊢
          rw [firstChar_flat] at h3 ⊢
          rw [show flatSegs (.tokS [] :: T2) = flatSegs T2 from by
            rw [flat_tok, List.nil_append]]
          exact h3
        | cons c wt =>
          unfold nextNot at h ⊢
          rw [firstChar_flat] at h ⊢
          rw [flat_tok] at h ⊢
          rw [List.cons_append] at h ⊢
          exact h
      · cases g with
        | nil => exact absurd rfl hge
        | cons d g3 =>
          rw [List.all_cons, Bool.and_eq_true] at hgw
          unfold nextNot
          rw [firstChar_flat,
            show flatSegs (.gapS (d :: g3) :: .tokS w :: T2) =
              d :: (g3 ++ flatSegs (.tokS w :: T2)) from rfl]
          simp only [List.head?_cons]
          rw [hws d hgw.1]
          rfl

theorem ws_not_identChar {c : Char} (h : isWsChar c = true) :
    isIdentChar c = false := by
  cases hi : isIdentChar c
  · rfl
  · rw [identChar_not_ws2 c hi] at h
    exact absurd h (by simp)

theorem ws_not_identityChar {c : Char} (h : isWsChar c = true) :
    isIdentityChar c = false := by
  cases hi : isIdentityChar c
  · rfl
  · rw [identityChar_not_ws c hi] at h
    exact absurd h (by simp)

/-- A word token does not shift the lexing mode. -/
theorem normNext_word {w : List Char} (hall : w.all isIdentChar = true)
    (hne : w ≠ []) : normNext w = .norm := by
  unfold normNext
  rw [if_neg, if_neg]
  · intro hh
    rw [hh] at hall
    exact absurd hall (by decide)
  · intro hh
    rw [hh] at hall
    exact absurd hall (by decide)

/-- A well-formed token is nonempty. -/
theorem tok_nonempty {m : LexMode} {w : List Char} {S : List Seg}
    (h : segsWf m (.tokS w :: S) = true) : w ≠ [] := by
  obtain ⟨c, t, rfl, -⟩ := tok_head_char h
  simp

/-- `segsWf` inversion at a token. -/
theorem segsWf_tok_norm {w : List Char} {S : List Seg}
    (h : segsWf .norm (.tokS w :: S) = true) :
    normTokWf w S = true ∧ segsWf (normNext w) S = true := by
  rw [show segsWf .norm (.tokS w :: S) =
    (normTokWf w S && segsWf (normNext w) S) from rfl, Bool.and_eq_true] at h
  exact h

theorem segsWf_tok_at2 {w : List Char} {S : List Seg}
    (h : segsWf .at2 (.tokS w :: S) = true) :
    w ≠ [] ∧ w.all isIdentityChar = true ∧ nextNot isIdentityChar S = true ∧
      segsWf .norm S = true := by
  rw [show segsWf .at2 (.tokS w :: S) =
    (!w.isEmpty && w.all isIdentityChar && nextNot isIdentityChar S &&
      segsWf .norm S) from rfl] at h
  simp only [Bool.and_eq_true] at h
  obtain ⟨⟨⟨hne, hall⟩, hnn⟩, hwf⟩ := h
  refine ⟨?_, hall, hnn, hwf⟩
  simp only [Bool.not_eq_true'] at hne
  intro hh
  rw [hh] at hne
  exact absurd hne (by simp)

theorem segsWf_gap {m : LexMode} {g : List Char} {S : List Seg}
    (h : segsWf m (.gapS g :: S) = true) :
    g ≠ [] ∧ g.all isWsChar = true ∧ headTok S = true ∧ segsWf m S = true := by
  rw [show segsWf m (.gapS g :: S) =
    (!g.isEmpty && g.all isWsChar && headTok S && segsWf m S) from rfl] at h
  simp only [Bool.and_eq_true] at h
  obtain ⟨⟨⟨hne, hall⟩, hht⟩, hwf⟩ := h
  refine ⟨?_, hall, hht, hwf⟩
  simp only [Bool.not_eq_true'] at hne
  intro hh
  rw [hh] at hne
  exact absurd hne (by simp)

/-- `identifier` over a decomposition pair: it consumes exactly the leading
word token or fails on both sides. -/
theorem identifierP_seg {S T : List Seg}
    (hwf : segsWf .norm S = true) (hext : segExt S T = true)
    (hhS : headTok S = true) (hhT : headTok T = true) :
    (∀ v r, identifierP (flatSegs S) = .ok (v, r) →
      ∃ w S2 T2, S = .tokS w :: S2 ∧ T = .tokS w :: T2 ∧
        v = w.asString ∧ r = flatSegs S2 ∧ segExt S2 T2 = true ∧
        segsWf .norm S2 = true ∧ w ≠ [] ∧ w.all isIdentChar = true ∧
        identifierP (flatSegs T) = .ok (v, flatSegs T2)) ∧
    (∀ e, identifierP (flatSegs S) = .error e →
      ∃ e2, identifierP (flatSegs T) = .error e2) := by
  rcases segExt_aligned_tok hwf hext hhS hhT with ⟨rfl, hT⟩ |
    ⟨w, S2, T2, rfl, rfl, hrec⟩
  · constructor
    · intro v r h
      obtain ⟨cs, hcs, -⟩ := pmapP_ok.mp h
      obtain ⟨hcs1, hne, -⟩ := pclass1_ok.mp hcs
      exact absurd (by rw [hcs1]; rfl) hne
    · intro e h
      refine ⟨⟨(flatSegs T).length, ["identifier"]⟩, ?_⟩
      apply pmapP_error.mpr
      apply pclass1_error.mpr
      rw [hT]
      exact ⟨rfl, rfl⟩
  · obtain ⟨c, t, rfl, -⟩ := tok_head_char hwf
    obtain ⟨hntw, hwf2⟩ := segsWf_tok_norm hwf
    by_cases hc : isIdentChar c = true
    · obtain ⟨hall, hnn⟩ := normTokWf_word hntw hc
      have hwfS2 : segsWf .norm S2 = true := by
        rw [normNext_word hall (by simp)] at hwf2
        exact hwf2
      have hsplitS := takeWhile_run_append (p := isIdentChar)
        hall (nextNot_head hnn)
      have hnnT : nextNot isIdentChar T2 = true :=
        nextNot_T (fun c2 hc2 => ws_not_identChar hc2) hrec hnn
      have hsplitT := takeWhile_run_append (p := isIdentChar)
        hall (nextNot_head hnnT)
      constructor
      · intro v r h
        obtain ⟨cs, hcs, hv⟩ := pmapP_ok.mp h
        obtain ⟨hcs1, -, hcs3⟩ := pclass1_ok.mp hcs
        rw [flat_tok] at hcs1 hcs3
        rw [hsplitS.1] at hcs1
        rw [hsplitS.2] at hcs3
        refine ⟨c :: t, S2, T2, rfl, rfl, by rw [hv, hcs1], hcs3, hrec,
          hwfS2, by simp, hall, ?_⟩
        apply pmapP_ok.mpr
        refine ⟨c :: t, ?_, by rw [hv, hcs1]⟩
        apply pclass1_ok.mpr
        rw [flat_tok, hsplitT.1, hsplitT.2]
        exact ⟨rfl, by simp, rfl⟩
      · intro e h
        exfalso
        have he2 := pmapP_error.mp h
        obtain ⟨htw, -⟩ := pclass1_error.mp he2
        rw [flat_tok, hsplitS.1] at htw
        exact absurd htw (by simp)
    · constructor
      · intro v r h
        exfalso
        obtain ⟨cs, hcs, -⟩ := pmapP_ok.mp h
        obtain ⟨hcs1, hne, -⟩ := pclass1_ok.mp hcs
        rw [flat_tok, List.cons_append, List.takeWhile_cons] at hcs1
        rw [Bool.not_eq_true] at hc
        rw [hc] at hcs1
        rw [if_neg (by simp)] at hcs1
        exact absurd hcs1 hne
      · intro e h
        refine ⟨⟨(flatSegs (.tokS (c :: t) :: T2)).length, ["identifier"]⟩, ?_⟩
        apply pmapP_error.mpr
        apply pclass1_error.mpr
        rw [flat_tok, List.cons_append, List.takeWhile_cons]
        rw [Bool.not_eq_true] at hc
        rw [hc]
        rw [if_neg (by simp)]
        exact ⟨rfl, rfl⟩

/-- `identity` over a decomposition pair at the position after `@@`: both
sides read the same identity characters. -/
theorem identityP_seg {S T : List Seg}
    (hwf : segsWf .at2 S = true) (hext : segExt S T = true)
    (hhS : headTok S = true) (hhT : headTok T = true) :
    ∃ v S2 T2, identityP (flatSegs S) = .ok (v, flatSegs S2) ∧
      identityP (flatSegs T) = .ok (v, flatSegs T2) ∧
      segExt S2 T2 = true ∧ segsWf .norm S2 = true := by
  rcases segExt_aligned_tok hwf hext hhS hhT with ⟨rfl, hT⟩ |
    ⟨w, S2, T2, rfl, rfl, hrec⟩
  · refine ⟨"", [], T, ?_, ?_, ?_, rfl⟩
    · rfl
    · apply pmapP_ok.mpr
      refine ⟨[], ?_, rfl⟩
      rw [hT]
      rfl
    · -- T is empty (its text is empty and it is an extension of [])
      rcases segExt_nil hext with rfl | ⟨g, rfl, hge, -⟩
      · rfl
      · exfalso
        rw [show flatSegs [Seg.gapS g] = g ++ flatSegs ([] : List Seg) from rfl] at hT
        cases g with
        | nil => exact absurd rfl hge
        | cons d g3 => exact absurd hT (by simp)
  · obtain ⟨hne, hall, hnn, hwfS2⟩ := segsWf_tok_at2 hwf
    have hsplitS := takeWhile_run_append (p := isIdentityChar)
      hall (nextNot_head hnn)
    have hnnT : nextNot isIdentityChar T2 = true :=
      nextNot_T (fun c2 hc2 => ws_not_identityChar hc2) hrec hnn
    have hsplitT := takeWhile_run_append (p := isIdentityChar)
      hall (nextNot_head hnnT)
    refine ⟨w.asString, S2, T2, ?_, ?_, hrec, hwfS2⟩
    · apply pmapP_ok.mpr
      refine ⟨w, ?_, rfl⟩
      rw [show pclass0 isIdentityChar (flatSegs (.tokS w :: S2)) =
        .ok ((flatSegs (.tokS w :: S2)).takeWhile isIdentityChar,
          (flatSegs (.tokS w :: S2)).dropWhile isIdentityChar) from rfl]
      rw [flat_tok, hsplitS.1, hsplitS.2]
    · apply pmapP_ok.mpr
      refine ⟨w, ?_, rfl⟩
      rw [show pclass0 isIdentityChar (flatSegs (.tokS w :: T2)) =
        .ok ((flatSegs (.tokS w :: T2)).takeWhile isIdentityChar,
          (flatSegs (.tokS w :: T2)).dropWhile isIdentityChar) from rfl]
      rw [flat_tok, hsplitT.1, hsplitT.2]


/-! ### C7: literal matching over decomposition pairs -/

theorem isPrefixOf_append_cases :
    ∀ (cs w rest : List Char), cs.isPrefixOf (w ++ rest) = true →
      cs.isPrefixOf w = true ∨
        ∃ extra, cs = w ++ extra ∧ extra.isPrefixOf rest = true ∧ extra ≠ []
  | [], w, rest, _ => .inl (by cases w <;> rfl)
  | c :: cs2, [], rest, h => .inr ⟨c :: cs2, rfl, h, by simp⟩
  | c :: cs2, d :: w2, rest, h => by
    rw [List.cons_append, List.isPrefixOf_cons₂, Bool.and_eq_true,
      beq_iff_eq] at h
    obtain ⟨rfl, h2⟩ := h
    rcases isPrefixOf_append_cases cs2 w2 rest h2 with h3 | ⟨extra, rfl, h4, h5⟩
    · left
      rw [List.isPrefixOf_cons₂, Bool.and_eq_true, beq_iff_eq]
      exact ⟨rfl, h3⟩
    · right
      exact ⟨extra, rfl, h4, h5⟩

theorem prefix_run {p : Char → Bool} :
    ∀ (cs w rest : List Char), cs.all p = true →
      (∀ c, rest.head? = some c → p c = false) →
      cs.isPrefixOf (w ++ rest) = true → cs.isPrefixOf w = true := by
  intro cs w rest hall hrest h
  rcases isPrefixOf_append_cases cs w rest h with h2 | ⟨extra, rfl, h3, h4⟩
  · exact h2
  · exfalso
    cases extra with
    | nil => exact absurd rfl h4
    | cons c e2 =>
      cases rest with
      | nil => exact absurd h3 (by simp [List.isPrefixOf])
      | cons d r2 =>
        rw [List.isPrefixOf_cons₂, Bool.and_eq_true, beq_iff_eq] at h3
        have hc : p c = true := by
          have := List.all_eq_true.mp hall c (by simp)
          exact this
        rw [h3.1] at hc
        rw [hrest d rfl] at hc
        exact absurd hc (by simp)

/-- Failure of a whitespace-free literal transfers to the extended side. -/
theorem plit_fail_seg {cs : List Char} {n : String} {S T : List Seg}
    (hnw : cs.all (fun c => !isWsChar c) = true)
    (hext : segExt S T = true) :
    ∀ e, plit cs n (flatSegs S) = .error e →
      ∃ e2, plit cs n (flatSegs T) = .error e2 := by
  intro e h
  obtain ⟨hp, -⟩ := plit_error.mp h
  refine ⟨⟨(flatSegs T).length, [n]⟩, ?_⟩
  apply plit_error.mpr
  refine ⟨?_, rfl⟩
  intro hpre
  apply hp
  rw [← List.isPrefixOf_iff_prefix] at hpre ⊢
  exact prefix_transfer_rev hnw hext hpre

/-- Successful literal match against a decomposition pair: within the
leading token, or crossing past it. -/
theorem plit_cases_seg {cs : List Char} {n : String} {m : LexMode}
    {S T : List Seg} (hne : cs ≠ [])
    (hwf : segsWf m S = true) (hext : segExt S T = true)
    (hhS : headTok S = true) (hhT : headTok T = true) :
    ∀ u r, plit cs n (flatSegs S) = .ok (u, r) →
      ∃ w S2 T2, S = .tokS w :: S2 ∧ T = .tokS w :: T2 ∧ segExt S2 T2 = true ∧
        r = (flatSegs S).drop cs.length ∧
        ((∃ y2, w = cs ++ y2 ∧ r = y2 ++ flatSegs S2 ∧
           plit cs n (flatSegs T) = .ok ((), y2 ++ flatSegs T2)) ∨
         (∃ extra, extra ≠ [] ∧ cs = w ++ extra ∧
           extra.isPrefixOf (flatSegs S2) = true)) := by
  intro u r h
  have heq := plit_ok.mp h
  rcases segExt_aligned_tok hwf hext hhS hhT with ⟨rfl, hT⟩ |
    ⟨w, S2, T2, rfl, rfl, hrec⟩
  · exfalso
    cases cs with
    | nil => exact absurd rfl hne
    | cons c cs2 => exact absurd heq (by simp [flatSegs])
  · refine ⟨w, S2, T2, rfl, rfl, hrec, ?_, ?_⟩
    · rw [heq]
      rw [List.drop_left' rfl]
    · have hpre : cs.isPrefixOf (w ++ flatSegs S2) = true := by
        rw [List.isPrefixOf_iff_prefix]
        rw [flat_tok] at heq
        exact ⟨r, heq.symm⟩
      rcases isPrefixOf_append_cases cs w (flatSegs S2) hpre with h2 |
        ⟨extra, rfl, h3, h4⟩
      · left
        rw [List.isPrefixOf_iff_prefix] at h2
        obtain ⟨y2, rfl⟩ := h2
        refine ⟨y2, rfl, ?_, ?_⟩
        · rw [flat_tok, List.append_assoc] at heq
          exact (List.append_cancel_left heq).symm
        · apply plit_ok.mpr
          rw [flat_tok, List.append_assoc]
      · right
        exact ⟨extra, h4, rfl, h3⟩

/-- A literal of the word kind consumes a prefix of the leading word
token. -/
theorem plit_word_seg {cs : List Char} {n : String} {S T : List Seg}
    (hne : cs ≠ []) (hall : cs.all isIdentChar = true)
    (hwf : segsWf .norm S = true) (hext : segExt S T = true)
    (hhS : headTok S = true) (hhT : headTok T = true) :
    ∀ u r, plit cs n (flatSegs S) = .ok (u, r) →
      ∃ w y2 S2 T2, S = .tokS w :: S2 ∧ T = .tokS w :: T2 ∧ w = cs ++ y2 ∧
        y2.all isIdentChar = true ∧ r = y2 ++ flatSegs S2 ∧
        segExt S2 T2 = true ∧ segsWf .norm S2 = true ∧
        nextNot isIdentChar S2 = true ∧
        plit cs n (flatSegs T) = .ok ((), y2 ++ flatSegs T2) := by
  intro u r h
  obtain ⟨w, S2, T2, rfl, rfl, hrec, -, hcase⟩ :=
    plit_cases_seg hne hwf hext hhS hhT u r h
  obtain ⟨c, t, rfl, -⟩ := tok_head_char hwf
  -- the token is a word token
  have hcid : isIdentChar c = true := by
    rcases hcase with ⟨y2, hw, -, -⟩ | ⟨extra, -, hw, -⟩
    · cases cs with
      | nil => exact absurd rfl hne
      | cons c0 cs2 =>
        rw [show ((c0 :: cs2) ++ y2 : List Char) = c0 :: (cs2 ++ y2) from rfl] at hw
        injection hw with hw1 _
        rw [hw1]
        exact List.all_eq_true.mp hall c0 (by simp)
    · cases cs with
      | nil => exact absurd rfl hne
      | cons c0 cs2 =>
        rw [show ((c :: t) ++ extra : List Char) = c :: (t ++ extra) from rfl] at hw
        injection hw with hw1 _
        rw [← hw1]
        exact List.all_eq_true.mp hall c0 (by simp)
  obtain ⟨hwall, hnn⟩ := normTokWf_word (segsWf_tok_norm hwf).1 hcid
  have hwfS2 : segsWf .norm S2 = true := by
    have h2 := (segsWf_tok_norm hwf).2
    rw [normNext_word hwall (by simp)] at h2
    exact h2
  rcases hcase with ⟨y2, hw, hr, hT⟩ | ⟨extra, hne2, hw, hpre⟩
  · refine ⟨c :: t, y2, S2, T2, rfl, rfl, hw, ?_, hr, hrec, hwfS2, hnn, hT⟩
    have : (cs ++ y2).all isIdentChar = true := by rw [← hw]; exact hwall
    rw [List.all_append, Bool.and_eq_true] at this
    exact this.2
  · exfalso
    cases extra with
    | nil => exact absurd rfl hne2
    | cons d e2 =>
      cases hfs : flatSegs S2 with
      | nil =>
        rw [hfs] at hpre
        exact absurd hpre (by simp [List.isPrefixOf])
      | cons d2 r2 =>
        rw [hfs] at hpre
        rw [List.isPrefixOf_cons₂, Bool.and_eq_true, beq_iff_eq] at hpre
        have hd : isIdentChar d = true := by
          have : (cs).all isIdentChar = true := hall
          rw [hw, List.all_append] at this
          rw [Bool.and_eq_true] at this
          exact List.all_eq_true.mp this.2 d (by simp)
        rw [hpre.1] at hd
        have := nextNot_head hnn d2 (by rw [hfs]; rfl)
        rw [this] at hd
        exact absurd hd (by simp)

/-- A single-character punctuation token has no continuation. -/
theorem normTokWf_single {c : Char} {t : List Char} {S : List Seg}
    (h : normTokWf (c :: t) S = true)
    (hci : isIdentChar c = false) (hq : c ≠ '"') (hd : c ≠ '.')
    (he : c ≠ '=') (hb : c ≠ '!') : t = [] := by
  rw [normTokWf_cons, hci] at h
  rw [if_neg (by simp)] at h
  by_cases ha : c = '@'
  · rw [if_pos ha] at h
    exact List.isEmpty_iff.mp h
  · rw [if_neg ha, if_neg hq, if_neg hd, if_neg he, if_neg hb] at h
    by_cases hg : (c = '<' || c = '>' || c = '\x7b' || c = '\x7d' || c = '(' ||
        c = ')' || c = ',' || c = '$') = true
    · rw [if_pos hg] at h
      exact List.isEmpty_iff.mp h
    · rw [if_neg hg] at h
      exact absurd h (by simp)

/-- A token beginning with `=` is `=` (with boundary) or `==`. -/
theorem normTokWf_head_eq {t : List Char} {S : List Seg}
    (h : normTokWf ('=' :: t) S = true) :
    (t = [] ∧ nextNot (fun c => c = '=') S = true) ∨ t = ['='] := by
  rw [normTokWf_cons] at h
  rw [(by decide : isIdentChar '=' = false)] at h
  rw [if_neg (by simp), if_neg (by decide), if_neg (by decide),
    if_neg (by decide), if_pos rfl] at h
  rw [Bool.or_eq_true] at h
  rcases h with h | h
  · rw [Bool.and_eq_true] at h
    exact .inl ⟨List.isEmpty_iff.mp h.1, h.2⟩
  · exact .inr (by rwa [beq_iff_eq] at h)

/-- A token beginning with `!` is `!` (with boundary) or `!=`. -/
theorem normTokWf_head_bang {t : List Char} {S : List Seg}
    (h : normTokWf ('!' :: t) S = true) :
    (t = [] ∧ nextNot (fun c => c = '=') S = true) ∨ t = ['='] := by
  rw [normTokWf_cons] at h
  rw [(by decide : isIdentChar '!' = false)] at h
  rw [if_neg (by simp), if_neg (by decide), if_neg (by decide),
    if_neg (by decide), if_neg (by decide), if_pos rfl] at h
  rw [Bool.or_eq_true] at h
  rcases h with h | h
  · rw [Bool.and_eq_true] at h
    exact .inl ⟨List.isEmpty_iff.mp h.1, h.2⟩
  · exact .inr (by rwa [beq_iff_eq] at h)

/-- A token beginning with `.` is `.` (with boundary conditions), `..` or
`.split(`. -/
theorem normTokWf_head_dot {t : List Char} {S : List Seg}
    (h : normTokWf ('.' :: t) S = true) :
    (t = [] ∧ nextNot (fun c => c = '.') S = true ∧
      ['s','p','l','i','t','('].isPrefixOf (flatSegs S) = false) ∨
    t = ['.'] ∨ t = ['s','p','l','i','t','('] := by
  rw [normTokWf_cons] at h
  rw [(by decide : isIdentChar '.' = false)] at h
  rw [if_neg (by simp), if_neg (by decide), if_neg (by decide),
    if_pos rfl] at h
  rw [Bool.or_eq_true, Bool.or_eq_true] at h
  rcases h with (h | h) | h
  · simp only [Bool.and_eq_true] at h
    obtain ⟨⟨h1, h2⟩, h3⟩ := h
    rw [Bool.not_eq_true'] at h3
    exact .inl ⟨List.isEmpty_iff.mp h1, h2, h3⟩
  · exact .inr (.inl (by rwa [beq_iff_eq] at h))
  · exact .inr (.inr (by rwa [beq_iff_eq] at h))

/-- Exact-token literal matching: when the literal can neither stop inside
the leading token nor cross past it, success consumes exactly the token and
transfers. -/
theorem plit_punct_seg {cs : List Char} {n : String} {S T : List Seg}
    (hne : cs ≠ [])
    (hwf : segsWf .norm S = true) (hext : segExt S T = true)
    (hhS : headTok S = true) (hhT : headTok T = true)
    (hspec : ∀ w S2, S = .tokS w :: S2 → normTokWf w S2 = true →
       (∀ y2, w = cs ++ y2 → y2 = []) ∧
       (∀ extra, cs = w ++ extra → extra ≠ [] →
         extra.isPrefixOf (flatSegs S2) = true → False)) :
    ∀ u r, plit cs n (flatSegs S) = .ok (u, r) →
      ∃ S2 T2, S = .tokS cs :: S2 ∧ T = .tokS cs :: T2 ∧ r = flatSegs S2 ∧
        segExt S2 T2 = true ∧ segsWf (normNext cs) S2 = true ∧
        plit cs n (flatSegs T) = .ok ((), flatSegs T2) := by
  intro u r h
  obtain ⟨w, S2, T2, hS, hT, hrec, -, hcase⟩ :=
    plit_cases_seg hne hwf hext hhS hhT u r h
  subst hS
  obtain ⟨hnorm, hwfS2⟩ := segsWf_tok_norm hwf
  obtain ⟨hfull, hkill⟩ := hspec w S2 rfl hnorm
  rcases hcase with ⟨y2, hw, hr, hTok⟩ | ⟨extra, hne2, hw, hpre⟩
  · have hy2 : y2 = [] := hfull y2 hw
    subst hy2
    rw [List.append_nil] at hw
    subst hw
    rw [List.nil_append] at hr hTok
    subst hT
    exact ⟨S2, T2, rfl, rfl, hr, hrec, hwfS2, hTok⟩
  · exact absurd hpre (fun hp => hkill extra hw hne2 hp)

/-- The second `@` of an author tag. -/
theorem plit_at1_seg {n : String} {S T : List Seg}
    (hwf : segsWf .at1 S = true) (hext : segExt S T = true)
    (hhS : headTok S = true) (hhT : headTok T = true) :
    ∀ u r, plit ['@'] n (flatSegs S) = .ok (u, r) →
      ∃ S2 T2, S = .tokS ['@'] :: S2 ∧ T = .tokS ['@'] :: T2 ∧
        r = flatSegs S2 ∧ segExt S2 T2 = true ∧ segsWf .at2 S2 = true ∧
        plit ['@'] n (flatSegs T) = .ok ((), flatSegs T2) := by
  intro u r h
  obtain ⟨w, S2, T2, hS, hT, hrec, -, hcase⟩ :=
    plit_cases_seg (by simp) hwf hext hhS hhT u r h
  subst hS
  have hwt : w = ['@'] ∧ segsWf .at2 S2 = true := by
    have h2 : segsWf .at1 (.tokS w :: S2) =
        (w == ['@'] && segsWf .at2 S2) := rfl
    rw [h2, Bool.and_eq_true, beq_iff_eq] at hwf
    exact hwf
  obtain ⟨rfl, hwfS2⟩ := hwt
  rcases hcase with ⟨y2, hw, hr, hTok⟩ | ⟨extra, hne2, hw, hpre⟩
  · have hy2 : y2 = [] := by
      cases y2 with
      | nil => rfl
      | cons d y3 => exact absurd hw (by simp)
    subst hy2
    rw [List.nil_append] at hr hTok
    subst hT
    exact ⟨S2, T2, rfl, rfl, hr, hrec, hwfS2, hTok⟩
  · exfalso
    cases extra with
    | nil => exact absurd rfl hne2
    | cons d e2 => exact absurd hw (by simp)


/-! ### C7: the digit scanner over decomposition pairs -/

theorem digitsWsAux_digits : ∀ {d r : List Char}, d.all isDigitChar = true →
    digitsWsAux (d ++ r) = (d ++ (digitsWsAux r).1, (digitsWsAux r).2) := by
  intro d
  induction d with
  | nil => intro r _; simp
  | cons c d2 ih =>
    intro r hall
    rw [List.all_cons, Bool.and_eq_true] at hall
    rw [List.cons_append]
    show (if isDigitChar c then
        ((c :: (digitsWsAux (d2 ++ r)).1, (digitsWsAux (d2 ++ r)).2) : List Char × List Char)
      else if isWsChar c then
        if (digitsWsAux (d2 ++ r)).1.isEmpty then ([], c :: (d2 ++ r))
        else digitsWsAux (d2 ++ r)
      else ([], c :: (d2 ++ r))) = _
    rw [if_pos hall.1, ih hall.2]
    rfl

theorem digitsWsAux_ws : ∀ {g r : List Char}, g ≠ [] → g.all isWsChar = true →
    digitsWsAux (g ++ r) =
      (if (digitsWsAux r).1.isEmpty then ([], g ++ r) else digitsWsAux r) := by
  intro g
  induction g with
  | nil => intro r h _; exact absurd rfl h
  | cons c g2 ih =>
    intro r _ hall
    rw [List.all_cons, Bool.and_eq_true] at hall
    have hcd : isDigitChar c = false := by
      cases hd : isDigitChar c
      · rfl
      · exfalso
        have : isIdentChar c = true := by
          unfold isIdentChar
          unfold isDigitChar at hd
          unfold Char.isAlphanum
          rw [hd]
          simp
        rw [identChar_not_ws2 c this] at hall
        exact absurd hall.1 (by simp)
    rw [List.cons_append]
    show (if isDigitChar c then
        ((c :: (digitsWsAux (g2 ++ r)).1, (digitsWsAux (g2 ++ r)).2) : List Char × List Char)
      else if isWsChar c then
        if (digitsWsAux (g2 ++ r)).1.isEmpty then ([], c :: (g2 ++ r))
        else digitsWsAux (g2 ++ r)
      else ([], c :: (g2 ++ r))) = _
    rw [hcd, if_neg (by simp), if_pos hall.1]
    cases hg2 : g2 with
    | nil =>
      rw [List.nil_append]
    | cons c2 g3 =>
      rw [← hg2, ih (by rw [hg2]; simp) hall.2]
      by_cases hre : (digitsWsAux r).1.isEmpty = true
      · rw [if_pos hre, if_pos (by rfl : (([], g2 ++ r) :
          List Char × List Char).1.isEmpty = true), if_pos hre]
      · rw [if_neg hre, if_neg hre]

theorem digitsWsAux_stop {c : Char} {r : List Char}
    (hcd : isDigitChar c = false) (hcw : isWsChar c = false) :
    digitsWsAux (c :: r) = ([], c :: r) := by
  show (if isDigitChar c then
      ((c :: (digitsWsAux r).1, (digitsWsAux r).2) : List Char × List Char)
    else if isWsChar c then
      if (digitsWsAux r).1.isEmpty then ([], c :: r) else digitsWsAux r
    else ([], c :: r)) = _
  rw [hcd, hcw]
  simp

theorem digit_isIdentChar {c : Char} (h : isDigitChar c = true) :
    isIdentChar c = true := by
  unfold isIdentChar
  unfold isDigitChar at h
  unfold Char.isAlphanum
  rw [h]
  simp

theorem all_of_dropWhile {p q : Char → Bool} {l : List Char}
    (h : l.all q = true) : (l.dropWhile p).all q = true := by
  rw [List.all_eq_true] at h ⊢
  intro c hc
  exact h c ((List.dropWhile_sublist _).subset hc)

theorem all_of_takeWhile2 {p q : Char → Bool} {l : List Char}
    (h : l.all q = true) : (l.takeWhile p).all q = true := by
  rw [List.all_eq_true] at h ⊢
  intro c hc
  exact h c ((List.takeWhile_sublist _).subset hc)

theorem segExt_nil_gap {g : List Char} (hge : g ≠ [])
    (hgw : g.all isWsChar = true) : segExt [] [.gapS g] = true := by
  show (!g.isEmpty && g.all isWsChar && headTok ([] : List Seg) &&
    headTok ([] : List Seg) && segExt [] []) = true
  rw [hgw]
  cases g with
  | nil => exact absurd rfl hge
  | cons c t => rfl

theorem segExt_gap_cons {g g2 : List Char} {S T : List Seg}
    (hge : g ≠ []) (hgw : g.all isWsChar = true)
    (hg2e : g2 ≠ []) (hg2w : g2.all isWsChar = true)
    (hhS : headTok S = true) (hhT : headTok T = true)
    (hrec : segExt S T = true) :
    segExt (.gapS g :: S) (.gapS g2 :: T) = true := by
  show (!g.isEmpty && g.all isWsChar && !g2.isEmpty && g2.all isWsChar &&
    headTok S && headTok T && segExt S T) = true
  rw [hgw, hg2w, hhS, hhT, hrec]
  cases g with
  | nil => exact absurd rfl hge
  | cons c t =>
    cases g2 with
    | nil => exact absurd rfl hg2e
    | cons c2 t2 => rfl

theorem segExt_tok_cons {w : List Char} {S T : List Seg}
    (h : segExt S T = true) :
    segExt (.tokS w :: S) (.tokS w :: T) = true := by
  show (w == w && segExt S T) = true
  rw [h, beq_self_eq_true]
  rfl

theorem dropWhile_head_false {p : Char → Bool} :
    ∀ (l : List Char) {c t}, l.dropWhile p = c :: t → p c = false := by
  intro l
  induction l with
  | nil => intro c t h; exact absurd h (by simp)
  | cons a l2 ih =>
    intro c t h
    rw [List.dropWhile_cons] at h
    by_cases ha : p a = true
    · rw [if_pos ha] at h
      exact ih h
    · rw [if_neg ha] at h
      injection h with h1 _
      rw [← h1]
      simp only [Bool.not_eq_true] at ha
      exact ha

/-- The digit scanner over a decomposition pair: both sides read the same
digits, crossing whitespace gaps between digit runs, and stop at matching
positions. -/
theorem digitsWsAux_seg :
    ∀ (n : Nat) (y : List Char) (S T : List Seg),
      S.length < n →
      segsWf .norm S = true → segExt S T = true →
      y.all isIdentChar = true →
      (y ≠ [] → nextNot isIdentChar S = true) →
      ∃ ds y2 S2 T2,
        digitsWsAux (y ++ flatSegs S) = (ds, y2 ++ flatSegs S2) ∧
        digitsWsAux (y ++ flatSegs T) = (ds, y2 ++ flatSegs T2) ∧
        segExt S2 T2 = true ∧ segsWf .norm S2 = true ∧
        y2.all isIdentChar = true ∧
        (y2 ≠ [] → nextNot isIdentChar S2 = true) ∧
        (∀ d, y.head? = some d → isDigitChar d = true → ds ≠ []) := by
  intro n
  induction n with
  | zero => intro y S T hlen; exact absurd hlen (by simp)
  | succ n2 ih =>
    intro y S T hlen hwf hext hall hnn
    have hy : y.takeWhile isDigitChar ++ y.dropWhile isDigitChar = y :=
      List.takeWhile_append_dropWhile _ _
    have hydall : (y.takeWhile isDigitChar).all isDigitChar :=
      all_takeWhile2 _ _
    cases hyr : y.dropWhile isDigitChar with
    | cons c yr2 =>
      have hcnd : isDigitChar c = false := dropWhile_head_false y hyr
      have hcid : isIdentChar c = true := by
        rw [List.all_eq_true] at hall
        exact hall c ((List.dropWhile_sublist _).subset (by rw [hyr]; simp))
      have hcws : isWsChar c = false := identChar_not_ws2 c hcid
      have run : ∀ (r : List Char),
          digitsWsAux (y ++ r) =
            (y.takeWhile isDigitChar, (c :: yr2) ++ r) := by
        intro r
        conv_lhs => rw [← hy, hyr]
        rw [List.append_assoc, digitsWsAux_digits hydall]
        rw [List.cons_append, digitsWsAux_stop hcnd hcws]
        rw [List.append_nil]
      refine ⟨y.takeWhile isDigitChar, c :: yr2, S, T, run _, run _, hext, hwf,
        ?_, ?_, ?_⟩
      · rw [← hyr]
        exact all_of_dropWhile hall
      · intro _
        apply hnn
        intro hy0
        rw [hy0] at hyr
        exact absurd hyr (by simp)
      · intro d hd hdd
        cases y with
        | nil => exact absurd hd (by simp)
        | cons e y3 =>
          injection hd with hd
          subst hd
          rw [List.takeWhile_cons, if_pos hdd]
          simp
    | nil =>
      have hyall : y.all isDigitChar = true := by
        rw [← hy, hyr, List.append_nil]
        exact hydall
      have hyne : ∀ d, y.head? = some d → isDigitChar d = true → y ≠ [] := by
        intro d hd _ h0
        rw [h0] at hd
        exact absurd hd (by simp)
      cases S with
      | nil =>
        rcases segExt_nil hext with rfl | ⟨g, rfl, hge, hgw⟩
        · refine ⟨y, [], [], [], ?_, ?_, rfl, rfl, rfl, by simp, fun d hd hdd => hyne d hd hdd⟩
          · show digitsWsAux (y ++ []) = (y, [] ++ [])
            rw [digitsWsAux_digits hyall,
              show (digitsWsAux ([] : List Char)).1 = [] from rfl,
              show (digitsWsAux ([] : List Char)).2 = [] from rfl]
            simp
          · show digitsWsAux (y ++ []) = (y, [] ++ [])
            rw [digitsWsAux_digits hyall,
              show (digitsWsAux ([] : List Char)).1 = [] from rfl,
              show (digitsWsAux ([] : List Char)).2 = [] from rfl]
            simp
        · refine ⟨y, [], [], [.gapS g], ?_, ?_, segExt_nil_gap hge hgw, rfl,
            rfl, by simp, fun d hd hdd => hyne d hd hdd⟩
          · show digitsWsAux (y ++ []) = (y, [] ++ [])
            rw [digitsWsAux_digits hyall,
              show (digitsWsAux ([] : List Char)).1 = [] from rfl,
              show (digitsWsAux ([] : List Char)).2 = [] from rfl]
            simp
          · show digitsWsAux (y ++ (g ++ flatSegs ([] : List Seg))) =
              (y, [] ++ (g ++ flatSegs ([] : List Seg)))
            rw [digitsWsAux_digits hyall, digitsWsAux_ws hge hgw]
            rw [show (digitsWsAux (flatSegs ([] : List Seg))).1.isEmpty = true from rfl]
            simp
      | cons s S3 =>
        cases s with
        | gapS g =>
          obtain ⟨hge, hgw, hhS3, hwfS3⟩ := segsWf_gap hwf
          obtain ⟨g2, T3, rfl, hg2e, hg2w, -, hhT3, hrecG⟩ := segExt_gap hext
          cases S3 with
          | nil =>
            have hT3 : T3 = [] := by
              rcases segExt_nil hrecG with rfl | ⟨g4, rfl, -, -⟩
              · rfl
              · exact absurd hhT3 (by simp [headTok])
            subst hT3
            refine ⟨y, [], .gapS g :: [], .gapS g2 :: [], ?_, ?_, hext, hwf,
              rfl, by simp, fun d hd hdd => hyne d hd hdd⟩
            · show digitsWsAux (y ++ (g ++ flatSegs ([] : List Seg))) =
                (y, [] ++ (g ++ flatSegs ([] : List Seg)))
              rw [digitsWsAux_digits hyall, digitsWsAux_ws hge hgw]
              rw [show (digitsWsAux (flatSegs ([] : List Seg))).1.isEmpty = true from rfl]
              simp
            · show digitsWsAux (y ++ (g2 ++ flatSegs ([] : List Seg))) =
                (y, [] ++ (g2 ++ flatSegs ([] : List Seg)))
              rw [digitsWsAux_digits hyall, digitsWsAux_ws hg2e hg2w]
              rw [show (digitsWsAux (flatSegs ([] : List Seg))).1.isEmpty = true from rfl]
              simp
          | cons s3 S4 =>
            cases s3 with
            | gapS g3 => exact absurd hhS3 (by simp [headTok])
            | tokS w2 =>
              obtain ⟨c2, t2, hw2, hc2ws⟩ := tok_head_char hwfS3
              subst hw2
              rcases segExt_aligned_tok hwfS3 hrecG hhS3 hhT3 with ⟨h0, -⟩ |
                ⟨w2x, S4x, T4, hS3eq, hT3eq, hrec4⟩
              · exact absurd h0 (by simp)
              injection hS3eq with hS3a hS3b
              injection hS3a with hS3a
              subst hS3a
              subst hS3b
              subst hT3eq
              by_cases hc2d : isDigitChar c2 = true
              · -- the scan crosses the gap into the next digit token
                obtain ⟨hw2all, hw2nn⟩ :=
                  normTokWf_word (segsWf_tok_norm hwfS3).1 (digit_isIdentChar hc2d)
                have hwfS4 : segsWf .norm S4 = true := by
                  have h2 := (segsWf_tok_norm hwfS3).2
                  rw [normNext_word hw2all (by simp)] at h2
                  exact h2
                obtain ⟨ds2, y2, S2, T2, eqS, eqT, hextR, hwfR, hallR, hnnR, hneR⟩ :=
                  ih (c2 :: t2) S4 T4 (by simp at hlen ⊢; omega) hwfS4 hrec4
                    hw2all (fun _ => hw2nn)
                have hds2ne : ds2 ≠ [] := hneR c2 rfl hc2d
                have hds2e : (digitsWsAux (flatSegs (.tokS (c2 :: t2) :: S4))).1.isEmpty = false := by
                  rw [show flatSegs (.tokS (c2 :: t2) :: S4) =
                    (c2 :: t2) ++ flatSegs S4 from rfl, eqS]
                  simp only [List.isEmpty_eq_false]
                  exact hds2ne
                have hds2eT : (digitsWsAux (flatSegs (.tokS (c2 :: t2) :: T4))).1.isEmpty = false := by
                  rw [show flatSegs (.tokS (c2 :: t2) :: T4) =
                    (c2 :: t2) ++ flatSegs T4 from rfl, eqT]
                  simp only [List.isEmpty_eq_false]
                  exact hds2ne
                refine ⟨y ++ ds2, y2, S2, T2, ?_, ?_, hextR, hwfR, hallR, hnnR,
                  fun d hd hdd => by
                    intro h0
                    rw [List.append_eq_nil] at h0
                    exact hyne d hd hdd h0.1⟩
                · show digitsWsAux (y ++ (g ++ flatSegs (.tokS (c2 :: t2) :: S4))) =
                    (y ++ ds2, y2 ++ flatSegs S2)
                  rw [digitsWsAux_digits hyall, digitsWsAux_ws hge hgw, hds2e]
                  rw [if_neg (by simp)]
                  rw [show flatSegs (.tokS (c2 :: t2) :: S4) =
                    (c2 :: t2) ++ flatSegs S4 from rfl, eqS]
                · show digitsWsAux (y ++ (g2 ++ flatSegs (.tokS (c2 :: t2) :: T4))) =
                    (y ++ ds2, y2 ++ flatSegs T2)
                  rw [digitsWsAux_digits hyall, digitsWsAux_ws hg2e hg2w, hds2eT]
                  rw [if_neg (by simp)]
                  rw [show flatSegs (.tokS (c2 :: t2) :: T4) =
                    (c2 :: t2) ++ flatSegs T4 from rfl, eqT]
              · -- the next token is not a digit: roll the whitespace back
                have hstop : ∀ (R4 : List Seg),
                    digitsWsAux (flatSegs (.tokS (c2 :: t2) :: R4)) =
                      ([], flatSegs (.tokS (c2 :: t2) :: R4)) := by
                  intro R4
                  rw [show flatSegs (.tokS (c2 :: t2) :: R4) =
                    c2 :: (t2 ++ flatSegs R4) from rfl]
                  exact digitsWsAux_stop (by rwa [Bool.not_eq_true] at hc2d) hc2ws
                refine ⟨y, [], .gapS g :: .tokS (c2 :: t2) :: S4,
                  .gapS g2 :: .tokS (c2 :: t2) :: T4, ?_, ?_, hext, hwf, rfl,
                  by simp, fun d hd hdd => hyne d hd hdd⟩
                · show digitsWsAux (y ++ (g ++ flatSegs (.tokS (c2 :: t2) :: S4))) =
                    (y, [] ++ (g ++ flatSegs (.tokS (c2 :: t2) :: S4)))
                  rw [digitsWsAux_digits hyall, digitsWsAux_ws hge hgw, hstop]
                  simp
                · show digitsWsAux (y ++ (g2 ++ flatSegs (.tokS (c2 :: t2) :: T4))) =
                    (y, [] ++ (g2 ++ flatSegs (.tokS (c2 :: t2) :: T4)))
                  rw [digitsWsAux_digits hyall, digitsWsAux_ws hg2e hg2w, hstop]
                  simp
        | tokS w2 =>
          obtain ⟨c2, t2, hw2, hc2ws⟩ := tok_head_char hwf
          subst hw2
          by_cases hc2d : isDigitChar c2 = true
          · -- adjacent digit token: only possible with empty y; continue
            have hy0 : y = [] := by
              by_contra hy0
              have h2 := nextNot_head (hnn hy0) c2 (by
                rw [show flatSegs (.tokS (c2 :: t2) :: S3) =
                  c2 :: (t2 ++ flatSegs S3) from rfl]
                rfl)
              rw [digit_isIdentChar hc2d] at h2
              exact absurd h2 (by simp)
            subst hy0
            obtain ⟨hw2all, hw2nn⟩ :=
              normTokWf_word (segsWf_tok_norm hwf).1 (digit_isIdentChar hc2d)
            have hwfS3 : segsWf .norm S3 = true := by
              have h2 := (segsWf_tok_norm hwf).2
              rw [normNext_word hw2all (by simp)] at h2
              exact h2
            rcases segExt_tok hext with ⟨T4, rfl, hrec4⟩ |
              ⟨gi, T4, rfl, hgie, hgiw, hrec4⟩
            · obtain ⟨ds2, y2, S2, T2, eqS, eqT, hextR, hwfR, hallR, hnnR, hneR⟩ :=
                ih (c2 :: t2) S3 T4 (by simp at hlen ⊢; omega) hwfS3 hrec4
                  hw2all (fun _ => hw2nn)
              refine ⟨ds2, y2, S2, T2, ?_, ?_, hextR, hwfR, hallR, hnnR,
                fun d hd => absurd hd (by simp)⟩
              · rw [List.nil_append,
                  show flatSegs (.tokS (c2 :: t2) :: S3) =
                    (c2 :: t2) ++ flatSegs S3 from rfl]
                exact eqS
              · rw [List.nil_append,
                  show flatSegs (.tokS (c2 :: t2) :: T4) =
                    (c2 :: t2) ++ flatSegs T4 from rfl]
                exact eqT
            · obtain ⟨ds2, y2, S2, T2, eqS, eqT, hextR, hwfR, hallR, hnnR, hneR⟩ :=
                ih (c2 :: t2) S3 T4 (by simp at hlen ⊢; omega) hwfS3 hrec4
                  hw2all (fun _ => hw2nn)
              have hds2ne : ds2 ≠ [] := hneR c2 rfl hc2d
              have hds2eT : (digitsWsAux (flatSegs (.tokS (c2 :: t2) :: T4))).1.isEmpty = false := by
                rw [show flatSegs (.tokS (c2 :: t2) :: T4) =
                  (c2 :: t2) ++ flatSegs T4 from rfl, eqT]
                simp only [List.isEmpty_eq_false]
                exact hds2ne
              refine ⟨ds2, y2, S2, T2, ?_, ?_, hextR, hwfR, hallR, hnnR,
                fun d hd => absurd hd (by simp)⟩
              · rw [List.nil_append,
                  show flatSegs (.tokS (c2 :: t2) :: S3) =
                    (c2 :: t2) ++ flatSegs S3 from rfl]
                exact eqS
              · rw [List.nil_append,
                  show flatSegs (.gapS gi :: .tokS (c2 :: t2) :: T4) =
                    gi ++ flatSegs (.tokS (c2 :: t2) :: T4) from rfl]
                rw [digitsWsAux_ws hgie hgiw, hds2eT]
                rw [if_neg (by simp)]
                rw [show flatSegs (.tokS (c2 :: t2) :: T4) =
                  (c2 :: t2) ++ flatSegs T4 from rfl, eqT]
          · -- stop at a non-digit token head
            have hstop : ∀ (R4 : List Seg),
                digitsWsAux (flatSegs (.tokS (c2 :: t2) :: R4)) =
                  ([], flatSegs (.tokS (c2 :: t2) :: R4)) := by
              intro R4
              rw [show flatSegs (.tokS (c2 :: t2) :: R4) =
                c2 :: (t2 ++ flatSegs R4) from rfl]
              exact digitsWsAux_stop (by rwa [Bool.not_eq_true] at hc2d) hc2ws
            rcases segExt_tok hext with ⟨T4, rfl, hrec4⟩ |
              ⟨gi, T4, rfl, hgie, hgiw, hrec4⟩
            · refine ⟨y, [], .tokS (c2 :: t2) :: S3, .tokS (c2 :: t2) :: T4,
                ?_, ?_, hext, hwf, rfl, by simp, fun d hd hdd => hyne d hd hdd⟩
              · rw [digitsWsAux_digits hyall, hstop]
                simp
              · rw [digitsWsAux_digits hyall, hstop]
                simp
            · refine ⟨y, [], .tokS (c2 :: t2) :: S3,
                .gapS gi :: .tokS (c2 :: t2) :: T4,
                ?_, ?_, hext, hwf, rfl, by simp, fun d hd hdd => hyne d hd hdd⟩
              · rw [digitsWsAux_digits hyall, hstop]
                simp
              · show digitsWsAux (y ++ (gi ++ flatSegs (.tokS (c2 :: t2) :: T4))) =
                  (y, [] ++ (gi ++ flatSegs (.tokS (c2 :: t2) :: T4)))
                rw [digitsWsAux_digits hyall, digitsWsAux_ws hgie hgiw, hstop]
                simp


/-! ### C7: number, string and delimiter over decomposition pairs -/

theorem numberP_cons (c : Char) (rest : List Char) :
    numberP (c :: rest) =
      (if isDigitChar c then
        .ok (c :: (digitsWsAux rest).1, (digitsWsAux rest).2)
      else .error ⟨(c :: rest).length, ["number"]⟩) := rfl

/-- `number` over a decomposition pair. -/
theorem numberP_seg {S T : List Seg}
    (hwf : segsWf .norm S = true) (hext : segExt S T = true)
    (hhS : headTok S = true) (hhT : headTok T = true) :
    (∀ v r, numberP (flatSegs S) = .ok (v, r) →
      ∃ y2 S2 T2, r = y2 ++ flatSegs S2 ∧
        numberP (flatSegs T) = .ok (v, y2 ++ flatSegs T2) ∧
        segExt S2 T2 = true ∧ segsWf .norm S2 = true ∧
        y2.all isIdentChar = true ∧
        (y2 ≠ [] → nextNot isIdentChar S2 = true)) ∧
    (∀ e, numberP (flatSegs S) = .error e →
      ∃ e2, numberP (flatSegs T) = .error e2) := by
  rcases segExt_aligned_tok hwf hext hhS hhT with ⟨rfl, hT⟩ |
    ⟨w, S2, T2, rfl, rfl, hrec⟩
  · constructor
    · intro v r h
      exact absurd h (by simp [numberP, flatSegs])
    · intro e h
      rw [hT]
      exact ⟨⟨0, ["number"]⟩, rfl⟩
  · obtain ⟨c, t, rfl, -⟩ := tok_head_char hwf
    rw [show flatSegs (.tokS (c :: t) :: S2) = c :: (t ++ flatSegs S2) from rfl,
      numberP_cons]
    rw [show flatSegs (.tokS (c :: t) :: T2) = c :: (t ++ flatSegs T2) from rfl,
      numberP_cons]
    by_cases hcd : isDigitChar c = true
    · rw [if_pos hcd, if_pos hcd]
      obtain ⟨hwall, hnn⟩ :=
        normTokWf_word (segsWf_tok_norm hwf).1 (digit_isIdentChar hcd)
      have hwfS2 : segsWf .norm S2 = true := by
        have h2 := (segsWf_tok_norm hwf).2
        rw [normNext_word hwall (by simp)] at h2
        exact h2
      have htall : t.all isIdentChar = true := by
        rw [List.all_cons, Bool.and_eq_true] at hwall
        exact hwall.2
      obtain ⟨ds, y2, S3, T3, eqS, eqT, hextR, hwfR, hallR, hnnR, -⟩ :=
        digitsWsAux_seg (S2.length + 1) t S2 T2 (by omega) hwfS2 hrec htall
          (fun _ => hnn)
      constructor
      · intro v r h
        injection h with h
        injection h with h1 h2
        refine ⟨y2, S3, T3, ?_, ?_, hextR, hwfR, hallR, hnnR⟩
        · rw [← h2, eqS]
        · rw [eqT, ← h1, eqS]
      · intro e h
        exact absurd h (by simp)
    · rw [if_neg hcd, if_neg hcd]
      constructor
      · intro v r h
        exact absurd h (by simp)
      · intro e h
        exact ⟨_, rfl⟩

/-- The string-body scanner on a well-formed token body: the consumed
content and the rolled-back whitespace before the closing quote do not
depend on what follows the token. -/
theorem stringBodyAux_body :
    ∀ (n : Nat) (body : List Char), body.length ≤ n → strBodyOk body = true →
      ∃ ch wsuf, wsuf.all isWsChar = true ∧
        (ch = [] → body = wsuf ++ ['"']) ∧
        ∀ r2, stringBodyAux (body ++ r2) = (ch, wsuf ++ ('"' :: r2)) := by
  intro n
  induction n with
  | zero =>
    intro body hlen hok
    cases body with
    | nil => exact absurd hok (by decide)
    | cons c t => exact absurd hlen (by simp)
  | succ n2 ih =>
    intro body hlen hok
    cases body with
    | nil => exact absurd hok (by decide)
    | cons c t =>
      by_cases hc : c = '\\'
      · subst hc
        cases t with
        | nil => exact absurd hok (by decide)
        | cons e t2 =>
          by_cases he : e = '"'
          · subst he
            have hok2 : strBodyOk t2 = true := by
              rw [show strBodyOk ('\\' :: '"' :: t2) = strBodyOk t2 from rfl] at hok
              exact hok
            obtain ⟨ch, wsuf, hws, hemp, hrun⟩ :=
              ih t2 (by simp at hlen ⊢; omega) hok2
            refine ⟨'\\' :: '"' :: ch, wsuf, hws, by simp, ?_⟩
            intro r2
            rw [show (('\\' :: '"' :: t2) ++ r2 : List Char) =
              '\\' :: '"' :: (t2 ++ r2) from rfl, stringBodyAux.eq_2, hrun r2]
          · have hok2 : strBodyOk (e :: t2) = true := by
              rw [strBodyOk.eq_4 '\\' (e :: t2)
                (fun t1 _ ht => by injection ht with ht1 _; exact he ht1)
                (fun hq => by exact absurd hq (by decide))] at hok
              exact hok
            obtain ⟨ch, wsuf, hws, hemp, hrun⟩ :=
              ih (e :: t2) (by simp at hlen ⊢; omega) hok2
            refine ⟨'\\' :: ch, wsuf, hws, by simp, ?_⟩
            intro r2
            rw [show (('\\' :: e :: t2) ++ r2 : List Char) =
              '\\' :: ((e :: t2) ++ r2) from rfl]
            rw [stringBodyAux.eq_3 '\\' ((e :: t2) ++ r2)
              (fun t1 _ ht => by injection ht with ht1 _; exact he ht1)]
            rw [if_neg (by decide : ¬(isWsChar '\\' = true)),
              if_neg (by decide : ¬('\\' = '"')), hrun r2]
      · by_cases hq : c = '"'
        · subst hq
          have ht : t = [] := by
            rw [strBodyOk.eq_3] at hok
            exact List.isEmpty_iff.mp hok
          subst ht
          refine ⟨[], [], rfl, fun _ => rfl, ?_⟩
          intro r2
          rw [show ((['"'] : List Char) ++ r2) = '"' :: r2 from rfl]
          rw [stringBodyAux.eq_3 '"' r2 (fun t1 hcc _ => by exact absurd hcc (by decide))]
          rw [if_neg (by decide : ¬(isWsChar '"' = true)), if_pos rfl]
          rfl
        · have hok2 : strBodyOk t = true := by
            rw [strBodyOk.eq_4 c t
              (fun t1 hcc _ => hc hcc) (fun hcc => hq hcc)] at hok
            exact hok
          obtain ⟨ch, wsuf, hws, hemp, hrun⟩ :=
            ih t (by simp at hlen ⊢; omega) hok2
          by_cases hw : isWsChar c = true
          · by_cases hch : ch = []
            · subst hch
              refine ⟨[], c :: wsuf, ?_, ?_, ?_⟩
              · rw [List.all_cons, hw, hws]
                rfl
              · intro _
                rw [hemp rfl]
                rfl
              · intro r2
                rw [List.cons_append]
                rw [stringBodyAux.eq_3 c (t ++ r2) (fun t1 hcc _ => hc hcc)]
                rw [if_pos hw, hrun r2]
                dsimp only
                rw [if_pos (show (List.isEmpty ([] : List Char)) = true from rfl)]
                rw [hemp rfl]
                rw [show ((wsuf ++ ['"']) ++ r2 : List Char) =
                  wsuf ++ ('"' :: r2) from by rw [List.append_assoc]; rfl]
                rfl
            · refine ⟨ch, wsuf, hws, fun h0 => absurd h0 hch, ?_⟩
              intro r2
              rw [List.cons_append]
              rw [stringBodyAux.eq_3 c (t ++ r2) (fun t1 hcc _ => hc hcc)]
              rw [if_pos hw, hrun r2]
              dsimp only
              rw [if_neg (by simpa using hch)]
          · refine ⟨c :: ch, wsuf, hws, by simp, ?_⟩
            intro r2
            rw [List.cons_append]
            rw [stringBodyAux.eq_3 c (t ++ r2) (fun t1 hcc _ => hc hcc)]
            rw [if_neg (by simp [hw]), if_neg hq, hrun r2]

/-- A complete string token parses to its content, independently of the
following text. -/
theorem stringLitP_tok {body : List Char} (hok : strBodyOk body = true) :
    ∃ v, ∀ r2, stringLitP (('"' :: body) ++ r2) = .ok (v, r2) := by
  obtain ⟨ch, wsuf, hws, -, hrun⟩ :=
    stringBodyAux_body (body.length) body (by omega) hok
  refine ⟨ch.asString, ?_⟩
  intro r2
  have hdw : (wsuf ++ ('"' :: r2)).dropWhile isWsChar = '"' :: r2 := by
    rw [List.dropWhile_append]
    have hg : wsuf.dropWhile isWsChar = [] := by
      rw [List.dropWhile_eq_nil_iff]
      intro x hx
      exact (List.all_eq_true.mp hws) x hx
    rw [hg]
    simp only [List.isEmpty_nil, if_true]
    rw [List.dropWhile_cons, (by decide : isWsChar '"' = false)]
    rfl
  rw [show (('"' :: body) ++ r2 : List Char) = '"' :: (body ++ r2) from rfl]
  rw [show stringLitP ('"' :: (body ++ r2)) =
      (if ('"' : Char) = '"' then
        (match List.dropWhile isWsChar (stringBodyAux (body ++ r2)).2 with
         | '"' :: t2 => Except.ok ((stringBodyAux (body ++ r2)).1.asString, t2)
         | r => (Except.error ⟨r.length, ["string"]⟩ : Except PErr (String × List Char)))
       else Except.error ⟨(body ++ r2).length + 1, ["string"]⟩)
      from rfl]
  rw [if_pos rfl]
  rw [hrun r2]
  dsimp only
  rw [hdw]
  rfl

/-! ### String and delimiter literals at aligned positions -/

theorem stringLitP_head {c : Char} (t : List Char) (hc : ¬ c = '"') :
    stringLitP (c :: t) = .error ⟨t.length + 1, ["string"]⟩ := by
  rw [show stringLitP (c :: t) =
      (if c = '"' then
        (match (stringBodyAux t).2.dropWhile isWsChar with
         | '"' :: t2 => Except.ok ((stringBodyAux t).1.asString, t2)
         | r => (Except.error ⟨r.length, ["string"]⟩ :
            Except PErr (String × List Char)))
       else Except.error ⟨t.length + 1, ["string"]⟩) from rfl]
  rw [if_neg hc]

theorem delimiterP_head {c : Char} (t : List Char) (hc : ¬ c = '"') :
    delimiterP (c :: t) = .error ⟨t.length + 1, ["delimiter"]⟩ := by
  rw [show delimiterP (c :: t) =
      (if c = '"' then
        (match (delimBodyAux t).2.dropWhile isWsChar with
         | '"' :: t2 => Except.ok ((delimBodyAux t).1.asString, t2)
         | r => (Except.error ⟨r.length, ["delimiter"]⟩ :
            Except PErr (String × List Char)))
       else Except.error ⟨t.length + 1, ["delimiter"]⟩) from rfl]
  rw [if_neg hc]

theorem normTokWf_quote {t : List Char} {S : List Seg}
    (h : normTokWf ('"' :: t) S = true) : strBodyOk t = true := by
  rw [normTokWf_cons] at h
  rw [if_neg (by decide), if_neg (by decide), if_pos rfl] at h
  exact h

theorem normNext_quote (t : List Char) : normNext ('"' :: t) = .norm := by
  unfold normNext
  rw [if_neg, if_neg]
  · intro hh
    injection hh with h1 _
    exact absurd h1 (by decide)
  · intro hh
    injection hh with h1 _
    exact absurd h1 (by decide)

theorem stringLitP_seg {S T : List Seg}
    (hwf : segsWf .norm S = true) (hext : segExt S T = true)
    (hhS : headTok S = true) (hhT : headTok T = true) :
    (∀ v r, stringLitP (flatSegs S) = .ok (v, r) →
      ∃ w S2 T2, S = .tokS w :: S2 ∧ T = .tokS w :: T2 ∧
        r = flatSegs S2 ∧ segExt S2 T2 = true ∧ segsWf .norm S2 = true ∧
        stringLitP (flatSegs T) = .ok (v, flatSegs T2)) ∧
    (∀ e, stringLitP (flatSegs S) = .error e →
      ∃ e2, stringLitP (flatSegs T) = .error e2) := by
  rcases segExt_aligned_tok hwf hext hhS hhT with ⟨rfl, hT⟩ |
    ⟨w, S2, T2, rfl, rfl, hrec⟩
  · constructor
    · intro v r h
      exact absurd h (by simp [stringLitP, flatSegs])
    · intro e h
      rw [hT]
      exact ⟨⟨0, ["string"]⟩, rfl⟩
  · obtain ⟨c, t, rfl, -⟩ := tok_head_char hwf
    obtain ⟨hntw, hwf2⟩ := segsWf_tok_norm hwf
    rcases Decidable.em (c = '"') with hq | hq
    · subst hq
      have hok : strBodyOk t = true := normTokWf_quote hntw
      obtain ⟨v0, hv0⟩ := stringLitP_tok hok
      have hwfS2 : segsWf .norm S2 = true := by
        rw [normNext_quote] at hwf2
        exact hwf2
      constructor
      · intro v r h
        rw [flat_tok, hv0 (flatSegs S2)] at h
        injection h with h
        injection h with h1 h2
        refine ⟨'"' :: t, S2, T2, rfl, rfl, h2.symm, hrec, hwfS2, ?_⟩
        rw [flat_tok, hv0 (flatSegs T2), h1]
      · intro e h
        rw [flat_tok, hv0 (flatSegs S2)] at h
        exact absurd h (by simp)
    · constructor
      · intro v r h
        rw [flat_tok, show ((c :: t) ++ flatSegs S2 : List Char) =
          c :: (t ++ flatSegs S2) from rfl, stringLitP_head _ hq] at h
        exact absurd h (by simp)
      · intro e h
        rw [flat_tok, show ((c :: t) ++ flatSegs T2 : List Char) =
          c :: (t ++ flatSegs T2) from rfl, stringLitP_head _ hq]
        exact ⟨_, rfl⟩

theorem segsWf_tok_sdel {w : List Char} {S : List Seg}
    (h : segsWf .sdel (.tokS w :: S) = true) :
    delimTokOk w = true ∧ segsWf .norm S = true := by
  rw [show segsWf .sdel (.tokS w :: S) =
    (delimTokOk w && segsWf .norm S) from rfl, Bool.and_eq_true] at h
  exact h

theorem delimTokOk_inv {c : Char} {t : List Char}
    (h : delimTokOk (c :: t) = true) : c = '"' ∧ delimBodyOk t = true := by
  rcases Decidable.em (c = '"') with hq | hq
  · subst hq
    rw [delimTokOk.eq_1] at h
    exact ⟨rfl, h⟩
  · rw [delimTokOk.eq_2 (c :: t)
      (fun t1 ht => by injection ht with h1 _; exact hq h1)] at h
    exact absurd h (by decide)

theorem delimBodyAux_body :
    ∀ (n : Nat) (body : List Char), body.length ≤ n → delimBodyOk body = true →
      ∃ ch wsuf, wsuf.all isWsChar = true ∧
        (ch = [] → body = wsuf ++ ['"']) ∧
        ∀ r2, delimBodyAux (body ++ r2) = (ch, wsuf ++ ('"' :: r2)) := by
  intro n
  induction n with
  | zero =>
    intro body hlen hok
    cases body with
    | nil => exact absurd hok (by decide)
    | cons c t => exact absurd hlen (by simp)
  | succ n2 ih =>
    intro body hlen hok
    cases body with
    | nil => exact absurd hok (by decide)
    | cons c t =>
      by_cases hq : c = '"'
      · subst hq
        have ht : t = [] := by
          rw [delimBodyOk.eq_2] at hok
          exact List.isEmpty_iff.mp hok
        subst ht
        refine ⟨[], [], rfl, fun _ => rfl, ?_⟩
        intro r2
        rw [show ((['"'] : List Char) ++ r2) = '"' :: r2 from rfl]
        rw [delimBodyAux.eq_2]
        rw [if_neg (by decide : ¬(isWsChar '"' = true)), if_pos rfl]
        rfl
      · have hok2 : delimBodyOk t = true := by
          rw [delimBodyOk.eq_3 c t (fun hcc => hq hcc)] at hok
          exact hok
        obtain ⟨ch, wsuf, hws, hemp, hrun⟩ :=
          ih t (by simp at hlen ⊢; omega) hok2
        by_cases hw : isWsChar c = true
        · by_cases hch : ch = []
          · subst hch
            refine ⟨[], c :: wsuf, ?_, ?_, ?_⟩
            · rw [List.all_cons, hw, hws]
              rfl
            · intro _
              rw [hemp rfl]
              rfl
            · intro r2
              rw [List.cons_append]
              rw [delimBodyAux.eq_2]
              rw [if_pos hw, hrun r2]
              dsimp only
              rw [if_pos (show (List.isEmpty ([] : List Char)) = true from rfl)]
              rw [hemp rfl]
              rw [show ((wsuf ++ ['"']) ++ r2 : List Char) =
                wsuf ++ ('"' :: r2) from by rw [List.append_assoc]; rfl]
              rfl
          · refine ⟨ch, wsuf, hws, fun h0 => absurd h0 hch, ?_⟩
            intro r2
            rw [List.cons_append]
            rw [delimBodyAux.eq_2]
            rw [if_pos hw, hrun r2]
            dsimp only
            rw [if_neg (by simpa using hch)]
        · refine ⟨c :: ch, wsuf, hws, by simp, ?_⟩
          intro r2
          rw [List.cons_append]
          rw [delimBodyAux.eq_2]
          rw [if_neg (by simp [hw]), if_neg hq, hrun r2]

/-- A complete delimiter token parses to its content, independently of the
following text. -/
theorem delimiterP_tok {body : List Char} (hok : delimBodyOk body = true) :
    ∃ v, ∀ r2, delimiterP (('"' :: body) ++ r2) = .ok (v, r2) := by
  obtain ⟨ch, wsuf, hws, -, hrun⟩ :=
    delimBodyAux_body (body.length) body (by omega) hok
  refine ⟨ch.asString, ?_⟩
  intro r2
  have hdw : (wsuf ++ ('"' :: r2)).dropWhile isWsChar = '"' :: r2 := by
    rw [List.dropWhile_append]
    have hg : wsuf.dropWhile isWsChar = [] := by
      rw [List.dropWhile_eq_nil_iff]
      intro x hx
      exact (List.all_eq_true.mp hws) x hx
    rw [hg]
    simp only [List.isEmpty_nil, if_true]
    rw [List.dropWhile_cons, (by decide : isWsChar '"' = false)]
    rfl
  rw [show (('"' :: body) ++ r2 : List Char) = '"' :: (body ++ r2) from rfl]
  rw [show delimiterP ('"' :: (body ++ r2)) =
      (if ('"' : Char) = '"' then
        (match List.dropWhile isWsChar (delimBodyAux (body ++ r2)).2 with
         | '"' :: t2 => Except.ok ((delimBodyAux (body ++ r2)).1.asString, t2)
         | r => (Except.error ⟨r.length, ["delimiter"]⟩ :
            Except PErr (String × List Char)))
       else Except.error ⟨(body ++ r2).length + 1, ["delimiter"]⟩)
      from rfl]
  rw [if_pos rfl]
  rw [hrun r2]
  dsimp only
  rw [hdw]
  rfl

theorem delimiterP_seg {S T : List Seg}
    (hwf : segsWf .sdel S = true) (hext : segExt S T = true)
    (hhS : headTok S = true) (hhT : headTok T = true) :
    (∀ v r, delimiterP (flatSegs S) = .ok (v, r) →
      ∃ w S2 T2, S = .tokS w :: S2 ∧ T = .tokS w :: T2 ∧
        r = flatSegs S2 ∧ segExt S2 T2 = true ∧ segsWf .norm S2 = true ∧
        delimiterP (flatSegs T) = .ok (v, flatSegs T2)) ∧
    (∀ e, delimiterP (flatSegs S) = .error e →
      ∃ e2, delimiterP (flatSegs T) = .error e2) := by
  rcases segExt_aligned_tok hwf hext hhS hhT with ⟨rfl, hT⟩ |
    ⟨w, S2, T2, rfl, rfl, hrec⟩
  · constructor
    · intro v r h
      exact absurd h (by simp [delimiterP, flatSegs])
    · intro e h
      rw [hT]
      exact ⟨⟨0, ["delimiter"]⟩, rfl⟩
  · obtain ⟨c, t, rfl, -⟩ := tok_head_char hwf
    obtain ⟨hdtw, hwfS2⟩ := segsWf_tok_sdel hwf
    obtain ⟨hq, hok⟩ := delimTokOk_inv hdtw
    subst hq
    obtain ⟨v0, hv0⟩ := delimiterP_tok hok
    constructor
    · intro v r h
      rw [flat_tok, hv0 (flatSegs S2)] at h
      injection h with h
      injection h with h1 h2
      refine ⟨'"' :: t, S2, T2, rfl, rfl, h2.symm, hrec, hwfS2, ?_⟩
      rw [flat_tok, hv0 (flatSegs T2), h1]
    · intro e h
      rw [flat_tok, hv0 (flatSegs S2)] at h
      exact absurd h (by simp)

/-! ### The version scanner over decompositions -/

theorem ws_not_digit {c : Char} (h : isWsChar c = true) :
    isDigitChar c = false := by
  cases hd : isDigitChar c
  · rfl
  · rw [identChar_not_ws2 c (digit_isIdentChar hd)] at h
    exact absurd h (by simp)

theorem digit_not_dot {c : Char} (h : isDigitChar c = true) : ¬(c = '.') := by
  intro hc
  subst hc
  exact absurd h (by decide)

theorem identChar_not_dot {c : Char} (h : isIdentChar c = true) :
    ¬(c = '.') := by
  intro hc
  subst hc
  exact absurd h (by decide)

/-- When the in-group scanner consumes nothing, the rest is the whole
input. -/
theorem vtSM_empty_rest :
    ∀ l rest, vtSM .inGroup l = some ([], [], rest) → rest = l := by
  intro l
  induction l with
  | nil =>
    intro rest h
    rw [vtSM.eq_1] at h
    injection h with h
    injection h with h1 h
    injection h with h2 h3
    exact h3.symm
  | cons c t ih =>
    intro rest h
    rw [vtSM.eq_2] at h
    by_cases hd : isDigitChar c = true
    · rw [if_pos hd] at h
      cases hin : vtSM .inGroup t with
      | none => rw [hin] at h; exact absurd h (by simp)
      | some out =>
        obtain ⟨ds0, gs0, rest0⟩ := out
        rw [hin] at h
        dsimp only at h
        injection h with h
        injection h with h1 h
        exact absurd h1 (by simp)
    · rw [if_neg hd] at h
      by_cases hw : isWsChar c = true
      · rw [if_pos hw] at h
        cases hin : vtSM .inGroup t with
        | none => rw [hin] at h; exact absurd h (by simp)
        | some out =>
          obtain ⟨ds0, gs0, rest0⟩ := out
          rw [hin] at h
          cases ds0 with
          | cons d ds1 =>
            dsimp only at h
            injection h with h
            injection h with h1 h
            exact absurd h1 (by simp)
          | nil =>
            cases gs0 with
            | cons g gs1 =>
              dsimp only at h
              injection h with h
              injection h with h1 h
              injection h with h2 h3
              exact absurd h2 (by simp)
            | nil =>
              dsimp only at h
              injection h with h
              injection h with h1 h
              injection h with h2 h3
              exact h3.symm
      · rw [if_neg hw] at h
        by_cases hdot : c = '.'
        · rw [if_pos hdot] at h
          cases hin : vtSM .afterDot t with
          | none =>
            rw [hin] at h
            dsimp only at h
            injection h with h
            injection h with h1 h
            injection h with h2 h3
            exact h3.symm
          | some out =>
            obtain ⟨g0, gs0, rest0⟩ := out
            rw [hin] at h
            dsimp only at h
            injection h with h
            injection h with h1 h
            injection h with h2 h3
            exact absurd h2 (by simp)
        · rw [if_neg hdot] at h
          injection h with h
          injection h with h1 h
          injection h with h2 h3
          exact h3.symm

/-- Digits are consumed one by one by the in-group scanner. -/
theorem vtSM_digit_prefix :
    ∀ (d r : List Char) ds gs rest, d.all isDigitChar = true →
      vtSM .inGroup r = some (ds, gs, rest) →
      vtSM .inGroup (d ++ r) = some (d ++ ds, gs, rest) := by
  intro d
  induction d with
  | nil =>
    intro r ds gs rest _ h
    rw [List.nil_append, List.nil_append]
    exact h
  | cons c d2 ih =>
    intro r ds gs rest hall h
    rw [List.all_cons, Bool.and_eq_true] at hall
    rw [List.cons_append, vtSM.eq_2, if_pos hall.1,
      ih r ds gs rest hall.2 h]
    rfl

/-- In-group whitespace traversal: consumed if progress follows, rolled
back otherwise. -/
theorem vtSM_inGroup_ws :
    ∀ (g : List Char), g.all isWsChar = true →
      ∀ r ds gs rest, vtSM .inGroup r = some (ds, gs, rest) →
        vtSM .inGroup (g ++ r) =
          if ds.isEmpty && gs.isEmpty then some ([], [], g ++ r)
          else some (ds, gs, rest) := by
  intro g
  induction g with
  | nil =>
    intro _ r ds gs rest h
    rw [List.nil_append]
    cases ds with
    | cons d ds1 => rw [h]; rfl
    | nil =>
      cases gs with
      | cons g1 gs1 => rw [h]; rfl
      | nil =>
        rw [h, vtSM_empty_rest r rest h]
        rfl
  | cons c g2 ih =>
    intro hall r ds gs rest h
    rw [List.all_cons, Bool.and_eq_true] at hall
    rw [List.cons_append, vtSM.eq_2, if_neg (by rw [ws_not_digit hall.1]; simp),
      if_pos hall.1, ih hall.2 r ds gs rest h]
    cases ds with
    | cons d ds1 => rfl
    | nil =>
      cases gs with
      | cons g1 gs1 => rfl
      | nil => rfl

/-- After-dot whitespace traversal is transparent. -/
theorem vtSM_afterDot_ws :
    ∀ (g : List Char), g.all isWsChar = true →
      ∀ r, vtSM .afterDot (g ++ r) = vtSM .afterDot r := by
  intro g
  induction g with
  | nil => intro _ r; rw [List.nil_append]
  | cons c g2 ih =>
    intro hall r
    rw [List.all_cons, Bool.and_eq_true] at hall
    rw [List.cons_append, vtSM.eq_4, if_pos hall.1, ih hall.2 r]

/-- The in-group scanner stops before a character that is not a digit,
whitespace or dot. -/
theorem vtSM_inGroup_stop {c : Char} (t : List Char)
    (hd : isDigitChar c = false) (hw : isWsChar c = false)
    (hdot : ¬(c = '.')) :
    vtSM .inGroup (c :: t) = some ([], [], c :: t) := by
  rw [vtSM.eq_2, if_neg (by rw [hd]; simp), if_neg (by rw [hw]; simp),
    if_neg hdot]

/-- The after-dot scanner fails on a character that is neither whitespace
nor a digit. -/
theorem vtSM_afterDot_none {c : Char} (t : List Char)
    (hw : isWsChar c = false) (hd : isDigitChar c = false) :
    vtSM .afterDot (c :: t) = none := by
  rw [vtSM.eq_4, if_neg (by rw [hw]; simp), if_neg (by rw [hd]; simp)]

/-- One token step of the in-group scanner at a token boundary, paired
between a decomposition and a gap extension of it. -/
theorem vtSM_boundary_tok {n2 : Nat}
    (ihG : ∀ (y : List Char) (S T : List Seg), S.length < n2 →
      segsWf .norm S = true → segExt S T = true →
      y.all isIdentChar = true → (y ≠ [] → nextNot isIdentChar S = true) →
      ∃ ds gs y2 S2 T2,
        vtSM .inGroup (y ++ flatSegs S) = some (ds, gs, y2 ++ flatSegs S2) ∧
        vtSM .inGroup (y ++ flatSegs T) = some (ds, gs, y2 ++ flatSegs T2) ∧
        segExt S2 T2 = true ∧ segsWf .norm S2 = true ∧
        y2.all isIdentChar = true ∧
        (y2 ≠ [] → nextNot isIdentChar S2 = true))
    (ihD : ∀ (S T : List Seg), S.length < n2 →
      segsWf .norm S = true → segExt S T = true →
      (vtSM .afterDot (flatSegs S) = none ∧
        vtSM .afterDot (flatSegs T) = none) ∨
      (∃ g1 gs y2 S2 T2,
        vtSM .afterDot (flatSegs S) = some (g1, gs, y2 ++ flatSegs S2) ∧
        vtSM .afterDot (flatSegs T) = some (g1, gs, y2 ++ flatSegs T2) ∧
        segExt S2 T2 = true ∧ segsWf .norm S2 = true ∧
        y2.all isIdentChar = true ∧
        (y2 ≠ [] → nextNot isIdentChar S2 = true)))
    {c2 : Char} {t : List Char} {S2 T2 : List Seg}
    (hlen : S2.length < n2)
    (hwf : segsWf .norm (.tokS (c2 :: t) :: S2) = true)
    (hext2 : segExt S2 T2 = true) :
    ∃ ds gs y2 S2b T2b,
      vtSM .inGroup (flatSegs (.tokS (c2 :: t) :: S2)) =
        some (ds, gs, y2 ++ flatSegs S2b) ∧
      vtSM .inGroup (flatSegs (.tokS (c2 :: t) :: T2)) =
        some (ds, gs, y2 ++ flatSegs T2b) ∧
      segExt S2b T2b = true ∧ segsWf .norm S2b = true ∧
      y2.all isIdentChar = true ∧
      (y2 ≠ [] → nextNot isIdentChar S2b = true) ∧
      (ds = [] ∧ gs = [] → y2 = [] ∧ S2b = .tokS (c2 :: t) :: S2 ∧
        T2b = .tokS (c2 :: t) :: T2) := by
  obtain ⟨hntw, hwf2⟩ := segsWf_tok_norm hwf
  have hc2w : isWsChar c2 = false := by
    obtain ⟨c0, t0, he, hw0⟩ := tok_head_char hwf
    injection he with he1 he2
    rw [← he1] at hw0
    exact hw0
  by_cases hdig : isDigitChar c2 = true
  · have hident := digit_isIdentChar hdig
    obtain ⟨hwall, hnnS2⟩ := normTokWf_word hntw hident
    have hwfS2 : segsWf .norm S2 = true := by
      rw [normNext_word hwall (by simp)] at hwf2
      exact hwf2
    cases hwr : (c2 :: t).dropWhile isDigitChar with
    | cons c3 t3 =>
      have hc3d : isDigitChar c3 = false := dropWhile_head_false _ hwr
      have hdropall : ((c2 :: t).dropWhile isDigitChar).all isIdentChar = true :=
        all_of_dropWhile hwall
      rw [hwr, List.all_cons, Bool.and_eq_true] at hdropall
      have hc3i : isIdentChar c3 = true := hdropall.1
      have hc3w : isWsChar c3 = false := identChar_not_ws2 _ hc3i
      have hc3dot : ¬(c3 = '.') := identChar_not_dot hc3i
      have hsplit : ∀ r : List Char, (c2 :: t) ++ r =
          (c2 :: t).takeWhile isDigitChar ++ ((c3 :: t3) ++ r) := by
        intro r
        rw [← List.append_assoc, ← hwr, List.takeWhile_append_dropWhile]
      have hstop : ∀ r : List Char,
          vtSM .inGroup ((c3 :: t3) ++ r) = some ([], [], (c3 :: t3) ++ r) := by
        intro r
        rw [List.cons_append]
        exact vtSM_inGroup_stop _ hc3d hc3w hc3dot
      have htkall : ((c2 :: t).takeWhile isDigitChar).all isDigitChar = true :=
        all_takeWhile2 _ _
      refine ⟨(c2 :: t).takeWhile isDigitChar, [], c3 :: t3, S2, T2, ?_, ?_,
        hext2, hwfS2, by rw [List.all_cons, Bool.and_eq_true]; exact hdropall,
        fun _ => hnnS2, ?_⟩
      · rw [flat_tok, hsplit (flatSegs S2)]
        have h1 := vtSM_digit_prefix ((c2 :: t).takeWhile isDigitChar)
          ((c3 :: t3) ++ flatSegs S2) [] [] ((c3 :: t3) ++ flatSegs S2)
          htkall (hstop (flatSegs S2))
        rw [List.append_nil] at h1
        rw [h1]
      · rw [flat_tok, hsplit (flatSegs T2)]
        have h1 := vtSM_digit_prefix ((c2 :: t).takeWhile isDigitChar)
          ((c3 :: t3) ++ flatSegs T2) [] [] ((c3 :: t3) ++ flatSegs T2)
          htkall (hstop (flatSegs T2))
        rw [List.append_nil] at h1
        rw [h1]
      · intro hcl
        have : (c2 :: t).takeWhile isDigitChar = c2 :: t.takeWhile isDigitChar := by
          rw [List.takeWhile_cons, if_pos hdig]
        rw [this] at hcl
        exact absurd hcl.1 (by simp)
    | nil =>
      have hwalld : (c2 :: t).all isDigitChar = true := by
        rw [List.all_eq_true]
        exact List.dropWhile_eq_nil_iff.mp hwr
      obtain ⟨ds, gs, y2, S2b, T2b, hS, hT, hext3, hwf3, hy2, hnn2⟩ :=
        ihG [] S2 T2 hlen hwfS2 hext2 rfl (fun h => absurd rfl h)
      rw [List.nil_append] at hS hT
      refine ⟨(c2 :: t) ++ ds, gs, y2, S2b, T2b, ?_, ?_, hext3, hwf3, hy2,
        hnn2, ?_⟩
      · rw [flat_tok]
        exact vtSM_digit_prefix _ _ _ _ _ hwalld hS
      · rw [flat_tok]
        exact vtSM_digit_prefix _ _ _ _ _ hwalld hT
      · intro hcl
        exact absurd hcl.1 (by simp)
  · by_cases hdot : c2 = '.'
    · subst hdot
      rcases normTokWf_head_dot hntw with ⟨rfl, hnn, hnpre⟩ | rfl | rfl
      · have hwfS2 : segsWf .norm S2 = true := by
          rw [show normNext ['.'] = LexMode.norm from rfl] at hwf2
          exact hwf2
        rcases ihD S2 T2 hlen hwfS2 hext2 with ⟨hnS, hnT⟩ |
          ⟨g1, gs, y2, S2b, T2b, hS, hT, hext3, hwf3, hy2, hnn2⟩
        · refine ⟨[], [], [], .tokS ['.'] :: S2, .tokS ['.'] :: T2, ?_, ?_,
            segExt_tok_cons hext2, hwf, rfl, fun h => absurd rfl h,
            fun _ => ⟨rfl, rfl, rfl⟩⟩
          · rw [show flatSegs (.tokS ['.'] :: S2) = '.' :: flatSegs S2 from rfl,
              vtSM.eq_2, if_neg (by decide), if_neg (by decide), if_pos rfl, hnS]
            rfl
          · rw [show flatSegs (.tokS ['.'] :: T2) = '.' :: flatSegs T2 from rfl,
              vtSM.eq_2, if_neg (by decide), if_neg (by decide), if_pos rfl, hnT]
            rfl
        · refine ⟨[], g1 :: gs, y2, S2b, T2b, ?_, ?_, hext3, hwf3, hy2, hnn2,
            fun h => absurd h.2 (by simp)⟩
          · rw [show flatSegs (.tokS ['.'] :: S2) = '.' :: flatSegs S2 from rfl,
              vtSM.eq_2, if_neg (by decide), if_neg (by decide), if_pos rfl, hS]
          · rw [show flatSegs (.tokS ['.'] :: T2) = '.' :: flatSegs T2 from rfl,
              vtSM.eq_2, if_neg (by decide), if_neg (by decide), if_pos rfl, hT]
      · have hnS : vtSM .afterDot ('.' :: flatSegs S2) = none :=
          vtSM_afterDot_none _ (by decide) (by decide)
        have hnT : vtSM .afterDot ('.' :: flatSegs T2) = none :=
          vtSM_afterDot_none _ (by decide) (by decide)
        refine ⟨[], [], [], .tokS ['.', '.'] :: S2, .tokS ['.', '.'] :: T2,
          ?_, ?_, segExt_tok_cons hext2, hwf, rfl, fun h => absurd rfl h,
          fun _ => ⟨rfl, rfl, rfl⟩⟩
        · rw [show flatSegs (.tokS ['.', '.'] :: S2) =
            '.' :: '.' :: flatSegs S2 from rfl,
            vtSM.eq_2, if_neg (by decide), if_neg (by decide), if_pos rfl, hnS]
          rfl
        · rw [show flatSegs (.tokS ['.', '.'] :: T2) =
            '.' :: '.' :: flatSegs T2 from rfl,
            vtSM.eq_2, if_neg (by decide), if_neg (by decide), if_pos rfl, hnT]
          rfl
      · have hnS : vtSM .afterDot
            ('s' :: 'p' :: 'l' :: 'i' :: 't' :: '(' :: flatSegs S2) = none :=
          vtSM_afterDot_none _ (by decide) (by decide)
        have hnT : vtSM .afterDot
            ('s' :: 'p' :: 'l' :: 'i' :: 't' :: '(' :: flatSegs T2) = none :=
          vtSM_afterDot_none _ (by decide) (by decide)
        refine ⟨[], [], [],
          .tokS ['.', 's', 'p', 'l', 'i', 't', '('] :: S2,
          .tokS ['.', 's', 'p', 'l', 'i', 't', '('] :: T2,
          ?_, ?_, segExt_tok_cons hext2, hwf, rfl, fun h => absurd rfl h,
          fun _ => ⟨rfl, rfl, rfl⟩⟩
        · rw [show flatSegs (.tokS ['.', 's', 'p', 'l', 'i', 't', '('] :: S2) =
            '.' :: 's' :: 'p' :: 'l' :: 'i' :: 't' :: '(' :: flatSegs S2 from rfl,
            vtSM.eq_2, if_neg (by decide), if_neg (by decide), if_pos rfl, hnS]
          rfl
        · rw [show flatSegs (.tokS ['.', 's', 'p', 'l', 'i', 't', '('] :: T2) =
            '.' :: 's' :: 'p' :: 'l' :: 'i' :: 't' :: '(' :: flatSegs T2 from rfl,
            vtSM.eq_2, if_neg (by decide), if_neg (by decide), if_pos rfl, hnT]
          rfl
    · have hdig2 : isDigitChar c2 = false := by
        cases h0 : isDigitChar c2
        · rfl
        · exact absurd h0 hdig
      refine ⟨[], [], [], .tokS (c2 :: t) :: S2, .tokS (c2 :: t) :: T2, ?_, ?_,
        segExt_tok_cons hext2, hwf, rfl, fun h => absurd rfl h,
        fun _ => ⟨rfl, rfl, rfl⟩⟩
      · rw [show flatSegs (.tokS (c2 :: t) :: S2) =
          c2 :: (t ++ flatSegs S2) from rfl]
        rw [vtSM_inGroup_stop _ hdig2 hc2w hdot]
        rfl
      · rw [show flatSegs (.tokS (c2 :: t) :: T2) =
          c2 :: (t ++ flatSegs T2) from rfl]
        rw [vtSM_inGroup_stop _ hdig2 hc2w hdot]
        rfl

/-- One token step of the after-dot scanner at a token boundary. -/
theorem vtSM_boundary_dot {n2 : Nat}
    (ihG : ∀ (y : List Char) (S T : List Seg), S.length < n2 →
      segsWf .norm S = true → segExt S T = true →
      y.all isIdentChar = true → (y ≠ [] → nextNot isIdentChar S = true) →
      ∃ ds gs y2 S2 T2,
        vtSM .inGroup (y ++ flatSegs S) = some (ds, gs, y2 ++ flatSegs S2) ∧
        vtSM .inGroup (y ++ flatSegs T) = some (ds, gs, y2 ++ flatSegs T2) ∧
        segExt S2 T2 = true ∧ segsWf .norm S2 = true ∧
        y2.all isIdentChar = true ∧
        (y2 ≠ [] → nextNot isIdentChar S2 = true))
    {c2 : Char} {t : List Char} {S2 T2 : List Seg}
    (hlen : S2.length < n2)
    (hwf : segsWf .norm (.tokS (c2 :: t) :: S2) = true)
    (hext2 : segExt S2 T2 = true) :
    (vtSM .afterDot (flatSegs (.tokS (c2 :: t) :: S2)) = none ∧
      vtSM .afterDot (flatSegs (.tokS (c2 :: t) :: T2)) = none) ∨
    (∃ g1 gs y2 S2b T2b,
      vtSM .afterDot (flatSegs (.tokS (c2 :: t) :: S2)) =
        some (g1, gs, y2 ++ flatSegs S2b) ∧
      vtSM .afterDot (flatSegs (.tokS (c2 :: t) :: T2)) =
        some (g1, gs, y2 ++ flatSegs T2b) ∧
      segExt S2b T2b = true ∧ segsWf .norm S2b = true ∧
      y2.all isIdentChar = true ∧
      (y2 ≠ [] → nextNot isIdentChar S2b = true)) := by
  obtain ⟨hntw, hwf2⟩ := segsWf_tok_norm hwf
  have hc2w : isWsChar c2 = false := by
    obtain ⟨c0, t0, he, hw0⟩ := tok_head_char hwf
    injection he with he1 he2
    rw [← he1] at hw0
    exact hw0
  by_cases hdig : isDigitChar c2 = true
  · have hident := digit_isIdentChar hdig
    obtain ⟨hwall, hnnS2⟩ := normTokWf_word hntw hident
    have hwfS2 : segsWf .norm S2 = true := by
      rw [normNext_word hwall (by simp)] at hwf2
      exact hwf2
    have htall : t.all isIdentChar = true := by
      rw [List.all_cons, Bool.and_eq_true] at hwall
      exact hwall.2
    obtain ⟨ds, gs, y2, S2b, T2b, hS, hT, hext3, hwf3, hy2, hnn2⟩ :=
      ihG t S2 T2 hlen hwfS2 hext2 htall (fun _ => hnnS2)
    right
    refine ⟨c2 :: ds, gs, y2, S2b, T2b, ?_, ?_, hext3, hwf3, hy2, hnn2⟩
    · rw [show flatSegs (.tokS (c2 :: t) :: S2) =
        c2 :: (t ++ flatSegs S2) from rfl,
        vtSM.eq_4, if_neg (by rw [hc2w]; simp), if_pos hdig, hS]
    · rw [show flatSegs (.tokS (c2 :: t) :: T2) =
        c2 :: (t ++ flatSegs T2) from rfl,
        vtSM.eq_4, if_neg (by rw [hc2w]; simp), if_pos hdig, hT]
  · have hdig2 : isDigitChar c2 = false := by
      cases h0 : isDigitChar c2
      · rfl
      · exact absurd h0 hdig
    left
    constructor
    · rw [show flatSegs (.tokS (c2 :: t) :: S2) =
        c2 :: (t ++ flatSegs S2) from rfl]
      exact vtSM_afterDot_none _ hc2w hdig2
    · rw [show flatSegs (.tokS (c2 :: t) :: T2) =
        c2 :: (t ++ flatSegs T2) from rfl]
      exact vtSM_afterDot_none _ hc2w hdig2

/-- The version-tail scanner transfers along gap extensions: from any
position whose remaining text is a well-formed decomposition (with a
possible in-word prefix `y`), the scanner consumes the same digits and
groups on the extended text, leaving aligned rests. -/
theorem vtSM_seg : ∀ n : Nat,
    (∀ (y : List Char) (S T : List Seg), S.length < n →
      segsWf .norm S = true → segExt S T = true →
      y.all isIdentChar = true → (y ≠ [] → nextNot isIdentChar S = true) →
      ∃ ds gs y2 S2 T2,
        vtSM .inGroup (y ++ flatSegs S) = some (ds, gs, y2 ++ flatSegs S2) ∧
        vtSM .inGroup (y ++ flatSegs T) = some (ds, gs, y2 ++ flatSegs T2) ∧
        segExt S2 T2 = true ∧ segsWf .norm S2 = true ∧
        y2.all isIdentChar = true ∧
        (y2 ≠ [] → nextNot isIdentChar S2 = true)) ∧
    (∀ (S T : List Seg), S.length < n →
      segsWf .norm S = true → segExt S T = true →
      (vtSM .afterDot (flatSegs S) = none ∧
        vtSM .afterDot (flatSegs T) = none) ∨
      (∃ g1 gs y2 S2 T2,
        vtSM .afterDot (flatSegs S) = some (g1, gs, y2 ++ flatSegs S2) ∧
        vtSM .afterDot (flatSegs T) = some (g1, gs, y2 ++ flatSegs T2) ∧
        segExt S2 T2 = true ∧ segsWf .norm S2 = true ∧
        y2.all isIdentChar = true ∧
        (y2 ≠ [] → nextNot isIdentChar S2 = true))) := by
  intro n
  induction n with
  | zero =>
    constructor
    · intro y S T hlen
      exact absurd hlen (by omega)
    · intro S T hlen
      exact absurd hlen (by omega)
  | succ n2 ih =>
    obtain ⟨ihG, ihD⟩ := ih
    constructor
    · intro y S T hlen hwf hext hy hynn
      cases hyr : y.dropWhile isDigitChar with
      | cons c3 t3 =>
        have hc3d : isDigitChar c3 = false := dropWhile_head_false _ hyr
        have hdropall : (y.dropWhile isDigitChar).all isIdentChar = true :=
          all_of_dropWhile hy
        rw [hyr, List.all_cons, Bool.and_eq_true] at hdropall
        have hc3w : isWsChar c3 = false := identChar_not_ws2 _ hdropall.1
        have hc3dot : ¬(c3 = '.') := identChar_not_dot hdropall.1
        have hsplit : ∀ r : List Char, y ++ r =
            y.takeWhile isDigitChar ++ ((c3 :: t3) ++ r) := by
          intro r
          rw [← List.append_assoc, ← hyr, List.takeWhile_append_dropWhile]
        have hstop : ∀ r : List Char,
            vtSM .inGroup ((c3 :: t3) ++ r) = some ([], [], (c3 :: t3) ++ r) := by
          intro r
          rw [List.cons_append]
          exact vtSM_inGroup_stop _ hc3d hc3w hc3dot
        have htkall : (y.takeWhile isDigitChar).all isDigitChar = true :=
          all_takeWhile2 _ _
        have hyne : y ≠ [] := by
          intro h0
          rw [h0] at hyr
          exact absurd hyr (by simp)
        refine ⟨y.takeWhile isDigitChar, [], c3 :: t3, S, T, ?_, ?_, hext, hwf,
          by rw [List.all_cons, Bool.and_eq_true]; exact hdropall,
          fun _ => hynn hyne⟩
        · rw [hsplit (flatSegs S)]
          have h1 := vtSM_digit_prefix (y.takeWhile isDigitChar)
            ((c3 :: t3) ++ flatSegs S) [] [] ((c3 :: t3) ++ flatSegs S)
            htkall (hstop (flatSegs S))
          rw [List.append_nil] at h1
          rw [h1]
        · rw [hsplit (flatSegs T)]
          have h1 := vtSM_digit_prefix (y.takeWhile isDigitChar)
            ((c3 :: t3) ++ flatSegs T) [] [] ((c3 :: t3) ++ flatSegs T)
            htkall (hstop (flatSegs T))
          rw [List.append_nil] at h1
          rw [h1]
      | nil =>
        have hyall : y.all isDigitChar = true := by
          rw [List.all_eq_true]
          exact List.dropWhile_eq_nil_iff.mp hyr
        cases S with
        | nil =>
          rcases segExt_nil hext with rfl | ⟨g, rfl, hge, hgw⟩
          · refine ⟨y, [], [], [], [], ?_, ?_, rfl, rfl, rfl,
              fun h => absurd rfl h⟩
            · have h1 := vtSM_digit_prefix y [] [] [] [] hyall vtSM.eq_1
              simpa [flatSegs] using h1
            · have h1 := vtSM_digit_prefix y [] [] [] [] hyall vtSM.eq_1
              simpa [flatSegs] using h1
          · refine ⟨y, [], [], [], [.gapS g], ?_, ?_,
              segExt_nil_gap hge hgw, rfl, rfl, fun h => absurd rfl h⟩
            · have h1 := vtSM_digit_prefix y [] [] [] [] hyall vtSM.eq_1
              simpa [flatSegs] using h1
            · have h0 := vtSM_inGroup_ws g hgw [] [] [] [] vtSM.eq_1
              rw [if_pos (by rfl)] at h0
              have h1 := vtSM_digit_prefix y (g ++ []) [] [] (g ++ [])
                hyall h0
              simpa [flatSegs] using h1
        | cons s S2 =>
          cases s with
          | gapS g =>
            obtain ⟨hge, hgw, hht2, hwf2⟩ := segsWf_gap hwf
            obtain ⟨g2, T2, rfl, hg2e, hg2w, hhS2, hhT2, hext2⟩ :=
              segExt_gap hext
            obtain ⟨ds, gs, y2, S2b, T2b, hS, hT, hext3, hwf3, hy2, hnn2⟩ :=
              ihG [] S2 T2 (by simp at hlen ⊢; omega) hwf2 hext2 rfl
                (fun h => absurd rfl h)
            rw [List.nil_append] at hS hT
            by_cases hempty : (ds.isEmpty && gs.isEmpty) = true
            · rw [Bool.and_eq_true, List.isEmpty_iff, List.isEmpty_iff]
                at hempty
              obtain ⟨rfl, rfl⟩ := hempty
              have hrS : y2 ++ flatSegs S2b = flatSegs S2 :=
                vtSM_empty_rest _ _ hS
              have hrT : y2 ++ flatSegs T2b = flatSegs T2 :=
                vtSM_empty_rest _ _ hT
              refine ⟨y, [], [], .gapS g :: S2, .gapS g2 :: T2, ?_, ?_, hext,
                hwf, rfl, fun h => absurd rfl h⟩
              · have h0 := vtSM_inGroup_ws g hgw (flatSegs S2) [] [] _ hS
                rw [if_pos (by rfl)] at h0
                have h1 := vtSM_digit_prefix y (g ++ flatSegs S2) [] []
                  (g ++ flatSegs S2) hyall h0
                simpa [flatSegs] using h1
              · have h0 := vtSM_inGroup_ws g2 hg2w (flatSegs T2) [] [] _ hT
                rw [if_pos (by rfl)] at h0
                have h1 := vtSM_digit_prefix y (g2 ++ flatSegs T2) [] []
                  (g2 ++ flatSegs T2) hyall h0
                simpa [flatSegs] using h1
            · refine ⟨y ++ ds, gs, y2, S2b, T2b, ?_, ?_, hext3, hwf3, hy2,
                hnn2⟩
              · have h0 := vtSM_inGroup_ws g hgw (flatSegs S2) ds gs _ hS
                rw [if_neg hempty] at h0
                exact vtSM_digit_prefix y (g ++ flatSegs S2) ds gs _ hyall h0
              · have h0 := vtSM_inGroup_ws g2 hg2w (flatSegs T2) ds gs _ hT
                rw [if_neg hempty] at h0
                exact vtSM_digit_prefix y (g2 ++ flatSegs T2) ds gs _ hyall h0
          | tokS w =>
            obtain ⟨c2, t, rfl, hc2w⟩ := tok_head_char hwf
            rcases segExt_tok hext with ⟨T2, rfl, hext2⟩ |
              ⟨g2, T2, rfl, hg2e, hg2w, hext2⟩
            · obtain ⟨ds, gs, y2, S2b, T2b, hSc, hTc, hext3, hwf3, hy2, hnn2,
                hcl⟩ := vtSM_boundary_tok ihG ihD
                  (by simp at hlen ⊢; omega) hwf hext2
              refine ⟨y ++ ds, gs, y2, S2b, T2b, ?_, ?_, hext3, hwf3, hy2,
                hnn2⟩
              · exact vtSM_digit_prefix y _ ds gs _ hyall hSc
              · exact vtSM_digit_prefix y _ ds gs _ hyall hTc
            · obtain ⟨ds, gs, y2, S2b, T2b, hSc, hTc, hext3, hwf3, hy2, hnn2,
                hcl⟩ := vtSM_boundary_tok ihG ihD
                  (by simp at hlen ⊢; omega) hwf hext2
              by_cases hempty : (ds.isEmpty && gs.isEmpty) = true
              · rw [Bool.and_eq_true, List.isEmpty_iff, List.isEmpty_iff]
                  at hempty
                obtain ⟨rfl, rfl⟩ := hempty
                obtain ⟨rfl, hS2b, hT2b⟩ := hcl ⟨rfl, rfl⟩
                subst hS2b
                subst hT2b
                rw [List.nil_append] at hSc hTc
                refine ⟨y, [], [], .tokS (c2 :: t) :: S2,
                  .gapS g2 :: .tokS (c2 :: t) :: T2, ?_, ?_, hext, hwf, rfl,
                  fun h => absurd rfl h⟩
                · have h1 := vtSM_digit_prefix y _ [] [] _ hyall hSc
                  rw [List.append_nil] at h1
                  exact h1
                · have h0 := vtSM_inGroup_ws g2 hg2w
                    (flatSegs (.tokS (c2 :: t) :: T2)) [] [] _ hTc
                  rw [if_pos (by rfl)] at h0
                  have h1 := vtSM_digit_prefix y
                    (g2 ++ flatSegs (.tokS (c2 :: t) :: T2)) [] [] _ hyall h0
                  rw [List.append_nil] at h1
                  exact h1
              · refine ⟨y ++ ds, gs, y2, S2b, T2b, ?_, ?_, hext3, hwf3, hy2,
                  hnn2⟩
                · exact vtSM_digit_prefix y _ ds gs _ hyall hSc
                · have h0 := vtSM_inGroup_ws g2 hg2w
                    (flatSegs (.tokS (c2 :: t) :: T2)) ds gs _ hTc
                  rw [if_neg hempty] at h0
                  exact vtSM_digit_prefix y _ ds gs _ hyall h0
    · intro S T hlen hwf hext
      cases S with
      | nil =>
        rcases segExt_nil hext with rfl | ⟨g, rfl, hge, hgw⟩
        · exact .inl ⟨rfl, rfl⟩
        · left
          constructor
          · rfl
          · rw [show flatSegs [Seg.gapS g] = g ++ ([] : List Char) from rfl,
              vtSM_afterDot_ws g hgw []]
            rfl
      | cons s S2 =>
        cases s with
        | gapS g =>
          obtain ⟨hge, hgw, hht2, hwf2⟩ := segsWf_gap hwf
          obtain ⟨g2, T2, rfl, hg2e, hg2w, hhS2, hhT2, hext2⟩ :=
            segExt_gap hext
          have heS : vtSM .afterDot (flatSegs (.gapS g :: S2)) =
              vtSM .afterDot (flatSegs S2) := by
            rw [show flatSegs (.gapS g :: S2) = g ++ flatSegs S2 from rfl]
            exact vtSM_afterDot_ws g hgw _
          have heT : vtSM .afterDot (flatSegs (.gapS g2 :: T2)) =
              vtSM .afterDot (flatSegs T2) := by
            rw [show flatSegs (.gapS g2 :: T2) = g2 ++ flatSegs T2 from rfl]
            exact vtSM_afterDot_ws g2 hg2w _
          rcases ihD S2 T2 (by simp at hlen ⊢; omega) hwf2 hext2 with
            ⟨h1, h2⟩ | ⟨g1, gs, y2, S2b, T2b, h1, h2, hext3, hwf3, hy2, hnn2⟩
          · exact .inl ⟨by rw [heS, h1], by rw [heT, h2]⟩
          · exact .inr ⟨g1, gs, y2, S2b, T2b, by rw [heS, h1],
              by rw [heT, h2], hext3, hwf3, hy2, hnn2⟩
        | tokS w =>
          obtain ⟨c2, t, rfl, hc2w⟩ := tok_head_char hwf
          rcases segExt_tok hext with ⟨T2, rfl, hext2⟩ |
            ⟨g2, T2, rfl, hg2e, hg2w, hext2⟩
          · exact vtSM_boundary_dot ihG (by simp at hlen ⊢; omega) hwf hext2
          · have heT : vtSM .afterDot
                (flatSegs (.gapS g2 :: .tokS (c2 :: t) :: T2)) =
                vtSM .afterDot (flatSegs (.tokS (c2 :: t) :: T2)) := by
              rw [show flatSegs (.gapS g2 :: .tokS (c2 :: t) :: T2) =
                g2 ++ flatSegs (.tokS (c2 :: t) :: T2) from rfl]
              exact vtSM_afterDot_ws g2 hg2w _
            rcases vtSM_boundary_dot ihG (by simp at hlen ⊢; omega) hwf hext2
              with ⟨h1, h2⟩ |
              ⟨g1, gs, y2, S2b, T2b, h1, h2, hext3, hwf3, hy2, hnn2⟩
            · exact .inl ⟨h1, by rw [heT, h2]⟩
            · exact .inr ⟨g1, gs, y2, S2b, T2b, h1, by rw [heT, h2], hext3,
                hwf3, hy2, hnn2⟩

theorem versionP_head {c : Char} (t : List Char) (hc : ¬ c = 'v') :
    ∃ e, versionP (c :: t) = .error e := by
  unfold versionP
  split
  · next t1 heq =>
    injection heq with h1 _
    exact absurd h1 hc
  · exact ⟨_, rfl⟩

theorem versionP_seg {S T : List Seg}
    (hwf : segsWf .norm S = true) (hext : segExt S T = true)
    (hhS : headTok S = true) (hhT : headTok T = true) :
    (∀ v r, versionP (flatSegs S) = .ok (v, r) →
      ∃ y2 S2 T2, r = y2 ++ flatSegs S2 ∧
        versionP (flatSegs T) = .ok (v, y2 ++ flatSegs T2) ∧
        segExt S2 T2 = true ∧ segsWf .norm S2 = true ∧
        y2.all isIdentChar = true ∧
        (y2 ≠ [] → nextNot isIdentChar S2 = true)) ∧
    (∀ e, versionP (flatSegs S) = .error e →
      ∃ e2, versionP (flatSegs T) = .error e2) := by
  have hvred : ∀ X : List Char, versionP ('v' :: X) =
      (match X.dropWhile isWsChar with
       | c :: t2 =>
         if isDigitChar c then
           match vtSM .inGroup t2 with
           | some (ds, gs, rest) =>
               Except.ok ((versionChars (c :: ds) gs).asString, rest)
           | none => (Except.error ⟨('v' :: X).length, ["version"]⟩ :
               Except PErr (String × List Char))
         else Except.error ⟨('v' :: X).length, ["version"]⟩
       | [] => Except.error ⟨('v' :: X).length, ["version"]⟩) :=
    fun X => rfl
  have hmain :
      (∃ v y2 S2b T2b, versionP (flatSegs S) = .ok (v, y2 ++ flatSegs S2b) ∧
        versionP (flatSegs T) = .ok (v, y2 ++ flatSegs T2b) ∧
        segExt S2b T2b = true ∧ segsWf .norm S2b = true ∧
        y2.all isIdentChar = true ∧
        (y2 ≠ [] → nextNot isIdentChar S2b = true)) ∨
      ((∃ e, versionP (flatSegs S) = .error e) ∧
        (∃ e2, versionP (flatSegs T) = .error e2)) := by
    rcases segExt_aligned_tok hwf hext hhS hhT with ⟨rfl, hT⟩ |
      ⟨w, S2, T2, rfl, rfl, hrec⟩
    · right
      rw [hT]
      exact ⟨⟨_, rfl⟩, ⟨_, rfl⟩⟩
    · obtain ⟨c, t, rfl, hcw⟩ := tok_head_char hwf
      obtain ⟨hntw, hwf2⟩ := segsWf_tok_norm hwf
      rcases Decidable.em (c = 'v') with hv | hv
      · subst hv
        obtain ⟨hwall, hnnS2⟩ := normTokWf_word hntw (by decide)
        have hwfS2 : segsWf .norm S2 = true := by
          rw [normNext_word hwall (by simp)] at hwf2
          exact hwf2
        rw [show flatSegs (.tokS ('v' :: t) :: S2) =
          'v' :: (t ++ flatSegs S2) from rfl, hvred]
        rw [show flatSegs (.tokS ('v' :: t) :: T2) =
          'v' :: (t ++ flatSegs T2) from rfl, hvred]
        cases t with
        | cons c1 t1 =>
          have hc1i : isIdentChar c1 = true := by
            rw [List.all_cons, List.all_cons, Bool.and_eq_true,
              Bool.and_eq_true] at hwall
            exact hwall.2.1
          have hdw : ∀ r : List Char,
              ((c1 :: t1) ++ r).dropWhile isWsChar = c1 :: (t1 ++ r) := by
            intro r
            rw [List.cons_append, List.dropWhile_cons,
              identChar_not_ws2 _ hc1i]
            rfl
          rw [hdw, hdw]
          dsimp only
          by_cases hd1 : isDigitChar c1 = true
          · rw [if_pos hd1, if_pos hd1]
            have ht1all : t1.all isIdentChar = true := by
              rw [List.all_cons, List.all_cons, Bool.and_eq_true,
                Bool.and_eq_true] at hwall
              exact hwall.2.2
            obtain ⟨ds, gs, y2, S2b, T2b, hS, hT, hext3, hwf3, hy2, hnn2⟩ :=
              (vtSM_seg (S2.length + 1)).1 t1 S2 T2 (by omega) hwfS2 hrec
                ht1all (fun _ => hnnS2)
            rw [hS, hT]
            left
            exact ⟨(versionChars (c1 :: ds) gs).asString, y2, S2b, T2b, rfl,
              rfl, hext3, hwf3, hy2, hnn2⟩
          · rw [if_neg hd1, if_neg hd1]
            right
            exact ⟨⟨_, rfl⟩, ⟨_, rfl⟩⟩
        | nil =>
          rw [List.nil_append, List.nil_append]
          obtain ⟨hextD, hTdrop, hhSD, hhTD, hwfD⟩ :=
            segExt_dropGaps hwfS2 hrec
          rw [flat_dropWhile hwfS2, hTdrop]
          cases hDS : dropGaps S2 with
          | nil =>
            rw [hDS] at hextD hhSD
            have hDT : dropGaps T2 = [] := by
              rcases segExt_nil hextD with h0 | ⟨g, h0, hge, hgw⟩
              · exact h0
              · rw [h0] at hhTD
                exact absurd hhTD (by simp [headTok])
            rw [hDT]
            right
            exact ⟨⟨_, rfl⟩, ⟨_, rfl⟩⟩
          | cons s S2c =>
            rw [hDS] at hextD hhSD hwfD
            cases s with
            | gapS g => exact absurd hhSD (by simp [headTok])
            | tokS w2 =>
              obtain ⟨c1, t1, rfl, hc1w⟩ := tok_head_char hwfD
              rcases segExt_tok hextD with ⟨T2c, hDT, hrec2⟩ |
                ⟨g, T2c, hDT, hge, hgw, hrec2⟩
              · rw [hDT]
                rw [show flatSegs (.tokS (c1 :: t1) :: S2c) =
                  c1 :: (t1 ++ flatSegs S2c) from rfl]
                rw [show flatSegs (.tokS (c1 :: t1) :: T2c) =
                  c1 :: (t1 ++ flatSegs T2c) from rfl]
                dsimp only
                by_cases hd1 : isDigitChar c1 = true
                · rw [if_pos hd1, if_pos hd1]
                  obtain ⟨hntw2, hwf2b⟩ := segsWf_tok_norm hwfD
                  obtain ⟨hwall2, hnn2b⟩ :=
                    normTokWf_word hntw2 (digit_isIdentChar hd1)
                  have hwfS2c : segsWf .norm S2c = true := by
                    rw [normNext_word hwall2 (by simp)] at hwf2b
                    exact hwf2b
                  have ht1all : t1.all isIdentChar = true := by
                    rw [List.all_cons, Bool.and_eq_true] at hwall2
                    exact hwall2.2
                  obtain ⟨ds, gs, y2, S2b, T2b, hS, hT, hext3, hwf3, hy2,
                    hnn3⟩ :=
                    (vtSM_seg (S2c.length + 1)).1 t1 S2c T2c (by omega)
                      hwfS2c hrec2 ht1all (fun _ => hnn2b)
                  rw [hS, hT]
                  left
                  exact ⟨(versionChars (c1 :: ds) gs).asString, y2, S2b, T2b,
                    rfl, rfl, hext3, hwf3, hy2, hnn3⟩
                · rw [if_neg hd1, if_neg hd1]
                  right
                  exact ⟨⟨_, rfl⟩, ⟨_, rfl⟩⟩
              · rw [hDT] at hhTD
                exact absurd hhTD (by simp [headTok])
      · obtain ⟨e1, he1⟩ := versionP_head (t ++ flatSegs S2) hv
        obtain ⟨e2, he2⟩ := versionP_head (t ++ flatSegs T2) hv
        right
        constructor
        · exact ⟨e1, by rw [show flatSegs (.tokS (c :: t) :: S2) =
            c :: (t ++ flatSegs S2) from rfl]; exact he1⟩
        · exact ⟨e2, by rw [show flatSegs (.tokS (c :: t) :: T2) =
            c :: (t ++ flatSegs T2) from rfl]; exact he2⟩
  constructor
  · intro v r h
    rcases hmain with ⟨v0, y2, S2b, T2b, hok1, hok2, hext3, hwf3, hy2, hnn2⟩ |
      ⟨⟨e1, he1⟩, -⟩
    · rw [hok1] at h
      injection h with h
      injection h with h1 h2
      subst h1
      exact ⟨y2, S2b, T2b, h2.symm, hok2, hext3, hwf3, hy2, hnn2⟩
    · rw [he1] at h
      exact absurd h (by simp)
  · intro e h
    rcases hmain with ⟨v0, y2, S2b, T2b, hok1, hok2, hext3, hwf3, hy2, hnn2⟩ |
      ⟨-, he2⟩
    · rw [hok1] at h
      exact absurd h (by simp)
    · exact he2

/-! ### C7: transfer framework lemmas -/

theorem wsNorm {y : List Char} {S T : List Seg}
    (hpos : PosOk y S) (hext : segExt S T = true) :
    ∃ S3 T3, (y ++ flatSegs S).dropWhile isWsChar = y ++ flatSegs S3 ∧
      (y ++ flatSegs T).dropWhile isWsChar = y ++ flatSegs T3 ∧
      segExt S3 T3 = true ∧ PosOk y S3 ∧
      (y = [] → headTok S3 = true ∧ headTok T3 = true) := by
  obtain ⟨hwf, hall, hnn⟩ := hpos
  cases y with
  | nil =>
    obtain ⟨hextD, hTdrop, hhSD, hhTD, hwfD⟩ := segExt_dropGaps hwf hext
    refine ⟨dropGaps S, dropGaps T, ?_, ?_, hextD, ⟨hwfD, rfl,
      fun h => absurd rfl h⟩, fun _ => ⟨hhSD, hhTD⟩⟩
    · rw [List.nil_append, List.nil_append]
      exact flat_dropWhile hwf
    · rw [List.nil_append, List.nil_append]
      exact hTdrop
  | cons c y0 =>
    have hcw : isWsChar c = false := by
      rw [List.all_cons, Bool.and_eq_true] at hall
      exact identChar_not_ws2 _ hall.1
    have hdw : ∀ X : List Char, ((c :: y0) ++ X).dropWhile isWsChar =
        (c :: y0) ++ X := by
      intro X
      rw [List.cons_append, List.dropWhile_cons, hcw]
      rfl
    exact ⟨S, T, hdw _, hdw _, hext, ⟨hwf, hall, hnn⟩,
      fun h => absurd h (by simp)⟩

theorem segA_bind_ws {α β : Type} {p : Parser α} {f : α → Parser β}
    (hp : SegA p) (hf : ∀ a, SegA (f a)) :
    SegA (pbind p (fun a => pbind wsSkip (fun _ => f a))) := by
  intro y S T hpos hext hal
  obtain ⟨hpS, hpF⟩ := hp y S T hpos hext hal
  have hred : ∀ (a : α) (l : List Char),
      pbind wsSkip (fun _ => f a) l = f a (l.dropWhile isWsChar) :=
    fun a l => rfl
  constructor
  · intro v r h
    obtain ⟨a, r1, hp1, hf1⟩ := pbind_ok.mp h
    obtain ⟨y2, S2, T2, rfl, hpT, hext2, hpos2⟩ := hpS a r1 hp1
    obtain ⟨S3, T3, hdS, hdT, hext3, hpos3, hal3⟩ := wsNorm hpos2 hext2
    rw [hred, hdS] at hf1
    obtain ⟨hfS, hfF⟩ := hf a y2 S3 T3 hpos3 hext3 hal3
    obtain ⟨y4, S4, T4, rfl, hfT, hext4, hpos4⟩ := hfS v _ hf1
    refine ⟨y4, S4, T4, rfl, ?_, hext4, hpos4⟩
    apply pbind_ok.mpr
    refine ⟨a, y2 ++ flatSegs T2, hpT, ?_⟩
    rw [hred, hdT]
    exact hfT
  · intro e h
    rcases pbind_error.mp h with hp1 | ⟨a, r1, hp1, hf1⟩
    · obtain ⟨e2, he2⟩ := hpF e hp1
      exact ⟨e2, pbind_error.mpr (.inl he2)⟩
    · obtain ⟨y2, S2, T2, rfl, hpT, hext2, hpos2⟩ := hpS a r1 hp1
      obtain ⟨S3, T3, hdS, hdT, hext3, hpos3, hal3⟩ := wsNorm hpos2 hext2
      rw [hred, hdS] at hf1
      obtain ⟨hfS, hfF⟩ := hf a y2 S3 T3 hpos3 hext3 hal3
      obtain ⟨e2, he2⟩ := hfF e hf1
      refine ⟨e2, pbind_error.mpr (.inr ⟨a, y2 ++ flatSegs T2, hpT, ?_⟩)⟩
      rw [hred, hdT]
      exact he2

theorem segA_palt {α : Type} {p q : Parser α} (hp : SegA p) (hq : SegA q) :
    SegA (palt p q) := by
  intro y S T hpos hext hal
  obtain ⟨hpS, hpF⟩ := hp y S T hpos hext hal
  obtain ⟨hqS, hqF⟩ := hq y S T hpos hext hal
  constructor
  · intro v r h
    rcases palt_ok.mp h with h1 | ⟨⟨e1, he1⟩, h2⟩
    · obtain ⟨y2, S2, T2, rfl, hT1, hext2, hpos2⟩ := hpS v r h1
      exact ⟨y2, S2, T2, rfl, palt_ok.mpr (.inl hT1), hext2, hpos2⟩
    · obtain ⟨e1b, he1b⟩ := hpF e1 he1
      obtain ⟨y2, S2, T2, rfl, hT2, hext2, hpos2⟩ := hqS v r h2
      exact ⟨y2, S2, T2, rfl,
        palt_ok.mpr (.inr ⟨⟨e1b, he1b⟩, hT2⟩), hext2, hpos2⟩
  · intro e h
    obtain ⟨e1, e2, he1, he2, -⟩ := palt_error.mp h
    obtain ⟨e1b, he1b⟩ := hpF e1 he1
    obtain ⟨e2b, he2b⟩ := hqF e2 he2
    exact ⟨mergeE e1b e2b, palt_error.mpr ⟨e1b, e2b, he1b, he2b, rfl⟩⟩

theorem segA_pmapP {α β : Type} {p : Parser α} (g : α → β) (hp : SegA p) :
    SegA (pmapP g p) := by
  intro y S T hpos hext hal
  obtain ⟨hpS, hpF⟩ := hp y S T hpos hext hal
  constructor
  · intro v r h
    obtain ⟨a, h1, rfl⟩ := pmapP_ok.mp h
    obtain ⟨y2, S2, T2, rfl, hT1, hext2, hpos2⟩ := hpS a r h1
    exact ⟨y2, S2, T2, rfl, pmapP_ok.mpr ⟨a, hT1, rfl⟩, hext2, hpos2⟩
  · intro e h
    obtain ⟨e2, he2⟩ := hpF e (pmapP_error.mp h)
    exact ⟨e2, pmapP_error.mpr he2⟩

theorem segA_popt {α : Type} {p : Parser α} (hp : SegA p) : SegA (popt p) := by
  intro y S T hpos hext hal
  obtain ⟨hpS, hpF⟩ := hp y S T hpos hext hal
  constructor
  · intro v r h
    rcases popt_ok.mp h with ⟨a, rfl, h1⟩ | ⟨rfl, rfl, e, he⟩
    · obtain ⟨y2, S2, T2, rfl, hT1, hext2, hpos2⟩ := hpS a r h1
      exact ⟨y2, S2, T2, rfl, popt_ok.mpr (.inl ⟨a, rfl, hT1⟩), hext2, hpos2⟩
    · obtain ⟨e2, he2⟩ := hpF e he
      exact ⟨y, S, T, rfl, popt_ok.mpr (.inr ⟨rfl, rfl, e2, he2⟩), hext,
        hpos⟩
  · intro e h
    exact absurd h popt_ne_error

theorem segA_bind_pret {α β : Type} {p : Parser α} {g : α → β} (hp : SegA p) :
    SegA (pbind p (fun a => pret (g a))) := by
  intro y S T hpos hext hal
  obtain ⟨hpS, hpF⟩ := hp y S T hpos hext hal
  constructor
  · intro v r h
    obtain ⟨a, r1, hp1, hf1⟩ := pbind_ok.mp h
    injection hf1 with hf1
    injection hf1 with hv hr
    obtain ⟨y2, S2, T2, rfl, hpT, hext2, hpos2⟩ := hpS a r1 hp1
    refine ⟨y2, S2, T2, hr.symm, ?_, hext2, hpos2⟩
    apply pbind_ok.mpr
    exact ⟨a, y2 ++ flatSegs T2, hpT, by rw [hv]; rfl⟩
  · intro e h
    rcases pbind_error.mp h with hp1 | ⟨a, r1, hp1, hf1⟩
    · obtain ⟨e2, he2⟩ := hpF e hp1
      exact ⟨e2, pbind_error.mpr (.inl he2)⟩
    · exact absurd hf1 (by simp [pret])

/-! ### The base scanners satisfy the aligned transfer property -/

theorem plit_head_fail {c0 : Char} {cs0 : List Char} {n : String} {c : Char}
    (t : List Char) (hq : ¬(c0 = c)) :
    plit (c0 :: cs0) n (c :: t) = .error ⟨t.length + 1, [n]⟩ := by
  unfold plit
  rw [if_neg]
  · rfl
  · rw [List.isPrefixOf_cons₂]
    intro hh
    rw [Bool.and_eq_true, beq_iff_eq] at hh
    exact hq hh.1

theorem identChar_not_quote {c : Char} (h : isIdentChar c = true) :
    ¬(c = '"') := by
  intro hc
  subst hc
  exact absurd h (by decide)

/-- Literal matching of a word literal inside a word: the match stays inside
the in-word prefix. -/
theorem plit_mid_word {cs : List Char} {n : String} (c0 : Char)
    (y0 : List Char) {S T : List Seg}
    (hall : cs.all isIdentChar = true)
    (hnnS : nextNot isIdentChar S = true)
    (hnnT : nextNot isIdentChar T = true) :
    (∀ (u : Unit) r, plit cs n ((c0 :: y0) ++ flatSegs S) = .ok (u, r) →
      ∃ y2, c0 :: y0 = cs ++ y2 ∧ r = y2 ++ flatSegs S ∧
        plit cs n ((c0 :: y0) ++ flatSegs T) = .ok ((), y2 ++ flatSegs T)) ∧
    (∀ e, plit cs n ((c0 :: y0) ++ flatSegs S) = .error e →
      ∃ e2, plit cs n ((c0 :: y0) ++ flatSegs T) = .error e2) := by
  constructor
  · intro u r h
    have heq := plit_ok.mp h
    have hin : cs.isPrefixOf (c0 :: y0) = true :=
      prefix_run cs (c0 :: y0) (flatSegs S) hall (nextNot_head hnnS)
        (List.isPrefixOf_iff_prefix.mpr ⟨r, heq.symm⟩)
    obtain ⟨y2, hy2⟩ := List.isPrefixOf_iff_prefix.mp hin
    rw [← hy2, List.append_assoc] at heq
    have hr : r = y2 ++ flatSegs S := (List.append_cancel_left heq).symm
    refine ⟨y2, hy2.symm, hr, ?_⟩
    apply plit_ok.mpr
    rw [← hy2, List.append_assoc]
  · intro e h
    obtain ⟨hpre, -⟩ := plit_error.mp h
    refine ⟨⟨((c0 :: y0) ++ flatSegs T).length, [n]⟩, ?_⟩
    apply plit_error.mpr
    refine ⟨?_, rfl⟩
    intro hpreT
    apply hpre
    have hin : cs.isPrefixOf (c0 :: y0) = true :=
      prefix_run cs (c0 :: y0) (flatSegs T) hall (nextNot_head hnnT)
        (List.isPrefixOf_iff_prefix.mpr hpreT)
    obtain ⟨y2, hy2⟩ := List.isPrefixOf_iff_prefix.mp hin
    rw [← hy2, List.append_assoc]
    exact ⟨y2 ++ flatSegs S, rfl⟩

theorem segA_plit_word {cs : List Char} {n : String} (hne : cs ≠ [])
    (hall : cs.all isIdentChar = true) : SegA (plit cs n) := by
  intro y S T hpos hext hal
  obtain ⟨hwf, hyall, hynn⟩ := hpos
  cases y with
  | nil =>
    obtain ⟨hhS, hhT⟩ := hal rfl
    constructor
    · intro v r h
      rw [List.nil_append] at h
      obtain ⟨w, y2, S2, T2, rfl, rfl, hw, hy2, rfl, hext2, hwf2, hnn2, hT⟩ :=
        plit_word_seg hne hall hwf hext hhS hhT v r h
      refine ⟨y2, S2, T2, rfl, ?_, hext2, hwf2, hy2, fun _ => hnn2⟩
      rw [List.nil_append]
      cases v
      exact hT
    · intro e h
      rw [List.nil_append] at h
      obtain ⟨e2, he2⟩ := plit_fail_seg
        (by rw [List.all_eq_true] at hall ⊢
            intro c hc
            rw [identChar_not_ws2 _ (hall c hc)]
            rfl) hext e h
      exact ⟨e2, by rw [List.nil_append]; exact he2⟩
  | cons c0 y0 =>
    have hnnS : nextNot isIdentChar S = true := hynn (by simp)
    have hnnT : nextNot isIdentChar T = true :=
      nextNot_T (fun c hc => ws_not_identChar hc) hext hnnS
    obtain ⟨hmS, hmF⟩ := plit_mid_word (n := n) c0 y0 hall hnnS hnnT
    constructor
    · intro v r h
      obtain ⟨y2, hy, rfl, hT⟩ := hmS v r h
      have hy2all : y2.all isIdentChar = true := by
        rw [hy, List.all_append, Bool.and_eq_true] at hyall
        exact hyall.2
      cases v
      exact ⟨y2, S, T, rfl, hT, hext, hwf, hy2all, fun _ => hnnS⟩
    · exact hmF

theorem segA_identifierP : SegA identifierP := by
  intro y S T hpos hext hal
  obtain ⟨hwf, hyall, hynn⟩ := hpos
  cases y with
  | nil =>
    obtain ⟨hhS, hhT⟩ := hal rfl
    obtain ⟨hiS, hiF⟩ := identifierP_seg hwf hext hhS hhT
    constructor
    · intro v r h
      rw [List.nil_append] at h
      obtain ⟨w, S2, T2, rfl, rfl, rfl, rfl, hext2, hwf2, hwne, hwall, hT⟩ :=
        hiS v r h
      exact ⟨[], S2, T2, rfl, by rw [List.nil_append]; exact hT, hext2,
        hwf2, rfl, fun h0 => absurd rfl h0⟩
    · intro e h
      rw [List.nil_append] at h
      obtain ⟨e2, he2⟩ := hiF e h
      exact ⟨e2, by rw [List.nil_append]; exact he2⟩
  | cons c0 y0 =>
    have hnnS : nextNot isIdentChar S = true := hynn (by simp)
    have hnnT : nextNot isIdentChar T = true :=
      nextNot_T (fun c hc => ws_not_identChar hc) hext hnnS
    have hrun : ∀ (X : List Seg), nextNot isIdentChar X = true →
        identifierP ((c0 :: y0) ++ flatSegs X) =
          .ok ((c0 :: y0).asString, flatSegs X) := by
      intro X hnn
      obtain ⟨htk, hdr⟩ :=
        takeWhile_run_append hyall (nextNot_head hnn)
      apply pmapP_ok.mpr
      refine ⟨c0 :: y0, ?_, rfl⟩
      apply pclass1_ok.mpr
      exact ⟨by rw [htk], by simp, by rw [hdr]⟩
    constructor
    · intro v r h
      rw [hrun S hnnS] at h
      injection h with h
      injection h with h1 h2
      exact ⟨[], S, T, by rw [← h2, List.nil_append], by
        rw [hrun T hnnT, h1, List.nil_append], hext, hwf, rfl,
        fun h0 => absurd rfl h0⟩
    · intro e h
      rw [hrun S hnnS] at h
      exact absurd h (by simp)

theorem segA_numberP : SegA numberP := by
  intro y S T hpos hext hal
  obtain ⟨hwf, hyall, hynn⟩ := hpos
  cases y with
  | nil =>
    obtain ⟨hhS, hhT⟩ := hal rfl
    obtain ⟨hnS, hnF⟩ := numberP_seg hwf hext hhS hhT
    constructor
    · intro v r h
      rw [List.nil_append] at h
      obtain ⟨y2, S2, T2, rfl, hT, hext2, hwf2, hy2, hnn2⟩ := hnS v r h
      exact ⟨y2, S2, T2, rfl, by rw [List.nil_append]; exact hT, hext2,
        hwf2, hy2, hnn2⟩
    · intro e h
      rw [List.nil_append] at h
      obtain ⟨e2, he2⟩ := hnF e h
      exact ⟨e2, by rw [List.nil_append]; exact he2⟩
  | cons c0 y0 =>
    have hy0 : y0.all isIdentChar = true := by
      rw [List.all_cons, Bool.and_eq_true] at hyall
      exact hyall.2
    by_cases hd : isDigitChar c0 = true
    · obtain ⟨ds, y2, S2, T2, hS, hT, hext2, hwf2, hy2, hnn2, -⟩ :=
        digitsWsAux_seg (S.length + 1) y0 S T (by omega) hwf hext hy0
          (fun _ => hynn (by simp))
      have hS2 : numberP ((c0 :: y0) ++ flatSegs S) =
          .ok (c0 :: ds, y2 ++ flatSegs S2) := by
        rw [show ((c0 :: y0) ++ flatSegs S : List Char) =
          c0 :: (y0 ++ flatSegs S) from rfl, numberP_cons, if_pos hd, hS]
      have hT2 : numberP ((c0 :: y0) ++ flatSegs T) =
          .ok (c0 :: ds, y2 ++ flatSegs T2) := by
        rw [show ((c0 :: y0) ++ flatSegs T : List Char) =
          c0 :: (y0 ++ flatSegs T) from rfl, numberP_cons, if_pos hd, hT]
      constructor
      · intro v r h
        rw [hS2] at h
        injection h with h
        injection h with h1 h2
        exact ⟨y2, S2, T2, h2.symm, by rw [hT2, h1], hext2, hwf2, hy2, hnn2⟩
      · intro e h
        rw [hS2] at h
        exact absurd h (by simp)
    · have hS2 : numberP ((c0 :: y0) ++ flatSegs S) =
          .error ⟨(c0 :: (y0 ++ flatSegs S)).length, ["number"]⟩ := by
        rw [show ((c0 :: y0) ++ flatSegs S : List Char) =
          c0 :: (y0 ++ flatSegs S) from rfl, numberP_cons, if_neg hd]
      have hT2 : numberP ((c0 :: y0) ++ flatSegs T) =
          .error ⟨(c0 :: (y0 ++ flatSegs T)).length, ["number"]⟩ := by
        rw [show ((c0 :: y0) ++ flatSegs T : List Char) =
          c0 :: (y0 ++ flatSegs T) from rfl, numberP_cons, if_neg hd]
      constructor
      · intro v r h
        rw [hS2] at h
        exact absurd h (by simp)
      · intro e h
        exact ⟨_, hT2⟩

theorem segA_stringLitP : SegA stringLitP := by
  intro y S T hpos hext hal
  obtain ⟨hwf, hyall, hynn⟩ := hpos
  cases y with
  | nil =>
    obtain ⟨hhS, hhT⟩ := hal rfl
    obtain ⟨hsS, hsF⟩ := stringLitP_seg hwf hext hhS hhT
    constructor
    · intro v r h
      rw [List.nil_append] at h
      obtain ⟨w, S2, T2, rfl, rfl, rfl, hext2, hwf2, hT⟩ := hsS v r h
      exact ⟨[], S2, T2, rfl, by rw [List.nil_append]; exact hT, hext2,
        hwf2, rfl, fun h0 => absurd rfl h0⟩
    · intro e h
      rw [List.nil_append] at h
      obtain ⟨e2, he2⟩ := hsF e h
      exact ⟨e2, by rw [List.nil_append]; exact he2⟩
  | cons c0 y0 =>
    have hq : ¬(c0 = '"') := by
      rw [List.all_cons, Bool.and_eq_true] at hyall
      exact identChar_not_quote hyall.1
    have hS2 : stringLitP ((c0 :: y0) ++ flatSegs S) =
        .error ⟨(y0 ++ flatSegs S).length + 1, ["string"]⟩ := by
      rw [show ((c0 :: y0) ++ flatSegs S : List Char) =
        c0 :: (y0 ++ flatSegs S) from rfl, stringLitP_head _ hq]
    have hT2 : stringLitP ((c0 :: y0) ++ flatSegs T) =
        .error ⟨(y0 ++ flatSegs T).length + 1, ["string"]⟩ := by
      rw [show ((c0 :: y0) ++ flatSegs T : List Char) =
        c0 :: (y0 ++ flatSegs T) from rfl, stringLitP_head _ hq]
    constructor
    · intro v r h
      rw [hS2] at h
      exact absurd h (by simp)
    · intro e h
      exact ⟨_, hT2⟩

/-! ### Punctuation literals and the remaining scanners -/

theorem normTokWf_nil (S : List Seg) : normTokWf [] S = false := rfl

theorem isPrefixOf_head {c : Char} {cs X : List Char}
    (h : (c :: cs).isPrefixOf X = true) : X.head? = some c := by
  cases X with
  | nil => exact absurd h (by simp [List.isPrefixOf])
  | cons b X2 =>
    rw [List.isPrefixOf_cons₂, Bool.and_eq_true, beq_iff_eq] at h
    rw [h.1]
    rfl

theorem segA_plit_punct (cs : List Char) {n : String} {c0 : Char}
    {cs0 : List Char}
    (hcs : cs = c0 :: cs0) (hni : isIdentChar c0 = false)
    (hnw : cs.all (fun c => !isWsChar c) = true)
    (hnorm : normNext cs = .norm)
    (hspec : ∀ (w : List Char) (S2 : List Seg), normTokWf w S2 = true →
      (∀ y2, w = cs ++ y2 → y2 = []) ∧
      (∀ extra, cs = w ++ extra → extra ≠ [] →
        extra.isPrefixOf (flatSegs S2) = true → False)) :
    SegA (plit cs n) := by
  intro y S T hpos hext hal
  obtain ⟨hwf, hyall, hynn⟩ := hpos
  cases y with
  | nil =>
    obtain ⟨hhS, hhT⟩ := hal rfl
    constructor
    · intro v r h
      rw [List.nil_append] at h
      obtain ⟨S2, T2, rfl, rfl, rfl, hext2, hwf2, hT⟩ :=
        plit_punct_seg (by rw [hcs]; simp) hwf hext hhS hhT
          (fun w S2 _ hntw => hspec w S2 hntw) v r h
      refine ⟨[], S2, T2, rfl, ?_, hext2, ?_, rfl, fun h0 => absurd rfl h0⟩
      · rw [List.nil_append]
        cases v
        exact hT
      · rw [hnorm] at hwf2
        exact hwf2
    · intro e h
      rw [List.nil_append] at h
      obtain ⟨e2, he2⟩ := plit_fail_seg hnw hext e h
      exact ⟨e2, by rw [List.nil_append]; exact he2⟩
  | cons c1 y0 =>
    have hc1 : isIdentChar c1 = true := by
      rw [List.all_cons, Bool.and_eq_true] at hyall
      exact hyall.1
    have hq : ¬(c0 = c1) := by
      intro h0
      rw [h0, hc1] at hni
      exact absurd hni (by simp)
    subst hcs
    constructor
    · intro v r h
      rw [show ((c1 :: y0) ++ flatSegs S : List Char) =
        c1 :: (y0 ++ flatSegs S) from rfl, plit_head_fail _ hq] at h
      exact absurd h (by simp)
    · intro e h
      exact ⟨_, by
        rw [show ((c1 :: y0) ++ flatSegs T : List Char) =
          c1 :: (y0 ++ flatSegs T) from rfl, plit_head_fail _ hq]⟩

theorem pspec_of_single (c : Char) (hci : isIdentChar c = false)
    (hq : ¬(c = '"')) (hd : ¬(c = '.')) (he : ¬(c = '=')) (hb : ¬(c = '!')) :
    ∀ (w : List Char) (S2 : List Seg), normTokWf w S2 = true →
      (∀ y2, w = [c] ++ y2 → y2 = []) ∧
      (∀ extra, [c] = w ++ extra → extra ≠ [] →
        extra.isPrefixOf (flatSegs S2) = true → False) := by
  intro w S2 hntw
  constructor
  · intro y2 hw
    rw [hw] at hntw
    exact normTokWf_single hntw hci hq hd he hb
  · intro extra hfull hne _
    cases w with
    | nil =>
      rw [normTokWf_nil] at hntw
      exact absurd hntw (by simp)
    | cons a w2 =>
      rw [show ((a :: w2) ++ extra : List Char) = a :: (w2 ++ extra)
        from rfl] at hfull
      injection hfull with h1 h2
      obtain ⟨-, h4⟩ := List.append_eq_nil.mp h2.symm
      exact hne h4

theorem pspec_eqeq :
    ∀ (w : List Char) (S2 : List Seg), normTokWf w S2 = true →
      (∀ y2, w = ['=', '='] ++ y2 → y2 = []) ∧
      (∀ extra, ['=', '='] = w ++ extra → extra ≠ [] →
        extra.isPrefixOf (flatSegs S2) = true → False) := by
  intro w S2 hntw
  constructor
  · intro y2 hw
    rw [hw] at hntw
    rcases normTokWf_head_eq hntw with ⟨h1, -⟩ | h1
    · exact absurd h1 (by simp)
    · simpa using h1
  · intro extra hfull hne hpre
    cases w with
    | nil =>
      rw [normTokWf_nil] at hntw
      exact absurd hntw (by simp)
    | cons a w2 =>
      rw [show ((a :: w2) ++ extra : List Char) = a :: (w2 ++ extra)
        from rfl] at hfull
      injection hfull with h1 h2
      rw [← h1] at hntw
      cases w2 with
      | nil =>
        rw [List.nil_append] at h2
        rcases normTokWf_head_eq hntw with ⟨-, hnn⟩ | h3
        · rw [← h2] at hpre
          have hh := isPrefixOf_head hpre
          have := nextNot_head hnn '=' (by rw [← firstChar_flat, ← hh]; rw [firstChar_flat])
          exact absurd this (by simp)
        · exact absurd h3 (by simp)
      | cons a2 w3 =>
        rw [show ((a2 :: w3) ++ extra : List Char) = a2 :: (w3 ++ extra)
          from rfl] at h2
        injection h2 with h3 h4
        obtain ⟨-, h6⟩ := List.append_eq_nil.mp h4.symm
        exact hne h6

theorem pspec_bangeq :
    ∀ (w : List Char) (S2 : List Seg), normTokWf w S2 = true →
      (∀ y2, w = ['!', '='] ++ y2 → y2 = []) ∧
      (∀ extra, ['!', '='] = w ++ extra → extra ≠ [] →
        extra.isPrefixOf (flatSegs S2) = true → False) := by
  intro w S2 hntw
  constructor
  · intro y2 hw
    rw [hw] at hntw
    rcases normTokWf_head_bang hntw with ⟨h1, -⟩ | h1
    · exact absurd h1 (by simp)
    · simpa using h1
  · intro extra hfull hne hpre
    cases w with
    | nil =>
      rw [normTokWf_nil] at hntw
      exact absurd hntw (by simp)
    | cons a w2 =>
      rw [show ((a :: w2) ++ extra : List Char) = a :: (w2 ++ extra)
        from rfl] at hfull
      injection hfull with h1 h2
      rw [← h1] at hntw
      cases w2 with
      | nil =>
        rw [List.nil_append] at h2
        rcases normTokWf_head_bang hntw with ⟨-, hnn⟩ | h3
        · rw [← h2] at hpre
          have hh := isPrefixOf_head hpre
          have := nextNot_head hnn '=' (by rw [← firstChar_flat, ← hh]; rw [firstChar_flat])
          exact absurd this (by simp)
        · exact absurd h3 (by simp)
      | cons a2 w3 =>
        rw [show ((a2 :: w3) ++ extra : List Char) = a2 :: (w3 ++ extra)
          from rfl] at h2
        injection h2 with h3 h4
        obtain ⟨-, h6⟩ := List.append_eq_nil.mp h4.symm
        exact hne h6

theorem pspec_dotdot :
    ∀ (w : List Char) (S2 : List Seg), normTokWf w S2 = true →
      (∀ y2, w = ['.', '.'] ++ y2 → y2 = []) ∧
      (∀ extra, ['.', '.'] = w ++ extra → extra ≠ [] →
        extra.isPrefixOf (flatSegs S2) = true → False) := by
  intro w S2 hntw
  constructor
  · intro y2 hw
    rw [hw] at hntw
    rcases normTokWf_head_dot hntw with ⟨h1, -, -⟩ | h1 | h1
    · exact absurd h1 (by simp)
    · simpa using h1
    · injection h1 with h3 _
      exact absurd h3 (by decide)
  · intro extra hfull hne hpre
    cases w with
    | nil =>
      rw [normTokWf_nil] at hntw
      exact absurd hntw (by simp)
    | cons a w2 =>
      rw [show ((a :: w2) ++ extra : List Char) = a :: (w2 ++ extra)
        from rfl] at hfull
      injection hfull with h1 h2
      rw [← h1] at hntw
      cases w2 with
      | nil =>
        rw [List.nil_append] at h2
        rcases normTokWf_head_dot hntw with ⟨-, hnn, -⟩ | h3 | h3
        · rw [← h2] at hpre
          have hh := isPrefixOf_head hpre
          have := nextNot_head hnn '.' (by rw [← firstChar_flat, ← hh]; rw [firstChar_flat])
          exact absurd this (by simp)
        · exact absurd h3 (by simp)
        · exact absurd h3 (by simp)
      | cons a2 w3 =>
        rw [show ((a2 :: w3) ++ extra : List Char) = a2 :: (w3 ++ extra)
          from rfl] at h2
        injection h2 with h3 h4
        obtain ⟨-, h6⟩ := List.append_eq_nil.mp h4.symm
        exact hne h6

theorem pspec_split :
    ∀ (w : List Char) (S2 : List Seg), normTokWf w S2 = true →
      (∀ y2, w = ['.', 's', 'p', 'l', 'i', 't', '('] ++ y2 → y2 = []) ∧
      (∀ extra, ['.', 's', 'p', 'l', 'i', 't', '('] = w ++ extra →
        extra ≠ [] → extra.isPrefixOf (flatSegs S2) = true → False) := by
  intro w S2 hntw
  constructor
  · intro y2 hw
    rw [hw] at hntw
    rcases normTokWf_head_dot hntw with ⟨h1, -, -⟩ | h1 | h1
    · exact absurd h1 (by simp)
    · exact absurd (congrArg List.length h1) (by simp)
    · simpa using h1
  · intro extra hfull hne hpre
    cases w with
    | nil =>
      rw [normTokWf_nil] at hntw
      exact absurd hntw (by simp)
    | cons a w2 =>
      rw [show ((a :: w2) ++ extra : List Char) = a :: (w2 ++ extra)
        from rfl] at hfull
      injection hfull with h1 h2
      rw [← h1] at hntw
      rcases normTokWf_head_dot hntw with ⟨h3, -, hnpre⟩ | h3 | h3
      · subst h3
        rw [List.nil_append] at h2
        rw [← h2] at hpre
        rw [hpre] at hnpre
        exact absurd hnpre (by simp)
      · subst h3
        rw [show ((['.'] : List Char) ++ extra) = '.' :: extra from rfl] at h2
        injection h2 with h3 _
        exact absurd h3 (by decide)
      · subst h3
        have h4 : extra = [] := by simpa using h2.symm
        exact hne h4

/-! ### The version rule and the simple compound rules -/

/-- After a literal `v`, the version tail transfers: same value, paired
rests, or failure on both sides. -/
theorem versionP_vtail {y0 : List Char} {S T : List Seg}
    (hwf : segsWf .norm S = true) (hext : segExt S T = true)
    (hy0 : y0.all isIdentChar = true)
    (hnn : y0 ≠ [] → nextNot isIdentChar S = true) :
    (∃ (v : String) (y2 : List Char) (S2b T2b : List Seg),
      versionP ('v' :: (y0 ++ flatSegs S)) = .ok (v, y2 ++ flatSegs S2b) ∧
      versionP ('v' :: (y0 ++ flatSegs T)) = .ok (v, y2 ++ flatSegs T2b) ∧
      segExt S2b T2b = true ∧ segsWf .norm S2b = true ∧
      y2.all isIdentChar = true ∧
      (y2 ≠ [] → nextNot isIdentChar S2b = true)) ∨
    ((∃ e, versionP ('v' :: (y0 ++ flatSegs S)) = .error e) ∧
      (∃ e2, versionP ('v' :: (y0 ++ flatSegs T)) = .error e2)) := by
  have hvred : ∀ X : List Char, versionP ('v' :: X) =
      (match X.dropWhile isWsChar with
       | c :: t2 =>
         if isDigitChar c then
           match vtSM .inGroup t2 with
           | some (ds, gs, rest) =>
               Except.ok ((versionChars (c :: ds) gs).asString, rest)
           | none => (Except.error ⟨('v' :: X).length, ["version"]⟩ :
               Except PErr (String × List Char))
         else Except.error ⟨('v' :: X).length, ["version"]⟩
       | [] => Except.error ⟨('v' :: X).length, ["version"]⟩) :=
    fun X => rfl
  rw [hvred, hvred]
  cases y0 with
  | cons c1 t1 =>
    have hc1i : isIdentChar c1 = true := by
      rw [List.all_cons, Bool.and_eq_true] at hy0
      exact hy0.1
    have hdw : ∀ r : List Char,
        ((c1 :: t1) ++ r).dropWhile isWsChar = c1 :: (t1 ++ r) := by
      intro r
      rw [List.cons_append, List.dropWhile_cons, identChar_not_ws2 _ hc1i]
      rfl
    rw [hdw, hdw]
    dsimp only
    by_cases hd1 : isDigitChar c1 = true
    · rw [if_pos hd1, if_pos hd1]
      have ht1all : t1.all isIdentChar = true := by
        rw [List.all_cons, Bool.and_eq_true] at hy0
        exact hy0.2
      obtain ⟨ds, gs, y2, S2b, T2b, hS, hT, hext3, hwf3, hy2, hnn2⟩ :=
        (vtSM_seg (S.length + 1)).1 t1 S T (by omega) hwf hext
          ht1all (fun _ => hnn (by simp))
      rw [hS, hT]
      left
      exact ⟨(versionChars (c1 :: ds) gs).asString, y2, S2b, T2b, rfl,
        rfl, hext3, hwf3, hy2, hnn2⟩
    · rw [if_neg hd1, if_neg hd1]
      right
      exact ⟨⟨_, rfl⟩, ⟨_, rfl⟩⟩
  | nil =>
    rw [List.nil_append, List.nil_append]
    obtain ⟨hextD, hTdrop, hhSD, hhTD, hwfD⟩ := segExt_dropGaps hwf hext
    rw [flat_dropWhile hwf, hTdrop]
    cases hDS : dropGaps S with
    | nil =>
      rw [hDS] at hextD hhSD
      have hDT : dropGaps T = [] := by
        rcases segExt_nil hextD with h0 | ⟨g, h0, hge, hgw⟩
        · exact h0
        · rw [h0] at hhTD
          exact absurd hhTD (by simp [headTok])
      rw [hDT]
      right
      exact ⟨⟨_, rfl⟩, ⟨_, rfl⟩⟩
    | cons s S2c =>
      rw [hDS] at hextD hhSD hwfD
      cases s with
      | gapS g => exact absurd hhSD (by simp [headTok])
      | tokS w2 =>
        obtain ⟨c1, t1, rfl, hc1w⟩ := tok_head_char hwfD
        rcases segExt_tok hextD with ⟨T2c, hDT, hrec2⟩ |
          ⟨g, T2c, hDT, hge, hgw, hrec2⟩
        · rw [hDT]
          rw [show flatSegs (.tokS (c1 :: t1) :: S2c) =
            c1 :: (t1 ++ flatSegs S2c) from rfl]
          rw [show flatSegs (.tokS (c1 :: t1) :: T2c) =
            c1 :: (t1 ++ flatSegs T2c) from rfl]
          dsimp only
          by_cases hd1 : isDigitChar c1 = true
          · rw [if_pos hd1, if_pos hd1]
            obtain ⟨hntw2, hwf2b⟩ := segsWf_tok_norm hwfD
            obtain ⟨hwall2, hnn2b⟩ :=
              normTokWf_word hntw2 (digit_isIdentChar hd1)
            have hwfS2c : segsWf .norm S2c = true := by
              rw [normNext_word hwall2 (by simp)] at hwf2b
              exact hwf2b
            have ht1all : t1.all isIdentChar = true := by
              rw [List.all_cons, Bool.and_eq_true] at hwall2
              exact hwall2.2
            obtain ⟨ds, gs, y2, S2b, T2b, hS, hT, hext3, hwf3, hy2,
              hnn3⟩ :=
              (vtSM_seg (S2c.length + 1)).1 t1 S2c T2c (by omega)
                hwfS2c hrec2 ht1all (fun _ => hnn2b)
            rw [hS, hT]
            left
            exact ⟨(versionChars (c1 :: ds) gs).asString, y2, S2b, T2b,
              rfl, rfl, hext3, hwf3, hy2, hnn3⟩
          · rw [if_neg hd1, if_neg hd1]
            right
            exact ⟨⟨_, rfl⟩, ⟨_, rfl⟩⟩
        · rw [hDT] at hhTD
          exact absurd hhTD (by simp [headTok])

theorem segA_versionP : SegA versionP := by
  intro y S T hpos hext hal
  obtain ⟨hwf, hyall, hynn⟩ := hpos
  cases y with
  | nil =>
    obtain ⟨hhS, hhT⟩ := hal rfl
    rcases segExt_aligned_tok hwf hext hhS hhT with ⟨rfl, hT⟩ |
      ⟨w, S2, T2, rfl, rfl, hrec⟩
    · constructor
      · intro v r h
        exact absurd h (by simp [versionP, flatSegs])
      · intro e h
        rw [List.nil_append, hT]
        exact ⟨_, rfl⟩
    · obtain ⟨c, t, rfl, hcw⟩ := tok_head_char hwf
      obtain ⟨hntw, hwf2⟩ := segsWf_tok_norm hwf
      rcases Decidable.em (c = 'v') with hv | hv
      · subst hv
        obtain ⟨hwall, hnnS2⟩ := normTokWf_word hntw (by decide)
        have hwfS2 : segsWf .norm S2 = true := by
          rw [normNext_word hwall (by simp)] at hwf2
          exact hwf2
        have htall : t.all isIdentChar = true := by
          rw [List.all_cons, Bool.and_eq_true] at hwall
          exact hwall.2
        have heqS : ([] : List Char) ++
            flatSegs (.tokS ('v' :: t) :: S2) =
            'v' :: (t ++ flatSegs S2) := rfl
        have heqT : ([] : List Char) ++
            flatSegs (.tokS ('v' :: t) :: T2) =
            'v' :: (t ++ flatSegs T2) := rfl
        rcases versionP_vtail hwfS2 hrec htall (fun _ => hnnS2) with
          ⟨v0, y2, S2b, T2b, hokS, hokT, hext3, hwf3, hy2, hnn3⟩ |
          ⟨⟨e1, he1⟩, ⟨e2, he2⟩⟩
        · constructor
          · intro v r h
            rw [heqS, hokS] at h
            injection h with h
            injection h with h1 h2
            exact ⟨y2, S2b, T2b, h2.symm, by rw [heqT, hokT, h1], hext3,
              hwf3, hy2, hnn3⟩
          · intro e h
            rw [heqS, hokS] at h
            exact absurd h (by simp)
        · constructor
          · intro v r h
            rw [heqS, he1] at h
            exact absurd h (by simp)
          · intro e h
            exact ⟨e2, by rw [heqT]; exact he2⟩
      · obtain ⟨e1, he1⟩ := versionP_head (t ++ flatSegs S2) hv
        obtain ⟨e2, he2⟩ := versionP_head (t ++ flatSegs T2) hv
        constructor
        · intro v r h
          rw [show ([] : List Char) ++ flatSegs (.tokS (c :: t) :: S2) =
            c :: (t ++ flatSegs S2) from rfl, he1] at h
          exact absurd h (by simp)
        · intro e h
          exact ⟨e2, by rw [show ([] : List Char) ++
            flatSegs (.tokS (c :: t) :: T2) =
            c :: (t ++ flatSegs T2) from rfl]; exact he2⟩
  | cons c0 y0 =>
    have hy0 : y0.all isIdentChar = true := by
      rw [List.all_cons, Bool.and_eq_true] at hyall
      exact hyall.2
    rcases Decidable.em (c0 = 'v') with hv | hv
    · subst hv
      rcases versionP_vtail hwf hext hy0 (fun _ => hynn (by simp)) with
        ⟨v0, y2, S2b, T2b, hokS, hokT, hext3, hwf3, hy2, hnn3⟩ |
        ⟨⟨e1, he1⟩, ⟨e2, he2⟩⟩
      · constructor
        · intro v r h
          rw [show (('v' :: y0) ++ flatSegs S : List Char) =
            'v' :: (y0 ++ flatSegs S) from rfl, hokS] at h
          injection h with h
          injection h with h1 h2
          exact ⟨y2, S2b, T2b, h2.symm, by
            rw [show (('v' :: y0) ++ flatSegs T : List Char) =
              'v' :: (y0 ++ flatSegs T) from rfl, hokT, h1], hext3,
            hwf3, hy2, hnn3⟩
        · intro e h
          rw [show (('v' :: y0) ++ flatSegs S : List Char) =
            'v' :: (y0 ++ flatSegs S) from rfl, hokS] at h
          exact absurd h (by simp)
      · constructor
        · intro v r h
          rw [show (('v' :: y0) ++ flatSegs S : List Char) =
            'v' :: (y0 ++ flatSegs S) from rfl, he1] at h
          exact absurd h (by simp)
        · intro e h
          exact ⟨e2, by rw [show (('v' :: y0) ++ flatSegs T : List Char) =
            'v' :: (y0 ++ flatSegs T) from rfl]; exact he2⟩
    · obtain ⟨e1, he1⟩ := versionP_head (y0 ++ flatSegs S) hv
      obtain ⟨e2, he2⟩ := versionP_head (y0 ++ flatSegs T) hv
      constructor
      · intro v r h
        rw [show ((c0 :: y0) ++ flatSegs S : List Char) =
          c0 :: (y0 ++ flatSegs S) from rfl, he1] at h
        exact absurd h (by simp)
      · intro e h
        exact ⟨e2, by rw [show ((c0 :: y0) ++ flatSegs T : List Char) =
          c0 :: (y0 ++ flatSegs T) from rfl]; exact he2⟩

theorem segA_booleanP : SegA booleanP :=
  segA_palt (segA_pmapP _ (segA_plit_word (by simp) (by decide)))
    (segA_pmapP _ (segA_plit_word (by simp) (by decide)))

theorem segA_stickyTagP : SegA stickyTagP :=
  segA_plit_word (by simp) (by decide)

theorem segA_registerP : SegA registerP :=
  segA_bind_ws
    (segA_plit_punct ['$'] rfl (by decide) (by decide) (by rfl)
      (pspec_of_single '$' (by decide) (by decide) (by decide) (by decide)
        (by decide)))
    (fun _ => segA_identifierP)

theorem segA_paramP : SegA paramP :=
  segA_palt (segA_pmapP _ segA_stringLitP)
    (segA_palt (segA_pmapP _ segA_numberP)
      (segA_palt (segA_pmapP _ segA_booleanP)
        (segA_palt (segA_pmapP _ segA_identifierP)
          (segA_pmapP _ segA_registerP))))

theorem segA_valueP : SegA valueP :=
  segA_palt (segA_pmapP _ segA_stringLitP)
    (segA_palt (segA_pmapP _ segA_numberP)
      (segA_palt (segA_pmapP _ segA_booleanP)
        (segA_palt (segA_pmapP _ segA_identifierP)
          (segA_pmapP _ segA_registerP))))

theorem segA_simpleExpressionP : SegA simpleExpressionP :=
  segA_palt (segA_pmapP _ segA_identifierP)
    (segA_palt (segA_pmapP _ segA_numberP)
      (segA_palt (segA_pmapP _ segA_booleanP)
        (segA_palt (segA_pmapP _ segA_stringLitP)
          (segA_pmapP _ segA_registerP))))

theorem segA_rangeExpressionP : SegA rangeExpressionP :=
  segA_bind_ws segA_identifierP (fun a =>
    segA_bind_ws
      (segA_plit_punct ['.', '.'] rfl (by decide) (by decide) (by rfl)
        pspec_dotdot)
      (fun _ => segA_pmapP _ segA_identifierP))

/-! ### Comparison operators, expressions, split expressions, author tags -/

theorem ws_bind_eq {β : Type} (k : Parser β) (l : List Char) :
    pbind wsSkip (fun _ => k) l = k (l.dropWhile isWsChar) := rfl

theorem plit_single_fail_head {c : Char} {n : String} {l : List Char}
    {e : PErr} (h : plit [c] n l = .error e) : l.head? ≠ some c := by
  obtain ⟨hpre, -⟩ := plit_error.mp h
  intro hh
  apply hpre
  cases l with
  | nil => exact absurd hh (by simp)
  | cons b t =>
    injection hh with hh
    rw [hh]
    exact ⟨t, rfl⟩

theorem plit_fail_of_head {c : Char} (cs : List Char) (n : String)
    {l : List Char} (h : l.head? ≠ some c) :
    ∃ e, plit (c :: cs) n l = .error e := by
  refine ⟨_, plit_error.mpr ⟨?_, rfl⟩⟩
  rintro ⟨t2, rfl⟩
  exact h rfl

theorem segA_comparisonOperatorP : SegA comparisonOperatorP := by
  intro y S T hpos hext hal
  obtain ⟨hAS, hAF⟩ := (segA_pmapP (fun _ => CmpOp.eq)
    (segA_plit_punct ['=', '='] rfl (by decide) (by decide) (by rfl)
      pspec_eqeq))
    y S T hpos hext hal
  obtain ⟨hBS, hBF⟩ := (segA_pmapP (fun _ => CmpOp.ne)
    (segA_plit_punct ['!', '='] rfl (by decide) (by decide) (by rfl)
      pspec_bangeq))
    y S T hpos hext hal
  obtain ⟨hCS, hCF⟩ := (segA_pmapP (fun _ => CmpOp.gt)
    (segA_plit_punct ['>'] rfl (by decide) (by decide) (by rfl)
      (pspec_of_single '>' (by decide) (by decide) (by decide) (by decide)
        (by decide)))) y S T hpos hext hal
  obtain ⟨hDS, hDF⟩ := (segA_pmapP (fun _ => CmpOp.lt)
    (segA_plit_punct ['<'] rfl (by decide) (by decide) (by rfl)
      (pspec_of_single '<' (by decide) (by decide) (by decide) (by decide)
        (by decide)))) y S T hpos hext hal
  constructor
  · intro v r h
    rcases palt_ok.mp h with h1 | ⟨⟨e1, he1⟩, h2⟩
    · obtain ⟨y2, S2, T2, rfl, hT1, hext2, hpos2⟩ := hAS v r h1
      exact ⟨y2, S2, T2, rfl, palt_ok.mpr (.inl hT1), hext2, hpos2⟩
    · obtain ⟨e1b, he1b⟩ := hAF e1 he1
      rcases palt_ok.mp h2 with h3 | ⟨⟨e2, he2⟩, h4⟩
      · obtain ⟨y2, S2, T2, rfl, hT1, hext2, hpos2⟩ := hBS v r h3
        exact ⟨y2, S2, T2, rfl, palt_ok.mpr (.inr ⟨⟨e1b, he1b⟩,
          palt_ok.mpr (.inl hT1)⟩), hext2, hpos2⟩
      · obtain ⟨e2b, he2b⟩ := hBF e2 he2
        rcases palt_ok.mp h4 with h5 | ⟨⟨e3, he3⟩, h6⟩
        · obtain ⟨y2, S2, T2, rfl, hT1, hext2, hpos2⟩ := hCS v r h5
          exact ⟨y2, S2, T2, rfl, palt_ok.mpr (.inr ⟨⟨e1b, he1b⟩,
            palt_ok.mpr (.inr ⟨⟨e2b, he2b⟩, palt_ok.mpr (.inl hT1)⟩)⟩),
            hext2, hpos2⟩
        · obtain ⟨e3b, he3b⟩ := hCF e3 he3
          rcases palt_ok.mp h6 with h7 | ⟨⟨e4, he4⟩, h8⟩
          · obtain ⟨y2, S2, T2, rfl, hT1, hext2, hpos2⟩ := hDS v r h7
            exact ⟨y2, S2, T2, rfl, palt_ok.mpr (.inr ⟨⟨e1b, he1b⟩,
              palt_ok.mpr (.inr ⟨⟨e2b, he2b⟩, palt_ok.mpr (.inr
                ⟨⟨e3b, he3b⟩, palt_ok.mpr (.inl hT1)⟩)⟩)⟩), hext2, hpos2⟩
          · exfalso
            have hhd : (y ++ flatSegs S).head? ≠ some '>' :=
              plit_single_fail_head (pmapP_error.mp he3)
            have hhd2 : (y ++ flatSegs S).head? ≠ some '<' :=
              plit_single_fail_head (pmapP_error.mp he4)
            obtain ⟨eE, heE⟩ := plit_fail_of_head ['='] "comparison_operator" hhd
            obtain ⟨eF, heF⟩ := plit_fail_of_head ['='] "comparison_operator" hhd2
            rcases palt_ok.mp h8 with hE | ⟨-, hF⟩
            · obtain ⟨u, hplit, -⟩ := pmapP_ok.mp hE
              rw [heE] at hplit
              exact absurd hplit (by simp)
            · obtain ⟨u, hplit, -⟩ := pmapP_ok.mp hF
              rw [heF] at hplit
              exact absurd hplit (by simp)
  · intro e h
    obtain ⟨e1, e2, he1, h2, -⟩ := palt_error.mp h
    obtain ⟨e2c, e3, he2, h3, -⟩ := palt_error.mp h2
    obtain ⟨e3c, e4, he3, h4, -⟩ := palt_error.mp h3
    obtain ⟨e4c, e5, he4, h5, -⟩ := palt_error.mp h4
    obtain ⟨e1b, he1b⟩ := hAF e1 he1
    obtain ⟨e2b, he2b⟩ := hBF e2c he2
    obtain ⟨e3b, he3b⟩ := hCF e3c he3
    obtain ⟨e4b, he4b⟩ := hDF e4c he4
    have hhdT : (y ++ flatSegs T).head? ≠ some '>' :=
      plit_single_fail_head (pmapP_error.mp he3b)
    have hhdT2 : (y ++ flatSegs T).head? ≠ some '<' :=
      plit_single_fail_head (pmapP_error.mp he4b)
    obtain ⟨eE, heE⟩ := plit_fail_of_head ['='] "comparison_operator" hhdT
    obtain ⟨eF, heF⟩ := plit_fail_of_head ['='] "comparison_operator" hhdT2
    exact ⟨_, palt_error.mpr ⟨e1b, _, he1b,
      palt_error.mpr ⟨e2b, _, he2b,
        palt_error.mpr ⟨e3b, _, he3b,
          palt_error.mpr ⟨e4b, _, he4b,
            palt_error.mpr ⟨_, _, pmapP_error.mpr heE,
              pmapP_error.mpr heF, rfl⟩, rfl⟩, rfl⟩, rfl⟩, rfl⟩⟩

theorem segA_expressionP : SegA expressionP :=
  segA_palt (segA_pmapP _ segA_rangeExpressionP)
    (segA_bind_ws segA_simpleExpressionP (fun _ =>
      segA_bind_pret (segA_popt
        (segA_bind_ws segA_comparisonOperatorP
          (fun _ => segA_pmapP _ segA_simpleExpressionP)))))

theorem identityP_ne_error {l : List Char} {e : PErr} :
    identityP l = .error e → False := by
  intro h
  have h2 := pmapP_error.mp h
  rw [pclass0_eq] at h2
  exact absurd h2 (by simp)

/-! ### Split expressions and author tags (mode-crossing chains) -/

theorem segA_splitTail (src : Atom) :
    SegA (pbind (plit ['.', 's', 'p', 'l', 'i', 't', '('] "split_expression")
      fun _ => pbind wsSkip fun _ => pbind delimiterP fun d =>
      pbind wsSkip fun _ =>
      pmapP (fun _ => Iter.split src d) (plit [')'] "split_expression")) := by
  intro y S T hpos hext hal
  obtain ⟨hwf, hyall, hynn⟩ := hpos
  cases y with
  | cons c1 y0 =>
    have hc1 : isIdentChar c1 = true := by
      rw [List.all_cons, Bool.and_eq_true] at hyall
      exact hyall.1
    have hq : ¬('.' = c1) := by
      intro h0
      rw [← h0] at hc1
      exact absurd hc1 (by decide)
    constructor
    · intro v r h
      obtain ⟨a, r1, hp1, -⟩ := pbind_ok.mp h
      rw [show ((c1 :: y0) ++ flatSegs S : List Char) =
        c1 :: (y0 ++ flatSegs S) from rfl, plit_head_fail _ hq] at hp1
      exact absurd hp1 (by simp)
    · intro e h
      refine ⟨⟨(y0 ++ flatSegs T).length + 1, ["split_expression"]⟩,
        pbind_error.mpr (.inl ?_)⟩
      rw [show ((c1 :: y0) ++ flatSegs T : List Char) =
        c1 :: (y0 ++ flatSegs T) from rfl, plit_head_fail _ hq]
  | nil =>
    obtain ⟨hhS, hhT⟩ := hal rfl
    constructor
    · intro v r h
      rw [List.nil_append] at h
      obtain ⟨u1, r1, hp1, h1⟩ := pbind_ok.mp h
      obtain ⟨S2, T2, hSeq, hTeq, hr1, hext2, hwf2, hTp⟩ :=
        plit_punct_seg (by simp) hwf hext hhS hhT
          (fun w S2 _ hntw => pspec_split w S2 hntw) u1 r1 hp1
      subst hr1
      have hwfD : segsWf .sdel S2 = true := by
        rw [show normNext ['.', 's', 'p', 'l', 'i', 't', '('] =
          LexMode.sdel from rfl] at hwf2
        exact hwf2
      rw [ws_bind_eq, flat_dropWhile hwfD] at h1
      obtain ⟨hextD, hTdrop, hhSD, hhTD, hwfDD⟩ := segExt_dropGaps hwfD hext2
      obtain ⟨d, r2, hd1, h2⟩ := pbind_ok.mp h1
      obtain ⟨hdS, -⟩ := delimiterP_seg hwfDD hextD hhSD hhTD
      obtain ⟨w2, S3, T3, hS3eq, hT3eq, hr2, hext3, hwf3, hdT⟩ := hdS d r2 hd1
      subst hr2
      rw [ws_bind_eq, flat_dropWhile hwf3] at h2
      obtain ⟨hextD2, hTdrop2, hhSD2, hhTD2, hwfDD2⟩ :=
        segExt_dropGaps hwf3 hext3
      obtain ⟨u3, hplit3, hv⟩ := pmapP_ok.mp h2
      obtain ⟨S4, T4, hS4eq, hT4eq, hr4, hext4, hwf4, hpT⟩ :=
        plit_punct_seg (by simp) hwfDD2 hextD2 hhSD2 hhTD2
          (fun w S2' _ hntw => pspec_of_single ')' (by decide) (by decide)
            (by decide) (by decide) (by decide) w S2' hntw) u3 _ hplit3
      refine ⟨[], S4, T4, by rw [List.nil_append, hr4], ?_, hext4, ?_, rfl,
        fun h0 => absurd rfl h0⟩
      · rw [List.nil_append]
        apply pbind_ok.mpr
        refine ⟨u1, flatSegs T2, hTp, ?_⟩
        rw [ws_bind_eq, hTdrop]
        apply pbind_ok.mpr
        refine ⟨d, flatSegs T3, hdT, ?_⟩
        rw [ws_bind_eq, hTdrop2]
        apply pmapP_ok.mpr
        exact ⟨u3, by rw [List.nil_append]; exact hpT, hv⟩
      · rw [show normNext [')'] = LexMode.norm from rfl] at hwf4
        exact hwf4
    · intro e h
      rw [List.nil_append] at h
      rcases pbind_error.mp h with hp1 | ⟨u1, r1, hp1, h1⟩
      · obtain ⟨e2, he2⟩ := plit_fail_seg (by decide) hext e hp1
        exact ⟨e2, by rw [List.nil_append]
                      exact pbind_error.mpr (.inl he2)⟩
      · obtain ⟨S2, T2, hSeq, hTeq, hr1, hext2, hwf2, hTp⟩ :=
          plit_punct_seg (by simp) hwf hext hhS hhT
            (fun w S2 _ hntw => pspec_split w S2 hntw) u1 r1 hp1
        subst hr1
        have hwfD : segsWf .sdel S2 = true := by
          rw [show normNext ['.', 's', 'p', 'l', 'i', 't', '('] =
            LexMode.sdel from rfl] at hwf2
          exact hwf2
        rw [ws_bind_eq, flat_dropWhile hwfD] at h1
        obtain ⟨hextD, hTdrop, hhSD, hhTD, hwfDD⟩ :=
          segExt_dropGaps hwfD hext2
        rcases pbind_error.mp h1 with hd1 | ⟨d, r2, hd1, h2⟩
        · obtain ⟨-, hdF⟩ := delimiterP_seg hwfDD hextD hhSD hhTD
          obtain ⟨e2, he2⟩ := hdF e hd1
          refine ⟨e2, ?_⟩
          rw [List.nil_append]
          apply pbind_error.mpr
          right
          exact ⟨u1, flatSegs T2, hTp, by
            rw [ws_bind_eq, hTdrop]
            exact pbind_error.mpr (.inl he2)⟩
        · obtain ⟨hdS, -⟩ := delimiterP_seg hwfDD hextD hhSD hhTD
          obtain ⟨w2, S3, T3, hS3eq, hT3eq, hr2, hext3, hwf3, hdT⟩ :=
            hdS d r2 hd1
          subst hr2
          rw [ws_bind_eq, flat_dropWhile hwf3] at h2
          obtain ⟨hextD2, hTdrop2, hhSD2, hhTD2, hwfDD2⟩ :=
            segExt_dropGaps hwf3 hext3
          have hplite := pmapP_error.mp h2
          obtain ⟨e2, he2⟩ := plit_fail_seg (by decide) hextD2 e hplite
          refine ⟨e2, ?_⟩
          rw [List.nil_append]
          apply pbind_error.mpr
          right
          refine ⟨u1, flatSegs T2, hTp, ?_⟩
          rw [ws_bind_eq, hTdrop]
          apply pbind_error.mpr
          right
          refine ⟨d, flatSegs T3, hdT, ?_⟩
          rw [ws_bind_eq, hTdrop2]
          exact pmapP_error.mpr he2

theorem segA_splitExpressionP : SegA splitExpressionP :=
  segA_bind_ws
    (segA_palt (segA_pmapP _ segA_registerP)
      (segA_palt (segA_pmapP _ segA_identifierP)
        (segA_pmapP _ segA_stringLitP)))
    (fun src => segA_splitTail src)

theorem segA_authorTagP : SegA authorTagP := by
  intro y S T hpos hext hal
  obtain ⟨hwf, hyall, hynn⟩ := hpos
  cases y with
  | cons c1 y0 =>
    have hc1 : isIdentChar c1 = true := by
      rw [List.all_cons, Bool.and_eq_true] at hyall
      exact hyall.1
    have hq : ¬('@' = c1) := by
      intro h0
      rw [← h0] at hc1
      exact absurd hc1 (by decide)
    constructor
    · intro v r h
      obtain ⟨a, r1, hp1, -⟩ := pbind_ok.mp h
      rw [show ((c1 :: y0) ++ flatSegs S : List Char) =
        c1 :: (y0 ++ flatSegs S) from rfl, plit_head_fail _ hq] at hp1
      exact absurd hp1 (by simp)
    · intro e h
      refine ⟨⟨(y0 ++ flatSegs T).length + 1, ["author_tag"]⟩,
        pbind_error.mpr (.inl ?_)⟩
      rw [show ((c1 :: y0) ++ flatSegs T : List Char) =
        c1 :: (y0 ++ flatSegs T) from rfl, plit_head_fail _ hq]
  | nil =>
    obtain ⟨hhS, hhT⟩ := hal rfl
    constructor
    · intro v r h
      rw [List.nil_append] at h
      obtain ⟨u1, r1, hp1, h1⟩ := pbind_ok.mp h
      obtain ⟨S2, T2, hSeq, hTeq, hr1, hext2, hwf2, hTp⟩ :=
        plit_punct_seg (by simp) hwf hext hhS hhT
          (fun w S2 _ hntw => pspec_of_single '@' (by decide) (by decide)
            (by decide) (by decide) (by decide) w S2 hntw) u1 r1 hp1
      subst hr1
      have hwfA1 : segsWf .at1 S2 = true := by
        rw [show normNext ['@'] = LexMode.at1 from rfl] at hwf2
        exact hwf2
      rw [ws_bind_eq, flat_dropWhile hwfA1] at h1
      obtain ⟨hextD, hTdrop, hhSD, hhTD, hwfDD⟩ := segExt_dropGaps hwfA1 hext2
      obtain ⟨u2, r2, hp2, h2⟩ := pbind_ok.mp h1
      obtain ⟨S3, T3, hS3eq, hT3eq, hr2, hext3, hwfA2, hTp2⟩ :=
        plit_at1_seg hwfDD hextD hhSD hhTD u2 r2 hp2
      subst hr2
      rw [ws_bind_eq, flat_dropWhile hwfA2] at h2
      obtain ⟨hextD2, hTdrop2, hhSD2, hhTD2, hwfDD2⟩ :=
        segExt_dropGaps hwfA2 hext3
      obtain ⟨vI, S4, T4, hiS, hiT, hext4, hwf4⟩ :=
        identityP_seg hwfDD2 hextD2 hhSD2 hhTD2
      rw [hiS] at h2
      injection h2 with h2
      injection h2 with hv hr
      refine ⟨[], S4, T4, by rw [← hr, List.nil_append], ?_, hext4, hwf4,
        rfl, fun h0 => absurd rfl h0⟩
      rw [List.nil_append]
      apply pbind_ok.mpr
      refine ⟨u1, flatSegs T2, hTp, ?_⟩
      rw [ws_bind_eq, hTdrop]
      apply pbind_ok.mpr
      refine ⟨u2, flatSegs T3, hTp2, ?_⟩
      rw [ws_bind_eq, hTdrop2, hiT, hv]
      rfl
    · intro e h
      rw [List.nil_append] at h
      rcases pbind_error.mp h with hp1 | ⟨u1, r1, hp1, h1⟩
      · obtain ⟨e2, he2⟩ := plit_fail_seg (by decide) hext e hp1
        exact ⟨e2, by rw [List.nil_append]
                      exact pbind_error.mpr (.inl he2)⟩
      · obtain ⟨S2, T2, hSeq, hTeq, hr1, hext2, hwf2, hTp⟩ :=
          plit_punct_seg (by simp) hwf hext hhS hhT
            (fun w S2 _ hntw => pspec_of_single '@' (by decide) (by decide)
              (by decide) (by decide) (by decide) w S2 hntw) u1 r1 hp1
        subst hr1
        have hwfA1 : segsWf .at1 S2 = true := by
          rw [show normNext ['@'] = LexMode.at1 from rfl] at hwf2
          exact hwf2
        rw [ws_bind_eq, flat_dropWhile hwfA1] at h1
        obtain ⟨hextD, hTdrop, hhSD, hhTD, hwfDD⟩ :=
          segExt_dropGaps hwfA1 hext2
        rcases pbind_error.mp h1 with hp2 | ⟨u2, r2, hp2, h2⟩
        · obtain ⟨e2, he2⟩ := plit_fail_seg (by decide) hextD e hp2
          refine ⟨e2, ?_⟩
          rw [List.nil_append]
          apply pbind_error.mpr
          right
          exact ⟨u1, flatSegs T2, hTp, by
            rw [ws_bind_eq, hTdrop]
            exact pbind_error.mpr (.inl he2)⟩
        · obtain ⟨S3, T3, hS3eq, hT3eq, hr2, hext3, hwfA2, hTp2⟩ :=
            plit_at1_seg hwfDD hextD hhSD hhTD u2 r2 hp2
          subst hr2
          rw [ws_bind_eq, flat_dropWhile hwfA2] at h2
          exact absurd h2 (fun hh => identityP_ne_error hh)

/-! ### Argument lists and the fuelled action rules -/

theorem argsLoopP_seg :
    ∀ (f : Nat) (y : List Char) (S T : List Seg),
      PosOk y S → segExt S T = true →
      ∃ as y2 S2 T2,
        argsLoopP f (y ++ flatSegs S) = (as, y2 ++ flatSegs S2) ∧
        argsLoopP f (y ++ flatSegs T) = (as, y2 ++ flatSegs T2) ∧
        segExt S2 T2 = true ∧ PosOk y2 S2 := by
  intro f
  induction f with
  | zero =>
    intro y S T hpos hext
    exact ⟨[], y, S, T, rfl, rfl, hext, hpos⟩
  | succ f2 ih =>
    intro y S T hpos hext
    obtain ⟨S3, T3, hdS, hdT, hext3, hpos3, hal3⟩ := wsNorm hpos hext
    obtain ⟨hwf3, hy3, hnn3⟩ := hpos3
    cases y with
    | cons c0 y0 =>
      have hc0 : isIdentChar c0 = true := by
        obtain ⟨-, hyall, -⟩ := hpos
        rw [List.all_cons, Bool.and_eq_true] at hyall
        exact hyall.1
      have hstopS : argsLoopP (f2 + 1) ((c0 :: y0) ++ flatSegs S) =
          ([], (c0 :: y0) ++ flatSegs S) := by
        rw [argsLoopP.eq_2, hdS, show ((c0 :: y0) ++ flatSegs S3 :
          List Char) = c0 :: (y0 ++ flatSegs S3) from rfl]
        split
        · next t heq =>
          injection heq with h1 _
          rw [h1] at hc0
          exact absurd hc0 (by decide)
        · rfl
      have hstopT : argsLoopP (f2 + 1) ((c0 :: y0) ++ flatSegs T) =
          ([], (c0 :: y0) ++ flatSegs T) := by
        rw [argsLoopP.eq_2, hdT, show ((c0 :: y0) ++ flatSegs T3 :
          List Char) = c0 :: (y0 ++ flatSegs T3) from rfl]
        split
        · next t heq =>
          injection heq with h1 _
          rw [h1] at hc0
          exact absurd hc0 (by decide)
        · rfl
      exact ⟨[], c0 :: y0, S, T, hstopS, hstopT, hext, hpos⟩
    | nil =>
      obtain ⟨hhS3, hhT3⟩ := hal3 rfl
      rcases segExt_aligned_tok hwf3 hext3 hhS3 hhT3 with ⟨hS3nil, hT3nil⟩ |
        ⟨w, S4, T4, hS3eq, hT3eq, hext4⟩
      · have hstopS : argsLoopP (f2 + 1) ([] ++ flatSegs S) =
            ([], [] ++ flatSegs S) := by
          rw [argsLoopP.eq_2, hdS, hS3nil]
          rfl
        have hstopT : argsLoopP (f2 + 1) ([] ++ flatSegs T) =
            ([], [] ++ flatSegs T) := by
          rw [argsLoopP.eq_2, hdT, List.nil_append, hT3nil]
        exact ⟨[], [], S, T, hstopS, hstopT, hext, hpos⟩
      · subst hS3eq
        subst hT3eq
        obtain ⟨c2, t2, rfl, hc2w⟩ := tok_head_char hwf3
        rcases Decidable.em (c2 = ',') with hcm | hcm
        · subst hcm
          have ht2 : t2 = [] :=
            normTokWf_single (segsWf_tok_norm hwf3).1 (by decide)
              (by decide) (by decide) (by decide) (by decide)
          subst ht2
          have hwfS4 : segsWf .norm S4 = true := by
            have h0 := (segsWf_tok_norm hwf3).2
            rw [show normNext [','] = LexMode.norm from rfl] at h0
            exact h0
          obtain ⟨hextD, hTdrop, hhSD, hhTD, hwfDD⟩ :=
            segExt_dropGaps hwfS4 hext4
          obtain ⟨hpS, hpF⟩ := segA_paramP [] (dropGaps S4) (dropGaps T4)
            ⟨hwfDD, rfl, fun h0 => absurd rfl h0⟩ hextD
            (fun _ => ⟨hhSD, hhTD⟩)
          cases hp : paramP (flatSegs (dropGaps S4)) with
          | error e1 =>
            obtain ⟨e2, he2⟩ := hpF e1 hp
            rw [List.nil_append] at he2
            have hstopS : argsLoopP (f2 + 1) ([] ++ flatSegs S) =
                ([], [] ++ flatSegs S) := by
              rw [argsLoopP.eq_2, hdS, show ([] : List Char) ++
                flatSegs (.tokS [','] :: S4) = ',' :: flatSegs S4 from rfl]
              split
              · next t heq =>
                injection heq with _ h2
                subst h2
                rw [flat_dropWhile hwfS4, hp]
              · next h0 => exact absurd (h0 (flatSegs S4) rfl) (by simp)
            have hstopT : argsLoopP (f2 + 1) ([] ++ flatSegs T) =
                ([], [] ++ flatSegs T) := by
              rw [argsLoopP.eq_2, hdT, show ([] : List Char) ++
                flatSegs (.tokS [','] :: T4) = ',' :: flatSegs T4 from rfl]
              split
              · next t heq =>
                injection heq with _ h2
                subst h2
                rw [hTdrop, he2]
              · next h0 => exact absurd (h0 (flatSegs T4) rfl) (by simp)
            exact ⟨[], [], S, T, hstopS, hstopT, hext, hpos⟩
          | ok ar =>
            obtain ⟨a, r1⟩ := ar
            obtain ⟨y5, S5, T5, hr1, hpT, hext5, hpos5⟩ := hpS a r1 hp
            subst hr1
            rw [List.nil_append] at hpT
            obtain ⟨as, y6, S6, T6, hlS, hlT, hext6, hpos6⟩ :=
              ih y5 S5 T5 hpos5 hext5
            have hokS : argsLoopP (f2 + 1) ([] ++ flatSegs S) =
                (a :: as, y6 ++ flatSegs S6) := by
              rw [argsLoopP.eq_2, hdS, show ([] : List Char) ++
                flatSegs (.tokS [','] :: S4) = ',' :: flatSegs S4 from rfl]
              split
              · next t heq =>
                injection heq with _ h2
                subst h2
                rw [flat_dropWhile hwfS4, hp]
                dsimp only
                rw [hlS]
              · next h0 => exact absurd (h0 (flatSegs S4) rfl) (by simp)
            have hokT : argsLoopP (f2 + 1) ([] ++ flatSegs T) =
                (a :: as, y6 ++ flatSegs T6) := by
              rw [argsLoopP.eq_2, hdT, show ([] : List Char) ++
                flatSegs (.tokS [','] :: T4) = ',' :: flatSegs T4 from rfl]
              split
              · next t heq =>
                injection heq with _ h2
                subst h2
                rw [hTdrop, hpT]
                dsimp only
                rw [hlT]
              · next h0 => exact absurd (h0 (flatSegs T4) rfl) (by simp)
            exact ⟨a :: as, y6, S6, T6, hokS, hokT, hext6, hpos6⟩
        · have hstopS : argsLoopP (f2 + 1) ([] ++ flatSegs S) =
              ([], [] ++ flatSegs S) := by
            rw [argsLoopP.eq_2, hdS, show ([] : List Char) ++
              flatSegs (.tokS (c2 :: t2) :: S4) =
              c2 :: (t2 ++ flatSegs S4) from rfl]
            split
            · next t heq =>
              injection heq with h1 _
              exact absurd h1 hcm
            · rfl
          have hstopT : argsLoopP (f2 + 1) ([] ++ flatSegs T) =
              ([], [] ++ flatSegs T) := by
            rw [argsLoopP.eq_2, hdT, show ([] : List Char) ++
              flatSegs (.tokS (c2 :: t2) :: T4) =
              c2 :: (t2 ++ flatSegs T4) from rfl]
            split
            · next t heq =>
              injection heq with h1 _
              exact absurd h1 hcm
            · rfl
          exact ⟨[], [], S, T, hstopS, hstopT, hext, hpos⟩

theorem segA_argListP (fuel : Nat) : SegA (argListP fuel) := by
  intro y S T hpos hext hal
  obtain ⟨hpS, hpF⟩ := segA_paramP y S T hpos hext hal
  constructor
  · intro v r h
    cases hp : paramP (y ++ flatSegs S) with
    | error e1 =>
      have hred : argListP fuel (y ++ flatSegs S) =
          .ok ([], y ++ flatSegs S) := by
        unfold argListP
        rw [hp]
      rw [hred] at h
      injection h with h
      injection h with h1 h2
      obtain ⟨e2, he2⟩ := hpF e1 hp
      refine ⟨y, S, T, (by rw [← h2]), ?_, hext, hpos⟩
      have hredT : argListP fuel (y ++ flatSegs T) =
          .ok ([], y ++ flatSegs T) := by
        unfold argListP
        rw [he2]
      rw [hredT, ← h1]
    | ok ar =>
      obtain ⟨a, r1⟩ := ar
      obtain ⟨y5, S5, T5, hr1, hpT, hext5, hpos5⟩ := hpS a r1 hp
      subst hr1
      obtain ⟨as, y6, S6, T6, hlS, hlT, hext6, hpos6⟩ :=
        argsLoopP_seg fuel y5 S5 T5 hpos5 hext5
      have hred : argListP fuel (y ++ flatSegs S) =
          .ok (a :: as, y6 ++ flatSegs S6) := by
        unfold argListP
        rw [hp]
        dsimp only
        rw [hlS]
      rw [hred] at h
      injection h with h
      injection h with h1 h2
      refine ⟨y6, S6, T6, h2.symm, ?_, hext6, hpos6⟩
      have hredT : argListP fuel (y ++ flatSegs T) =
          .ok (a :: as, y6 ++ flatSegs T6) := by
        unfold argListP
        rw [hpT]
        dsimp only
        rw [hlT]
      rw [hredT, ← h1]
  · intro e h
    exfalso
    cases hp : paramP (y ++ flatSegs S) with
    | error e1 =>
      have hred : argListP fuel (y ++ flatSegs S) =
          .ok ([], y ++ flatSegs S) := by
        unfold argListP
        rw [hp]
      rw [hred] at h
      exact absurd h (by simp)
    | ok ar =>
      obtain ⟨a, r1⟩ := ar
      have hred : argListP fuel (y ++ flatSegs S) =
          .ok (a :: (argsLoopP fuel r1).1, (argsLoopP fuel r1).2) := by
        unfold argListP
        rw [hp]
      rw [hred] at h
      exact absurd h (by simp)

theorem segA_externalFnCallP (fuel : Nat) : SegA (externalFnCallP fuel) :=
  segA_bind_ws (segA_plit_word (by simp) (by decide)) (fun _ =>
    segA_bind_ws segA_identifierP (fun _ =>
      segA_bind_ws (segA_plit_punct ['('] rfl (by decide) (by decide)
        (by rfl) (pspec_of_single '(' (by decide) (by decide) (by decide)
          (by decide) (by decide))) (fun _ =>
        segA_bind_ws (segA_argListP fuel) (fun _ =>
          segA_pmapP _ (segA_plit_punct [')'] rfl (by decide) (by decide)
            (by rfl) (pspec_of_single ')' (by decide) (by decide)
              (by decide) (by decide) (by decide)))))))

theorem segA_actionP (fuel : Nat) : SegA (actionP fuel) :=
  segA_palt (segA_pmapP _ (segA_externalFnCallP fuel))
    (segA_bind_ws segA_identifierP (fun _ =>
      segA_bind_ws (segA_plit_punct ['('] rfl (by decide) (by decide)
        (by rfl) (pspec_of_single '(' (by decide) (by decide) (by decide)
          (by decide) (by decide))) (fun _ =>
        segA_bind_ws (segA_argListP fuel) (fun _ =>
          segA_pmapP _ (segA_plit_punct [')'] rfl (by decide) (by decide)
            (by rfl) (pspec_of_single ')' (by decide) (by decide)
              (by decide) (by decide) (by decide)))))))

/-! ### Register operations: the literal "=" may stop inside a "==" token,
but every continuation then dies on the leftover "=", on both sides. -/

theorem identifierP_head_fail {c : Char} (t : List Char)
    (hc : isIdentChar c = false) :
    identifierP (c :: t) = .error ⟨(c :: t).length, ["identifier"]⟩ :=
  pmapP_error.mpr (pclass1_error.mpr ⟨by simp [List.takeWhile_cons, hc], rfl⟩)

theorem valueP_head_eq_fail (X : List Char) :
    ∃ e, valueP ('=' :: X) = .error e := by
  have h1 : stringLitP ('=' :: X) = .error ⟨X.length + 1, ["string"]⟩ :=
    stringLitP_head X (by decide)
  have h2 : numberP ('=' :: X) = .error ⟨('=' :: X).length, ["number"]⟩ := by
    rw [numberP_cons, if_neg (by decide : ¬isDigitChar '=' = true)]
  have h3t : plit ['t','r','u','e'] "boolean" ('=' :: X) =
      .error ⟨X.length + 1, ["boolean"]⟩ := plit_head_fail X (by decide)
  have h3f : plit ['f','a','l','s','e'] "boolean" ('=' :: X) =
      .error ⟨X.length + 1, ["boolean"]⟩ := plit_head_fail X (by decide)
  have h4 : identifierP ('=' :: X) =
      .error ⟨('=' :: X).length, ["identifier"]⟩ :=
    identifierP_head_fail X (by decide)
  have h5 : plit ['$'] "register" ('=' :: X) =
      .error ⟨X.length + 1, ["register"]⟩ := plit_head_fail X (by decide)
  exact ⟨_, palt_error.mpr ⟨_, _, pmapP_error.mpr h1,
    palt_error.mpr ⟨_, _, pmapP_error.mpr h2,
      palt_error.mpr ⟨_, _, pmapP_error.mpr
          (palt_error.mpr ⟨_, _, pmapP_error.mpr h3t,
            pmapP_error.mpr h3f, rfl⟩),
        palt_error.mpr ⟨_, _, pmapP_error.mpr h4,
          pmapP_error.mpr (pbind_error.mpr (.inl h5)), rfl⟩, rfl⟩,
      rfl⟩, rfl⟩⟩

theorem extCallP_head_eq_fail (fuel : Nat) (X : List Char) :
    ∃ e, externalFnCallP fuel ('=' :: X) = .error e :=
  ⟨_, pbind_error.mpr (.inl (plit_head_fail X (by decide)))⟩

theorem regRhsK_head_eq_fail (fuel : Nat) (tgt : String) (X : List Char) :
    ∃ e, pmapP (fun rhs => (tgt, rhs))
      (palt (pmapP (fun fa => RegRhs.call fa.1 fa.2) (externalFnCallP fuel))
        (pmapP RegRhs.val valueP)) ('=' :: X) = .error e := by
  obtain ⟨e1, he1⟩ := extCallP_head_eq_fail fuel X
  obtain ⟨e2, he2⟩ := valueP_head_eq_fail X
  exact ⟨_, pmapP_error.mpr (palt_error.mpr ⟨_, _, pmapP_error.mpr he1,
    pmapP_error.mpr he2, rfl⟩)⟩

theorem segA_regOpTail (fuel : Nat) (tgt : String) :
    SegA (pbind (plit ['='] "register_operation") fun _ =>
      pbind wsSkip fun _ =>
      pmapP (fun rhs => (tgt, rhs))
        (palt (pmapP (fun fa => RegRhs.call fa.1 fa.2) (externalFnCallP fuel))
          (pmapP RegRhs.val valueP))) := by
  intro y S T hpos hext hal
  obtain ⟨hwf, hyall, hynn⟩ := hpos
  have hK := segA_pmapP (fun rhs => (tgt, rhs))
    (segA_palt (segA_pmapP (fun fa => RegRhs.call fa.1 fa.2)
        (segA_externalFnCallP fuel))
      (segA_pmapP RegRhs.val segA_valueP))
  cases y with
  | cons c1 y0 =>
    have hc1 : isIdentChar c1 = true := by
      rw [List.all_cons, Bool.and_eq_true] at hyall
      exact hyall.1
    have hq : ¬('=' = c1) := by
      intro h0
      rw [← h0] at hc1
      exact absurd hc1 (by decide)
    constructor
    · intro v r h
      rw [show ((c1 :: y0) ++ flatSegs S : List Char) =
        c1 :: (y0 ++ flatSegs S) from rfl] at h
      obtain ⟨a, r1, hp1, -⟩ := pbind_ok.mp h
      rw [plit_head_fail _ hq] at hp1
      exact absurd hp1 (by simp)
    · intro e h
      refine ⟨⟨(y0 ++ flatSegs T).length + 1, ["register_operation"]⟩,
        pbind_error.mpr (.inl ?_)⟩
      rw [show ((c1 :: y0) ++ flatSegs T : List Char) =
        c1 :: (y0 ++ flatSegs T) from rfl]
      exact plit_head_fail _ hq
  | nil =>
    obtain ⟨hhS, hhT⟩ := hal rfl
    rcases segExt_aligned_tok hwf hext hhS hhT with ⟨hSnil, hTnil⟩ |
      ⟨w, S4, T4, hSeq, hTeq, hext4⟩
    · subst hSnil
      constructor
      · intro v r h
        rw [List.nil_append] at h
        obtain ⟨a, r1, hp1, -⟩ := pbind_ok.mp h
        rw [show flatSegs ([] : List Seg) = ([] : List Char) from rfl,
          show plit ['='] "register_operation" ([] : List Char) =
            .error ⟨0, ["register_operation"]⟩ from rfl] at hp1
        exact absurd hp1 (by simp)
      · intro e h
        refine ⟨⟨0, ["register_operation"]⟩, pbind_error.mpr (.inl ?_)⟩
        rw [List.nil_append, hTnil]
        rfl
    · subst hSeq
      subst hTeq
      obtain ⟨c2, t2, rfl, hc2w⟩ := tok_head_char hwf
      obtain ⟨hntw, hwfnext⟩ := segsWf_tok_norm hwf
      rcases Decidable.em (c2 = '=') with hce | hce
      · subst hce
        rcases normTokWf_head_eq hntw with ⟨ht2, -⟩ | ht2
        · -- the token is exactly "="
          subst ht2
          have hwfS4 : segsWf .norm S4 = true := by
            rw [show normNext ['='] = LexMode.norm from rfl] at hwfnext
            exact hwfnext
          obtain ⟨hextD, hTdrop, hhSD, hhTD, hwfDD⟩ :=
            segExt_dropGaps hwfS4 hext4
          obtain ⟨hKS, hKF⟩ := hK [] (dropGaps S4) (dropGaps T4)
            ⟨hwfDD, rfl, fun h0 => absurd rfl h0⟩ hextD
            (fun _ => ⟨hhSD, hhTD⟩)
          have hpS : plit ['='] "register_operation"
              (flatSegs (Seg.tokS ['='] :: S4)) =
              .ok ((), flatSegs S4) := plit_ok.mpr rfl
          have hpT : plit ['='] "register_operation"
              (flatSegs (Seg.tokS ['='] :: T4)) =
              .ok ((), flatSegs T4) := plit_ok.mpr rfl
          constructor
          · intro v r h
            rw [List.nil_append] at h
            obtain ⟨a, r1, hp1, hk1⟩ := pbind_ok.mp h
            rw [hpS] at hp1
            injection hp1 with hp1
            injection hp1 with ha hr1
            subst hr1
            rw [ws_bind_eq, flat_dropWhile hwfS4] at hk1
            obtain ⟨y2, S2, T2, hr, hKT, hext2, hpos2⟩ := hKS v r hk1
            rw [List.nil_append] at hKT
            refine ⟨y2, S2, T2, hr, ?_, hext2, hpos2⟩
            rw [List.nil_append]
            apply pbind_ok.mpr
            refine ⟨(), flatSegs T4, hpT, ?_⟩
            rw [ws_bind_eq, hTdrop]
            exact hKT
          · intro e h
            rw [List.nil_append] at h
            rcases pbind_error.mp h with hp1 | ⟨a, r1, hp1, hk1⟩
            · rw [hpS] at hp1
              exact absurd hp1 (by simp)
            · rw [hpS] at hp1
              injection hp1 with hp1
              injection hp1 with ha hr1
              subst hr1
              rw [ws_bind_eq, flat_dropWhile hwfS4] at hk1
              obtain ⟨e2, he2⟩ := hKF e hk1
              rw [List.nil_append] at he2
              refine ⟨e2, ?_⟩
              rw [List.nil_append]
              apply pbind_error.mpr
              refine .inr ⟨(), flatSegs T4, hpT, ?_⟩
              rw [ws_bind_eq, hTdrop]
              exact he2
        · -- the token is "==": the "=" literal stops inside it and every
          -- continuation fails on the leftover "="
          subst ht2
          have hpS : plit ['='] "register_operation"
              (flatSegs (Seg.tokS ['=','='] :: S4)) =
              .ok ((), '=' :: flatSegs S4) := plit_ok.mpr rfl
          have hpT : plit ['='] "register_operation"
              (flatSegs (Seg.tokS ['=','='] :: T4)) =
              .ok ((), '=' :: flatSegs T4) := plit_ok.mpr rfl
          obtain ⟨eS, heS⟩ := regRhsK_head_eq_fail fuel tgt (flatSegs S4)
          obtain ⟨eT, heT⟩ := regRhsK_head_eq_fail fuel tgt (flatSegs T4)
          constructor
          · intro v r h
            rw [List.nil_append] at h
            obtain ⟨a, r1, hp1, hk1⟩ := pbind_ok.mp h
            rw [hpS] at hp1
            injection hp1 with hp1
            injection hp1 with ha hr1
            subst hr1
            rw [ws_bind_eq, show ('=' :: flatSegs S4).dropWhile isWsChar =
              '=' :: flatSegs S4 from rfl, heS] at hk1
            exact absurd hk1 (by simp)
          · intro e h
            refine ⟨eT, ?_⟩
            rw [List.nil_append]
            apply pbind_error.mpr
            refine .inr ⟨(), '=' :: flatSegs T4, hpT, ?_⟩
            rw [ws_bind_eq, show ('=' :: flatSegs T4).dropWhile isWsChar =
              '=' :: flatSegs T4 from rfl]
            exact heT
      · -- head of the token is not "=": the literal fails on both sides
        constructor
        · intro v r h
          rw [List.nil_append] at h
          obtain ⟨a, r1, hp1, -⟩ := pbind_ok.mp h
          rw [show flatSegs (Seg.tokS (c2 :: t2) :: S4) =
            c2 :: (t2 ++ flatSegs S4) from rfl,
            plit_head_fail _ (fun h0 => hce h0.symm)] at hp1
          exact absurd hp1 (by simp)
        · intro e h
          refine ⟨⟨(t2 ++ flatSegs T4).length + 1, ["register_operation"]⟩,
            pbind_error.mpr (.inl ?_)⟩
          rw [List.nil_append, show flatSegs (Seg.tokS (c2 :: t2) :: T4) =
            c2 :: (t2 ++ flatSegs T4) from rfl]
          exact plit_head_fail _ (fun h0 => hce h0.symm)

theorem segA_registerOperationP (fuel : Nat) :
    SegA (registerOperationP fuel) :=
  segA_bind_ws segA_registerP (fun tgt => segA_regOpTail fuel tgt)

/-! ### The mutually recursive step-body rules, by induction on the fuel -/

theorem segA_of_const_err {α : Type} {p : Parser α} (n : String)
    (hp : ∀ l, p l = .error ⟨l.length, [n]⟩) : SegA p := by
  intro y S T hpos hext hal
  constructor
  · intro v r h
    rw [hp] at h
    exact absurd h (by simp)
  · intro e h
    exact ⟨_, hp _⟩

theorem stepMutual_seg : ∀ f : Nat,
    SegA (stepBodyItemP f) ∧ SegA (conditionP f) ∧ SegA (forLoopP f) ∧
    SegA (stepBodyP f) ∧
    (∀ (y : List Char) (S T : List Seg), PosOk y S → segExt S T = true →
      ∃ ss y2 S2 T2,
        stepBodyLoopP f (y ++ flatSegs S) = (ss, y2 ++ flatSegs S2) ∧
        stepBodyLoopP f (y ++ flatSegs T) = (ss, y2 ++ flatSegs T2) ∧
        segExt S2 T2 = true ∧ PosOk y2 S2) := by
  intro f
  induction f with
  | zero =>
    refine ⟨segA_of_const_err "step_body" (fun l => rfl),
      segA_of_const_err "condition" (fun l => rfl),
      segA_of_const_err "for_loop" (fun l => rfl),
      segA_of_const_err "step_body" (fun l => rfl),
      fun y S T hpos hext => ⟨[], y, S, T, rfl, rfl, hext, hpos⟩⟩
  | succ f ih =>
    obtain ⟨ihItem, ihCond, ihFor, ihBody, ihLoop⟩ := ih
    have hItem : SegA (stepBodyItemP (f + 1)) :=
      segA_palt ihCond
        (segA_palt (segA_pmapP (fun tr => Stmt.regOp tr.1 tr.2)
            (segA_registerOperationP f))
          (segA_palt (segA_pmapP Stmt.act (segA_actionP f)) ihFor))
    have hCond : SegA (conditionP (f + 1)) :=
      segA_bind_ws (segA_plit_word (by simp) (by decide)) (fun _ =>
        segA_bind_ws segA_expressionP (fun g =>
          segA_bind_ws (segA_plit_punct ['\x7b'] rfl (by decide) (by decide)
            (by rfl) (pspec_of_single '\x7b' (by decide) (by decide)
              (by decide) (by decide) (by decide))) (fun _ =>
            segA_bind_ws ihBody (fun body =>
              segA_pmapP (fun _ => Stmt.cond g body)
                (segA_plit_punct ['\x7d'] rfl (by decide) (by decide)
                  (by rfl) (pspec_of_single '\x7d' (by decide) (by decide)
                    (by decide) (by decide) (by decide)))))))
    have hFor : SegA (forLoopP (f + 1)) :=
      segA_bind_ws (segA_plit_word (by simp) (by decide)) (fun _ =>
        segA_bind_ws segA_identifierP (fun v =>
          segA_bind_ws (segA_plit_word (by simp) (by decide)) (fun _ =>
            segA_bind_ws (segA_palt segA_splitExpressionP
                (segA_pmapP (fun ab => Iter.range ab.1 ab.2)
                  segA_rangeExpressionP)) (fun it =>
              segA_bind_ws (segA_plit_punct ['\x7b'] rfl (by decide)
                  (by decide) (by rfl) (pspec_of_single '\x7b' (by decide)
                    (by decide) (by decide) (by decide) (by decide)))
                (fun _ =>
                segA_bind_ws ihBody (fun body =>
                  segA_pmapP (fun _ => Stmt.forL v it body)
                    (segA_plit_punct ['\x7d'] rfl (by decide) (by decide)
                      (by rfl) (pspec_of_single '\x7d' (by decide)
                        (by decide) (by decide) (by decide)
                        (by decide)))))))))
    have hredB : ∀ l, stepBodyP (f + 1) l =
        (match stepBodyItemP f l with
          | .error e => .error e
          | .ok (s, r) =>
            let q := stepBodyLoopP f r
            .ok (s :: q.1, q.2)) := fun l => rfl
    have hredL : ∀ l, stepBodyLoopP (f + 1) l =
        (match stepBodyItemP f (l.dropWhile isWsChar) with
          | .error _ => ([], l)
          | .ok (s, r) =>
            let q := stepBodyLoopP f r
            (s :: q.1, q.2)) := fun l => rfl
    have hBody : SegA (stepBodyP (f + 1)) := by
      intro y S T hpos hext hal
      obtain ⟨hIS, hIF⟩ := ihItem y S T hpos hext hal
      constructor
      · intro v r h
        rw [hredB] at h
        cases hi : stepBodyItemP f (y ++ flatSegs S) with
        | error e =>
          rw [hi] at h
          exact absurd h (by simp)
        | ok sr =>
          obtain ⟨s, r1⟩ := sr
          obtain ⟨y2, S2, T2, hr1, hiT, hext2, hpos2⟩ := hIS s r1 hi
          subst hr1
          obtain ⟨ss, y3, S3, T3, hlS, hlT, hext3, hpos3⟩ :=
            ihLoop y2 S2 T2 hpos2 hext2
          rw [hi] at h
          dsimp only at h
          rw [hlS] at h
          injection h with h
          injection h with h1 h2
          refine ⟨y3, S3, T3, h2.symm, ?_, hext3, hpos3⟩
          rw [hredB, hiT]
          dsimp only
          rw [hlT, ← h1]
      · intro e h
        rw [hredB] at h
        cases hi : stepBodyItemP f (y ++ flatSegs S) with
        | error e1 =>
          rw [hi] at h
          obtain ⟨e2, he2⟩ := hIF e1 hi
          refine ⟨e2, ?_⟩
          rw [hredB, he2]
        | ok sr =>
          obtain ⟨s, r1⟩ := sr
          rw [hi] at h
          exact absurd h (by simp)
    have hLoop : ∀ (y : List Char) (S T : List Seg), PosOk y S →
        segExt S T = true →
        ∃ ss y2 S2 T2,
          stepBodyLoopP (f + 1) (y ++ flatSegs S) = (ss, y2 ++ flatSegs S2) ∧
          stepBodyLoopP (f + 1) (y ++ flatSegs T) = (ss, y2 ++ flatSegs T2) ∧
          segExt S2 T2 = true ∧ PosOk y2 S2 := by
      intro y S T hpos hext
      obtain ⟨S3, T3, hdS, hdT, hext3, hpos3, hal3⟩ := wsNorm hpos hext
      obtain ⟨hIS, hIF⟩ := ihItem y S3 T3 hpos3 hext3 hal3
      cases hi : stepBodyItemP f (y ++ flatSegs S3) with
      | error e1 =>
        obtain ⟨e2, he2⟩ := hIF e1 hi
        have hstopS : stepBodyLoopP (f + 1) (y ++ flatSegs S) =
            ([], y ++ flatSegs S) := by
          rw [hredL, hdS, hi]
        have hstopT : stepBodyLoopP (f + 1) (y ++ flatSegs T) =
            ([], y ++ flatSegs T) := by
          rw [hredL, hdT, he2]
        exact ⟨[], y, S, T, hstopS, hstopT, hext, hpos⟩
      | ok sr =>
        obtain ⟨s, r1⟩ := sr
        obtain ⟨y2, S2, T2, hr1, hiT, hext2, hpos2⟩ := hIS s r1 hi
        subst hr1
        obtain ⟨ss, y3, S3b, T3b, hlS, hlT, hext3b, hpos3b⟩ :=
          ihLoop y2 S2 T2 hpos2 hext2
        have hokS : stepBodyLoopP (f + 1) (y ++ flatSegs S) =
            (s :: ss, y3 ++ flatSegs S3b) := by
          rw [hredL, hdS, hi]
          dsimp only
          rw [hlS]
        have hokT : stepBodyLoopP (f + 1) (y ++ flatSegs T) =
            (s :: ss, y3 ++ flatSegs T3b) := by
          rw [hredL, hdT, hiT]
          dsimp only
          rw [hlT]
        exact ⟨s :: ss, y3, S3b, T3b, hokS, hokT, hext3b, hpos3b⟩
    exact ⟨hItem, hCond, hFor, hBody, hLoop⟩

/-! ### Steps and the workflow rule -/

theorem segA_stepP (f : Nat) : SegA (stepP f) :=
  segA_bind_ws (segA_plit_word (by simp) (by decide)) (fun _ =>
    segA_bind_ws segA_identifierP (fun name =>
      segA_bind_ws (segA_plit_punct ['\x7b'] rfl (by decide) (by decide)
        (by rfl) (pspec_of_single '\x7b' (by decide) (by decide) (by decide)
          (by decide) (by decide))) (fun _ =>
        segA_bind_ws (stepMutual_seg f).2.2.2.1 (fun body =>
          segA_pmapP (fun _ => Step.mk name body)
            (segA_plit_punct ['\x7d'] rfl (by decide) (by decide) (by rfl)
              (pspec_of_single '\x7d' (by decide) (by decide) (by decide)
                (by decide) (by decide)))))))

theorem stepsLoop_seg : ∀ (f : Nat) (y : List Char) (S T : List Seg),
    PosOk y S → segExt S T = true →
    ∃ ss y2 S2 T2,
      stepsLoopP f (y ++ flatSegs S) = (ss, y2 ++ flatSegs S2) ∧
      stepsLoopP f (y ++ flatSegs T) = (ss, y2 ++ flatSegs T2) ∧
      segExt S2 T2 = true ∧ PosOk y2 S2 := by
  intro f
  induction f with
  | zero =>
    intro y S T hpos hext
    exact ⟨[], y, S, T, rfl, rfl, hext, hpos⟩
  | succ f ih =>
    intro y S T hpos hext
    have hredSL : ∀ l, stepsLoopP (f + 1) l =
        (match stepP f (l.dropWhile isWsChar) with
          | .error _ => ([], l)
          | .ok (s, r) =>
            let q := stepsLoopP f r
            (s :: q.1, q.2)) := fun l => rfl
    obtain ⟨S3, T3, hdS, hdT, hext3, hpos3, hal3⟩ := wsNorm hpos hext
    obtain ⟨hIS, hIF⟩ := segA_stepP f y S3 T3 hpos3 hext3 hal3
    cases hi : stepP f (y ++ flatSegs S3) with
    | error e1 =>
      obtain ⟨e2, he2⟩ := hIF e1 hi
      have hstopS : stepsLoopP (f + 1) (y ++ flatSegs S) =
          ([], y ++ flatSegs S) := by
        rw [hredSL, hdS, hi]
      have hstopT : stepsLoopP (f + 1) (y ++ flatSegs T) =
          ([], y ++ flatSegs T) := by
        rw [hredSL, hdT, he2]
      exact ⟨[], y, S, T, hstopS, hstopT, hext, hpos⟩
    | ok sr =>
      obtain ⟨s, r1⟩ := sr
      obtain ⟨y2, S2, T2, hr1, hiT, hext2, hpos2⟩ := hIS s r1 hi
      subst hr1
      obtain ⟨ss, y3, S3b, T3b, hlS, hlT, hext3b, hpos3b⟩ :=
        ih y2 S2 T2 hpos2 hext2
      have hokS : stepsLoopP (f + 1) (y ++ flatSegs S) =
          (s :: ss, y3 ++ flatSegs S3b) := by
        rw [hredSL, hdS, hi]
        dsimp only
        rw [hlS]
      have hokT : stepsLoopP (f + 1) (y ++ flatSegs T) =
          (s :: ss, y3 ++ flatSegs T3b) := by
        rw [hredSL, hdT, hiT]
        dsimp only
        rw [hlT]
      exact ⟨s :: ss, y3, S3b, T3b, hokS, hokT, hext3b, hpos3b⟩

theorem segA_bind_steps (f : Nat) {β : Type} {g : Step → List Step → Parser β}
    (hg : ∀ s ss, SegA (g s ss)) :
    SegA (pbind (stepP f) fun s1 =>
      pbind (fun l2 =>
        let q := stepsLoopP f l2
        .ok (q.1, q.2)) fun ss =>
      pbind wsSkip fun _ => g s1 ss) := by
  intro y S T hpos hext hal
  obtain ⟨hIS, hIF⟩ := segA_stepP f y S T hpos hext hal
  constructor
  · intro v r h
    obtain ⟨s1, r1, hp1, h2⟩ := pbind_ok.mp h
    obtain ⟨y2, S2, T2, hr1, hpT, hext2, hpos2⟩ := hIS s1 r1 hp1
    subst hr1
    obtain ⟨ss, y3, S3, T3, hlS, hlT, hext3, hpos3⟩ :=
      stepsLoop_seg f y2 S2 T2 hpos2 hext2
    obtain ⟨ssv, r2, hq1, h3⟩ := pbind_ok.mp h2
    dsimp only at hq1
    rw [hlS] at hq1
    injection hq1 with hq1
    injection hq1 with hv2 hr2
    subst hv2
    subst hr2
    obtain ⟨S4, T4, hd3S, hd3T, hext4, hpos4, hal4⟩ := wsNorm hpos3 hext3
    rw [ws_bind_eq, hd3S] at h3
    obtain ⟨hgS, hgF⟩ := hg s1 ss y3 S4 T4 hpos4 hext4 hal4
    obtain ⟨y5, S5, T5, hr, hgT, hext5, hpos5⟩ := hgS v r h3
    refine ⟨y5, S5, T5, hr, ?_, hext5, hpos5⟩
    apply pbind_ok.mpr
    refine ⟨s1, y2 ++ flatSegs T2, hpT, ?_⟩
    apply pbind_ok.mpr
    refine ⟨ss, y3 ++ flatSegs T3, by dsimp only; rw [hlT], ?_⟩
    rw [ws_bind_eq, hd3T]
    exact hgT
  · intro e h
    rcases pbind_error.mp h with hp1 | ⟨s1, r1, hp1, h2⟩
    · obtain ⟨e2, he2⟩ := hIF e hp1
      exact ⟨e2, pbind_error.mpr (.inl he2)⟩
    · obtain ⟨y2, S2, T2, hr1, hpT, hext2, hpos2⟩ := hIS s1 r1 hp1
      subst hr1
      obtain ⟨ss, y3, S3, T3, hlS, hlT, hext3, hpos3⟩ :=
        stepsLoop_seg f y2 S2 T2 hpos2 hext2
      rcases pbind_error.mp h2 with hq1 | ⟨ssv, r2, hq1, h3⟩
      · dsimp only at hq1
        exact absurd hq1 (by simp)
      · dsimp only at hq1
        rw [hlS] at hq1
        injection hq1 with hq1
        injection hq1 with hv2 hr2
        subst hv2
        subst hr2
        obtain ⟨S4, T4, hd3S, hd3T, hext4, hpos4, hal4⟩ := wsNorm hpos3 hext3
        rw [ws_bind_eq, hd3S] at h3
        obtain ⟨hgS, hgF⟩ := hg s1 ss y3 S4 T4 hpos4 hext4 hal4
        obtain ⟨e2, he2⟩ := hgF e h3
        refine ⟨e2, pbind_error.mpr (.inr ⟨s1, y2 ++ flatSegs T2, hpT, ?_⟩)⟩
        apply pbind_error.mpr
        refine .inr ⟨ss, y3 ++ flatSegs T3, by dsimp only; rw [hlT], ?_⟩
        rw [ws_bind_eq, hd3T]
        exact he2

theorem segA_workflowP (f : Nat) : SegA (workflowP f) :=
  segA_bind_ws (segA_plit_word (by simp) (by decide)) (fun _ =>
    segA_bind_ws segA_identifierP (fun name =>
      segA_bind_ws segA_versionP (fun ver =>
        segA_bind_ws (segA_plit_punct ['\x7b'] rfl (by decide) (by decide)
          (by rfl) (pspec_of_single '\x7b' (by decide) (by decide)
            (by decide) (by decide) (by decide))) (fun _ =>
          segA_bind_steps f (fun s1 ss =>
            segA_bind_ws (segA_plit_punct ['\x7d'] rfl (by decide)
                (by decide) (by rfl) (pspec_of_single '\x7d' (by decide)
                  (by decide) (by decide) (by decide) (by decide)))
              (fun _ =>
              segA_bind_ws (segA_popt segA_authorTagP) (fun author =>
                segA_pmapP (fun st =>
                    Workflow.mk name ver (s1 :: ss) author st.isSome)
                  (segA_popt segA_stickyTagP))))))))

/-! ### Fuel stability: the fuelled parsers agree on any two sufficient
fuels.  The loops and the mutual rules consume input on every recursive
call, so any fuel at least the input length is interchangeable on the
success side. -/

theorem pbind_ext {α β : Type} {p : Parser α} {q1 q2 : α → Parser β}
    (l : List Char) (h : ∀ a r, p l = .ok (a, r) → q1 a r = q2 a r) :
    pbind p q1 l = pbind p q2 l := by
  unfold pbind
  cases hp : p l with
  | error e => rfl
  | ok ar =>
    obtain ⟨a, r⟩ := ar
    exact h a r hp

theorem pbind_head_eq {α β : Type} {p1 p2 : Parser α} {q : α → Parser β}
    (l : List Char) (h : p1 l = p2 l) : pbind p1 q l = pbind p2 q l := by
  unfold pbind
  rw [h]

theorem pmapP_congr {α β : Type} (g : α → β) {p1 p2 : Parser α}
    (l : List Char) (h : p1 l = p2 l) : pmapP g p1 l = pmapP g p2 l := by
  unfold pmapP
  rw [h]

theorem palt_congr {α : Type} {p1 p2 q1 q2 : Parser α} (l : List Char)
    (hp : p1 l = p2 l) (hq : q1 l = q2 l) : palt p1 q1 l = palt p2 q2 l := by
  unfold palt
  rw [hp]
  cases p2 l with
  | ok ar => rfl
  | error e => rw [hq]

theorem argsLoopP_nil : ∀ f, argsLoopP f [] = ([], []) := by
  intro f
  cases f with
  | zero => rfl
  | succ g => rfl

theorem argsLoopP_stop_nil {l : List Char} (g : Nat)
    (hdw : l.dropWhile isWsChar = []) : argsLoopP (g + 1) l = ([], l) := by
  rw [argsLoopP.eq_2, hdw]

theorem argsLoopP_stop_head {l : List Char} {c : Char} {t : List Char}
    (g : Nat) (hdw : l.dropWhile isWsChar = c :: t) (hc : c ≠ ',') :
    argsLoopP (g + 1) l = ([], l) := by
  rw [argsLoopP.eq_2, hdw]
  split
  · next t2 heq =>
    injection heq with h1 _
    exact absurd h1 hc
  · rfl

theorem argsLoopP_step_comma {l t : List Char} (g : Nat)
    (hdw : l.dropWhile isWsChar = ',' :: t) :
    argsLoopP (g + 1) l =
      (match paramP (t.dropWhile isWsChar) with
        | .error _ => ([], l)
        | .ok (a, r) => (a :: (argsLoopP g r).1, (argsLoopP g r).2)) := by
  rw [argsLoopP.eq_2, hdw]
  split
  · next t2 heq =>
    injection heq with _ h2
    subst h2
    rfl
  · next h0 => exact absurd (h0 t rfl) (by simp)

theorem argsLoopP_stab : ∀ (n : Nat) (l : List Char), l.length ≤ n →
    ∀ f1 f2, l.length ≤ f1 → l.length ≤ f2 →
    argsLoopP f1 l = argsLoopP f2 l := by
  intro n
  induction n with
  | zero =>
    intro l hl f1 f2 h1 h2
    have h0 : l = [] := List.eq_nil_of_length_eq_zero (Nat.le_zero.mp hl)
    subst h0
    rw [argsLoopP_nil, argsLoopP_nil]
  | succ n ih =>
    intro l hl f1 f2 h1 h2
    cases f1 with
    | zero =>
      have h0 : l = [] := List.eq_nil_of_length_eq_zero (Nat.le_zero.mp h1)
      subst h0
      rw [argsLoopP_nil, argsLoopP_nil]
    | succ g1 =>
      cases f2 with
      | zero =>
        have h0 : l = [] := List.eq_nil_of_length_eq_zero (Nat.le_zero.mp h2)
        subst h0
        rw [argsLoopP_nil, argsLoopP_nil]
      | succ g2 =>
        cases hdw : l.dropWhile isWsChar with
        | nil => rw [argsLoopP_stop_nil g1 hdw, argsLoopP_stop_nil g2 hdw]
        | cons c t =>
          rcases Decidable.em (c = ',') with hc | hc
          · subst hc
            rw [argsLoopP_step_comma g1 hdw, argsLoopP_step_comma g2 hdw]
            cases hp : paramP (t.dropWhile isWsChar) with
            | error e => rfl
            | ok ar =>
              obtain ⟨a, r⟩ := ar
              obtain ⟨c1, hc1⟩ := wfS_paramP _ _ _ hp
              have hlen1 : (l.dropWhile isWsChar).length ≤ l.length :=
                (List.dropWhile_suffix _).length_le
              have hlen2 : (t.dropWhile isWsChar).length ≤ t.length :=
                (List.dropWhile_suffix _).length_le
              have hlen3 : r.length ≤ (t.dropWhile isWsChar).length := by
                rw [hc1]
                simp
              have hlen4 : t.length + 1 ≤ l.length := by
                have := congrArg List.length hdw
                simp only [List.length_cons] at this
                omega
              dsimp only
              rw [ih r (by omega) g1 g2 (by omega) (by omega)]
          · rw [argsLoopP_stop_head g1 hdw hc, argsLoopP_stop_head g2 hdw hc]

theorem argListP_stab (f1 f2 : Nat) (l : List Char) (h1 : l.length ≤ f1)
    (h2 : l.length ≤ f2) : argListP f1 l = argListP f2 l := by
  unfold argListP
  cases hp : paramP l with
  | error e => rfl
  | ok ar =>
    obtain ⟨a, r⟩ := ar
    obtain ⟨c1, hc1⟩ := wfS_paramP _ _ _ hp
    have hr : r.length ≤ l.length := by
      rw [hc1]
      simp
    dsimp only
    rw [argsLoopP_stab r.length r le_rfl f1 f2 (by omega) (by omega)]

theorem externalFnCallP_stab (f1 f2 : Nat) (l : List Char)
    (h1 : l.length ≤ f1 + 1) (h2 : l.length ≤ f2 + 1) :
    externalFnCallP f1 l = externalFnCallP f2 l := by
  unfold externalFnCallP
  apply pbind_ext
  intro u1 r1 hcall
  have hl1 : l.length = r1.length + 4 := by
    have := congrArg List.length (plit_ok.mp hcall)
    simp at this
    omega
  rw [ws_bind_eq, ws_bind_eq]
  apply pbind_ext
  intro fn r2 hid
  obtain ⟨c1, hc1⟩ := wfS_identifierP _ _ _ hid
  have hl2 : r2.length ≤ r1.length := by
    have h3 := congrArg List.length hc1
    have h4 : (r1.dropWhile isWsChar).length ≤ r1.length :=
      (List.dropWhile_suffix _).length_le
    simp at h3
    omega
  rw [ws_bind_eq, ws_bind_eq]
  apply pbind_ext
  intro u2 r3 hpar
  have hl3 : r3.length + 1 ≤ r2.length := by
    have h3 := congrArg List.length (plit_ok.mp hpar)
    have h4 : (r2.dropWhile isWsChar).length ≤ r2.length :=
      (List.dropWhile_suffix _).length_le
    simp at h3
    omega
  rw [ws_bind_eq, ws_bind_eq]
  apply pbind_head_eq
  apply argListP_stab
  · have h4 : (r3.dropWhile isWsChar).length ≤ r3.length :=
      (List.dropWhile_suffix _).length_le
    omega
  · have h4 : (r3.dropWhile isWsChar).length ≤ r3.length :=
      (List.dropWhile_suffix _).length_le
    omega

theorem actionP_stab (f1 f2 : Nat) (l : List Char)
    (h1 : l.length ≤ f1 + 1) (h2 : l.length ≤ f2 + 1) :
    actionP f1 l = actionP f2 l := by
  unfold actionP
  apply palt_congr
  · exact pmapP_congr _ l (externalFnCallP_stab f1 f2 l h1 h2)
  · apply pbind_ext
    intro fn r1 hid
    obtain ⟨c1, hc1⟩ := wfS_identifierP _ _ _ hid
    have hl1 : r1.length ≤ l.length := by
      have h3 := congrArg List.length hc1
      simp at h3
      omega
    rw [ws_bind_eq, ws_bind_eq]
    apply pbind_ext
    intro u2 r2 hpar
    have hl2 : r2.length + 1 ≤ r1.length := by
      have h3 := congrArg List.length (plit_ok.mp hpar)
      have h4 : (r1.dropWhile isWsChar).length ≤ r1.length :=
        (List.dropWhile_suffix _).length_le
      simp at h3
      omega
    rw [ws_bind_eq, ws_bind_eq]
    apply pbind_head_eq
    apply argListP_stab
    · have h4 : (r2.dropWhile isWsChar).length ≤ r2.length :=
        (List.dropWhile_suffix _).length_le
      omega
    · have h4 : (r2.dropWhile isWsChar).length ≤ r2.length :=
        (List.dropWhile_suffix _).length_le
      omega

theorem registerOperationP_stab (f1 f2 : Nat) (l : List Char)
    (h1 : l.length ≤ f1 + 1) (h2 : l.length ≤ f2 + 1) :
    registerOperationP f1 l = registerOperationP f2 l := by
  unfold registerOperationP
  apply pbind_ext
  intro tgt r1 hreg
  obtain ⟨c1, hc1⟩ := wfS_registerP _ _ _ hreg
  have hl1 : r1.length ≤ l.length := by
    have h3 := congrArg List.length hc1
    simp at h3
    omega
  rw [ws_bind_eq, ws_bind_eq]
  apply pbind_ext
  intro u2 r2 heq2
  have hl2 : r2.length + 1 ≤ r1.length := by
    have h3 := congrArg List.length (plit_ok.mp heq2)
    have h4 : (r1.dropWhile isWsChar).length ≤ r1.length :=
      (List.dropWhile_suffix _).length_le
    simp at h3
    omega
  rw [ws_bind_eq, ws_bind_eq]
  apply pmapP_congr
  apply palt_congr
  · apply pmapP_congr
    apply externalFnCallP_stab
    · have h4 : (r2.dropWhile isWsChar).length ≤ r2.length :=
        (List.dropWhile_suffix _).length_le
      omega
    · have h4 : (r2.dropWhile isWsChar).length ≤ r2.length :=
        (List.dropWhile_suffix _).length_le
      omega
  · rfl

/-! ### Each step-body element consumes input when it succeeds -/

theorem plit_consumes {cs : List Char} {n : String} {l r : List Char}
    {u : Unit} (hne : cs ≠ []) (h : plit cs n l = .ok (u, r)) :
    r.length < l.length := by
  have h3 := congrArg List.length (plit_ok.mp h)
  simp at h3
  have h4 : 0 < cs.length := List.length_pos.mpr hne
  omega

theorem identifierP_consumes {l : List Char} {v : String} {r : List Char}
    (h : identifierP l = .ok (v, r)) : r.length < l.length := by
  obtain ⟨cs, hp, -⟩ := pmapP_ok.mp h
  obtain ⟨hcs, hne, hr⟩ := pclass1_ok.mp hp
  have h3 : (l.takeWhile isIdentChar).length +
      (l.dropWhile isIdentChar).length = l.length := by
    rw [← List.length_append, List.takeWhile_append_dropWhile]
  have h4 : 0 < (l.takeWhile isIdentChar).length := by
    rw [← hcs]
    exact List.length_pos.mpr hne
  rw [hr]
  omega

theorem pbind_consumes {α β : Type} {p : Parser α} {K : α → Parser β}
    (hK : ∀ a, WfS (K a)) {l : List Char} {b : β} {r : List Char}
    (h : pbind p K l = .ok (b, r))
    (hp : ∀ a r1, p l = .ok (a, r1) → r1.length < l.length) :
    r.length < l.length := by
  obtain ⟨a, r1, h1, h2⟩ := pbind_ok.mp h
  obtain ⟨c, hc⟩ := hK a _ _ _ h2
  have h3 : r.length ≤ r1.length := by
    rw [hc]
    simp
  exact lt_of_le_of_lt h3 (hp a r1 h1)

theorem conditionP_consumes (g : Nat) {l : List Char} {s : Stmt}
    {r : List Char} (h : conditionP g l = .ok (s, r)) :
    r.length + 2 ≤ l.length := by
  cases g with
  | zero =>
    rw [show conditionP 0 l = .error ⟨l.length, ["condition"]⟩ from rfl] at h
    exact absurd h (by simp)
  | succ m =>
    have hA : (pbind (plit ['i','f'] "condition") fun _ =>
        pbind wsSkip fun _ =>
        pbind expressionP fun g0 =>
        pbind wsSkip fun _ =>
        pbind (plit ['\x7b'] "condition") fun _ =>
        pbind wsSkip fun _ =>
        pbind (stepBodyP m) fun body =>
        pbind wsSkip fun _ =>
        pmapP (fun _ => Stmt.cond g0 body)
          (plit ['\x7d'] "condition")) l = .ok (s, r) := h
    obtain ⟨u1, r1, hIf, hK⟩ := pbind_ok.mp hA
    have hKwf : WfS (pbind wsSkip fun _ =>
        pbind expressionP fun g0 =>
        pbind wsSkip fun _ =>
        pbind (plit ['\x7b'] "condition") fun _ =>
        pbind wsSkip fun _ =>
        pbind (stepBodyP m) fun body =>
        pbind wsSkip fun _ =>
        pmapP (fun _ => Stmt.cond g0 body) (plit ['\x7d'] "condition")) :=
      wfS_pbind wfS_wsSkip (fun _ =>
        wfS_pbind wfS_expressionP (fun g0 =>
          wfS_pbind wfS_wsSkip (fun _ =>
            wfS_pbind (wfS_plit _ _) (fun _ =>
              wfS_pbind wfS_wsSkip (fun _ =>
                wfS_pbind (wf_stepFuel m).2.2.2.2.2.2.1 (fun body =>
                  wfS_pbind wfS_wsSkip (fun _ =>
                    wfS_pmapP _ (wfS_plit _ _))))))))
    obtain ⟨c, hc⟩ := hKwf _ _ _ hK
    have h3 := congrArg List.length (plit_ok.mp hIf)
    have h4 := congrArg List.length hc
    simp at h3 h4
    omega

theorem forLoopP_consumes (g : Nat) {l : List Char} {s : Stmt}
    {r : List Char} (h : forLoopP g l = .ok (s, r)) :
    r.length + 3 ≤ l.length := by
  cases g with
  | zero =>
    rw [show forLoopP 0 l = .error ⟨l.length, ["for_loop"]⟩ from rfl] at h
    exact absurd h (by simp)
  | succ m =>
    have hA : (pbind (plit ['f','o','r'] "for_loop") fun _ =>
        pbind wsSkip fun _ =>
        pbind identifierP fun v =>
        pbind wsSkip fun _ =>
        pbind (plit ['i','n'] "for_loop") fun _ =>
        pbind wsSkip fun _ =>
        pbind (palt splitExpressionP
          (pmapP (fun ab => Iter.range ab.1 ab.2) rangeExpressionP)) fun it =>
        pbind wsSkip fun _ =>
        pbind (plit ['\x7b'] "for_loop") fun _ =>
        pbind wsSkip fun _ =>
        pbind (stepBodyP m) fun body =>
        pbind wsSkip fun _ =>
        pmapP (fun _ => Stmt.forL v it body)
          (plit ['\x7d'] "for_loop")) l = .ok (s, r) := h
    obtain ⟨u1, r1, hFor, hK⟩ := pbind_ok.mp hA
    have hKwf : WfS (pbind wsSkip fun _ =>
        pbind identifierP fun v =>
        pbind wsSkip fun _ =>
        pbind (plit ['i','n'] "for_loop") fun _ =>
        pbind wsSkip fun _ =>
        pbind (palt splitExpressionP
          (pmapP (fun ab => Iter.range ab.1 ab.2) rangeExpressionP)) fun it =>
        pbind wsSkip fun _ =>
        pbind (plit ['\x7b'] "for_loop") fun _ =>
        pbind wsSkip fun _ =>
        pbind (stepBodyP m) fun body =>
        pbind wsSkip fun _ =>
        pmapP (fun _ => Stmt.forL v it body) (plit ['\x7d'] "for_loop")) :=
      wfS_pbind wfS_wsSkip (fun _ =>
        wfS_pbind wfS_identifierP (fun v =>
          wfS_pbind wfS_wsSkip (fun _ =>
            wfS_pbind (wfS_plit _ _) (fun _ =>
              wfS_pbind wfS_wsSkip (fun _ =>
                wfS_pbind (wfS_palt wfS_splitExpressionP
                    (wfS_pmapP _ wfS_rangeExpressionP)) (fun it =>
                  wfS_pbind wfS_wsSkip (fun _ =>
                    wfS_pbind (wfS_plit _ _) (fun _ =>
                      wfS_pbind wfS_wsSkip (fun _ =>
                        wfS_pbind (wf_stepFuel m).2.2.2.2.2.2.1 (fun body =>
                          wfS_pbind wfS_wsSkip (fun _ =>
                            wfS_pmapP _ (wfS_plit _ _))))))))))))
    obtain ⟨c, hc⟩ := hKwf _ _ _ hK
    have h3 := congrArg List.length (plit_ok.mp hFor)
    have h4 := congrArg List.length hc
    simp at h3 h4
    omega

theorem registerOperationP_consumes (g : Nat) {l : List Char}
    {v : String × RegRhs} {r : List Char}
    (h : registerOperationP g l = .ok (v, r)) : r.length < l.length := by
  have hA : (pbind registerP fun tgt =>
      pbind wsSkip fun _ =>
      pbind (plit ['='] "register_operation") fun _ =>
      pbind wsSkip fun _ =>
      pmapP (fun rhs => (tgt, rhs))
        (palt (pmapP (fun fa => RegRhs.call fa.1 fa.2) (externalFnCallP g))
          (pmapP RegRhs.val valueP))) l = .ok (v, r) := h
  refine pbind_consumes ?_ hA ?_
  · intro tgt
    exact wfS_pbind wfS_wsSkip (fun _ =>
      wfS_pbind (wfS_plit _ _) (fun _ =>
        wfS_pbind wfS_wsSkip (fun _ =>
          wfS_pmapP _ (wfS_palt
            (wfS_pmapP _ (wfS_externalFnCallP g))
            (wfS_pmapP _ wfS_valueP)))))
  · intro tgt r1 hreg
    have hB : (pbind (plit ['$'] "register") fun _ =>
        pbind wsSkip fun _ => identifierP) l = .ok (tgt, r1) := hreg
    refine pbind_consumes ?_ hB ?_
    · intro _
      exact wfS_pbind wfS_wsSkip (fun _ => wfS_identifierP)
    · intro u ra hD
      exact plit_consumes (by simp) hD

theorem actionP_consumes (g : Nat) {l : List Char} {v : ActionV}
    {r : List Char} (h : actionP g l = .ok (v, r)) : r.length < l.length := by
  have hA : palt
      (pmapP (fun fa => ActionV.external fa.1 fa.2) (externalFnCallP g))
      (pbind commandP fun name =>
        pbind wsSkip fun _ =>
        pbind (plit ['('] "action") fun _ =>
        pbind wsSkip fun _ =>
        pbind (argListP g) fun args =>
        pbind wsSkip fun _ =>
        pmapP (fun _ => ActionV.cmd name args)
          (plit [')'] "action")) l = .ok (v, r) := h
  rcases palt_ok.mp hA with h1 | ⟨-, h2⟩
  · obtain ⟨fa, hE, -⟩ := pmapP_ok.mp h1
    have hB : (pbind (plit ['c','a','l','l'] "external_fn_call") fun _ =>
        pbind wsSkip fun _ =>
        pbind identifierP fun fn =>
        pbind wsSkip fun _ =>
        pbind (plit ['('] "external_fn_call") fun _ =>
        pbind wsSkip fun _ =>
        pbind (argListP g) fun args =>
        pbind wsSkip fun _ =>
        pmapP (fun _ => (fn, args))
          (plit [')'] "external_fn_call")) l = .ok (fa, r) := hE
    refine pbind_consumes ?_ hB ?_
    · intro _
      exact wfS_pbind wfS_wsSkip (fun _ =>
        wfS_pbind wfS_identifierP (fun fn =>
          wfS_pbind wfS_wsSkip (fun _ =>
            wfS_pbind (wfS_plit _ _) (fun _ =>
              wfS_pbind wfS_wsSkip (fun _ =>
                wfS_pbind (wfS_argListP g) (fun args =>
                  wfS_pbind wfS_wsSkip (fun _ =>
                    wfS_pmapP _ (wfS_plit _ _))))))))
    · intro u ra hD
      exact plit_consumes (by simp) hD
  · refine pbind_consumes ?_ h2 ?_
    · intro name
      exact wfS_pbind wfS_wsSkip (fun _ =>
        wfS_pbind (wfS_plit _ _) (fun _ =>
          wfS_pbind wfS_wsSkip (fun _ =>
            wfS_pbind (wfS_argListP g) (fun args =>
              wfS_pbind wfS_wsSkip (fun _ =>
                wfS_pmapP _ (wfS_plit _ _))))))
    · intro name ra hD
      exact identifierP_consumes hD

theorem stepBodyItemP_consumes (g : Nat) {l : List Char} {s : Stmt}
    {r : List Char} (h : stepBodyItemP g l = .ok (s, r)) :
    r.length < l.length := by
  cases g with
  | zero =>
    rw [show stepBodyItemP 0 l = .error ⟨l.length, ["step_body"]⟩
      from rfl] at h
    exact absurd h (by simp)
  | succ m =>
    have hA : palt (conditionP m)
        (palt (pmapP (fun tr => Stmt.regOp tr.1 tr.2)
            (registerOperationP m))
          (palt (pmapP Stmt.act (actionP m))
            (forLoopP m))) l = .ok (s, r) := h
    rcases palt_ok.mp hA with h1 | ⟨-, h2⟩
    · have := conditionP_consumes m h1
      omega
    · rcases palt_ok.mp h2 with h3 | ⟨-, h4⟩
      · obtain ⟨tr, hR, -⟩ := pmapP_ok.mp h3
        exact registerOperationP_consumes m hR
      · rcases palt_ok.mp h4 with h5 | ⟨-, h6⟩
        · obtain ⟨av, hAct, -⟩ := pmapP_ok.mp h5
          exact actionP_consumes m hAct
        · have := forLoopP_consumes m h6
          omega

theorem stepP_consumes (f : Nat) {l : List Char} {s : Step} {r : List Char}
    (h : stepP f l = .ok (s, r)) : r.length + 4 ≤ l.length := by
  have hA : (pbind (plit ['s','t','e','p'] "step") fun _ =>
      pbind wsSkip fun _ =>
      pbind identifierP fun name =>
      pbind wsSkip fun _ =>
      pbind (plit ['\x7b'] "step") fun _ =>
      pbind wsSkip fun _ =>
      pbind (stepBodyP f) fun body =>
      pbind wsSkip fun _ =>
      pmapP (fun _ => Step.mk name body)
        (plit ['\x7d'] "step")) l = .ok (s, r) := h
  obtain ⟨u1, r1, hStep, hK⟩ := pbind_ok.mp hA
  have hKwf : WfS (pbind wsSkip fun _ =>
      pbind identifierP fun name =>
      pbind wsSkip fun _ =>
      pbind (plit ['\x7b'] "step") fun _ =>
      pbind wsSkip fun _ =>
      pbind (stepBodyP f) fun body =>
      pbind wsSkip fun _ =>
      pmapP (fun _ => Step.mk name body) (plit ['\x7d'] "step")) :=
    wfS_pbind wfS_wsSkip (fun _ =>
      wfS_pbind wfS_identifierP (fun name =>
        wfS_pbind wfS_wsSkip (fun _ =>
          wfS_pbind (wfS_plit _ _) (fun _ =>
            wfS_pbind wfS_wsSkip (fun _ =>
              wfS_pbind (wf_stepFuel f).2.2.2.2.2.2.1 (fun body =>
                wfS_pbind wfS_wsSkip (fun _ =>
                  wfS_pmapP _ (wfS_plit _ _))))))))
  obtain ⟨c, hc⟩ := hKwf _ _ _ hK
  have h3 := congrArg List.length (plit_ok.mp hStep)
  have h4 := congrArg List.length hc
  simp at h3 h4
  omega

/-! ### Success-side fuel stability of the mutual step-body rules -/

theorem stepOkStab : ∀ (k f1 f2 : Nat) (l : List Char), f1 + f2 ≤ k →
    ((l.length ≤ f1 → l.length ≤ f2 → ∀ s r,
        stepBodyItemP f1 l = .ok (s, r) → stepBodyItemP f2 l = .ok (s, r)) ∧
     (l.length ≤ f1 + 1 → l.length ≤ f2 + 1 → ∀ s r,
        conditionP f1 l = .ok (s, r) → conditionP f2 l = .ok (s, r)) ∧
     (l.length ≤ f1 + 1 → l.length ≤ f2 + 1 → ∀ s r,
        forLoopP f1 l = .ok (s, r) → forLoopP f2 l = .ok (s, r)) ∧
     (l.length < f1 → l.length < f2 → ∀ ss r,
        stepBodyP f1 l = .ok (ss, r) → stepBodyP f2 l = .ok (ss, r)) ∧
     (l.length < f1 → l.length < f2 →
        stepBodyLoopP f1 l = stepBodyLoopP f2 l)) := by
  intro k
  induction k with
  | zero =>
    intro f1 f2 l hsum
    have hf1 : f1 = 0 := by omega
    have hf2 : f2 = 0 := by omega
    subst hf1
    subst hf2
    refine ⟨?_, ?_, ?_, ?_, fun _ _ => rfl⟩
    · intro _ _ s r h
      rw [show stepBodyItemP 0 l = .error ⟨l.length, ["step_body"]⟩
        from rfl] at h
      exact absurd h (by simp)
    · intro _ _ s r h
      rw [show conditionP 0 l = .error ⟨l.length, ["condition"]⟩
        from rfl] at h
      exact absurd h (by simp)
    · intro _ _ s r h
      rw [show forLoopP 0 l = .error ⟨l.length, ["for_loop"]⟩
        from rfl] at h
      exact absurd h (by simp)
    · intro _ _ ss r h
      rw [show stepBodyP 0 l = .error ⟨l.length, ["step_body"]⟩
        from rfl] at h
      exact absurd h (by simp)
  | succ k ih =>
    intro f1 f2 l hsum
    refine ⟨?_, ?_, ?_, ?_, ?_⟩
    · -- step_body element
      intro h1 h2 s r hok
      cases f1 with
      | zero =>
        rw [show stepBodyItemP 0 l = .error ⟨l.length, ["step_body"]⟩
          from rfl] at hok
        exact absurd hok (by simp)
      | succ g1 =>
        cases f2 with
        | zero =>
          exfalso
          have hl0 : l = [] :=
            List.eq_nil_of_length_eq_zero (Nat.le_zero.mp h2)
          subst hl0
          have := stepBodyItemP_consumes (g1 + 1) hok
          simp at this
        | succ g2 =>
          have hA : palt (conditionP g1)
              (palt (pmapP (fun tr => Stmt.regOp tr.1 tr.2)
                  (registerOperationP g1))
                (palt (pmapP Stmt.act (actionP g1))
                  (forLoopP g1))) l = .ok (s, r) := hok
          have hregEq : pmapP (fun tr => Stmt.regOp tr.1 tr.2)
                (registerOperationP g1) l =
              pmapP (fun tr => Stmt.regOp tr.1 tr.2)
                (registerOperationP g2) l :=
            pmapP_congr _ l
              (registerOperationP_stab g1 g2 l (by omega) (by omega))
          have hactEq : pmapP Stmt.act (actionP g1) l =
              pmapP Stmt.act (actionP g2) l :=
            pmapP_congr _ l (actionP_stab g1 g2 l (by omega) (by omega))
          show palt (conditionP g2)
              (palt (pmapP (fun tr => Stmt.regOp tr.1 tr.2)
                  (registerOperationP g2))
                (palt (pmapP Stmt.act (actionP g2))
                  (forLoopP g2))) l = .ok (s, r)
          rcases palt_ok.mp hA with hc1 | ⟨⟨e1, he1⟩, hA2⟩
          · exact palt_ok.mpr (.inl
              ((ih g1 g2 l (by omega)).2.1 (by omega) (by omega) s r hc1))
          · have hcond2 : ∃ e, conditionP g2 l = .error e := by
              cases hc2 : conditionP g2 l with
              | error e2 => exact ⟨e2, rfl⟩
              | ok vr =>
                exfalso
                obtain ⟨v0, r0⟩ := vr
                have := (ih g2 g1 l (by omega)).2.1 (by omega) (by omega)
                  v0 r0 hc2
                rw [he1] at this
                exact absurd this (by simp)
            obtain ⟨e1b, he1b⟩ := hcond2
            rcases palt_ok.mp hA2 with hb1 | ⟨⟨e2, he2⟩, hA3⟩
            · rw [hregEq] at hb1
              exact palt_ok.mpr (.inr ⟨⟨e1b, he1b⟩, palt_ok.mpr (.inl hb1)⟩)
            · have he2b : pmapP (fun tr => Stmt.regOp tr.1 tr.2)
                  (registerOperationP g2) l = .error e2 := by
                rw [← hregEq]
                exact he2
              rcases palt_ok.mp hA3 with hd1 | ⟨⟨e3, he3⟩, hf1⟩
              · rw [hactEq] at hd1
                exact palt_ok.mpr (.inr ⟨⟨e1b, he1b⟩, palt_ok.mpr
                  (.inr ⟨⟨e2, he2b⟩, palt_ok.mpr (.inl hd1)⟩)⟩)
              · have he3b : pmapP Stmt.act (actionP g2) l = .error e3 := by
                  rw [← hactEq]
                  exact he3
                have hfor2 := (ih g1 g2 l (by omega)).2.2.1 (by omega)
                  (by omega) s r hf1
                exact palt_ok.mpr (.inr ⟨⟨e1b, he1b⟩, palt_ok.mpr
                  (.inr ⟨⟨e2, he2b⟩, palt_ok.mpr
                    (.inr ⟨⟨e3, he3b⟩, hfor2⟩)⟩)⟩)
    · -- condition
      intro h1 h2 s r hok
      cases f1 with
      | zero =>
        rw [show conditionP 0 l = .error ⟨l.length, ["condition"]⟩
          from rfl] at hok
        exact absurd hok (by simp)
      | succ g1 =>
        have hA : (pbind (plit ['i','f'] "condition") fun _ =>
            pbind wsSkip fun _ =>
            pbind expressionP fun g0 =>
            pbind wsSkip fun _ =>
            pbind (plit ['\x7b'] "condition") fun _ =>
            pbind wsSkip fun _ =>
            pbind (stepBodyP g1) fun body =>
            pbind wsSkip fun _ =>
            pmapP (fun _ => Stmt.cond g0 body)
              (plit ['\x7d'] "condition")) l = .ok (s, r) := hok
        obtain ⟨u1, r1, hIf, hK1⟩ := pbind_ok.mp hA
        rw [ws_bind_eq] at hK1
        obtain ⟨g0, r2, hExpr, hK2⟩ := pbind_ok.mp hK1
        rw [ws_bind_eq] at hK2
        obtain ⟨u2, r3, hBr, hK3⟩ := pbind_ok.mp hK2
        rw [ws_bind_eq] at hK3
        obtain ⟨body, r4, hBody, hK4⟩ := pbind_ok.mp hK3
        have hlIf := congrArg List.length (plit_ok.mp hIf)
        obtain ⟨c2, hc2⟩ := wfS_expressionP _ _ _ hExpr
        have hlE := congrArg List.length hc2
        have hlBr := congrArg List.length (plit_ok.mp hBr)
        simp at hlIf hlE hlBr
        have hd1 : (r1.dropWhile isWsChar).length ≤ r1.length :=
          (List.dropWhile_suffix _).length_le
        have hd2 : (r2.dropWhile isWsChar).length ≤ r2.length :=
          (List.dropWhile_suffix _).length_le
        have hd3 : (r3.dropWhile isWsChar).length ≤ r3.length :=
          (List.dropWhile_suffix _).length_le
        cases f2 with
        | zero => omega
        | succ g2 =>
          have hBody2 : stepBodyP g2 (r3.dropWhile isWsChar) =
              .ok (body, r4) :=
            (ih g1 g2 _ (by omega)).2.2.2.1 (by omega) (by omega)
              body r4 hBody
          show (pbind (plit ['i','f'] "condition") fun _ =>
            pbind wsSkip fun _ =>
            pbind expressionP fun g0 =>
            pbind wsSkip fun _ =>
            pbind (plit ['\x7b'] "condition") fun _ =>
            pbind wsSkip fun _ =>
            pbind (stepBodyP g2) fun body =>
            pbind wsSkip fun _ =>
            pmapP (fun _ => Stmt.cond g0 body)
              (plit ['\x7d'] "condition")) l = .ok (s, r)
          apply pbind_ok.mpr
          refine ⟨u1, r1, hIf, ?_⟩
          rw [ws_bind_eq]
          apply pbind_ok.mpr
          refine ⟨g0, r2, hExpr, ?_⟩
          rw [ws_bind_eq]
          apply pbind_ok.mpr
          refine ⟨u2, r3, hBr, ?_⟩
          rw [ws_bind_eq]
          exact pbind_ok.mpr ⟨body, r4, hBody2, hK4⟩
    · -- for_loop
      intro h1 h2 s r hok
      cases f1 with
      | zero =>
        rw [show forLoopP 0 l = .error ⟨l.length, ["for_loop"]⟩
          from rfl] at hok
        exact absurd hok (by simp)
      | succ g1 =>
        have hA : (pbind (plit ['f','o','r'] "for_loop") fun _ =>
            pbind wsSkip fun _ =>
            pbind identifierP fun v =>
            pbind wsSkip fun _ =>
            pbind (plit ['i','n'] "for_loop") fun _ =>
            pbind wsSkip fun _ =>
            pbind (palt splitExpressionP
              (pmapP (fun ab => Iter.range ab.1 ab.2)
                rangeExpressionP)) fun it =>
            pbind wsSkip fun _ =>
            pbind (plit ['\x7b'] "for_loop") fun _ =>
            pbind wsSkip fun _ =>
            pbind (stepBodyP g1) fun body =>
            pbind wsSkip fun _ =>
            pmapP (fun _ => Stmt.forL v it body)
              (plit ['\x7d'] "for_loop")) l = .ok (s, r) := hok
        obtain ⟨u1, r1, hFor, hK1⟩ := pbind_ok.mp hA
        rw [ws_bind_eq] at hK1
        obtain ⟨v, r2, hId, hK2⟩ := pbind_ok.mp hK1
        rw [ws_bind_eq] at hK2
        obtain ⟨u2, r3, hIn, hK3⟩ := pbind_ok.mp hK2
        rw [ws_bind_eq] at hK3
        obtain ⟨it, r4, hIt, hK4⟩ := pbind_ok.mp hK3
        rw [ws_bind_eq] at hK4
        obtain ⟨u3, r5, hBr, hK5⟩ := pbind_ok.mp hK4
        rw [ws_bind_eq] at hK5
        obtain ⟨body, r6, hBody, hK6⟩ := pbind_ok.mp hK5
        have hlFor := congrArg List.length (plit_ok.mp hFor)
        obtain ⟨cA, hcA⟩ := wfS_identifierP _ _ _ hId
        have hlId := congrArg List.length hcA
        have hlIn := congrArg List.length (plit_ok.mp hIn)
        obtain ⟨cB, hcB⟩ := wfS_palt wfS_splitExpressionP
          (wfS_pmapP _ wfS_rangeExpressionP) _ _ _ hIt
        have hlIt := congrArg List.length hcB
        have hlBr := congrArg List.length (plit_ok.mp hBr)
        simp at hlFor hlId hlIn hlIt hlBr
        have hd1 : (r1.dropWhile isWsChar).length ≤ r1.length :=
          (List.dropWhile_suffix _).length_le
        have hd2 : (r2.dropWhile isWsChar).length ≤ r2.length :=
          (List.dropWhile_suffix _).length_le
        have hd3 : (r3.dropWhile isWsChar).length ≤ r3.length :=
          (List.dropWhile_suffix _).length_le
        have hd4 : (r4.dropWhile isWsChar).length ≤ r4.length :=
          (List.dropWhile_suffix _).length_le
        have hd5 : (r5.dropWhile isWsChar).length ≤ r5.length :=
          (List.dropWhile_suffix _).length_le
        cases f2 with
        | zero => omega
        | succ g2 =>
          have hBody2 : stepBodyP g2 (r5.dropWhile isWsChar) =
              .ok (body, r6) :=
            (ih g1 g2 _ (by omega)).2.2.2.1 (by omega) (by omega)
              body r6 hBody
          show (pbind (plit ['f','o','r'] "for_loop") fun _ =>
            pbind wsSkip fun _ =>
            pbind identifierP fun v =>
            pbind wsSkip fun _ =>
            pbind (plit ['i','n'] "for_loop") fun _ =>
            pbind wsSkip fun _ =>
            pbind (palt splitExpressionP
              (pmapP (fun ab => Iter.range ab.1 ab.2)
                rangeExpressionP)) fun it =>
            pbind wsSkip fun _ =>
            pbind (plit ['\x7b'] "for_loop") fun _ =>
            pbind wsSkip fun _ =>
            pbind (stepBodyP g2) fun body =>
            pbind wsSkip fun _ =>
            pmapP (fun _ => Stmt.forL v it body)
              (plit ['\x7d'] "for_loop")) l = .ok (s, r)
          apply pbind_ok.mpr
          refine ⟨u1, r1, hFor, ?_⟩
          rw [ws_bind_eq]
          apply pbind_ok.mpr
          refine ⟨v, r2, hId, ?_⟩
          rw [ws_bind_eq]
          apply pbind_ok.mpr
          refine ⟨u2, r3, hIn, ?_⟩
          rw [ws_bind_eq]
          apply pbind_ok.mpr
          refine ⟨it, r4, hIt, ?_⟩
          rw [ws_bind_eq]
          apply pbind_ok.mpr
          refine ⟨u3, r5, hBr, ?_⟩
          rw [ws_bind_eq]
          exact pbind_ok.mpr ⟨body, r6, hBody2, hK6⟩
    · -- step_body
      intro h1 h2 ss r hok
      obtain ⟨g1, rfl⟩ : ∃ g, f1 = g + 1 := ⟨f1 - 1, by omega⟩
      obtain ⟨g2, rfl⟩ : ∃ g, f2 = g + 1 := ⟨f2 - 1, by omega⟩
      have hred1 : stepBodyP (g1 + 1) l =
          (match stepBodyItemP g1 l with
            | .error e => .error e
            | .ok (s0, r0) =>
              let q := stepBodyLoopP g1 r0
              .ok (s0 :: q.1, q.2)) := rfl
      rw [hred1] at hok
      cases hi : stepBodyItemP g1 l with
      | error e =>
        rw [hi] at hok
        exact absurd hok (by simp)
      | ok sr =>
        obtain ⟨s0, r0⟩ := sr
        rw [hi] at hok
        dsimp only at hok
        have hcons := stepBodyItemP_consumes g1 hi
        have hi2 : stepBodyItemP g2 l = .ok (s0, r0) :=
          (ih g1 g2 l (by omega)).1 (by omega) (by omega) s0 r0 hi
        have hloop : stepBodyLoopP g1 r0 = stepBodyLoopP g2 r0 :=
          (ih g1 g2 r0 (by omega)).2.2.2.2 (by omega) (by omega)
        have hred2 : stepBodyP (g2 + 1) l =
            (match stepBodyItemP g2 l with
              | .error e => .error e
              | .ok (s0, r0) =>
                let q := stepBodyLoopP g2 r0
                .ok (s0 :: q.1, q.2)) := rfl
        rw [hred2, hi2]
        dsimp only
        rw [← hloop]
        exact hok
    · -- step_body loop
      intro h1 h2
      obtain ⟨g1, rfl⟩ : ∃ g, f1 = g + 1 := ⟨f1 - 1, by omega⟩
      obtain ⟨g2, rfl⟩ : ∃ g, f2 = g + 1 := ⟨f2 - 1, by omega⟩
      have hred1 : stepBodyLoopP (g1 + 1) l =
          (match stepBodyItemP g1 (l.dropWhile isWsChar) with
            | .error _ => ([], l)
            | .ok (s0, r0) =>
              let q := stepBodyLoopP g1 r0
              (s0 :: q.1, q.2)) := rfl
      have hred2 : stepBodyLoopP (g2 + 1) l =
          (match stepBodyItemP g2 (l.dropWhile isWsChar) with
            | .error _ => ([], l)
            | .ok (s0, r0) =>
              let q := stepBodyLoopP g2 r0
              (s0 :: q.1, q.2)) := rfl
      have hdl : (l.dropWhile isWsChar).length ≤ l.length :=
        (List.dropWhile_suffix _).length_le
      cases hi : stepBodyItemP g1 (l.dropWhile isWsChar) with
      | error e =>
        cases hi2 : stepBodyItemP g2 (l.dropWhile isWsChar) with
        | error e2 => rw [hred1, hred2, hi, hi2]
        | ok sr =>
          exfalso
          obtain ⟨s0, r0⟩ := sr
          have := (ih g2 g1 _ (by omega)).1 (by omega) (by omega) s0 r0 hi2
          rw [hi] at this
          exact absurd this (by simp)
      | ok sr =>
        obtain ⟨s0, r0⟩ := sr
        have hcons := stepBodyItemP_consumes g1 hi
        have hi2 : stepBodyItemP g2 (l.dropWhile isWsChar) = .ok (s0, r0) :=
          (ih g1 g2 _ (by omega)).1 (by omega) (by omega) s0 r0 hi
        have hloop : stepBodyLoopP g1 r0 = stepBodyLoopP g2 r0 :=
          (ih g1 g2 r0 (by omega)).2.2.2.2 (by omega) (by omega)
        rw [hred1, hred2, hi, hi2]
        dsimp only
        rw [hloop]

/-! ### Success-side fuel stability of step, the step loop, and workflow -/

theorem stepP_stab (f1 f2 : Nat) (l : List Char)
    (h1 : l.length ≤ f1 + 1) (h2 : l.length ≤ f2 + 1) :
    ∀ s r, stepP f1 l = .ok (s, r) → stepP f2 l = .ok (s, r) := by
  intro s r hok
  have hA : (pbind (plit ['s','t','e','p'] "step") fun _ =>
      pbind wsSkip fun _ =>
      pbind identifierP fun name =>
      pbind wsSkip fun _ =>
      pbind (plit ['\x7b'] "step") fun _ =>
      pbind wsSkip fun _ =>
      pbind (stepBodyP f1) fun body =>
      pbind wsSkip fun _ =>
      pmapP (fun _ => Step.mk name body)
        (plit ['\x7d'] "step")) l = .ok (s, r) := hok
  obtain ⟨u1, r1, hStep, hK1⟩ := pbind_ok.mp hA
  rw [ws_bind_eq] at hK1
  obtain ⟨name, r2, hId, hK2⟩ := pbind_ok.mp hK1
  rw [ws_bind_eq] at hK2
  obtain ⟨u2, r3, hBr, hK3⟩ := pbind_ok.mp hK2
  rw [ws_bind_eq] at hK3
  obtain ⟨body, r4, hBody, hK4⟩ := pbind_ok.mp hK3
  have hlStep := congrArg List.length (plit_ok.mp hStep)
  obtain ⟨cA, hcA⟩ := wfS_identifierP _ _ _ hId
  have hlId := congrArg List.length hcA
  have hlBr := congrArg List.length (plit_ok.mp hBr)
  simp at hlStep hlId hlBr
  have hd1 : (r1.dropWhile isWsChar).length ≤ r1.length :=
    (List.dropWhile_suffix _).length_le
  have hd2 : (r2.dropWhile isWsChar).length ≤ r2.length :=
    (List.dropWhile_suffix _).length_le
  have hd3 : (r3.dropWhile isWsChar).length ≤ r3.length :=
    (List.dropWhile_suffix _).length_le
  have hBody2 : stepBodyP f2 (r3.dropWhile isWsChar) = .ok (body, r4) :=
    (stepOkStab (f1 + f2) f1 f2 _ le_rfl).2.2.2.1 (by omega) (by omega)
      body r4 hBody
  show (pbind (plit ['s','t','e','p'] "step") fun _ =>
      pbind wsSkip fun _ =>
      pbind identifierP fun name =>
      pbind wsSkip fun _ =>
      pbind (plit ['\x7b'] "step") fun _ =>
      pbind wsSkip fun _ =>
      pbind (stepBodyP f2) fun body =>
      pbind wsSkip fun _ =>
      pmapP (fun _ => Step.mk name body)
        (plit ['\x7d'] "step")) l = .ok (s, r)
  apply pbind_ok.mpr
  refine ⟨u1, r1, hStep, ?_⟩
  rw [ws_bind_eq]
  apply pbind_ok.mpr
  refine ⟨name, r2, hId, ?_⟩
  rw [ws_bind_eq]
  apply pbind_ok.mpr
  refine ⟨u2, r3, hBr, ?_⟩
  rw [ws_bind_eq]
  exact pbind_ok.mpr ⟨body, r4, hBody2, hK4⟩

theorem stepsLoopP_stab : ∀ (f1 f2 : Nat) (l : List Char),
    l.length < f1 → l.length < f2 → stepsLoopP f1 l = stepsLoopP f2 l := by
  intro f1
  induction f1 with
  | zero =>
    intro f2 l h1 h2
    omega
  | succ g1 ih =>
    intro f2 l h1 h2
    cases f2 with
    | zero => omega
    | succ g2 =>
      have hred1 : stepsLoopP (g1 + 1) l =
          (match stepP g1 (l.dropWhile isWsChar) with
            | .error _ => ([], l)
            | .ok (s0, r0) =>
              let q := stepsLoopP g1 r0
              (s0 :: q.1, q.2)) := rfl
      have hred2 : stepsLoopP (g2 + 1) l =
          (match stepP g2 (l.dropWhile isWsChar) with
            | .error _ => ([], l)
            | .ok (s0, r0) =>
              let q := stepsLoopP g2 r0
              (s0 :: q.1, q.2)) := rfl
      have hdl : (l.dropWhile isWsChar).length ≤ l.length :=
        (List.dropWhile_suffix _).length_le
      cases hi : stepP g1 (l.dropWhile isWsChar) with
      | error e =>
        cases hi2 : stepP g2 (l.dropWhile isWsChar) with
        | error e2 => rw [hred1, hred2, hi, hi2]
        | ok sr =>
          exfalso
          obtain ⟨s0, r0⟩ := sr
          have := stepP_stab g2 g1 _ (by omega) (by omega) s0 r0 hi2
          rw [hi] at this
          exact absurd this (by simp)
      | ok sr =>
        obtain ⟨s0, r0⟩ := sr
        have hcons := stepP_consumes g1 hi
        have hi2 : stepP g2 (l.dropWhile isWsChar) = .ok (s0, r0) :=
          stepP_stab g1 g2 _ (by omega) (by omega) s0 r0 hi
        have hloop : stepsLoopP g1 r0 = stepsLoopP g2 r0 :=
          ih g2 r0 (by omega) (by omega)
        rw [hred1, hred2, hi, hi2]
        dsimp only
        rw [hloop]

set_option maxHeartbeats 1000000 in
theorem workflowP_stab (f1 f2 : Nat) (l : List Char)
    (h1 : l.length ≤ f1 + 1) (h2 : l.length ≤ f2 + 1) :
    ∀ w r, workflowP f1 l = .ok (w, r) → workflowP f2 l = .ok (w, r) := by
  intro w r hok
  have hA : (pbind (plit ['w','o','r','k','f','l','o','w'] "workflow")
      fun _ =>
      pbind wsSkip fun _ =>
      pbind identifierP fun name =>
      pbind wsSkip fun _ =>
      pbind versionP fun ver =>
      pbind wsSkip fun _ =>
      pbind (plit ['\x7b'] "workflow") fun _ =>
      pbind wsSkip fun _ =>
      pbind (stepP f1) fun s1 =>
      pbind (fun l2 =>
        let q := stepsLoopP f1 l2
        .ok (q.1, q.2)) fun ss =>
      pbind wsSkip fun _ =>
      pbind (plit ['\x7d'] "workflow") fun _ =>
      pbind wsSkip fun _ =>
      pbind (popt authorTagP) fun author =>
      pbind wsSkip fun _ =>
      pmapP (fun st => Workflow.mk name ver (s1 :: ss) author st.isSome)
        (popt stickyTagP)) l = .ok (w, r) := hok
  obtain ⟨u1, r1, hKw, hK1⟩ := pbind_ok.mp hA
  rw [ws_bind_eq] at hK1
  obtain ⟨name, r2, hId, hK2⟩ := pbind_ok.mp hK1
  rw [ws_bind_eq] at hK2
  obtain ⟨ver, r3, hVer, hK3⟩ := pbind_ok.mp hK2
  rw [ws_bind_eq] at hK3
  obtain ⟨u2, r4, hBr, hK4⟩ := pbind_ok.mp hK3
  rw [ws_bind_eq] at hK4
  obtain ⟨s1, r5, hS1, hK5⟩ := pbind_ok.mp hK4
  obtain ⟨ss, r6, hSs, hK6⟩ := pbind_ok.mp hK5
  have hlKw := congrArg List.length (plit_ok.mp hKw)
  obtain ⟨cA, hcA⟩ := wfS_identifierP _ _ _ hId
  have hlId := congrArg List.length hcA
  obtain ⟨cB, hcB⟩ := wfS_versionP _ _ _ hVer
  have hlVer := congrArg List.length hcB
  have hlBr := congrArg List.length (plit_ok.mp hBr)
  simp at hlKw hlId hlVer hlBr
  have hd1 : (r1.dropWhile isWsChar).length ≤ r1.length :=
    (List.dropWhile_suffix _).length_le
  have hd2 : (r2.dropWhile isWsChar).length ≤ r2.length :=
    (List.dropWhile_suffix _).length_le
  have hd3 : (r3.dropWhile isWsChar).length ≤ r3.length :=
    (List.dropWhile_suffix _).length_le
  have hd4 : (r4.dropWhile isWsChar).length ≤ r4.length :=
    (List.dropWhile_suffix _).length_le
  have hconsS1 := stepP_consumes f1 hS1
  have hS1b : stepP f2 (r4.dropWhile isWsChar) = .ok (s1, r5) :=
    stepP_stab f1 f2 _ (by omega) (by omega) s1 r5 hS1
  dsimp only at hSs
  injection hSs with hSs
  injection hSs with hss1 hss2
  have hloop : stepsLoopP f1 r5 = stepsLoopP f2 r5 :=
    stepsLoopP_stab f1 f2 r5 (by omega) (by omega)
  show (pbind (plit ['w','o','r','k','f','l','o','w'] "workflow")
      fun _ =>
      pbind wsSkip fun _ =>
      pbind identifierP fun name =>
      pbind wsSkip fun _ =>
      pbind versionP fun ver =>
      pbind wsSkip fun _ =>
      pbind (plit ['\x7b'] "workflow") fun _ =>
      pbind wsSkip fun _ =>
      pbind (stepP f2) fun s1 =>
      pbind (fun l2 =>
        let q := stepsLoopP f2 l2
        .ok (q.1, q.2)) fun ss =>
      pbind wsSkip fun _ =>
      pbind (plit ['\x7d'] "workflow") fun _ =>
      pbind wsSkip fun _ =>
      pbind (popt authorTagP) fun author =>
      pbind wsSkip fun _ =>
      pmapP (fun st => Workflow.mk name ver (s1 :: ss) author st.isSome)
        (popt stickyTagP)) l = .ok (w, r)
  apply pbind_ok.mpr
  refine ⟨u1, r1, hKw, ?_⟩
  rw [ws_bind_eq]
  apply pbind_ok.mpr
  refine ⟨name, r2, hId, ?_⟩
  rw [ws_bind_eq]
  apply pbind_ok.mpr
  refine ⟨ver, r3, hVer, ?_⟩
  rw [ws_bind_eq]
  apply pbind_ok.mpr
  refine ⟨u2, r4, hBr, ?_⟩
  rw [ws_bind_eq]
  apply pbind_ok.mpr
  refine ⟨s1, r5, hS1b, ?_⟩
  apply pbind_ok.mpr
  refine ⟨ss, r6, ?_, hK6⟩
  dsimp only
  rw [← hloop, hss1, hss2]

/-! ### C7: whitespace insignificance of `parse` -/

theorem segsWf_flat_nil {S : List Seg} (hwf : segsWf .norm S = true)
    (h : flatSegs S = []) : S = [] := by
  cases S with
  | nil => rfl
  | cons s S2 =>
    exfalso
    cases s with
    | gapS g =>
      obtain ⟨hne, -, -, -⟩ := segsWf_gap hwf
      rw [flat_gap] at h
      obtain ⟨h1, -⟩ := List.append_eq_nil.mp h
      exact hne h1
    | tokS w =>
      obtain ⟨hntw, -⟩ := segsWf_tok_norm hwf
      cases w with
      | nil =>
        rw [normTokWf_nil] at hntw
        exact absurd hntw (by simp)
      | cons c t =>
        rw [flat_tok] at h
        exact absurd h (by simp)

/-- C7: whitespace is insignificant between tokens.  A source text accepted
by `parse` is cut into its grammar tokens and whitespace gaps by a
decomposition `S` (`segsWf`); replacing any gap by another nonempty run of
space, tab, newline or carriage-return characters, or inserting such runs
between adjacent tokens (`segExt`), yields a text that `parse` also accepts,
with a structurally equal `Workflow`. -/
theorem claim_C7_whitespace_insensitivity (s t : String) (w : Workflow)
    (S T : List Seg) (hwf : segsWf .norm S = true)
    (hS : flatSegs S = s.data) (hext : segExt S T = true)
    (hT : flatSegs T = t.data) (hok : parse s = .ok w) :
    parse t = .ok w := by
  obtain ⟨r, hw, hrest⟩ := parse_ok_workflowP s w hok
  have hin_s : s.data.dropWhile isWsChar = flatSegs (dropGaps S) := by
    rw [← hS]
    exact flat_dropWhile hwf
  rw [hin_s] at hw
  obtain ⟨hextD, hTdrop, hhSD, hhTD, hwfD⟩ := segExt_dropGaps hwf hext
  have hds : (s.data.dropWhile isWsChar).length ≤ s.data.length :=
    (List.dropWhile_suffix _).length_le
  rw [hin_s] at hds
  have hwB : workflowP (s.data.length + t.data.length + 1)
      (flatSegs (dropGaps S)) = .ok (w, r) :=
    workflowP_stab (s.data.length + 1) (s.data.length + t.data.length + 1)
      _ (by omega) (by omega) w r hw
  obtain ⟨hWS, -⟩ := segA_workflowP (s.data.length + t.data.length + 1)
    [] (dropGaps S) (dropGaps T) ⟨hwfD, rfl, fun h0 => absurd rfl h0⟩
    hextD (fun _ => ⟨hhSD, hhTD⟩)
  obtain ⟨y2, S2, T2, hr, hwT, hext2, hpos2⟩ := hWS w r hwB
  rw [List.nil_append] at hwT
  subst hr
  obtain ⟨hwf2, hy2all, -⟩ := hpos2
  have hy2 : y2 = [] := by
    cases y2 with
    | nil => rfl
    | cons c y0 =>
      exfalso
      have hci : isIdentChar c = true := by
        rw [List.all_cons, Bool.and_eq_true] at hy2all
        exact hy2all.1
      have hcw : isWsChar c = false := identChar_not_ws2 _ hci
      rw [show ((c :: y0) ++ flatSegs S2 : List Char) =
        c :: (y0 ++ flatSegs S2) from rfl, List.dropWhile_cons, hcw] at hrest
      simp at hrest
  subst hy2
  rw [List.nil_append] at hrest hwT
  have hS2nil : flatSegs (dropGaps S2) = [] := by
    rw [← flat_dropWhile hwf2]
    exact hrest
  obtain ⟨hextD2, hTdrop2, hhSD2, hhTD2, hwfD2⟩ := segExt_dropGaps hwf2 hext2
  have hdg : dropGaps S2 = [] := segsWf_flat_nil hwfD2 hS2nil
  rw [hdg] at hextD2
  have hT2 : (flatSegs T2).dropWhile isWsChar = [] := by
    rcases segExt_nil hextD2 with hT2nil | ⟨g, hTg, -, -⟩
    · rw [hTdrop2, hT2nil]
      rfl
    · rw [hTg, show headTok [Seg.gapS g] = false from rfl] at hhTD2
      exact absurd hhTD2 (by simp)
  have hdt : (flatSegs (dropGaps T)).length ≤ t.data.length := by
    have hh := (List.dropWhile_suffix (p := isWsChar)
      (l := flatSegs T)).length_le
    rw [hTdrop, hT] at hh
    exact hh
  have hwT2 : workflowP (t.data.length + 1) (flatSegs (dropGaps T)) =
      .ok (w, flatSegs T2) :=
    workflowP_stab (s.data.length + t.data.length + 1) (t.data.length + 1)
      _ (by omega) (by omega) w _ hwT
  have hin_t : t.data.dropWhile isWsChar = flatSegs (dropGaps T) := by
    rw [← hT]
    exact hTdrop
  unfold parse
  rw [hin_t, hwT2]
  dsimp only
  rw [hT2]

/-- Closed instance for C7: the concrete accepted source
`workflow a v1{step s{c()}}`, decomposed into its tokens and gaps, with the
two gaps replaced by other whitespace runs and four new whitespace runs
inserted between tokens, still parses to the same workflow. -/
theorem claim_C7_witness :
    parse "workflow  a\nv1 \x7b\tstep s\x7bc () \x7d\x7d" =
      .ok ⟨"a", "v1", [⟨"s", [Stmt.act (ActionV.cmd "c" [])]⟩],
        none, false⟩ :=
  claim_C7_whitespace_insensitivity
    "workflow a v1\x7bstep s\x7bc()\x7d\x7d"
    "workflow  a\nv1 \x7b\tstep s\x7bc () \x7d\x7d"
    ⟨"a", "v1", [⟨"s", [Stmt.act (ActionV.cmd "c" [])]⟩], none, false⟩
    [Seg.tokS ['w','o','r','k','f','l','o','w'], Seg.gapS [' '],
     Seg.tokS ['a'], Seg.gapS [' '], Seg.tokS ['v','1'],
     Seg.tokS ['\x7b'], Seg.tokS ['s','t','e','p'], Seg.gapS [' '],
     Seg.tokS ['s'], Seg.tokS ['\x7b'], Seg.tokS ['c'], Seg.tokS ['('],
     Seg.tokS [')'], Seg.tokS ['\x7d'], Seg.tokS ['\x7d']]
    [Seg.tokS ['w','o','r','k','f','l','o','w'], Seg.gapS [' ',' '],
     Seg.tokS ['a'], Seg.gapS ['\n'], Seg.tokS ['v','1'], Seg.gapS [' '],
     Seg.tokS ['\x7b'], Seg.gapS ['\t'], Seg.tokS ['s','t','e','p'],
     Seg.gapS [' '], Seg.tokS ['s'], Seg.tokS ['\x7b'], Seg.tokS ['c'],
     Seg.gapS [' '], Seg.tokS ['('], Seg.tokS [')'], Seg.gapS [' '],
     Seg.tokS ['\x7d'], Seg.tokS ['\x7d']]
    (by decide) (by decide) (by decide) (by decide) rfl

end ShinkaiDsl
